import Mathlib

/-! # LigmaLang: lexer, Pratt parser, scope chain and code generator

A shallow embedding of `src/include/{Token,Lexer,Ast,Parser,Environment,Compiler}.hpp`.

Conventions of the embedding

* A C++ `std::string` is a `List Char`; every `Char` stands for one C++ `char`.
  `isalpha`, `isdigit`, `isalnum` are those of the "C" locale.
* A pointer that may be null is an `Option`.
* Loops and recursion take a `fuel` argument; running out of fuel is the
  outcome `Abort.out_of_fuel`.  A call that is `out_of_fuel` for every fuel
  never returns.
* `int` positions and line numbers are `Nat`: they only grow from `0`/`1`, and
  a source of `2^31` characters is outside the model.
* A `float` is a `FloatValue`, the exact binary value.  `std::stoi` and
  `std::stof` are modelled with their exceptions; `std::stof` rounds to the
  nearest `float` and throws `std::out_of_range` when `strtof` reports `ERANGE`.
-/

namespace LigmaLang

/-- Ways in which a call does not return normally. -/
inductive Abort where
  /-- The fuel of the model ran out. -/
  | out_of_fuel
  /-- `std::out_of_range` thrown by `std::stoi` / `std::stof` and never caught. -/
  | out_of_range
  /-- A null pointer is dereferenced. -/
  | null_deref
  /-- A `static_cast` to a class the object does not have, followed by a member access. -/
  | bad_cast
  /-- `std::invalid_argument` thrown by `std::stoi` / `std::stof` and never caught. -/
  | invalid_argument
  deriving DecidableEq, Repr

deriving instance DecidableEq for Except

/-! ## Token.hpp -/

/-- The enumeration `TokenType`. -/
inductive TokenType where
  | EOF_ | ILLEGAL
  | IDENT | INT | FLOAT
  | PLUS | MINUS | ASTERISK | SLASH | POW | MODULUS
  | EQ
  | LT | GT | EQ_EQ | NOT_EQ | LT_EQ | GT_EQ
  | COLON | SEMICOLON | COMMA | LPAREN | RPAREN | ARROW | LBRACE | RBRACE
  | LET | DEF | RETURN | IF | DO | ELSE | TRUE | FALSE
  | TYPE
  deriving DecidableEq, Repr

open TokenType

/-- The table `token_type_map`. -/
def token_type_map : TokenType → String
  | EOF_ => "EOF" | ILLEGAL => "ILLEGAL"
  | IDENT => "IDENT" | INT => "INT" | FLOAT => "FLOAT"
  | PLUS => "PLUS" | MINUS => "MINUS" | ASTERISK => "ASTERISK" | SLASH => "SLASH"
  | POW => "POW" | MODULUS => "MODULUS"
  | EQ => "EQ"
  | .LT => "<" | .GT => ">" | EQ_EQ => "==" | NOT_EQ => "!=" | LT_EQ => "<=" | GT_EQ => ">="
  | COLON => "COLON" | SEMICOLON => "SEMICOLON" | COMMA => "COMMA"
  | LPAREN => "LPAREN" | RPAREN => "RPAREN" | ARROW => "ARROW"
  | LBRACE => "LBRACE" | RBRACE => "RBRACE"
  | LET => "LET" | DEF => "DEF" | RETURN => "RETURN" | IF => "IF" | DO => "DO"
  | ELSE => "ELSE" | TRUE => "TRUE" | FALSE => "FALSE"
  | TYPE => "TYPE"

/-- The table `KEYWORDS`. -/
def KEYWORDS : List (List Char × TokenType) :=
  [ ("let".toList, LET), ("def".toList, DEF), ("return".toList, RETURN),
    ("if".toList, IF), ("do".toList, DO), ("else".toList, ELSE),
    ("true".toList, TRUE), ("false".toList, FALSE) ]

/-- The table `TYPE_KEYWORDS`. -/
def TYPE_KEYWORDS : List (List Char) :=
  [ "int".toList, "float".toList, "bool".toList ]

/-- The function `lookup_ident`: keyword table first, then the type names. -/
def lookup_ident (ident : List Char) : TokenType :=
  match KEYWORDS.lookup ident with
  | some t => t
  | none => if ident ∈ TYPE_KEYWORDS then TYPE else IDENT

/-- The class `Token`. -/
structure Token where
  type : TokenType
  literal : List Char
  line_no : Nat
  col_no : Nat
  deriving DecidableEq, Repr

/-! ## Lexer.hpp -/

/-- The character `'\0'`. -/
def NUL : Char := Char.ofNat 0

/-- The state of a `Lexer`. -/
structure Lexer where
  source : List Char
  pos : Nat
  read_pos : Nat
  line_no : Nat
  current_char : Char
  deriving DecidableEq, Repr

namespace Lexer

/-- The method `Lexer::read_char`. -/
def read_char (l : Lexer) : Lexer :=
  { l with
    current_char := if l.read_pos ≥ l.source.length then NUL else l.source.getD l.read_pos NUL
    pos := l.read_pos
    read_pos := l.read_pos + 1 }

/-- The constructor `Lexer(source)`; the initial `pos = -1` is overwritten by
the `read_char` of the constructor before it is ever read. -/
def new (source : List Char) : Lexer :=
  read_char { source := source, pos := 0, read_pos := 0, line_no := 1,
              current_char := source.getD 0 NUL }

/-- The method `Lexer::peek_char`. -/
def peek_char (l : Lexer) : Char :=
  if l.read_pos ≥ l.source.length then NUL else l.source.getD l.read_pos NUL

/-- The method `Lexer::create_token`. -/
def create_token (l : Lexer) (type : TokenType) (literal : List Char) : Token :=
  { type := type, literal := literal, line_no := l.line_no, col_no := l.pos }

/-- The call `source.substr(start, n)`. -/
def substr (source : List Char) (start n : Nat) : List Char :=
  (source.drop start).take n

/-- The test of the loop in `skip_whitespace`. -/
def is_space (c : Char) : Bool :=
  c == ' ' || c == '\t' || c == '\n' || c == '\r'

/-- The method `Lexer::skip_whitespace`. -/
def skip_whitespace : Nat → Lexer → Except Abort Lexer
  | 0, _ => .error .out_of_fuel
  | fuel + 1, l =>
    if is_space l.current_char then
      let l1 := if l.current_char = '\n' then { l with line_no := l.line_no + 1 } else l
      skip_whitespace fuel (read_char l1)
    else .ok l

/-- The loop of `Lexer::read_ident`. -/
def read_ident_loop : Nat → Lexer → Except Abort Lexer
  | 0, _ => .error .out_of_fuel
  | fuel + 1, l =>
    if l.current_char.isAlpha || l.current_char.isAlphanum || l.current_char == '_' then
      read_ident_loop fuel (read_char l)
    else .ok l

/-- The method `Lexer::read_ident`. -/
def read_ident (fuel : Nat) (l : Lexer) : Except Abort (List Char × Lexer) :=
  match read_ident_loop fuel l with
  | .error e => .error e
  | .ok l1 => .ok (substr l.source l.pos (l1.pos - l.pos), l1)

/-- The inner loop of `Lexer::read_number`, entered at a second `.`: it appends
characters until a blank is the current character. -/
def read_invalid_number : Nat → Lexer → List Char → Except Abort (List Char × Lexer)
  | 0, _, _ => .error .out_of_fuel
  | fuel + 1, l, invalid_number =>
    if l.current_char ≠ ' ' ∧ l.current_char ≠ '\t' ∧ l.current_char ≠ '\n'
        ∧ l.current_char ≠ '\r' then
      read_invalid_number fuel (read_char l) (invalid_number ++ [l.current_char])
    else .ok (invalid_number, l)

/-- The two `return`s at the end of `Lexer::read_number`. -/
def read_number_finish (l : Lexer) (dot_count : Nat) (output : List Char) : Token × Lexer :=
  if dot_count = 0 then (create_token l INT output, l)
  else (create_token l FLOAT output, l)

/-- The outer loop of `Lexer::read_number`. -/
def read_number_loop : Nat → Lexer → Nat → Nat → List Char → Except Abort (Token × Lexer)
  | 0, _, _, _, _ => .error .out_of_fuel
  | fuel + 1, l, start_pos, dot_count, output =>
    if l.current_char.isDigit || l.current_char == '.' then
      let dot_count1 := if l.current_char = '.' then dot_count + 1 else dot_count
      if dot_count1 > 1 then
        match read_invalid_number fuel l (substr l.source start_pos (l.pos - start_pos)) with
        | .error e => .error e
        | .ok (invalid_number, l1) => .ok (create_token l1 ILLEGAL invalid_number, l1)
      else
        let l1 := read_char l
        if l1.current_char = NUL then
          .ok (read_number_finish l1 dot_count1 (output ++ [l.current_char]))
        else
          read_number_loop fuel l1 start_pos dot_count1 (output ++ [l.current_char])
    else .ok (read_number_finish l dot_count output)

/-- The method `Lexer::read_number`. -/
def read_number (fuel : Nat) (l : Lexer) : Except Abort (Token × Lexer) :=
  read_number_loop fuel l l.pos 0 []

/-- A `case` of `next_token` that makes one token and falls to the final `read_char`. -/
def emit (l : Lexer) (type : TokenType) (literal : String) : Option (Token × Lexer) :=
  some (create_token l type literal.toList, read_char l)

/-- A `case` of `next_token` with one character of lookahead. -/
def emit2 (l : Lexer) (second : Char) (type2 : TokenType) (literal2 : String)
    (type1 : TokenType) (literal1 : String) : Option (Token × Lexer) :=
  if peek_char l = second then emit (read_char l) type2 literal2
  else emit l type1 literal1

/-- The `case` labels of the `switch` of `Lexer::next_token`: the character of
the label, the lookahead of the case when it has one (the second character, and
the token made when `peek_char` is that character), and the token made otherwise. -/
def switch_table : List (Char × Option (Char × TokenType × String) × TokenType × String) :=
  [ ('+', none, PLUS, "+"),
    ('-', some ('>', ARROW, "->"), MINUS, "-"),
    ('*', none, ASTERISK, "*"),
    ('/', none, SLASH, "/"),
    ('^', none, POW, "^"),
    ('%', none, MODULUS, "%"),
    ('<', some ('=', LT_EQ, "<="), .LT, "<"),
    ('>', some ('=', GT_EQ, ">="), .GT, ">"),
    ('=', some ('=', EQ_EQ, "=="), EQ, "="),
    ('!', some ('=', NOT_EQ, "!="), ILLEGAL, "!"),
    (':', none, COLON, ":"),
    (';', none, SEMICOLON, ";"),
    (',', none, COMMA, ","),
    ('(', none, LPAREN, "("),
    (')', none, RPAREN, ")"),
    ('{', none, LBRACE, "\x7b"),
    ('}', none, RBRACE, "\x7d"),
    (NUL, none, EOF_, "") ]

/-- The `case` labels of the `switch` of `Lexer::next_token`, each followed by
the `read_char` after the `switch`; `none` when no label matches. -/
def next_token_cases (l : Lexer) : Option (Token × Lexer) :=
  match switch_table.lookup l.current_char with
  | none => none
  | some (none, type, literal) => emit l type literal
  | some (some (second, type2, literal2), type1, literal1) =>
    emit2 l second type2 literal2 type1 literal1

/-- The `default` label of the `switch` of `Lexer::next_token`. -/
def next_token_default (fuel : Nat) (l : Lexer) : Except Abort (Token × Lexer) :=
  if l.current_char.isAlpha then
    match read_ident fuel l with
    | .error e => .error e
    | .ok (literal, l1) => .ok (create_token l1 (lookup_ident literal) literal, l1)
  else if l.current_char.isDigit then read_number fuel l
  else .ok (create_token l ILLEGAL [l.current_char], read_char l)

/-- The `switch` of `Lexer::next_token`, after `skip_whitespace`. -/
def next_token_switch (fuel : Nat) (l : Lexer) : Except Abort (Token × Lexer) :=
  match next_token_cases l with
  | some r => .ok r
  | none => next_token_default fuel l

/-- The method `Lexer::next_token`. -/
def next_token (fuel : Nat) (l : Lexer) : Except Abort (Token × Lexer) :=
  match skip_whitespace fuel l with
  | .error e => .error e
  | .ok l1 => next_token_switch fuel l1

/-- The first `n` tokens returned by `next_token`, in order. -/
def tokens (fuel : Nat) : Nat → Lexer → Except Abort (List Token)
  | 0, _ => .ok []
  | n + 1, l =>
    match next_token fuel l with
    | .error e => .error e
    | .ok (t, l1) =>
      match tokens fuel n l1 with
      | .error e => .error e
      | .ok ts => .ok (t :: ts)

end Lexer

/-! ## Ast.hpp -/

/-- A finite value of the type `float` (IEEE 754 binary32) that is not negative:
`mantissa * 2 ^ exponent` with `mantissa` odd, or both fields `0` for zero; so
`4.5` is `⟨9, -1⟩`. -/
structure FloatValue where
  mantissa : Nat
  exponent : Int
  deriving DecidableEq, Repr

/-- The subclasses of `Expression` that the parser builds.  `FloatLiteral`
carries the `float` that `std::stof` returned, not the text of the token. -/
inductive Expression where
  | InfixExpression (left : Option Expression) (op : List Char) (right : Option Expression)
  | CallExpression (Function : Option Expression) (arguments : List (Option Expression))
  | IdentifierLiteral (value : List Char)
  | IntegerLiteral (value : Int)
  | FloatLiteral (value : FloatValue)
  | BooleanLiteral (value : Bool)
  deriving Repr

/-- The class `FunctionParameter`. -/
structure FunctionParameter where
  name : List Char
  value_type : List Char
  deriving DecidableEq, Repr

/-- The subclasses of `Statement`.  A field of type `BlockStatement*` is an
`Option Statement`, a field of type `IdentifierLiteral*` an `Option Expression`. -/
inductive Statement where
  | ExpressionStatement (expr : Option Expression)
  | LetStatement (name : Option Expression) (value : Option Expression) (value_type : List Char)
  | BlockStatement (statements : List Statement)
  | FunctionStatement (params : List (Option FunctionParameter)) (body : Option Statement)
      (name : Option Expression) (return_type : List Char)
  | ReturnStatement (return_value : Option Expression)
  | AssignStatement (ident : Option Expression) (right_value : Option Expression)
  | IfStatement (condition : Option Expression) (concequence : Option Statement)
      (alternative : Option Statement)
  deriving Repr

/-- The class `Program`. -/
structure Program where
  statements : List Statement
  deriving Repr

mutual

/-- Equality of two `Expression` trees is decidable. -/
def Expression.decEq : (a b : Expression) → Decidable (a = b)
  | .InfixExpression left1 op1 right1, .InfixExpression left2 op2 right2 =>
    match Expression.decEqOption left1 left2, (inferInstance : Decidable (op1 = op2)), Expression.decEqOption right1 right2 with
    | isTrue h0, isTrue h1, isTrue h2 => isTrue (by rw [h0, h1, h2])
    | isFalse h, _, _ => isFalse (fun e => h (by cases e; rfl))
    | _, isFalse h, _ => isFalse (fun e => h (by cases e; rfl))
    | _, _, isFalse h => isFalse (fun e => h (by cases e; rfl))
  | .InfixExpression _ _ _, .CallExpression _ _ => isFalse (fun e => by cases e)
  | .InfixExpression _ _ _, .IdentifierLiteral _ => isFalse (fun e => by cases e)
  | .InfixExpression _ _ _, .IntegerLiteral _ => isFalse (fun e => by cases e)
  | .InfixExpression _ _ _, .FloatLiteral _ => isFalse (fun e => by cases e)
  | .InfixExpression _ _ _, .BooleanLiteral _ => isFalse (fun e => by cases e)
  | .CallExpression _ _, .InfixExpression _ _ _ => isFalse (fun e => by cases e)
  | .CallExpression Function1 arguments1, .CallExpression Function2 arguments2 =>
    match Expression.decEqOption Function1 Function2, Expression.decEqList arguments1 arguments2 with
    | isTrue h0, isTrue h1 => isTrue (by rw [h0, h1])
    | isFalse h, _ => isFalse (fun e => h (by cases e; rfl))
    | _, isFalse h => isFalse (fun e => h (by cases e; rfl))
  | .CallExpression _ _, .IdentifierLiteral _ => isFalse (fun e => by cases e)
  | .CallExpression _ _, .IntegerLiteral _ => isFalse (fun e => by cases e)
  | .CallExpression _ _, .FloatLiteral _ => isFalse (fun e => by cases e)
  | .CallExpression _ _, .BooleanLiteral _ => isFalse (fun e => by cases e)
  | .IdentifierLiteral _, .InfixExpression _ _ _ => isFalse (fun e => by cases e)
  | .IdentifierLiteral _, .CallExpression _ _ => isFalse (fun e => by cases e)
  | .IdentifierLiteral value1, .IdentifierLiteral value2 =>
    match (inferInstance : Decidable (value1 = value2)) with
    | isTrue h0 => isTrue (by rw [h0])
    | isFalse h => isFalse (fun e => h (by cases e; rfl))
  | .IdentifierLiteral _, .IntegerLiteral _ => isFalse (fun e => by cases e)
  | .IdentifierLiteral _, .FloatLiteral _ => isFalse (fun e => by cases e)
  | .IdentifierLiteral _, .BooleanLiteral _ => isFalse (fun e => by cases e)
  | .IntegerLiteral _, .InfixExpression _ _ _ => isFalse (fun e => by cases e)
  | .IntegerLiteral _, .CallExpression _ _ => isFalse (fun e => by cases e)
  | .IntegerLiteral _, .IdentifierLiteral _ => isFalse (fun e => by cases e)
  | .IntegerLiteral value1, .IntegerLiteral value2 =>
    match (inferInstance : Decidable (value1 = value2)) with
    | isTrue h0 => isTrue (by rw [h0])
    | isFalse h => isFalse (fun e => h (by cases e; rfl))
  | .IntegerLiteral _, .FloatLiteral _ => isFalse (fun e => by cases e)
  | .IntegerLiteral _, .BooleanLiteral _ => isFalse (fun e => by cases e)
  | .FloatLiteral _, .InfixExpression _ _ _ => isFalse (fun e => by cases e)
  | .FloatLiteral _, .CallExpression _ _ => isFalse (fun e => by cases e)
  | .FloatLiteral _, .IdentifierLiteral _ => isFalse (fun e => by cases e)
  | .FloatLiteral _, .IntegerLiteral _ => isFalse (fun e => by cases e)
  | .FloatLiteral value1, .FloatLiteral value2 =>
    match (inferInstance : Decidable (value1 = value2)) with
    | isTrue h0 => isTrue (by rw [h0])
    | isFalse h => isFalse (fun e => h (by cases e; rfl))
  | .FloatLiteral _, .BooleanLiteral _ => isFalse (fun e => by cases e)
  | .BooleanLiteral _, .InfixExpression _ _ _ => isFalse (fun e => by cases e)
  | .BooleanLiteral _, .CallExpression _ _ => isFalse (fun e => by cases e)
  | .BooleanLiteral _, .IdentifierLiteral _ => isFalse (fun e => by cases e)
  | .BooleanLiteral _, .IntegerLiteral _ => isFalse (fun e => by cases e)
  | .BooleanLiteral _, .FloatLiteral _ => isFalse (fun e => by cases e)
  | .BooleanLiteral value1, .BooleanLiteral value2 =>
    match (inferInstance : Decidable (value1 = value2)) with
    | isTrue h0 => isTrue (by rw [h0])
    | isFalse h => isFalse (fun e => h (by cases e; rfl))

/-- Equality of two `Expression*`, either of which may be null. -/
def Expression.decEqOption : (a b : Option Expression) → Decidable (a = b)
  | none, none => isTrue rfl
  | none, some _ => isFalse (fun e => by cases e)
  | some _, none => isFalse (fun e => by cases e)
  | some x, some y =>
    match Expression.decEq x y with
    | isTrue h => isTrue (by rw [h])
    | isFalse h => isFalse (fun e => h (by cases e; rfl))

/-- Equality of two argument vectors. -/
def Expression.decEqList : (a b : List (Option Expression)) → Decidable (a = b)
  | [], [] => isTrue rfl
  | [], _ :: _ => isFalse (fun e => by cases e)
  | _ :: _, [] => isFalse (fun e => by cases e)
  | x :: xs, y :: ys =>
    match Expression.decEqOption x y, Expression.decEqList xs ys with
    | isTrue h0, isTrue h1 => isTrue (by rw [h0, h1])
    | isFalse h, _ => isFalse (fun e => h (by cases e; rfl))
    | _, isFalse h => isFalse (fun e => h (by cases e; rfl))

end

instance : DecidableEq Expression := Expression.decEq

mutual

/-- Equality of two `Statement` trees is decidable. -/
def Statement.decEq : (a b : Statement) → Decidable (a = b)
  | .ExpressionStatement expr1, .ExpressionStatement expr2 =>
    match (inferInstance : Decidable (expr1 = expr2)) with
    | isTrue h0 => isTrue (by rw [h0])
    | isFalse h => isFalse (fun e => h (by cases e; rfl))
  | .ExpressionStatement _, .LetStatement _ _ _ => isFalse (fun e => by cases e)
  | .ExpressionStatement _, .BlockStatement _ => isFalse (fun e => by cases e)
  | .ExpressionStatement _, .FunctionStatement _ _ _ _ => isFalse (fun e => by cases e)
  | .ExpressionStatement _, .ReturnStatement _ => isFalse (fun e => by cases e)
  | .ExpressionStatement _, .AssignStatement _ _ => isFalse (fun e => by cases e)
  | .ExpressionStatement _, .IfStatement _ _ _ => isFalse (fun e => by cases e)
  | .LetStatement _ _ _, .ExpressionStatement _ => isFalse (fun e => by cases e)
  | .LetStatement name1 value1 value_type1, .LetStatement name2 value2 value_type2 =>
    match (inferInstance : Decidable (name1 = name2)), (inferInstance : Decidable (value1 = value2)), (inferInstance : Decidable (value_type1 = value_type2)) with
    | isTrue h0, isTrue h1, isTrue h2 => isTrue (by rw [h0, h1, h2])
    | isFalse h, _, _ => isFalse (fun e => h (by cases e; rfl))
    | _, isFalse h, _ => isFalse (fun e => h (by cases e; rfl))
    | _, _, isFalse h => isFalse (fun e => h (by cases e; rfl))
  | .LetStatement _ _ _, .BlockStatement _ => isFalse (fun e => by cases e)
  | .LetStatement _ _ _, .FunctionStatement _ _ _ _ => isFalse (fun e => by cases e)
  | .LetStatement _ _ _, .ReturnStatement _ => isFalse (fun e => by cases e)
  | .LetStatement _ _ _, .AssignStatement _ _ => isFalse (fun e => by cases e)
  | .LetStatement _ _ _, .IfStatement _ _ _ => isFalse (fun e => by cases e)
  | .BlockStatement _, .ExpressionStatement _ => isFalse (fun e => by cases e)
  | .BlockStatement _, .LetStatement _ _ _ => isFalse (fun e => by cases e)
  | .BlockStatement statements1, .BlockStatement statements2 =>
    match Statement.decEqList statements1 statements2 with
    | isTrue h0 => isTrue (by rw [h0])
    | isFalse h => isFalse (fun e => h (by cases e; rfl))
  | .BlockStatement _, .FunctionStatement _ _ _ _ => isFalse (fun e => by cases e)
  | .BlockStatement _, .ReturnStatement _ => isFalse (fun e => by cases e)
  | .BlockStatement _, .AssignStatement _ _ => isFalse (fun e => by cases e)
  | .BlockStatement _, .IfStatement _ _ _ => isFalse (fun e => by cases e)
  | .FunctionStatement _ _ _ _, .ExpressionStatement _ => isFalse (fun e => by cases e)
  | .FunctionStatement _ _ _ _, .LetStatement _ _ _ => isFalse (fun e => by cases e)
  | .FunctionStatement _ _ _ _, .BlockStatement _ => isFalse (fun e => by cases e)
  | .FunctionStatement params1 body1 name1 return_type1, .FunctionStatement params2 body2 name2 return_type2 =>
    match (inferInstance : Decidable (params1 = params2)), Statement.decEqOption body1 body2, (inferInstance : Decidable (name1 = name2)), (inferInstance : Decidable (return_type1 = return_type2)) with
    | isTrue h0, isTrue h1, isTrue h2, isTrue h3 => isTrue (by rw [h0, h1, h2, h3])
    | isFalse h, _, _, _ => isFalse (fun e => h (by cases e; rfl))
    | _, isFalse h, _, _ => isFalse (fun e => h (by cases e; rfl))
    | _, _, isFalse h, _ => isFalse (fun e => h (by cases e; rfl))
    | _, _, _, isFalse h => isFalse (fun e => h (by cases e; rfl))
  | .FunctionStatement _ _ _ _, .ReturnStatement _ => isFalse (fun e => by cases e)
  | .FunctionStatement _ _ _ _, .AssignStatement _ _ => isFalse (fun e => by cases e)
  | .FunctionStatement _ _ _ _, .IfStatement _ _ _ => isFalse (fun e => by cases e)
  | .ReturnStatement _, .ExpressionStatement _ => isFalse (fun e => by cases e)
  | .ReturnStatement _, .LetStatement _ _ _ => isFalse (fun e => by cases e)
  | .ReturnStatement _, .BlockStatement _ => isFalse (fun e => by cases e)
  | .ReturnStatement _, .FunctionStatement _ _ _ _ => isFalse (fun e => by cases e)
  | .ReturnStatement return_value1, .ReturnStatement return_value2 =>
    match (inferInstance : Decidable (return_value1 = return_value2)) with
    | isTrue h0 => isTrue (by rw [h0])
    | isFalse h => isFalse (fun e => h (by cases e; rfl))
  | .ReturnStatement _, .AssignStatement _ _ => isFalse (fun e => by cases e)
  | .ReturnStatement _, .IfStatement _ _ _ => isFalse (fun e => by cases e)
  | .AssignStatement _ _, .ExpressionStatement _ => isFalse (fun e => by cases e)
  | .AssignStatement _ _, .LetStatement _ _ _ => isFalse (fun e => by cases e)
  | .AssignStatement _ _, .BlockStatement _ => isFalse (fun e => by cases e)
  | .AssignStatement _ _, .FunctionStatement _ _ _ _ => isFalse (fun e => by cases e)
  | .AssignStatement _ _, .ReturnStatement _ => isFalse (fun e => by cases e)
  | .AssignStatement ident1 right_value1, .AssignStatement ident2 right_value2 =>
    match (inferInstance : Decidable (ident1 = ident2)), (inferInstance : Decidable (right_value1 = right_value2)) with
    | isTrue h0, isTrue h1 => isTrue (by rw [h0, h1])
    | isFalse h, _ => isFalse (fun e => h (by cases e; rfl))
    | _, isFalse h => isFalse (fun e => h (by cases e; rfl))
  | .AssignStatement _ _, .IfStatement _ _ _ => isFalse (fun e => by cases e)
  | .IfStatement _ _ _, .ExpressionStatement _ => isFalse (fun e => by cases e)
  | .IfStatement _ _ _, .LetStatement _ _ _ => isFalse (fun e => by cases e)
  | .IfStatement _ _ _, .BlockStatement _ => isFalse (fun e => by cases e)
  | .IfStatement _ _ _, .FunctionStatement _ _ _ _ => isFalse (fun e => by cases e)
  | .IfStatement _ _ _, .ReturnStatement _ => isFalse (fun e => by cases e)
  | .IfStatement _ _ _, .AssignStatement _ _ => isFalse (fun e => by cases e)
  | .IfStatement condition1 concequence1 alternative1, .IfStatement condition2 concequence2 alternative2 =>
    match (inferInstance : Decidable (condition1 = condition2)), Statement.decEqOption concequence1 concequence2, Statement.decEqOption alternative1 alternative2 with
    | isTrue h0, isTrue h1, isTrue h2 => isTrue (by rw [h0, h1, h2])
    | isFalse h, _, _ => isFalse (fun e => h (by cases e; rfl))
    | _, isFalse h, _ => isFalse (fun e => h (by cases e; rfl))
    | _, _, isFalse h => isFalse (fun e => h (by cases e; rfl))

/-- Equality of two `Statement*`, either of which may be null. -/
def Statement.decEqOption : (a b : Option Statement) → Decidable (a = b)
  | none, none => isTrue rfl
  | none, some _ => isFalse (fun e => by cases e)
  | some _, none => isFalse (fun e => by cases e)
  | some x, some y =>
    match Statement.decEq x y with
    | isTrue h => isTrue (by rw [h])
    | isFalse h => isFalse (fun e => h (by cases e; rfl))

/-- Equality of two statement vectors. -/
def Statement.decEqList : (a b : List (Statement)) → Decidable (a = b)
  | [], [] => isTrue rfl
  | [], _ :: _ => isFalse (fun e => by cases e)
  | _ :: _, [] => isFalse (fun e => by cases e)
  | x :: xs, y :: ys =>
    match Statement.decEq x y, Statement.decEqList xs ys with
    | isTrue h0, isTrue h1 => isTrue (by rw [h0, h1])
    | isFalse h, _ => isFalse (fun e => h (by cases e; rfl))
    | _, isFalse h => isFalse (fun e => h (by cases e; rfl))

end

instance : DecidableEq Statement := Statement.decEq

instance : DecidableEq Program := fun a b =>
  match a, b with
  | ⟨x⟩, ⟨y⟩ => if h : x = y then isTrue (by rw [h]) else isFalse (fun e => h (by cases e; rfl))

/-! ## Parser.hpp -/

/-- The enumeration `PrecedenceType`. -/
inductive PrecedenceType where
  | LOWEST | EQUALS | LESSGREATER | SUM | PRODUCT | EXPONENT | PREFIX | CALL | INDEX
  deriving DecidableEq, Repr

/-- The value of an enumerator of `PrecedenceType`, by which `<` compares. -/
def PrecedenceType.toNat : PrecedenceType → Nat
  | .LOWEST => 0 | .EQUALS => 1 | .LESSGREATER => 2 | .SUM => 3 | .PRODUCT => 4
  | .EXPONENT => 5 | .PREFIX => 6 | .CALL => 7 | .INDEX => 8

/-- The table `precedence_map`. -/
def precedence_map : TokenType → Option PrecedenceType
  | .PLUS => some .SUM
  | .MINUS => some .SUM
  | .ASTERISK => some .PRODUCT
  | .SLASH => some .PRODUCT
  | .POW => some .EXPONENT
  | .MODULUS => some .PRODUCT
  | .EQ_EQ => some .EQUALS
  | .NOT_EQ => some .EQUALS
  | .LT => some .LESSGREATER
  | .GT => some .LESSGREATER
  | .LT_EQ => some .LESSGREATER
  | .GT_EQ => some .LESSGREATER
  | .LPAREN => some .CALL
  | _ => none

/-- The handlers registered in `prefix_parse_fns`. -/
inductive PrefixFn where
  | parse_integer_literal | parse_float_literal | parse_grouped_expression
  | parse_identifier | parse_boolean_literal
  deriving DecidableEq, Repr

/-- The table `prefix_parse_fns` as the constructor fills it. -/
def prefix_parse_fns : TokenType → Option PrefixFn
  | .INT => some .parse_integer_literal
  | .FLOAT => some .parse_float_literal
  | .LPAREN => some .parse_grouped_expression
  | .IDENT => some .parse_identifier
  | .TRUE => some .parse_boolean_literal
  | .FALSE => some .parse_boolean_literal
  | _ => none

/-- The handlers registered in `infix_parse_fns`. -/
inductive InfixFn where
  | parse_infix_expression | parse_call_expression
  deriving DecidableEq, Repr

/-- The table `infix_parse_fns` as the constructor fills it. -/
def infix_parse_fns : TokenType → Option InfixFn
  | .PLUS => some .parse_infix_expression
  | .MINUS => some .parse_infix_expression
  | .ASTERISK => some .parse_infix_expression
  | .SLASH => some .parse_infix_expression
  | .POW => some .parse_infix_expression
  | .MODULUS => some .parse_infix_expression
  | .EQ_EQ => some .parse_infix_expression
  | .NOT_EQ => some .parse_infix_expression
  | .LT => some .parse_infix_expression
  | .GT => some .parse_infix_expression
  | .LT_EQ => some .parse_infix_expression
  | .GT_EQ => some .parse_infix_expression
  | .LPAREN => some .parse_call_expression
  | _ => none

/-- The value of a run of decimal digits. -/
def decimal_value (digits : List Char) : Nat :=
  digits.foldl (fun acc c => 10 * acc + (c.toNat - 48)) 0

/-- The call `std::stoi(text)` on a text without sign or leading blank, which is
all the lexer puts in an `INT` token: the leading digits are converted, and the
call throws when there is none or when the value does not fit an `int`. -/
def stoi (text : List Char) : Except Abort Int :=
  let digits := text.takeWhile Char.isDigit
  if digits = [] then .error .invalid_argument
  else if decimal_value digits > 2147483647 then .error .out_of_range
  else .ok (decimal_value digits)

/-- Division of `num` by `den`, rounded to the nearest natural number, a tie
to the even one. -/
def round_half_even (num den : Nat) : Nat :=
  let q := num / den
  let r := num % den
  if 2 * r < den then q
  else if den < 2 * r then q + 1
  else if q % 2 = 0 then q else q + 1

/-- The fraction `num / den` divided by `2 ^ x`, as numerator and denominator. -/
def scale (num den : Nat) (x : Int) : Nat × Nat :=
  if 0 ≤ x then (num, den * 2 ^ x.toNat) else (num * 2 ^ (-x).toNat, den)

/-- The number of times `n` can be halved before it is below `2`, at most
`fuel` times: for `fuel ≥ n` the `k` with `2 ^ k ≤ n < 2 ^ (k + 1)`, and `0` for
`n = 0`. -/
def halvings : Nat → Nat → Nat
  | 0, _ => 0
  | fuel + 1, n => if n < 2 then 0 else halvings fuel (n / 2) + 1

/-- The integer `e` with `2 ^ e ≤ num / den < 2 ^ (e + 1)`, for positive `num`
and `den`: with `2 ^ a ≤ num < 2 ^ (a + 1)` and `2 ^ b ≤ den < 2 ^ (b + 1)` it
is `a - b` or one less. -/
def binary_exponent (num den : Nat) : Int :=
  let d : Int := (halvings num num : Int) - (halvings den den : Int)
  if (scale num den d).2 ≤ (scale num den d).1 then d else d - 1

/-- The value `m * 2 ^ x` with the factors two of `m` moved into the exponent,
at most `n` of them. -/
def FloatValue.reduce : Nat → Nat → Int → FloatValue
  | 0, m, x => ⟨m, x⟩
  | n + 1, m, x => if m % 2 = 0 then FloatValue.reduce n (m / 2) (x + 1) else ⟨m, x⟩

/-- The conversion of the positive fraction `num / den` to a `float` as
`strtof` does it with IEEE 754 arithmetic and reports it through `errno`, and
`std::stof` through `std::out_of_range` when `errno` is `ERANGE`.

* The result is the nearest `float`, a tie going to the even mantissa: with
  `2 ^ e ≤ num / den < 2 ^ (e + 1)` the mantissa has 24 bits and is counted in
  units of `2 ^ (e - 23)`, and in units of `2 ^ (-149)` below `2 ^ (-126)`
  (subnormal results).
* Overflow: a fraction of at least `2 ^ 128 - 2 ^ 103`, halfway between the
  largest `float` and `2 ^ 128`, has no finite nearest `float`.
* Underflow, as the GNU C library reports it on x86-64: the fraction is below
  `2 ^ (-126)`, is not a `float` itself, and rounded to 24 bits with the
  exponent unbounded it is still below `2 ^ (-126)`. -/
def round_to_float (num den : Nat) : Except Abort FloatValue :=
  if num = 0 then .ok ⟨0, 0⟩
  else if (2 ^ 128 - 2 ^ 103) * den ≤ num then .error .out_of_range
  else
    let e := binary_exponent num den
    let x := max (e - 23) (-149)
    let units := scale num den x
    let normal := scale num den (e - 23)
    if e < -126 ∧ units.1 % units.2 ≠ 0 ∧
        round_half_even normal.1 normal.2 < 2 ^ (-103 - e).toNat then
      .error .out_of_range
    else .ok (FloatValue.reduce 24 (round_half_even units.1 units.2) x)

/-- The call `std::stof(text)` on a text without sign, exponent part or leading
blank, which is all the lexer puts in a `FLOAT` token (digits with one `.`
after the first digit): the leading digits, and the digits after a `.` that
follows them, are converted; the call throws `std::invalid_argument` when there
is no digit and `std::out_of_range` when the value is outside the range of
`float`. -/
def stof (text : List Char) : Except Abort FloatValue :=
  let whole := text.takeWhile Char.isDigit
  let fraction :=
    match text.dropWhile Char.isDigit with
    | '.' :: rest => rest.takeWhile Char.isDigit
    | _ => []
  if whole = [] ∧ fraction = [] then .error .invalid_argument
  else round_to_float (decimal_value (whole ++ fraction)) (10 ^ fraction.length)

/-- The state of a `Parser`. -/
structure Parser where
  lexer : Lexer
  errors : List String
  current_token : Token
  peek_token : Token
  deriving DecidableEq, Repr

namespace Parser

/-- The method `Parser::next_token`. -/
def next_token (fuel : Nat) (p : Parser) : Except Abort Parser :=
  match p.lexer.next_token fuel with
  | .error e => .error e
  | .ok (tok, l) => .ok { p with current_token := p.peek_token, peek_token := tok, lexer := l }

/-- The constructor `Parser(lexer)`. -/
def new (fuel : Nat) (lexer : Lexer) : Except Abort Parser := do
  let p0 : Parser := { lexer := lexer, errors := [], current_token := ⟨.EOF_, [], 0, 0⟩,
                       peek_token := ⟨.EOF_, [], 0, 0⟩ }
  let p1 ← next_token fuel p0
  next_token fuel p1

/-- The method `Parser::peek_token_is`. -/
def peek_token_is (p : Parser) (type : TokenType) : Bool :=
  p.peek_token.type == type

/-- The method `Parser::current_token_is`. -/
def current_token_is (p : Parser) (type : TokenType) : Bool :=
  p.current_token.type == type

/-- The method `Parser::peek_error`. -/
def peek_error (p : Parser) (type : TokenType) : Parser :=
  { p with errors := p.errors ++
      ["expected next token to be " ++ token_type_map type ++ ", got "
        ++ token_type_map p.peek_token.type ++ " instead"] }

/-- The method `Parser::no_prefix_parse_fn_error`. -/
def no_prefix_parse_fn_error (p : Parser) (type : TokenType) : Parser :=
  { p with errors := p.errors ++
      ["no prefix parse function for " ++ token_type_map type ++ " found"] }

/-- The method `Parser::expect_peek`. -/
def expect_peek (fuel : Nat) (p : Parser) (type : TokenType) : Except Abort (Bool × Parser) :=
  if peek_token_is p type then
    match next_token fuel p with
    | .error e => .error e
    | .ok p1 => .ok (true, p1)
  else .ok (false, peek_error p type)

/-- The method `Parser::current_precedence`. -/
def current_precedence (p : Parser) : PrecedenceType :=
  match precedence_map p.current_token.type with
  | some prec => prec
  | none => .LOWEST

/-- The method `Parser::peek_precedence`. -/
def peek_precedence (p : Parser) : PrecedenceType :=
  match precedence_map p.peek_token.type with
  | some prec => prec
  | none => .LOWEST

/-- The method `Parser::parse_identifier`. -/
def parse_identifier (p : Parser) : Option Expression :=
  some (.IdentifierLiteral p.current_token.literal)

/-- The method `Parser::parse_integer_literal`. -/
def parse_integer_literal (p : Parser) : Except Abort (Option Expression) :=
  match stoi p.current_token.literal with
  | .error e => .error e
  | .ok value => .ok (some (.IntegerLiteral value))

/-- The method `Parser::parse_float_literal`. -/
def parse_float_literal (p : Parser) : Except Abort (Option Expression) :=
  match stof p.current_token.literal with
  | .error e => .error e
  | .ok value => .ok (some (.FloatLiteral value))

/-- The method `Parser::parse_boolean_literal`. -/
def parse_boolean_literal (p : Parser) : Option Expression :=
  some (.BooleanLiteral (current_token_is p .TRUE))

/-- The loop of `Parser::parse_let_statement` that advances to `;` or end of input. -/
def skip_to_semicolon : Nat → Parser → Except Abort Parser
  | 0, _ => .error .out_of_fuel
  | fuel + 1, p =>
    if !current_token_is p .SEMICOLON && !current_token_is p .EOF_ then do
      let p1 ← next_token fuel p
      skip_to_semicolon fuel p1
    else .ok p

/-- The loop of `Parser::parse_function_parameters` over `, name : type`. -/
def parse_function_parameters_loop :
    Nat → Parser → List (Option FunctionParameter) →
      Except Abort (List (Option FunctionParameter) × Parser)
  | 0, _, _ => .error .out_of_fuel
  | fuel + 1, p, params =>
    if peek_token_is p .COMMA then do
      let p1 ← next_token fuel p
      let p2 ← next_token fuel p1
      let name := p2.current_token.literal
      let (ok1, p3) ← expect_peek fuel p2 .COLON
      if !ok1 then pure ([none], p3) else do
      let (ok2, p4) ← expect_peek fuel p3 .TYPE
      if !ok2 then pure ([none], p4) else do
      parse_function_parameters_loop fuel p4
        (params ++ [some { name := name, value_type := p4.current_token.literal }])
    else do
      let (ok3, p1) ← expect_peek fuel p .RPAREN
      if !ok3 then pure ([none], p1) else pure (params, p1)

/-- The method `Parser::parse_function_parameters`. -/
def parse_function_parameters (fuel : Nat) (p : Parser) :
    Except Abort (List (Option FunctionParameter) × Parser) :=
  if peek_token_is p .RPAREN then do
    let p1 ← next_token fuel p
    pure ([], p1)
  else do
    let p1 ← next_token fuel p
    let name := p1.current_token.literal
    let (ok1, p2) ← expect_peek fuel p1 .COLON
    if !ok1 then pure ([none], p2) else do
    let (ok2, p3) ← expect_peek fuel p2 .TYPE
    if !ok2 then pure ([none], p3) else do
    parse_function_parameters_loop fuel p3
      [some { name := name, value_type := p3.current_token.literal }]

mutual

/-- The method `Parser::parse_expression`, up to its `while` loop. -/
def parse_expression :
    Nat → PrecedenceType → Parser → Except Abort (Option Expression × Parser)
  | 0, _, _ => .error .out_of_fuel
  | fuel + 1, precedence, p =>
    match prefix_parse_fns p.current_token.type with
    | none => .ok (none, no_prefix_parse_fn_error p p.current_token.type)
    | some .parse_integer_literal => do
      let left ← parse_integer_literal p
      parse_expression_loop fuel precedence left p
    | some .parse_float_literal => do
      let left ← parse_float_literal p
      parse_expression_loop fuel precedence left p
    | some .parse_grouped_expression => do
      let (left, p1) ← parse_grouped_expression fuel p
      parse_expression_loop fuel precedence left p1
    | some .parse_identifier =>
      parse_expression_loop fuel precedence (parse_identifier p) p
    | some .parse_boolean_literal =>
      parse_expression_loop fuel precedence (parse_boolean_literal p) p

/-- The `while` loop of `Parser::parse_expression`. -/
def parse_expression_loop :
    Nat → PrecedenceType → Option Expression → Parser →
      Except Abort (Option Expression × Parser)
  | 0, _, _, _ => .error .out_of_fuel
  | fuel + 1, precedence, left_exp, p =>
    if !peek_token_is p .SEMICOLON && precedence.toNat < (peek_precedence p).toNat then
      match infix_parse_fns p.peek_token.type with
      | none => .ok (left_exp, p)
      | some .parse_infix_expression => do
        let p1 ← next_token fuel p
        let (left1, p2) ← parse_infix_expression fuel left_exp p1
        parse_expression_loop fuel precedence left1 p2
      | some .parse_call_expression => do
        let p1 ← next_token fuel p
        let (left1, p2) ← parse_call_expression fuel left_exp p1
        parse_expression_loop fuel precedence left1 p2
    else .ok (left_exp, p)

/-- The method `Parser::parse_infix_expression`. -/
def parse_infix_expression :
    Nat → Option Expression → Parser → Except Abort (Option Expression × Parser)
  | 0, _, _ => .error .out_of_fuel
  | fuel + 1, left, p => do
    let op := p.current_token.literal
    let precedence := current_precedence p
    let p1 ← next_token fuel p
    let (right, p2) ← parse_expression fuel precedence p1
    pure (some (.InfixExpression left op right), p2)

/-- The method `Parser::parse_grouped_expression`. -/
def parse_grouped_expression :
    Nat → Parser → Except Abort (Option Expression × Parser)
  | 0, _ => .error .out_of_fuel
  | fuel + 1, p => do
    let p1 ← next_token fuel p
    let (expr, p2) ← parse_expression fuel .LOWEST p1
    let (ok1, p3) ← expect_peek fuel p2 .RPAREN
    if !ok1 then pure (none, p3) else pure (expr, p3)

/-- The method `Parser::parse_call_expression`. -/
def parse_call_expression :
    Nat → Option Expression → Parser → Except Abort (Option Expression × Parser)
  | 0, _, _ => .error .out_of_fuel
  | fuel + 1, function, p => do
    let (arguments, p1) ← parse_expression_list fuel .RPAREN p
    pure (some (.CallExpression function arguments), p1)

/-- The method `Parser::parse_expression_list`. -/
def parse_expression_list :
    Nat → TokenType → Parser → Except Abort (List (Option Expression) × Parser)
  | 0, _, _ => .error .out_of_fuel
  | fuel + 1, end_, p =>
    if peek_token_is p end_ then do
      let p1 ← next_token fuel p
      pure ([], p1)
    else do
      let p1 ← next_token fuel p
      let (first, p2) ← parse_expression fuel .LOWEST p1
      parse_expression_list_loop fuel end_ [first] p2

/-- The `while` loop of `Parser::parse_expression_list` and the final `expect_peek`. -/
def parse_expression_list_loop :
    Nat → TokenType → List (Option Expression) → Parser →
      Except Abort (List (Option Expression) × Parser)
  | 0, _, _, _ => .error .out_of_fuel
  | fuel + 1, end_, expr_list, p =>
    if peek_token_is p .COMMA then do
      let p1 ← next_token fuel p
      let p2 ← next_token fuel p1
      let (next, p3) ← parse_expression fuel .LOWEST p2
      parse_expression_list_loop fuel end_ (expr_list ++ [next]) p3
    else do
      let (ok1, p1) ← expect_peek fuel p end_
      if !ok1 then pure ([none], p1) else pure (expr_list, p1)

end

/-- The method `Parser::parse_expression_statement`. -/
def parse_expression_statement (fuel : Nat) (p : Parser) :
    Except Abort (Option Statement × Parser) := do
  let (expr, p1) ← parse_expression fuel .LOWEST p
  if peek_token_is p1 .SEMICOLON then do
    let p2 ← next_token fuel p1
    pure (some (.ExpressionStatement expr), p2)
  else pure (some (.ExpressionStatement expr), p1)

/-- The method `Parser::parse_let_statement`. -/
def parse_let_statement (fuel : Nat) (p : Parser) :
    Except Abort (Option Statement × Parser) := do
  let (ok1, p1) ← expect_peek fuel p .IDENT
  if !ok1 then pure (none, p1) else do
  let name : Option Expression := some (.IdentifierLiteral p1.current_token.literal)
  let (ok2, p2) ← expect_peek fuel p1 .COLON
  if !ok2 then pure (none, p2) else do
  let (ok3, p3) ← expect_peek fuel p2 .TYPE
  if !ok3 then pure (none, p3) else do
  let value_type := p3.current_token.literal
  let (ok4, p4) ← expect_peek fuel p3 .EQ
  if !ok4 then pure (none, p4) else do
  let p5 ← next_token fuel p4
  let (value, p6) ← parse_expression fuel .LOWEST p5
  let p7 ← skip_to_semicolon fuel p6
  pure (some (.LetStatement name value value_type), p7)

/-- The method `Parser::parse_return_statement`. -/
def parse_return_statement (fuel : Nat) (p : Parser) :
    Except Abort (Option Statement × Parser) := do
  let p1 ← next_token fuel p
  let (return_value, p2) ← parse_expression fuel .LOWEST p1
  let (ok1, p3) ← expect_peek fuel p2 .SEMICOLON
  if !ok1 then pure (none, p3) else pure (some (.ReturnStatement return_value), p3)

/-- The method `Parser::parse_assignment_statement`. -/
def parse_assignment_statement (fuel : Nat) (p : Parser) :
    Except Abort (Option Statement × Parser) := do
  let ident : Option Expression := some (.IdentifierLiteral p.current_token.literal)
  let p1 ← next_token fuel p
  let p2 ← next_token fuel p1
  let (right_value, p3) ← parse_expression fuel .LOWEST p2
  let p4 ← next_token fuel p3
  pure (some (.AssignStatement ident right_value), p4)

mutual

/-- The method `Parser::parse_statement`. -/
def parse_statement : Nat → Parser → Except Abort (Option Statement × Parser)
  | 0, _ => .error .out_of_fuel
  | fuel + 1, p =>
    if current_token_is p .IDENT && peek_token_is p .EQ then
      parse_assignment_statement fuel p
    else
      match p.current_token.type with
      | .LET => parse_let_statement fuel p
      | .DEF => parse_function_statement fuel p
      | .RETURN => parse_return_statement fuel p
      | .IF => parse_if_statement fuel p
      | _ => parse_expression_statement fuel p

/-- The method `Parser::parse_function_statement`. -/
def parse_function_statement : Nat → Parser → Except Abort (Option Statement × Parser)
  | 0, _ => .error .out_of_fuel
  | fuel + 1, p => do
    let (ok1, p1) ← expect_peek fuel p .IDENT
    if !ok1 then pure (none, p1) else do
    let name : Option Expression := some (.IdentifierLiteral p1.current_token.literal)
    let (ok2, p2) ← expect_peek fuel p1 .LPAREN
    if !ok2 then pure (none, p2) else do
    let (params, p3) ← parse_function_parameters fuel p2
    let (ok3, p4) ← expect_peek fuel p3 .ARROW
    if !ok3 then pure (none, p4) else do
    let (ok4, p5) ← expect_peek fuel p4 .TYPE
    if !ok4 then pure (none, p5) else do
    let return_type := p5.current_token.literal
    let (ok5, p6) ← expect_peek fuel p5 .LBRACE
    if !ok5 then pure (none, p6) else do
    let (body, p7) ← parse_block_statement fuel p6
    pure (some (.FunctionStatement params (some body) name return_type), p7)

/-- The method `Parser::parse_block_statement`. -/
def parse_block_statement : Nat → Parser → Except Abort (Statement × Parser)
  | 0, _ => .error .out_of_fuel
  | fuel + 1, p => do
    let p1 ← next_token fuel p
    let (statements, p2) ← parse_block_statement_loop fuel [] p1
    pure (.BlockStatement statements, p2)

/-- The `while` loop of `Parser::parse_block_statement`. -/
def parse_block_statement_loop :
    Nat → List Statement → Parser → Except Abort (List Statement × Parser)
  | 0, _, _ => .error .out_of_fuel
  | fuel + 1, statements, p =>
    if !current_token_is p .RBRACE && !current_token_is p .EOF_ then do
      let (stmt, p1) ← parse_statement fuel p
      let statements1 := match stmt with
        | some s => statements ++ [s]
        | none => statements
      let p2 ← next_token fuel p1
      parse_block_statement_loop fuel statements1 p2
    else .ok (statements, p)

/-- The method `Parser::parse_if_statement`. -/
def parse_if_statement : Nat → Parser → Except Abort (Option Statement × Parser)
  | 0, _ => .error .out_of_fuel
  | fuel + 1, p => do
    let p1 ← next_token fuel p
    let (condition, p2) ← parse_expression fuel .LOWEST p1
    let (ok1, p3) ← expect_peek fuel p2 .DO
    if !ok1 then pure (none, p3) else do
    let (ok2, p4) ← expect_peek fuel p3 .LBRACE
    if !ok2 then pure (none, p4) else do
    let (concequence, p5) ← parse_block_statement fuel p4
    if peek_token_is p5 .ELSE then do
      let p6 ← next_token fuel p5
      let (ok3, p7) ← expect_peek fuel p6 .LBRACE
      if !ok3 then pure (none, p7) else do
      let (alternative, p8) ← parse_block_statement fuel p7
      pure (some (.IfStatement condition (some concequence) (some alternative)), p8)
    else pure (some (.IfStatement condition (some concequence) none), p5)

end

/-- The `while` loop of `Parser::parse_program`. -/
def parse_program_loop : Nat → List Statement → Parser → Except Abort (Program × Parser)
  | 0, _, _ => .error .out_of_fuel
  | fuel + 1, statements, p =>
    if p.current_token.type ≠ .EOF_ then do
      let (stmt, p1) ← parse_statement fuel p
      let statements1 := match stmt with
        | some s => statements ++ [s]
        | none => statements
      let p2 ← next_token fuel p1
      parse_program_loop fuel statements1 p2
    else .ok ({ statements := statements }, p)

/-- The method `Parser::parse_program`. -/
def parse_program (fuel : Nat) (p : Parser) : Except Abort (Program × Parser) :=
  parse_program_loop fuel [] p

end Parser

/-- The sequence `Parser parser(lexer); parser.parse_program()` of `main`: the
program and the diagnostics `parser.errors`. -/
def parse_lexer (fuel : Nat) (lexer : Lexer) : Except Abort (Program × List String) := do
  let p ← Parser.new fuel lexer
  let (program, p1) ← Parser.parse_program fuel p
  pure (program, p1.errors)

/-- The same on the lexer `Lexer(source)`. -/
def parse_source (fuel : Nat) (source : List Char) : Except Abort (Program × List String) :=
  parse_lexer fuel (Lexer.new source)

namespace Lexer

/-- The state of a lexer over `source` whose current character is the one at `p`
(`'\0'` from the end of the source on) and whose line counter is `line`. -/
def state_at (source : List Char) (p line : Nat) : Lexer :=
  { source := source, pos := p, read_pos := p + 1, line_no := line,
    current_char := source.getD p NUL }

/-- The characters that have a `case` label in the `switch` of `next_token`. -/
def case_chars : List Char := switch_table.map Prod.fst

/-- The result of `n` successive calls of `next_token`: the tokens and the state left. -/
def run (fuel : Nat) : Nat → Lexer → Except Abort (List Token × Lexer)
  | 0, l => .ok ([], l)
  | n + 1, l =>
    match next_token fuel l with
    | .error e => .error e
    | .ok (t, l1) =>
      match run fuel n l1 with
      | .error e => .error e
      | .ok (ts, l2) => .ok (t :: ts, l2)

end Lexer

namespace Lexer

/-- Successive calls of `next_token` from state `l` return the tokens `ts`, in
this order, and leave the state `l'`. -/
def yields : Lexer → List Token → Lexer → Prop
  | l, [], l' => l' = l
  | l, t :: ts, l' => ∃ l1, (∃ fuel, next_token fuel l = .ok (t, l1)) ∧ yields l1 ts l'

/-- The same with one fuel `F` that is enough for every call. -/
def yields_with (F : Nat) : Lexer → List Token → Lexer → Prop
  | l, [], l' => l' = l
  | l, t :: ts, l' =>
    ∃ l1, (∀ fuel, F ≤ fuel → next_token fuel l = .ok (t, l1)) ∧ yields_with F l1 ts l'

end Lexer

/-- The precedence `peek_precedence` / `current_precedence` find for a token type. -/
def token_precedence (type : TokenType) : PrecedenceType :=
  match precedence_map type with
  | some prec => prec
  | none => .LOWEST

/-- The token types whose infix handler is `parse_infix_expression`: the twelve
binary operators. -/
def is_binary_operator (type : TokenType) : Bool :=
  infix_parse_fns type == some .parse_infix_expression

/-- The node an atom token parses to: an `IDENT` token gives `IdentifierLiteral`,
an `INT` token whose text `std::stoi` converts gives `IntegerLiteral`; other
tokens are no atoms. -/
def atom_expression (t : Token) : Option Expression :=
  match t.type with
  | .IDENT => some (.IdentifierLiteral t.literal)
  | .INT =>
    match stoi t.literal with
    | .ok value => some (.IntegerLiteral value)
    | .error _ => none
  | _ => none

namespace Lexer

/-- The state of a lexer that has read `pre` and has `rest` before it: its
current character is the first one of `rest` (`'\0'` when `rest` is empty). -/
def at_split (pre rest : List Char) (line : Nat) : Lexer :=
  state_at (pre ++ rest) pre.length line

/-- The characters `read_ident` goes over. -/
def is_ident_char (c : Char) : Bool :=
  c.isAlpha || c.isAlphanum || c == '_'

/-- The characters the outer loop of `read_number` goes over. -/
def is_number_char (c : Char) : Bool :=
  c.isDigit || c == '.'

end Lexer

/-- The texts the lexer scans as one `IDENT` token: a letter, then letters,
digits and underscores, the whole being no keyword and no type name. -/
def is_identifier_name (x : List Char) : Bool :=
  match x with
  | [] => false
  | c :: w => c.isAlpha && w.all Lexer.is_ident_char && lookup_ident (c :: w) == .IDENT

/-- The decimal integer literals: one digit or more. -/
def is_decimal_literal (d : List Char) : Bool :=
  match d with
  | [] => false
  | c :: w => c.isDigit && w.all Char.isDigit

/-- The source text `let x: t = n;`. -/
def let_source (x t n : List Char) : List Char :=
  "let ".toList ++ x ++ ": ".toList ++ t ++ " = ".toList ++ n ++ ";".toList

mutual

/-- No pointer below this expression is null: operands, callee and arguments
are present, at every depth. -/
def Expression.complete : Expression → Bool
  | .InfixExpression left _ right => Expression.complete_opt left && Expression.complete_opt right
  | .CallExpression function arguments =>
    Expression.complete_opt function && Expression.complete_list arguments
  | .IdentifierLiteral _ => true
  | .IntegerLiteral _ => true
  | .FloatLiteral _ => true
  | .BooleanLiteral _ => true

/-- An `Expression*` that is not null and points to a complete expression. -/
def Expression.complete_opt : Option Expression → Bool
  | none => false
  | some e => Expression.complete e

/-- A vector of `Expression*` none of which is null or incomplete. -/
def Expression.complete_list : List (Option Expression) → Bool
  | [] => true
  | e :: es => Expression.complete_opt e && Expression.complete_list es

end

mutual

/-- No pointer below this statement is null, the `alternative` of an
`IfStatement` apart, which is null when there is no `else`. -/
def Statement.complete : Statement → Bool
  | .ExpressionStatement expr => Expression.complete_opt expr
  | .LetStatement name value _ => Expression.complete_opt name && Expression.complete_opt value
  | .BlockStatement statements => Statement.complete_list statements
  | .FunctionStatement params body name _ =>
    params.all Option.isSome && Statement.complete_opt body && Expression.complete_opt name
  | .ReturnStatement return_value => Expression.complete_opt return_value
  | .AssignStatement ident right_value =>
    Expression.complete_opt ident && Expression.complete_opt right_value
  | .IfStatement condition concequence alternative =>
    Expression.complete_opt condition && Statement.complete_opt concequence &&
      Statement.complete_alt alternative

/-- A `BlockStatement*` that is not null and points to a complete block. -/
def Statement.complete_opt : Option Statement → Bool
  | none => false
  | some s => Statement.complete s

/-- The `alternative` of an `IfStatement`: null, or a complete block. -/
def Statement.complete_alt : Option Statement → Bool
  | none => true
  | some s => Statement.complete s

/-- A vector of complete statements. -/
def Statement.complete_list : List Statement → Bool
  | [] => true
  | s :: ss => Statement.complete s && Statement.complete_list ss

end

mutual

/-- The expression children named by the invariant of the AST are present, in
this expression and below: `InfixExpression.left`, `InfixExpression.right` and
every element of `CallExpression.arguments`. -/
def Expression.fully_formed : Expression → Bool
  | .InfixExpression left _ right =>
    Expression.present_fully_formed left && Expression.present_fully_formed right
  | .CallExpression function arguments =>
    Expression.absent_or_fully_formed function && Expression.all_present_fully_formed arguments
  | .IdentifierLiteral _ => true
  | .IntegerLiteral _ => true
  | .FloatLiteral _ => true
  | .BooleanLiteral _ => true

/-- A child that has to be present and fully formed. -/
def Expression.present_fully_formed : Option Expression → Bool
  | none => false
  | some e => Expression.fully_formed e

/-- A child the invariant does not name: fully formed when it is there. -/
def Expression.absent_or_fully_formed : Option Expression → Bool
  | none => true
  | some e => Expression.fully_formed e

/-- Every element of an argument vector is present and fully formed. -/
def Expression.all_present_fully_formed : List (Option Expression) → Bool
  | [] => true
  | e :: es => Expression.present_fully_formed e && Expression.all_present_fully_formed es

end

mutual

/-- The expression children named by the invariant of the AST are present, in
this statement and below: `ExpressionStatement.expr`, `LetStatement.value`,
`ReturnStatement.return_value`, `AssignStatement.right_value`,
`IfStatement.condition`, and those of the expressions and statements inside. -/
def Statement.fully_formed : Statement → Bool
  | .ExpressionStatement expr => Expression.present_fully_formed expr
  | .LetStatement name value _ =>
    Expression.absent_or_fully_formed name && Expression.present_fully_formed value
  | .BlockStatement statements => Statement.all_fully_formed statements
  | .FunctionStatement _ body name _ =>
    Statement.absent_or_fully_formed body && Expression.absent_or_fully_formed name
  | .ReturnStatement return_value => Expression.present_fully_formed return_value
  | .AssignStatement ident right_value =>
    Expression.absent_or_fully_formed ident && Expression.present_fully_formed right_value
  | .IfStatement condition concequence alternative =>
    Expression.present_fully_formed condition && Statement.absent_or_fully_formed concequence &&
      Statement.absent_or_fully_formed alternative

/-- A block the invariant does not name: fully formed when it is there. -/
def Statement.absent_or_fully_formed : Option Statement → Bool
  | none => true
  | some s => Statement.fully_formed s

/-- Every statement of a vector is fully formed. -/
def Statement.all_fully_formed : List Statement → Bool
  | [] => true
  | s :: ss => Statement.fully_formed s && Statement.all_fully_formed ss

end

/-- The invariant of the AST on a whole program. -/
def Program.fully_formed (program : Program) : Bool :=
  Statement.all_fully_formed program.statements

/-- No pointer of the program is null, `IfStatement.alternative` apart. -/
def Program.complete (program : Program) : Bool :=
  Statement.complete_list program.statements

namespace Parser

/-- Between `p` and `p'` diagnostics were only appended, and `Q` holds when none was. -/
def grows (p p' : Parser) (Q : Prop) : Prop :=
  ∃ ext, p'.errors = p.errors ++ ext ∧ (ext = [] → Q)

end Parser

/-! ## The IR backend, as the code generator sees it

The backend is an external collaborator.  The model keeps what the code
generator asks of it: every `builder.Create...` call is a request, recorded in
order together with the block the insertion cursor is in; its result is a fresh
handle.  What the backend makes of a request (the default constant folder may
answer a request on two constants with a constant instead of an instruction) is
outside the model.  A request with a null operand is recorded as it is made. -/

/-- The three type handles of `type_map`. -/
inductive Ty where
  | int32 | float32 | int1
  deriving DecidableEq, Repr

/-- A non-null `llvm::Value*`. -/
inductive Value where
  /-- `ConstantInt::get(context, APInt(bits, value, true))`. -/
  | ConstantInt (bits : Nat) (value : Int)
  /-- `ConstantFP::get(context, APFloat(value))`. -/
  | ConstantFP (value : FloatValue)
  /-- A `GlobalVariable` of the module. -/
  | GlobalVariable (name : List Char)
  /-- The function made by the `id`-th call of `Function::Create`. -/
  | Function (id : Nat)
  /-- `func->arg_begin() + index`. -/
  | Argument (function : Nat) (index : Nat)
  /-- The result of the `id`-th request made of the builder. -/
  | Instruction (id : Nat)
  deriving DecidableEq, Repr

/-- The binary arithmetic requests. -/
inductive BinaryOp where
  | Add | Sub | Mul | SDiv | SRem | FAdd | FSub | FMul | FDiv | FRem
  deriving DecidableEq, Repr

/-- The comparison requests. -/
inductive Predicate where
  | ICMP_SLT | ICMP_SLE | ICMP_SGT | ICMP_SGE | ICMP_EQ | ICMP_NE
  | FCMP_OLT | FCMP_OLE | FCMP_OGT | FCMP_OGE | FCMP_OEQ | FCMP_ONE
  deriving DecidableEq, Repr

/-- A request made of the builder. -/
inductive Request where
  | Alloca (type : Option Ty) (name : List Char)
  | Store (value : Option Value) (ptr : Option Value)
  | Load (type : Option Ty) (ptr : Option Value)
  | BinOp (op : BinaryOp) (lhs rhs : Option Value)
  | Cmp (pred : Predicate) (lhs rhs : Option Value)
  | Ret (value : Option Value)
  | CondBr (cond : Option Value) (then_block else_block : Nat)
  | Br (target : Nat)
  | Call (callee : Nat) (args : List (Option Value))
  deriving DecidableEq, Repr

/-- What `Function::Create` was called with. -/
structure FunctionDecl where
  name : List Char
  return_type : Option Ty
  param_types : List (Option Ty)
  deriving DecidableEq, Repr

/-- A basic block: its name and the function it is in (`getParent()`). -/
structure BasicBlock where
  name : List Char
  parent : Option Nat
  deriving DecidableEq, Repr

/-! ## Environment.hpp -/

/-- The class `Environment`: the `records` map, as the list of its bindings with
at most one per name, and the `parent` pointer. -/
inductive Environment where
  | mk (records : List (List Char × Option Value × Option Ty)) (parent : Option Environment)
      (name : List Char)
  deriving Repr

namespace Environment

/-- The field `records`. -/
def records : Environment → List (List Char × Option Value × Option Ty)
  | mk r _ _ => r

/-- The field `parent`. -/
def parent : Environment → Option Environment
  | mk _ p _ => p

/-- The assignment `records[name] = entry`. -/
def insert (name : List Char) (entry : Option Value × Option Ty) :
    List (List Char × Option Value × Option Ty) → List (List Char × Option Value × Option Ty)
  | [] => [(name, entry)]
  | (k, v) :: rest => if k = name then (k, entry) :: rest else (k, v) :: insert name entry rest

/-- The method `Environment::define`; the value it returns is its argument `value`. -/
def define (env : Environment) (name : List Char) (value : Option Value) (type : Option Ty) :
    Environment :=
  match env with
  | mk r p n => mk (insert name (value, type) r) p n

/-- The method `Environment::resolve`, which `lookup` calls. -/
def resolve : Environment → List Char → Option Value × Option Ty
  | mk r p _, name =>
    match r.lookup name with
    | some entry => entry
    | none =>
      match p with
      | some parent => resolve parent name
      | none => (none, none)

/-- The method `Environment::lookup`. -/
def lookup (env : Environment) (name : List Char) : Option Value × Option Ty :=
  resolve env name

mutual

/-- Equality of two scopes is decidable. -/
def decEq : (a b : Environment) → Decidable (a = b)
  | mk r1 p1 n1, mk r2 p2 n2 =>
    match (inferInstance : Decidable (r1 = r2)), decEqOption p1 p2,
      (inferInstance : Decidable (n1 = n2)) with
    | isTrue h0, isTrue h1, isTrue h2 => isTrue (by rw [h0, h1, h2])
    | isFalse h, _, _ => isFalse (fun e => h (by cases e; rfl))
    | _, isFalse h, _ => isFalse (fun e => h (by cases e; rfl))
    | _, _, isFalse h => isFalse (fun e => h (by cases e; rfl))

/-- Equality of two `Environment*`, either of which may be null. -/
def decEqOption : (a b : Option Environment) → Decidable (a = b)
  | none, none => isTrue rfl
  | none, some _ => isFalse (fun e => by cases e)
  | some _, none => isFalse (fun e => by cases e)
  | some x, some y =>
    match decEq x y with
    | isTrue h => isTrue (by rw [h])
    | isFalse h => isFalse (fun e => h (by cases e; rfl))

end

instance : DecidableEq Environment := decEq

end Environment

/-! ## Compiler.hpp -/

/-- The state of a `Compiler`: its scope, its diagnostics, and what it has asked
of the module and the builder it owns. -/
structure Compiler where
  /-- The field `env`, the current scope. -/
  env : Environment
  /-- The field `errors`. -/
  errors : List String
  /-- The requests made of the builder, in order, each with the block the
  insertion cursor was in (`none`: no insertion point set). -/
  requests : List (Option Nat × Request)
  /-- The block `builder.GetInsertBlock()`. -/
  insert_block : Option Nat
  /-- The calls of `Function::Create`, in order; a function is named by its index. -/
  functions : List FunctionDecl
  /-- The calls of `BasicBlock::Create`, in order; a block is named by its index. -/
  blocks : List BasicBlock
  /-- The global variables of the module: name, type and constant initializer. -/
  globals : List (List Char × Option Ty × Value)
  deriving DecidableEq, Repr

namespace Compiler

/-- The map `type_map`, read with `operator[]`: a name that is not in it gives null. -/
def type_map (name : List Char) : Option Ty :=
  if name = "int".toList then some .int32
  else if name = "float".toList then some .float32
  else if name = "bool".toList then some .int1
  else none

/-- A request made of the builder: it is recorded at the insertion cursor, and
its result is a fresh handle. -/
def request (c : Compiler) (r : Request) : Value × Compiler :=
  (.Instruction c.requests.length,
    { c with requests := c.requests ++ [(c.insert_block, r)] })

/-- The call `BasicBlock::Create(context, name, parent)`. -/
def create_block (c : Compiler) (name : List Char) (parent : Option Nat) : Nat × Compiler :=
  (c.blocks.length, { c with blocks := c.blocks ++ [{ name := name, parent := parent }] })

/-- The call `func->insert(func->end(), block)`. -/
def insert_into (c : Compiler) (func : Nat) (block : Nat) : Compiler :=
  { c with blocks := c.blocks.modify (fun b => { b with parent := some func }) block }

/-- The method `Compiler::initialize_builtins`. -/
def initialize_builtins (c : Compiler) : Compiler :=
  let bool_type := type_map "bool".toList
  let true_val := Value.ConstantInt 1 1
  let false_val := Value.ConstantInt 1 0
  let c1 := { c with globals := c.globals ++
    [("true".toList, bool_type, true_val), ("false".toList, bool_type, false_val)] }
  let env1 := c1.env.define "true".toList (some (.GlobalVariable "true".toList)) bool_type
  let env2 := env1.define "false".toList (some (.GlobalVariable "false".toList)) bool_type
  { c1 with env := env2 }

/-- The constructor `Compiler()`. -/
def new : Compiler :=
  initialize_builtins
    { env := Environment.mk [] none [], errors := [], requests := [], insert_block := none,
      functions := [], blocks := [], globals := [] }

/-- The two `switch (op[0])` of `visit_infix_expression`, on resolved operands:
the request selected, if any, and whether `result_type` is set to the 1-bit type. -/
def select_request (op : List Char) (left_type right_type : Option Ty) :
    Option ((Sum BinaryOp Predicate) × Option Ty) :=
  let c := op.headD NUL
  if left_type = type_map "int".toList ∧ right_type = type_map "int".toList then
    if c = '+' then some (.inl .Add, none)
    else if c = '-' then some (.inl .Sub, none)
    else if c = '*' then some (.inl .Mul, none)
    else if c = '/' then some (.inl .SDiv, none)
    else if c = '%' then some (.inl .SRem, none)
    else if c = '^' then none
    else if c = '<' then
      if op.length = 1 then some (.inr .ICMP_SLT, some .int1)
      else if op = "<=".toList then some (.inr .ICMP_SLE, some .int1)
      else none
    else if c = '>' then
      if op.length = 1 then some (.inr .ICMP_SGT, some .int1)
      else if op = ">=".toList then some (.inr .ICMP_SGE, some .int1)
      else none
    else if c = '=' then
      if op = "==".toList then some (.inr .ICMP_EQ, some .int1) else none
    else if c = '!' then
      if op = "!=".toList then some (.inr .ICMP_NE, some .int1) else none
    else none
  else if left_type = type_map "float".toList ∧ right_type = type_map "float".toList then
    if c = '+' then some (.inl .FAdd, none)
    else if c = '-' then some (.inl .FSub, none)
    else if c = '*' then some (.inl .FMul, none)
    else if c = '/' then some (.inl .FDiv, none)
    else if c = '%' then some (.inl .FRem, none)
    else if c = '^' then none
    else if c = '<' then
      if op.length = 1 then some (.inr .FCMP_OLT, some .int1)
      else if op = "<=".toList then some (.inr .FCMP_OLE, some .int1)
      else none
    else if c = '>' then
      if op.length = 1 then some (.inr .FCMP_OGT, some .int1)
      else if op = ">=".toList then some (.inr .FCMP_OGE, some .int1)
      else none
    else if c = '=' then
      if op = "==".toList then some (.inr .FCMP_OEQ, some .int1) else none
    else if c = '!' then
      if op = "!=".toList then some (.inr .FCMP_ONE, some .int1) else none
    else none
  else none

/-- The type `result->getType()` of the result of a request of `select_request`:
a comparison gives the 1-bit type, an arithmetic request the type of its operands. -/
def result_getType (r : Sum BinaryOp Predicate) (operand_type : Option Ty) : Option Ty :=
  match r with
  | .inl _ => operand_type
  | .inr _ => some .int1

/-- The body of `visit_infix_expression` after its two calls of `resolve_value`. -/
def infix_result (op : List Char) (left_value : Option Value) (left_type : Option Ty)
    (right_value : Option Value) (right_type : Option Ty) (c : Compiler) :
    (Option Value × Option Ty) × Compiler :=
  match select_request op left_type right_type with
  | none => ((none, none), c)
  | some (r, result_type) =>
    let (result, c1) := match r with
      | .inl bin => request c (.BinOp bin left_value right_value)
      | .inr pred => request c (.Cmp pred left_value right_value)
    -- if (result != nullptr && result_type != nullptr) result_type = result->getType();
    let result_type1 :=
      if result_type ≠ none then result_getType r left_type else result_type
    ((some result, result_type1), c1)

/-- The member access `static_cast<IdentifierLiteral*>(node)->value`. -/
def identifier_value (node : Option Expression) : Except Abort (List Char) :=
  match node with
  | none => .error .null_deref
  | some (.IdentifierLiteral name) => .ok name
  | some _ => .error .bad_cast

mutual

/-- The method `Compiler::resolve_value` on a node that is not null;
`visit_infix_expression` and `visit_call_expression` are its two last cases. -/
def resolve_node : Expression → Compiler → Except Abort ((Option Value × Option Ty) × Compiler)
  | .IntegerLiteral value, c =>
    .ok ((some (.ConstantInt 32 value), type_map "int".toList), c)
  | .FloatLiteral value, c =>
    .ok ((some (.ConstantFP value), type_map "float".toList), c)
  | .IdentifierLiteral name, c =>
    match c.env.lookup name with
    | (some value, type) =>
      let (loaded, c1) := request c (.Load type (some value))
      .ok ((some loaded, type), c1)
    | (none, _) => .ok ((none, none), c)
  | .BooleanLiteral value, c =>
    .ok ((some (.ConstantInt 1 (if value then 1 else 0)), some .int1), c)
  | .InfixExpression left op right, c =>
    match left, right with
    | some l, some r => do
      let ((left_value, left_type), c1) ← resolve_node l c
      let ((right_value, right_type), c2) ← resolve_node r c1
      pure (infix_result op left_value left_type right_value right_type c2)
    | _, _ => .ok ((none, none), c)
  | .CallExpression function arguments, c => do
    let func_name ← identifier_value function
    let (params_values, c1) ← resolve_nodes arguments c
    match c1.env.lookup func_name with
    | (some (.Function id), return_type) =>
      let (ret, c2) := request c1 (.Call id params_values)
      pure ((some ret, return_type), c2)
    | (none, _) => Except.error Abort.null_deref
    | (some _, _) => Except.error Abort.bad_cast

/-- The loop of `visit_call_expression` over the arguments, each through
`resolve_value`, which gives null for a null argument. -/
def resolve_nodes :
    List (Option Expression) → Compiler → Except Abort (List (Option Value) × Compiler)
  | [], c => .ok ([], c)
  | none :: rest, c => do
    let (values, c1) ← resolve_nodes rest c
    pure (none :: values, c1)
  | some e :: rest, c => do
    let ((value, _), c1) ← resolve_node e c
    let (values, c2) ← resolve_nodes rest c1
    pure (value :: values, c2)

end

/-- The method `Compiler::resolve_value`. -/
def resolve_value (node : Option Expression) (c : Compiler) :
    Except Abort ((Option Value × Option Ty) × Compiler) :=
  match node with
  | some e => resolve_node e c
  | none => .ok ((none, none), c)

/-- The method `Compiler::visit_infix_expression`. -/
def visit_infix_expression (left : Option Expression) (op : List Char)
    (right : Option Expression) (c : Compiler) :
    Except Abort ((Option Value × Option Ty) × Compiler) :=
  resolve_node (.InfixExpression left op right) c

/-- The method `Compiler::visit_call_expression`. -/
def visit_call_expression (function : Option Expression)
    (arguments : List (Option Expression)) (c : Compiler) :
    Except Abort ((Option Value × Option Ty) × Compiler) :=
  resolve_node (.CallExpression function arguments) c

/-- The method `Compiler::compile` on an `Expression*`: an infix or a call
expression is visited and its value dropped, any other node is an unknown
node type. -/
def compile_expression (node : Option Expression) (c : Compiler) : Except Abort Compiler :=
  match node with
  | some (.InfixExpression left op right) => do
    let (_, c1) ← visit_infix_expression left op right c
    pure c1
  | some (.CallExpression function arguments) => do
    let (_, c1) ← visit_call_expression function arguments c
    pure c1
  | _ => .ok c

/-- The method `Compiler::visit_let_statement`. -/
def visit_let_statement (name value : Option Expression) (c : Compiler) :
    Except Abort Compiler :=
  if name.isSome ∧ value.isSome then do
    let name ← identifier_value name
    let ((val, type), c1) ← resolve_value value c
    if c1.env.lookup name = (none, none) then
      let (ptr, c2) := request c1 (.Alloca type name)
      let (_, c3) := request c2 (.Store val (some ptr))
      pure { c3 with env := c3.env.define name (some ptr) type }
    else
      let (ptr, _) := c1.env.lookup name
      let (_, c2) := request c1 (.Store val ptr)
      pure c2
  else .ok c

/-- The method `Compiler::visit_return_statement`. -/
def visit_return_statement (return_value : Option Expression) (c : Compiler) :
    Except Abort Compiler := do
  let ((val, _), c1) ← resolve_value return_value c
  let (_, c2) := request c1 (.Ret val)
  pure c2

/-- The method `Compiler::visit_assign_statement`. -/
def visit_assign_statement (ident right_value : Option Expression) (c : Compiler) :
    Except Abort Compiler := do
  let name ← identifier_value ident
  let ((val, _), c1) ← resolve_value right_value c
  if c1.env.lookup name = (none, none) then
    pure { c1 with errors := c1.errors ++
      ["COMPILE ERROR: Identifier " ++ String.mk name ++
        " has not been defined before its re-assigned"] }
  else
    let (ptr, _) := c1.env.lookup name
    let (_, c2) := request c1 (.Store val ptr)
    pure c2

/-- The expression `builder.GetInsertBlock()->getParent()`: the function the
block of the cursor is in, null when the block is in none. -/
def insert_block_parent (c : Compiler) : Except Abort (Option Nat) :=
  match c.insert_block with
  | none => .error .null_deref
  | some b =>
    match c.blocks.get? b with
    | none => .error .null_deref
    | some block => .ok block.parent

/-- The use `func->` of a `Function*`. -/
def function_of (func : Option Nat) : Except Abort Nat :=
  match func with
  | none => .error .null_deref
  | some f => .ok f

/-- The loop of `visit_function_statement` that makes a slot for each parameter
and stores the incoming argument in it. -/
def store_params (func : Nat) : Nat → List (List Char × Option Ty) → Compiler →
    List (Option Value) × Compiler
  | _, [], c => ([], c)
  | i, (param_name, param_type) :: rest, c =>
    let (ptr, c1) := request c (.Alloca param_type param_name)
    let (_, c2) := request c1 (.Store (some (.Argument func i)) (some ptr))
    let (ptrs, c3) := store_params func (i + 1) rest c2
    (some ptr :: ptrs, c3)

/-- The loop of `visit_function_statement` that binds the parameters in the new scope. -/
def define_params : List (List Char × Option Ty) → List (Option Value) → Environment →
    Environment
  | (param_name, param_type) :: rest, ptr :: ptrs, env =>
    define_params rest ptrs (env.define param_name ptr param_type)
  | _, _, env => env

/-- The reads `param->name` and `param->value_type` of the parameters. -/
def param_fields : List (Option FunctionParameter) → Except Abort (List (List Char × Option Ty))
  | [] => .ok []
  | none :: _ => .error .null_deref
  | some param :: rest => do
    let fields ← param_fields rest
    pure ((param.name, type_map param.value_type) :: fields)

mutual

/-- The method `Compiler::compile` on a `Statement*` that is not null; each case
is the `visit_..._statement` method of the node. -/
def compile_node : Statement → Compiler → Except Abort Compiler
  | .ExpressionStatement expr, c => compile_expression expr c
  | .LetStatement name value _, c => visit_let_statement name value c
  | .BlockStatement statements, c => compile_nodes statements c
  | .ReturnStatement return_value, c => visit_return_statement return_value c
  | .AssignStatement ident right_value, c => visit_assign_statement ident right_value c
  | .FunctionStatement params body name return_type_name, c => do
    -- visit_function_statement
    let func_name ← identifier_value name
    let fields ← param_fields params
    let return_type := type_map return_type_name
    let func := c.functions.length
    let c1 := { c with functions := c.functions ++
      [{ name := func_name, return_type := return_type, param_types := fields.map Prod.snd }] }
    let (block, c2) := create_block c1 (func_name ++ "_entry".toList) (some func)
    let prev_block := c2.insert_block
    let prev_env := c2.env
    let c3 := { c2 with insert_block := some block }
    let (params_ptrs, c4) := store_params func 0 fields c3
    let env1 := define_params fields params_ptrs prev_env
    let env2 := env1.define func_name (some (.Function func)) return_type
    let c5 ← compile_opt body { c4 with env := env2 }
    let env3 := prev_env.define func_name (some (.Function func)) return_type
    -- SetInsertPoint(prev_block); restoreIP(prev_point): the cursor is where it was
    pure { c5 with env := env3, insert_block := prev_block }
  | .IfStatement condition concequence alternative, c => do
    -- visit_if_statement
    let ((cond_val, _), c1) ← resolve_value condition c
    let func ← insert_block_parent c1
    let (then_block, c2) := create_block c1 "then".toList func
    let (else_block, c3) := create_block c2 "else".toList none
    let (merge_block, c4) := create_block c3 "ifcont".toList none
    let (_, c5) := request c4 (.CondBr cond_val then_block else_block)
    let c6 ← compile_opt concequence { c5 with insert_block := some then_block }
    let (_, c7) := request c6 (.Br merge_block)
    let f ← function_of func
    let c8 := insert_into c7 f else_block
    let c9 ← compile_opt alternative { c8 with insert_block := some else_block }
    let (_, c10) := request c9 (.Br merge_block)
    let c11 := insert_into c10 f merge_block
    pure { c11 with insert_block := some merge_block }

/-- The method `Compiler::compile` on a `Statement*`: nothing is done for null. -/
def compile_opt : Option Statement → Compiler → Except Abort Compiler
  | none, c => .ok c
  | some s, c => compile_node s c

/-- The loops of `visit_program` and `visit_block_statement`. -/
def compile_nodes : List Statement → Compiler → Except Abort Compiler
  | [], c => .ok c
  | s :: rest, c => do
    let c1 ← compile_node s c
    compile_nodes rest c1

end

/-- The method `Compiler::compile` on a `Program*`. -/
def compile (program : Program) (c : Compiler) : Except Abort Compiler :=
  compile_nodes program.statements c

end Compiler

/-! ## Notions used to state properties of the code generator -/

/-- Whether a request is a `CreateStore`. -/
def Request.is_store : Request → Bool
  | .Store _ _ => true
  | _ => false

/-- The store requests made so far, in order. -/
def Compiler.stores (c : Compiler) : List (Option Nat × Request) :=
  c.requests.filter (fun r => r.2.is_store)

/-- The requests made so far with the insertion cursor in the block `block`. -/
def Compiler.requests_in (c : Compiler) (block : Nat) : List (Option Nat × Request) :=
  c.requests.filter (fun r => r.1 = some block)

/-- Whether `name` is bound in the scope or in one of its ancestors. -/
def Environment.bound : Environment → List Char → Bool
  | .mk r p _, name =>
    (r.lookup name).isSome ||
      match p with
      | some parent => Environment.bound parent name
      | none => false

/-- Whether every binding of the scope chain has a handle that is not null. -/
def Environment.handles_present : Environment → Bool
  | .mk r p _ =>
    r.all (fun entry => entry.2.1.isSome) &&
      match p with
      | some parent => Environment.handles_present parent
      | none => true

/-- Whether a cursor, if set, is in a block that has been created. -/
def Compiler.block_exists (c : Compiler) : Option Nat → Bool
  | none => true
  | some k => decide (k < c.blocks.length)

/-- Whether the cursor of every request made so far, and the current cursor,
are in blocks that have been created. -/
def Compiler.coherent (c : Compiler) : Bool :=
  c.requests.all (fun r => c.block_exists r.1) && c.block_exists c.insert_block

/-- The state `c1` is `c` with more requests, all made at the cursor of `c`
and none of them a store. -/
def Compiler.only_requests (c c1 : Compiler) : Prop :=
  ∃ added, c1 = { c with requests := c.requests ++ added } ∧
    ∀ r ∈ added, r.1 = c.insert_block ∧ r.2.is_store = false

/-- A cursor that is the cursor of `c` or in a block created between `c` and `c1`. -/
def Compiler.cursor_from (c c1 : Compiler) (cursor : Option Nat) : Prop :=
  cursor = c.insert_block ∨
    ∃ k, cursor = some k ∧ c.blocks.length ≤ k ∧ k < c1.blocks.length

/-- From `c` to `c1`, the blocks of `c` are kept as they are, and the cursor and
the cursor of every new request are the cursor of `c` or in a new block. -/
def Compiler.advances (c c1 : Compiler) : Prop :=
  c.blocks <+: c1.blocks ∧
  Compiler.cursor_from c c1 c1.insert_block ∧
  ∃ added, c1.requests = c.requests ++ added ∧
    ∀ r ∈ added, Compiler.cursor_from c c1 r.1

/-- What compiling a statement keeps: `advances`, and that no binding has a null
handle. -/
def Compiler.keeps (c c1 : Compiler) : Prop :=
  Compiler.advances c c1 ∧
    (c.env.handles_present = true → c1.env.handles_present = true)

/-! ## Notions used to state properties of the parser -/

/-- The result `r1` of a call settles the result `r` of the same call made with
less fuel: it is `r`, unless the fuel ran out for `r`. -/
def settles {α : Type} (r r1 : Except Abort α) : Prop :=
  r = .error .out_of_fuel ∨ r1 = r

namespace Parser

/-- One call of `next_token` takes the parser from `p` to `p1`. -/
def advances_to (p p1 : Parser) : Prop :=
  ∃ fuel, next_token fuel p = .ok p1

/-- The call `parse_expression(precedence)` at `p` returns `e` and leaves `p1`. -/
def expression_at (precedence : PrecedenceType) (p : Parser) (e : Option Expression)
    (p1 : Parser) : Prop :=
  ∃ fuel, parse_expression fuel precedence p = .ok (e, p1)

/-- The call `parse_block_statement()` at `p` returns the block of the
statements `statements` and leaves `p1`. -/
def block_at (p : Parser) (statements : List Statement) (p1 : Parser) : Prop :=
  ∃ fuel, parse_block_statement fuel p = .ok (.BlockStatement statements, p1)

/-- Successive calls of `next_token` from `p` make the tokens `ts` the current
token, one after the other, and leave `p1`. -/
def reads : Parser → List Token → Parser → Prop
  | p, [], p1 => p1 = p
  | p, t :: ts, p1 => p.peek_token = t ∧ ∃ p2, advances_to p p2 ∧ reads p2 ts p1

/-- The same, computed: `n` calls of `next_token`, and the tokens they made current. -/
def advance (fuel : Nat) : Nat → Parser → Except Abort (List Token × Parser)
  | 0, p => .ok ([], p)
  | n + 1, p =>
    match next_token fuel p with
    | .error e => .error e
    | .ok p1 =>
      match advance fuel n p1 with
      | .error e => .error e
      | .ok (ts, p2) => .ok (p.peek_token :: ts, p2)

end Parser

namespace Parser

/-- The arguments of a call after the first one: each is announced by a comma
as the next token, and is the expression `parse_expression` returns two tokens
further on. `p1` is the state after the last of them. -/
def more_arguments_at : Parser → List (Option Expression) → Parser → Prop
  | p, [], p1 => p1 = p
  | p, e :: es, p1 =>
    p.peek_token.type = .COMMA ∧
      ∃ q1 q2 q3, advances_to p q1 ∧ advances_to q1 q2 ∧ expression_at .LOWEST q2 e q3 ∧
        more_arguments_at q3 es p1

/-- A non-empty argument list read from the state `p`, whose current token is the
opening parenthesis: the expression `first` starts at the next token, the
expressions `others` follow it, and `p1` is the state after the last argument. -/
def arguments_at (p : Parser) (first : Option Expression) (others : List (Option Expression))
    (p1 : Parser) : Prop :=
  ∃ q1 q2, advances_to p q1 ∧ expression_at .LOWEST q1 first q2 ∧
    more_arguments_at q2 others p1

/-- The condition on which the loop of `parse_expression` stops before the next
token. -/
def stops_before (precedence : PrecedenceType) (p : Parser) : Prop :=
  p.peek_token.type = .SEMICOLON ∨
    ¬ precedence.toNat < (token_precedence p.peek_token.type).toNat

end Parser

/-- The parameters after the first one, read off their tokens: each is the four
tokens `, name : type`, with an `IDENT` token for the name and a `TYPE` token
for the type. -/
def more_parameters : List Token → Option (List FunctionParameter)
  | [] => some []
  | tcomma :: tname :: tcolon :: ttype :: ts =>
    if tcomma.type = .COMMA ∧ tname.type = .IDENT ∧ tcolon.type = .COLON ∧ ttype.type = .TYPE
    then
      match more_parameters ts with
      | some ps => some ({ name := tname.literal, value_type := ttype.literal } :: ps)
      | none => none
    else none
  | _ => none

/-- The parameters of a function, read off the tokens between its parentheses:
none, or `name : type` followed by `, name : type` any number of times. -/
def parameter_list : List Token → Option (List FunctionParameter)
  | [] => some []
  | tname :: tcolon :: ttype :: ts =>
    if tname.type = .IDENT ∧ tcolon.type = .COLON ∧ ttype.type = .TYPE then
      match more_parameters ts with
      | some ps => some ({ name := tname.literal, value_type := ttype.literal } :: ps)
      | none => none
    else none
  | _ => none

namespace Environment

/-- The method `Environment::define` as a call: the value it returns, which is
its argument `value`, and the scope after the call. -/
def define_call (env : Environment) (name : List Char) (value : Option Value)
    (type : Option Ty) : Option Value × Environment :=
  (value, env.define name value type)

end Environment

/-- Whether a request is a `CreateAlloca`. -/
def Request.is_alloca : Request → Bool
  | .Alloca _ _ => true
  | _ => false

/-- The allocation requests made so far, in order. -/
def Compiler.allocas (c : Compiler) : List (Option Nat × Request) :=
  c.requests.filter (fun r => r.2.is_alloca)

namespace Compiler

/-- The state in which `visit_function_statement` compiles the body of a
function named `func_name`, with the parameters `fields` (name and type) and the
return type `return_type`: the function and its entry block are created, the
insertion cursor is in the entry block, a slot is made for each parameter, and
the current scope is a copy of the scope before, in which the parameters and
then the name of the function are defined. -/
def function_body_state (func_name : List Char) (fields : List (List Char × Option Ty))
    (return_type : Option Ty) (c : Compiler) : Compiler :=
  let func := c.functions.length
  let c1 := { c with functions := c.functions ++
    [{ name := func_name, return_type := return_type, param_types := fields.map Prod.snd }] }
  let (block, c2) := create_block c1 (func_name ++ "_entry".toList) (some func)
  let prev_env := c2.env
  let c3 := { c2 with insert_block := some block }
  let (params_ptrs, c4) := store_params func 0 fields c3
  let env1 := define_params fields params_ptrs prev_env
  let env2 := env1.define func_name (some (.Function func)) return_type
  { c4 with env := env2 }

/-- The names and types of parameters that are all present. -/
def fields_of (params : List FunctionParameter) : List (List Char × Option Ty) :=
  params.map (fun param => (param.name, type_map param.value_type))

end Compiler

/-! ## Notions used to state the shape of a parsed expression -/

/-- The node a literal or identifier token parses to: `parse_identifier` on an
`IDENT` token, `parse_integer_literal` on an `INT` token whose text `std::stoi`
converts, `parse_float_literal` on a `FLOAT` token whose text `std::stof`
converts and `parse_boolean_literal` on `true` and `false`; other tokens are no
literals. -/
def literal_expression (t : Token) : Option Expression :=
  match t.type with
  | .IDENT => some (.IdentifierLiteral t.literal)
  | .INT =>
    match stoi t.literal with
    | .ok value => some (.IntegerLiteral value)
    | .error _ => none
  | .FLOAT =>
    match stof t.literal with
    | .ok value => some (.FloatLiteral value)
    | .error _ => none
  | .TRUE => some (.BooleanLiteral true)
  | .FALSE => some (.BooleanLiteral false)
  | _ => none

/-- The type the `switch` of `Lexer::next_token` gives to the token whose text is
`op`, read off its `case` labels. -/
def operator_type (op : List Char) : Option TokenType :=
  Lexer.switch_table.findSome? (fun e =>
    match e.2.1 with
    | some (_, type2, literal2) =>
      if literal2.toList = op then some type2
      else if e.2.2.2.toList = op then some e.2.2.1 else none
    | none => if e.2.2.2.toList = op then some e.2.2.1 else none)

/-- The precedence `precedence_map` gives to the operator whose text is `op`. -/
def operator_precedence (op : List Char) : PrecedenceType :=
  match operator_type op with
  | some type => token_precedence type
  | none => .LOWEST

mutual

/-- The in-order traversal of an expression: the operands, which are the nodes
that are no `InfixExpression`, and the texts of the operators between them. -/
def Expression.in_order : Expression → List (Sum Expression (List Char))
  | .InfixExpression left op right =>
    Expression.in_order_opt left ++ [.inr op] ++ Expression.in_order_opt right
  | .CallExpression function arguments => [.inl (.CallExpression function arguments)]
  | .IdentifierLiteral value => [.inl (.IdentifierLiteral value)]
  | .IntegerLiteral value => [.inl (.IntegerLiteral value)]
  | .FloatLiteral value => [.inl (.FloatLiteral value)]
  | .BooleanLiteral value => [.inl (.BooleanLiteral value)]

/-- The in-order traversal below an `Expression*`: nothing for null. -/
def Expression.in_order_opt : Option Expression → List (Sum Expression (List Char))
  | none => []
  | some e => Expression.in_order e

end

/-- The precedence of the operator of a child that is an `InfixExpression`. -/
def Expression.root_precedence : Option Expression → Option Nat
  | some (.InfixExpression _ op _) => some (operator_precedence op).toNat
  | _ => none

mutual

/-- Every `InfixExpression` of the tree whose right child is an
`InfixExpression` has a right child operator of strictly higher precedence than
its own, and every one whose left child is an `InfixExpression` has a left child
operator of precedence greater than or equal to its own. -/
def Expression.well_nested : Expression → Bool
  | .InfixExpression left op right =>
    (match Expression.root_precedence left with
      | some k => decide ((operator_precedence op).toNat ≤ k)
      | none => true) &&
    (match Expression.root_precedence right with
      | some k => decide ((operator_precedence op).toNat < k)
      | none => true) &&
    Expression.well_nested_opt left && Expression.well_nested_opt right
  | .CallExpression _ _ => true
  | .IdentifierLiteral _ => true
  | .IntegerLiteral _ => true
  | .FloatLiteral _ => true
  | .BooleanLiteral _ => true

/-- The same below an `Expression*`. -/
def Expression.well_nested_opt : Option Expression → Bool
  | none => true
  | some e => Expression.well_nested e

end

/-- The tokens of `op1 a1 ... opn an`, each operand given with the node it
parses to. -/
def operand_tokens : List (Token × Token × Expression) → List Token
  | [] => []
  | (op, a, _) :: rest => op :: a :: operand_tokens rest

/-- The sequence `op1, a1, ..., opn, an` of operator texts and operand nodes. -/
def sequence_items : List (Token × Token × Expression) → List (Sum Expression (List Char))
  | [] => []
  | (op, _, e) :: rest => .inr op.literal :: .inl e :: sequence_items rest

/-! ## Notions used to state that the parser terminates -/

namespace Lexer

/-- From the state `l`, `k` more calls of `next_token` return, with any fuel from
`F` on, and leave the lexer at the end of its source or after it. -/
def ends_within (F : Nat) : Nat → Lexer → Prop
  | 0, l => 1 ≤ F ∧ ∃ s p n, l = state_at s p n ∧ s.length ≤ p
  | k + 1, l =>
    ∃ t l1, (∀ fuel, F ≤ fuel → next_token fuel l = .ok (t, l1)) ∧ ends_within F k l1

end Lexer

namespace Parser

/-- A bound on the calls of `next_token` after which the current token and the
next token of the parser are both end-of-input tokens made at the end of the
source, when the lexer is `k` tokens away from that end. -/
def weight (p : Parser) (k : Nat) : Nat :=
  3 * k + (if p.peek_token.type = .EOF_ then 0 else 2) +
    (if p.current_token.type = .EOF_ then 0 else 1)

/-- The lexer of `p` reaches the end of its source, and `m` bounds the weight of `p`. -/
def within (F : Nat) (p : Parser) (m : Nat) : Prop :=
  ∃ k, Lexer.ends_within F k p.lexer ∧ p.weight k ≤ m

end Parser

/-- The call `run`, a function of the fuel, finishes: from some fuel on its
outcome is always the same, and it is either a result that satisfies `Q` or one
of the two exceptions of `std::stoi`, not the exhaustion of the fuel. -/
def finishes {β : Type} (Q : β → Prop) (run : Nat → Except Abort β) : Prop :=
  ∃ N r, (∀ fuel, N ≤ fuel → run fuel = r) ∧
    match r with
    | .ok b => Q b
    | .error e => e = .out_of_range ∨ e = .invalid_argument

namespace Lexer

/-- The tokens of the text `source` are all legal: none of them has the kind
`ILLEGAL`.  The tokens are those that `next_token` returns for the text followed
by a line end, which `main` puts after every line it reads: a line end is no
token and is part of none, and it ends a number with a second `.` that stands
last in the text, whose token `next_token` does not return otherwise.  Each call
before the end of the text takes at least one character, so that
`source.length + 1` calls return every token and the end-of-input token; the
fuel is enough for every call that returns.  On a text without `'\0'` this is
the same as: the calls on the text itself return, and return no token of the
kind `ILLEGAL` (`all_legal_iff`). -/
def all_legal (source : List Char) : Bool :=
  match tokens (source.length + 3) (source.length + 1) (Lexer.new (source ++ ['\n'])) with
  | .ok ts => ts.all (fun t => t.type != .ILLEGAL)
  | .error _ => false

end Lexer

/-! # Theorems -/

/-! ## Fuel: a call that returns with some fuel returns the same with more -/

namespace Lexer

theorem skip_whitespace_mono : ∀ (f : Nat) (l r : Lexer), skip_whitespace f l = .ok r →
    ∀ f', f ≤ f' → skip_whitespace f' l = .ok r := by
  intro f
  induction f with
  | zero => intro l r h; simp [skip_whitespace] at h
  | succ k ih =>
    intro l r h f' hf
    obtain ⟨g, rfl⟩ : ∃ g, f' = g + 1 := ⟨f' - 1, by omega⟩
    rw [skip_whitespace] at h ⊢
    split at h
    · next hc => rw [if_pos hc]; exact ih _ _ h g (by omega)
    · next hc => rw [if_neg hc]; exact h

theorem read_ident_loop_mono : ∀ (f : Nat) (l r : Lexer), read_ident_loop f l = .ok r →
    ∀ f', f ≤ f' → read_ident_loop f' l = .ok r := by
  intro f
  induction f with
  | zero => intro l r h; simp [read_ident_loop] at h
  | succ k ih =>
    intro l r h f' hf
    obtain ⟨g, rfl⟩ : ∃ g, f' = g + 1 := ⟨f' - 1, by omega⟩
    rw [read_ident_loop] at h ⊢
    split at h
    · next hc => rw [if_pos hc]; exact ih _ _ h g (by omega)
    · next hc => rw [if_neg hc]; exact h

theorem read_invalid_number_mono : ∀ (f : Nat) (l : Lexer) (acc : List Char) (r : List Char × Lexer),
    read_invalid_number f l acc = .ok r →
    ∀ f', f ≤ f' → read_invalid_number f' l acc = .ok r := by
  intro f
  induction f with
  | zero => intro l acc r h; simp [read_invalid_number] at h
  | succ k ih =>
    intro l acc r h f' hf
    obtain ⟨g, rfl⟩ : ∃ g, f' = g + 1 := ⟨f' - 1, by omega⟩
    rw [read_invalid_number] at h ⊢
    split at h
    · next hc => rw [if_pos hc]; exact ih _ _ _ h g (by omega)
    · next hc => rw [if_neg hc]; exact h

theorem read_number_loop_mono : ∀ (f : Nat) (l : Lexer) (sp dc : Nat) (out : List Char)
    (r : Token × Lexer), read_number_loop f l sp dc out = .ok r →
    ∀ f', f ≤ f' → read_number_loop f' l sp dc out = .ok r := by
  intro f
  induction f with
  | zero => intro l sp dc out r h; simp [read_number_loop] at h
  | succ k ih =>
    intro l sp dc out r h f' hf
    obtain ⟨g, rfl⟩ : ∃ g, f' = g + 1 := ⟨f' - 1, by omega⟩
    rw [read_number_loop] at h ⊢
    by_cases hc : (l.current_char.isDigit || l.current_char == '.') = true
    · rw [if_pos hc] at h ⊢
      dsimp only at h ⊢
      by_cases hd : (if l.current_char = '.' then dc + 1 else dc) > 1
      · rw [if_pos hd] at h ⊢
        cases hq : read_invalid_number k l (substr l.source sp (l.pos - sp)) with
        | error e => rw [hq] at h; simp at h
        | ok v =>
          rw [read_invalid_number_mono k _ _ _ hq g (by omega)]
          rw [hq] at h
          exact h
      · rw [if_neg hd] at h ⊢
        by_cases hn : (read_char l).current_char = NUL
        · rw [if_pos hn] at h ⊢; exact h
        · rw [if_neg hn] at h ⊢; exact ih _ _ _ _ _ h g (by omega)
    · rw [if_neg hc] at h ⊢; exact h

theorem read_ident_mono (f : Nat) (l : Lexer) (r : List Char × Lexer)
    (h : read_ident f l = .ok r) (f' : Nat) (hf : f ≤ f') : read_ident f' l = .ok r := by
  unfold read_ident at h ⊢
  cases hq : read_ident_loop f l with
  | error e => rw [hq] at h; simp at h
  | ok v => rw [read_ident_loop_mono f l v hq f' hf]; rw [hq] at h; exact h

theorem next_token_switch_mono (f : Nat) (l : Lexer) (r : Token × Lexer)
    (h : next_token_switch f l = .ok r) (f' : Nat) (hf : f ≤ f') :
    next_token_switch f' l = .ok r := by
  unfold next_token_switch at h ⊢
  cases hq : next_token_cases l with
  | some v => rw [hq] at h; exact h
  | none =>
    rw [hq] at h
    dsimp only at h ⊢
    unfold next_token_default at h ⊢
    by_cases ha : l.current_char.isAlpha = true
    · rw [if_pos ha] at h ⊢
      cases hi : read_ident f l with
      | error e => rw [hi] at h; simp at h
      | ok v => rw [read_ident_mono f l v hi f' hf]; rw [hi] at h; exact h
    · rw [if_neg ha] at h ⊢
      by_cases hd : l.current_char.isDigit = true
      · rw [if_pos hd] at h ⊢
        exact read_number_loop_mono f _ _ _ _ r h f' hf
      · rw [if_neg hd] at h ⊢
        exact h

theorem next_token_mono (f : Nat) (l : Lexer) (r : Token × Lexer)
    (h : next_token f l = .ok r) (f' : Nat) (hf : f ≤ f') : next_token f' l = .ok r := by
  unfold next_token at h ⊢
  cases hq : skip_whitespace f l with
  | error e => rw [hq] at h; simp at h
  | ok l1 =>
    rw [skip_whitespace_mono f l l1 hq f' hf]
    rw [hq] at h
    exact next_token_switch_mono f l1 r h f' hf

end Lexer

/-! ## The lexer state -/

namespace Lexer

theorem getD_nul_of_le (s : List Char) (p : Nat) (h : s.length ≤ p) : s.getD p NUL = NUL := by
  simp [List.getD_eq_getElem?_getD, List.getElem?_eq_none h]

theorem read_char_current (l : Lexer) :
    (read_char l).current_char = l.source.getD l.read_pos NUL := by
  simp only [read_char]
  split
  · next h => exact (getD_nul_of_le _ _ h).symm
  · rfl

theorem read_char_state_at (s : List Char) (p n : Nat) :
    read_char (state_at s p n) = state_at s (p + 1) n := by
  have h := read_char_current (state_at s p n)
  simp only [read_char, state_at] at h ⊢
  rw [h]

theorem new_eq (source : List Char) : Lexer.new source = state_at source 0 1 := by
  have h := read_char_current
    { source := source, pos := 0, read_pos := 0, line_no := 1, current_char := source.getD 0 NUL }
  simp only [read_char, Lexer.new, state_at] at h ⊢
  rw [h]

theorem peek_char_state_at (s : List Char) (p n : Nat) :
    peek_char (state_at s p n) = s.getD (p + 1) NUL := by
  simp only [peek_char, state_at]
  split
  · next h => exact (getD_nul_of_le _ _ h).symm
  · rfl

theorem lookup_eq_none_of_not_mem {α β : Type} [BEq α] [LawfulBEq α] (a : α) :
    ∀ (l : List (α × β)), a ∉ l.map Prod.fst → l.lookup a = none := by
  intro l
  induction l with
  | nil => intro _; rfl
  | cons kv l ih =>
    intro h
    obtain ⟨k, v⟩ := kv
    simp only [List.map_cons, List.mem_cons, not_or] at h
    rw [List.lookup]
    have hne : (a == k) = false := by simpa using h.1
    rw [hne]
    exact ih h.2

theorem mem_of_lookup_eq_some {α β : Type} [BEq α] [LawfulBEq α] (a : α) (b : β) :
    ∀ (l : List (α × β)), l.lookup a = some b → (a, b) ∈ l := by
  intro l
  induction l with
  | nil => intro h; simp [List.lookup] at h
  | cons kv l ih =>
    intro h
    obtain ⟨k, v⟩ := kv
    rw [List.lookup] at h
    cases hak : (a == k) with
    | true =>
      rw [hak] at h
      injection h with h
      have : a = k := by simpa using hak
      rw [this, h]
      exact List.mem_cons_self _ _
    | false =>
      rw [hak] at h
      exact List.mem_cons_of_mem _ (ih h)

theorem next_token_cases_eq_none (l : Lexer) (h : l.current_char ∉ case_chars) :
    next_token_cases l = none := by
  unfold next_token_cases
  rw [lookup_eq_none_of_not_mem _ _ h]

theorem not_case_char_of_isDigit (c : Char) (h : c.isDigit = true) : c ∉ case_chars := by
  intro hm
  have hall : ∀ d ∈ case_chars, d.isDigit = false := by decide
  rw [hall c hm] at h
  exact Bool.noConfusion h

theorem not_case_char_of_isAlpha (c : Char) (h : c.isAlpha = true) : c ∉ case_chars := by
  intro hm
  have hall : ∀ d ∈ case_chars, d.isAlpha = false := by decide
  rw [hall c hm] at h
  exact Bool.noConfusion h

theorem is_space_eq_true (c : Char) : is_space c = true ↔ c ∈ [' ', '\t', '\n', '\r'] := by
  simp [is_space, or_assoc]

theorem not_space_of_isDigit (c : Char) (h : c.isDigit = true) : is_space c = false := by
  cases hs : is_space c with
  | false => rfl
  | true =>
    have hall : ∀ d ∈ [' ', '\t', '\n', '\r'], d.isDigit = false := by decide
    rw [hall c ((is_space_eq_true c).1 hs)] at h
    exact Bool.noConfusion h

theorem not_space_of_isAlpha (c : Char) (h : c.isAlpha = true) : is_space c = false := by
  cases hs : is_space c with
  | false => rfl
  | true =>
    have hall : ∀ d ∈ [' ', '\t', '\n', '\r'], d.isAlpha = false := by decide
    rw [hall c ((is_space_eq_true c).1 hs)] at h
    exact Bool.noConfusion h

theorem not_alpha_of_isDigit (c : Char) (h : c.isDigit = true) : c.isAlpha = false := by
  simp only [Char.isDigit, Bool.and_eq_true, decide_eq_true_eq] at h
  have hu : c.isUpper = false := by
    simp only [Char.isUpper, Bool.and_eq_false_imp, decide_eq_true_eq, decide_eq_false_iff_not]
    intro h3
    exact absurd (UInt32.le_trans h3 h.2) (by decide)
  have hl : c.isLower = false := by
    simp only [Char.isLower, Bool.and_eq_false_imp, decide_eq_true_eq, decide_eq_false_iff_not]
    intro h3
    exact absurd (UInt32.le_trans h3 h.2) (by decide)
  simp [Char.isAlpha, hu, hl]

theorem skip_whitespace_stop (f : Nat) (l : Lexer) (h : is_space l.current_char = false) :
    skip_whitespace (f + 1) l = .ok l := by
  rw [skip_whitespace, h]
  rfl

theorem next_token_of_isDigit (f : Nat) (l : Lexer) (h : l.current_char.isDigit = true) :
    next_token (f + 1) l = read_number_loop (f + 1) l l.pos 0 [] := by
  rw [next_token, skip_whitespace_stop f l (not_space_of_isDigit _ h)]
  simp only [next_token_switch, next_token_cases_eq_none l (not_case_char_of_isDigit _ h),
    next_token_default, not_alpha_of_isDigit _ h, h, if_true, read_number]
  rfl

end Lexer

namespace Lexer

theorem is_space_eq_false (c : Char) :
    is_space c = false ↔ (c ≠ ' ' ∧ c ≠ '\t' ∧ c ≠ '\n' ∧ c ≠ '\r') := by
  simp [is_space, and_assoc]

theorem read_number_loop_step (f : Nat) (s : List Char) (p n sp dc : Nat) (out : List Char)
    (hcd : ((s.getD p NUL).isDigit || s.getD p NUL == '.') = true)
    (hdc : ¬ (if s.getD p NUL = '.' then dc + 1 else dc) > 1)
    (hn : s.getD (p + 1) NUL ≠ NUL) :
    read_number_loop (f + 1) (state_at s p n) sp dc out =
      read_number_loop f (state_at s (p + 1) n) sp (if s.getD p NUL = '.' then dc + 1 else dc)
        (out ++ [s.getD p NUL]) := by
  have hcur : (state_at s p n).current_char = s.getD p NUL := rfl
  have hnext : (state_at s (p + 1) n).current_char = s.getD (p + 1) NUL := rfl
  rw [read_number_loop, hcur, if_pos hcd]
  dsimp only
  rw [if_neg hdc, read_char_state_at, hnext, if_neg hn]

theorem read_number_loop_invalid (f : Nat) (s : List Char) (p n sp dc : Nat) (out : List Char)
    (hcd : ((s.getD p NUL).isDigit || s.getD p NUL == '.') = true)
    (hdc : (if s.getD p NUL = '.' then dc + 1 else dc) > 1) :
    read_number_loop (f + 1) (state_at s p n) sp dc out =
      match read_invalid_number f (state_at s p n) (substr s sp (p - sp)) with
      | .error e => .error e
      | .ok (invalid_number, l1) => .ok (create_token l1 .ILLEGAL invalid_number, l1) := by
  have hcur : (state_at s p n).current_char = s.getD p NUL := rfl
  rw [read_number_loop, hcur, if_pos hcd]
  dsimp only
  rw [if_pos hdc]
  rfl

theorem read_invalid_number_step (f : Nat) (s : List Char) (p n : Nat) (acc : List Char)
    (hc : is_space (s.getD p NUL) = false) :
    read_invalid_number (f + 1) (state_at s p n) acc =
      read_invalid_number f (state_at s (p + 1) n) (acc ++ [s.getD p NUL]) := by
  have hcur : (state_at s p n).current_char = s.getD p NUL := rfl
  have h4 := (is_space_eq_false _).1 hc
  rw [read_invalid_number, hcur, if_pos h4, read_char_state_at]

theorem read_invalid_number_stop (f : Nat) (s : List Char) (p n : Nat) (acc : List Char)
    (hc : is_space (s.getD p NUL) = true) :
    read_invalid_number (f + 1) (state_at s p n) acc = .ok (acc, state_at s p n) := by
  have hcur : (state_at s p n).current_char = s.getD p NUL := rfl
  have h4 : ¬ (s.getD p NUL ≠ ' ' ∧ s.getD p NUL ≠ '\t' ∧ s.getD p NUL ≠ '\n'
      ∧ s.getD p NUL ≠ '\r') := by
    intro h
    have : is_space (s.getD p NUL) = false := (is_space_eq_false _).2 h
    rw [this] at hc
    exact Bool.noConfusion hc
  rw [read_invalid_number, hcur, if_neg h4]

/-- At the end of the source the current character is `'\0'` for good, which is
no blank: the inner loop of `read_number` never exits. -/
theorem read_invalid_number_at_end (s : List Char) :
    ∀ (fuel p n : Nat) (acc : List Char), s.length ≤ p →
      read_invalid_number fuel (state_at s p n) acc = .error .out_of_fuel := by
  intro fuel
  induction fuel with
  | zero => intro p n acc _; rfl
  | succ k ih =>
    intro p n acc hp
    have hnul : s.getD p NUL = NUL := getD_nul_of_le s p hp
    rw [read_invalid_number_step k s p n acc (by rw [hnul]; decide)]
    exact ih (p + 1) n _ (by omega)

end Lexer

/-- C5 (the code at the failing input): on the source `1.2.3`, with nothing after
the run, the first call of `next_token` never returns: it is out of fuel for
every fuel, so no `ILLEGAL` token and no end-of-input token is produced. -/
theorem C5_next_token_never_returns_on_1_2_3 :
    ∀ fuel, Lexer.next_token fuel (Lexer.new "1.2.3".toList) = .error .out_of_fuel := by
  intro fuel
  rw [Lexer.new_eq]
  rcases fuel with _ | _ | _ | _ | _ | _ | f
  · decide
  · decide
  · decide
  · decide
  · decide
  · decide
  · rw [Lexer.next_token_of_isDigit _ _ (by decide)]
    rw [show (Lexer.state_at "1.2.3".toList 0 1).pos = 0 from rfl]
    rw [Lexer.read_number_loop_step _ _ _ _ _ _ _ (by decide) (by decide) (by decide)]
    rw [Lexer.read_number_loop_step _ _ _ _ _ _ _ (by decide) (by decide) (by decide)]
    rw [Lexer.read_number_loop_step _ _ _ _ _ _ _ (by decide) (by decide) (by decide)]
    rw [Lexer.read_number_loop_invalid _ _ _ _ _ _ _ (by decide) (by decide)]
    rw [Lexer.read_invalid_number_step _ _ _ _ _ (by decide)]
    rw [Lexer.read_invalid_number_step _ _ _ _ _ (by decide)]
    rw [Lexer.read_invalid_number_at_end _ _ _ _ _ (by decide)]

/-- C5 (the same run followed by a newline, as `main` always supplies it): the
first token is `ILLEGAL` with the text `1.2.3` on line 1, the second is the
end-of-input token. -/
theorem C5_run_followed_by_newline :
    Lexer.tokens 8 2 (Lexer.new "1.2.3\n".toList) =
      .ok [⟨.ILLEGAL, "1.2.3".toList, 1, 5⟩, ⟨.EOF_, [], 2, 6⟩] := by
  decide

/-! ## Every call of `next_token` advances the lexer -/

namespace Lexer

theorem skip_whitespace_state (s : List Char) : ∀ (f p n : Nat) (l : Lexer),
    skip_whitespace f (state_at s p n) = .ok l →
      ∃ p' n', l = state_at s p' n' ∧ p ≤ p' ∧ is_space (s.getD p' NUL) = false := by
  intro f
  induction f with
  | zero => intro p n l h; simp [skip_whitespace] at h
  | succ k ih =>
    intro p n l h
    rw [skip_whitespace] at h
    have hcur : (state_at s p n).current_char = s.getD p NUL := rfl
    rw [hcur] at h
    by_cases hsp : is_space (s.getD p NUL) = true
    · rw [if_pos hsp] at h
      dsimp only at h
      by_cases hnl : s.getD p NUL = '\n'
      · rw [if_pos hnl] at h
        have h' : skip_whitespace k (read_char (state_at s p (n + 1))) = .ok l := h
        rw [read_char_state_at] at h'
        obtain ⟨p', n', h1, h2, h3⟩ := ih _ _ _ h'
        exact ⟨p', n', h1, by omega, h3⟩
      · rw [if_neg hnl, read_char_state_at] at h
        obtain ⟨p', n', h1, h2, h3⟩ := ih _ _ _ h
        exact ⟨p', n', h1, by omega, h3⟩
    · rw [if_neg hsp] at h
      injection h with h
      exact ⟨p, n, h.symm, le_refl _, by simpa using hsp⟩

theorem read_ident_loop_state (s : List Char) : ∀ (f p n : Nat) (l : Lexer),
    read_ident_loop f (state_at s p n) = .ok l → ∃ p', l = state_at s p' n ∧ p ≤ p' := by
  intro f
  induction f with
  | zero => intro p n l h; simp [read_ident_loop] at h
  | succ k ih =>
    intro p n l h
    rw [read_ident_loop] at h
    split at h
    · rw [read_char_state_at] at h
      obtain ⟨p', h1, h2⟩ := ih _ _ _ h
      exact ⟨p', h1, by omega⟩
    · injection h with h
      exact ⟨p, h.symm, le_refl _⟩

theorem read_invalid_number_state (s : List Char) : ∀ (f p n : Nat) (acc : List Char)
    (r : List Char × Lexer), read_invalid_number f (state_at s p n) acc = .ok r →
      ∃ p', r.2 = state_at s p' n ∧ p ≤ p' := by
  intro f
  induction f with
  | zero => intro p n acc r h; simp [read_invalid_number] at h
  | succ k ih =>
    intro p n acc r h
    rw [read_invalid_number] at h
    split at h
    · rw [read_char_state_at] at h
      obtain ⟨p', h1, h2⟩ := ih _ _ _ _ h
      exact ⟨p', h1, by omega⟩
    · injection h with h
      exact ⟨p, by rw [← h], le_refl _⟩

theorem read_number_finish_state (l : Lexer) (dc : Nat) (out : List Char) :
    (read_number_finish l dc out).2 = l ∧ (read_number_finish l dc out).1.type ≠ .EOF_ := by
  unfold read_number_finish
  split <;> exact ⟨rfl, by simp [create_token]⟩

theorem read_number_loop_state (s : List Char) : ∀ (f p n sp dc : Nat) (out : List Char)
    (r : Token × Lexer), read_number_loop f (state_at s p n) sp dc out = .ok r →
      (∃ p', r.2 = state_at s p' n ∧ p ≤ p') ∧ r.1.type ≠ .EOF_ := by
  intro f
  induction f with
  | zero => intro p n sp dc out r h; simp [read_number_loop] at h
  | succ k ih =>
    intro p n sp dc out r h
    rw [read_number_loop] at h
    have hcur : (state_at s p n).current_char = s.getD p NUL := rfl
    rw [hcur] at h
    by_cases hc : ((s.getD p NUL).isDigit || s.getD p NUL == '.') = true
    · rw [if_pos hc] at h
      dsimp only at h
      by_cases hd : (if s.getD p NUL = '.' then dc + 1 else dc) > 1
      · rw [if_pos hd] at h
        cases hq : read_invalid_number k (state_at s p n)
            (substr (state_at s p n).source sp ((state_at s p n).pos - sp)) with
        | error e => rw [hq] at h; simp at h
        | ok v =>
          rw [hq] at h
          injection h with h
          obtain ⟨p', h1, h2⟩ := read_invalid_number_state s _ _ _ _ _ hq
          rw [← h]
          exact ⟨⟨p', h1, h2⟩, by simp [create_token]⟩
      · rw [if_neg hd, read_char_state_at] at h
        by_cases hn : (state_at s (p + 1) n).current_char = NUL
        · rw [if_pos hn] at h
          injection h with h
          rw [← h]
          exact ⟨⟨p + 1, (read_number_finish_state _ _ _).1, by omega⟩,
            (read_number_finish_state _ _ _).2⟩
        · rw [if_neg hn] at h
          obtain ⟨⟨p', h1, h2⟩, h3⟩ := ih _ _ _ _ _ _ h
          exact ⟨⟨p', h1, by omega⟩, h3⟩
    · rw [if_neg hc] at h
      injection h with h
      rw [← h]
      exact ⟨⟨p, (read_number_finish_state _ _ _).1, le_refl _⟩,
        (read_number_finish_state _ _ _).2⟩

end Lexer

namespace Lexer

theorem emit_some (l : Lexer) (ty : TokenType) (lit : String)
    (r : Token × Lexer) (h : emit l ty lit = some r) :
    r.2 = read_char l ∧ r.1.type = ty ∧ r.1.literal = lit.toList := by
  unfold emit at h
  injection h with h
  rw [← h]
  exact ⟨rfl, rfl, rfl⟩

theorem emit2_some (l : Lexer) (c : Char) (ty2 : TokenType) (lit2 : String)
    (ty1 : TokenType) (lit1 : String) (r : Token × Lexer)
    (h : emit2 l c ty2 lit2 ty1 lit1 = some r) :
    (r.2 = read_char l ∧ r.1.type = ty1 ∧ r.1.literal = lit1.toList) ∨
    (r.2 = read_char (read_char l) ∧ r.1.type = ty2 ∧ r.1.literal = lit2.toList) := by
  unfold emit2 at h
  split at h
  · exact Or.inr (emit_some _ ty2 lit2 r h)
  · exact Or.inl (emit_some l ty1 lit1 r h)

theorem next_token_cases_some (l : Lexer) (r : Token × Lexer)
    (h : next_token_cases l = some r) :
    (r.2 = read_char l ∨ r.2 = read_char (read_char l)) ∧
    (r.1.type = .EOF_ → l.current_char = NUL ∧ r.1.literal = [] ∧ r.2 = read_char l) := by
  unfold next_token_cases at h
  have hall : ∀ e ∈ switch_table,
      (e.2.2.1 = TokenType.EOF_ → e.1 = NUL ∧ e.2.2.2.toList = [] ∧ e.2.1 = none) ∧
      (∀ x, e.2.1 = some x → x.2.1 ≠ TokenType.EOF_ ∧ e.2.2.1 ≠ TokenType.EOF_) := by
    decide
  cases hq : switch_table.lookup l.current_char with
  | none => rw [hq] at h; exact Option.noConfusion h
  | some e =>
    rw [hq] at h
    have hm := hall _ (mem_of_lookup_eq_some _ _ _ hq)
    obtain ⟨look, ty, lit⟩ := e
    cases look with
    | none =>
      obtain ⟨e1, e2, e3⟩ := emit_some l _ _ r h
      refine ⟨Or.inl e1, fun he => ?_⟩
      rw [e2] at he
      obtain ⟨m1, m2, -⟩ := hm.1 he
      exact ⟨m1, by rw [e3]; exact m2, e1⟩
    | some x =>
      obtain ⟨second, ty2, lit2⟩ := x
      have hne := hm.2 _ rfl
      rcases emit2_some l _ _ _ _ _ r h with ⟨e1, e2, e3⟩ | ⟨e1, e2, e3⟩
      · refine ⟨Or.inl e1, fun he => ?_⟩
        rw [e2] at he
        exact absurd he hne.2
      · refine ⟨Or.inr e1, fun he => ?_⟩
        rw [e2] at he
        exact absurd he hne.1

theorem next_token_cases_state (s : List Char) (p n : Nat) (r : Token × Lexer)
    (h : next_token_cases (state_at s p n) = some r) :
    (r.2 = state_at s (p + 1) n ∨ r.2 = state_at s (p + 2) n) ∧
    (r.1.type = .EOF_ → s.getD p NUL = NUL ∧ r.1.literal = [] ∧ r.2 = state_at s (p + 1) n) := by
  have h0 := next_token_cases_some _ r h
  rw [read_char_state_at, read_char_state_at] at h0
  exact h0

theorem lookup_ident_ne_eof (a : List Char) : lookup_ident a ≠ .EOF_ := by
  unfold lookup_ident
  split
  · next t ht =>
    have hall : ∀ kv ∈ KEYWORDS, kv.2 ≠ TokenType.EOF_ := by decide
    exact hall _ (mem_of_lookup_eq_some _ _ _ ht)
  · split <;> decide

theorem next_token_default_state (s : List Char) (f p n : Nat) (r : Token × Lexer)
    (h : next_token_default f (state_at s p n) = .ok r) :
    (∃ p', r.2 = state_at s p' n ∧ p < p') ∧ r.1.type ≠ .EOF_ := by
  unfold next_token_default at h
  have hcur : (state_at s p n).current_char = s.getD p NUL := rfl
  rw [hcur] at h
  by_cases ha : (s.getD p NUL).isAlpha = true
  · rw [if_pos ha] at h
    cases f with
    | zero => simp [read_ident, read_ident_loop] at h
    | succ k =>
      unfold read_ident at h
      rw [read_ident_loop, hcur, ha] at h
      simp only [Bool.true_or, if_true, read_char_state_at] at h
      cases hq : read_ident_loop k (state_at s (p + 1) n) with
      | error e => rw [hq] at h; simp at h
      | ok l1 =>
        rw [hq] at h
        injection h with h
        obtain ⟨p', h1, h2⟩ := read_ident_loop_state s _ _ _ _ hq
        rw [← h]
        exact ⟨⟨p', h1, by omega⟩, lookup_ident_ne_eof _⟩
  · rw [if_neg ha] at h
    by_cases hd : (s.getD p NUL).isDigit = true
    · rw [if_pos hd] at h
      cases f with
      | zero => simp [read_number, read_number_loop] at h
      | succ k =>
        unfold read_number at h
        rw [read_number_loop, hcur] at h
        simp only [hd, Bool.true_or, if_true] at h
        have hnd : ¬ s.getD p NUL = '.' := by
          intro hdot
          rw [hdot] at hd
          exact absurd hd (by decide)
        simp only [hnd, if_false, read_char_state_at] at h
        rw [if_neg (by omega)] at h
        by_cases hn : (state_at s (p + 1) n).current_char = NUL
        · rw [if_pos hn] at h
          injection h with h
          rw [← h]
          exact ⟨⟨p + 1, (read_number_finish_state _ _ _).1, by omega⟩,
            (read_number_finish_state _ _ _).2⟩
        · rw [if_neg hn] at h
          obtain ⟨⟨p', h1, h2⟩, h3⟩ := read_number_loop_state s _ _ _ _ _ _ _ h
          exact ⟨⟨p', h1, by omega⟩, h3⟩
    · rw [if_neg hd] at h
      injection h with h
      rw [← h, read_char_state_at]
      exact ⟨⟨p + 1, rfl, by omega⟩, by simp [create_token]⟩

/-- A call of `next_token` that returns leaves the lexer strictly further in the
same source; an end-of-input token has an empty text and is only made at a
character `'\0'`. -/
theorem next_token_progress (s : List Char) (f p n : Nat) (t : Token) (l : Lexer)
    (h : next_token f (state_at s p n) = .ok (t, l)) :
    ∃ p' n', l = state_at s p' n' ∧ p < p' ∧
      (t.type = .EOF_ → t.literal = [] ∧ s.getD (p' - 1) NUL = NUL) := by
  unfold next_token at h
  cases hq : skip_whitespace f (state_at s p n) with
  | error e => rw [hq] at h; simp at h
  | ok l1 =>
    rw [hq] at h
    dsimp only at h
    obtain ⟨q, m, rfl, hpq, -⟩ := skip_whitespace_state s _ _ _ _ hq
    unfold next_token_switch at h
    cases hc : next_token_cases (state_at s q m) with
    | some r =>
      rw [hc] at h
      injection h with h
      obtain ⟨h1, h2⟩ := next_token_cases_state s q m r hc
      rw [h] at h1 h2
      rcases h1 with h1 | h1
      · refine ⟨q + 1, m, h1, by omega, fun he => ?_⟩
        obtain ⟨e1, e2, -⟩ := h2 he
        exact ⟨e2, e1⟩
      · refine ⟨q + 2, m, h1, by omega, fun he => ?_⟩
        obtain ⟨-, -, e3⟩ := h2 he
        rw [h1] at e3
        have : q + 2 = q + 1 := congrArg Lexer.pos e3
        omega
    | none =>
      rw [hc] at h
      obtain ⟨⟨p', h1, h2⟩, h3⟩ := next_token_default_state s f q m _ h
      exact ⟨p', m, h1, by omega, fun he => absurd he h3⟩

/-- From the end of the source on, `next_token` returns the end-of-input token. -/
theorem next_token_at_end (s : List Char) (f p n : Nat) (hp : s.length ≤ p) :
    next_token (f + 1) (state_at s p n) = .ok (⟨.EOF_, [], n, p⟩, state_at s (p + 1) n) := by
  have hnul : s.getD p NUL = NUL := getD_nul_of_le s p hp
  have hcur : (state_at s p n).current_char = NUL := hnul
  rw [next_token, skip_whitespace_stop f _ (by rw [hcur]; decide)]
  have hl : switch_table.lookup NUL = some (none, .EOF_, "") := by decide
  simp only [next_token_switch, next_token_cases, hcur, hl, emit, read_char_state_at]
  rfl

end Lexer

namespace Lexer

theorem length_le_of_getD_nul (s : List Char) (hnul : NUL ∉ s) (q : Nat)
    (h : s.getD q NUL = NUL) : s.length ≤ q := by
  by_contra hlt
  have hq : q < s.length := by omega
  rw [List.getD_eq_getElem _ _ hq] at h
  exact hnul (h ▸ List.getElem_mem hq)

theorem next_token_zero (l : Lexer) : next_token 0 l = .error .out_of_fuel := rfl

/-- From the end of the source on, every token is the end-of-input token. -/
theorem tokens_at_end (s : List Char) (fuel : Nat) : ∀ (n p m : Nat) (ts : List Token),
    tokens fuel n (state_at s p m) = .ok ts →
    ∀ (j : Nat) (t : Token), ts[j]? = some t → s.length ≤ p + j → t.type = .EOF_ ∧ t.literal = [] := by
  intro n
  induction n with
  | zero =>
    intro p m ts h j t hj _
    simp only [tokens] at h
    injection h with h
    rw [← h] at hj
    simp at hj
  | succ k ih =>
    intro p m ts h j t hj hlen
    rw [tokens] at h
    cases hq : next_token fuel (state_at s p m) with
    | error e => rw [hq] at h; simp at h
    | ok r =>
      obtain ⟨t0, l1⟩ := r
      rw [hq] at h
      dsimp only at h
      cases hr : tokens fuel k l1 with
      | error e => rw [hr] at h; simp at h
      | ok ts1 =>
        rw [hr] at h
        injection h with h
        obtain ⟨p', m', hl1, hpp, -⟩ := next_token_progress s fuel p m t0 l1 hq
        rw [← h] at hj
        cases j with
        | zero =>
          simp only [List.getElem?_cons_zero, Option.some.injEq] at hj
          cases fuel with
          | zero => rw [next_token_zero] at hq; simp at hq
          | succ f =>
            rw [next_token_at_end s f p m (by omega)] at hq
            injection hq with hq
            injection hq with hq1 hq2
            rw [← hj, ← hq1]
            exact ⟨rfl, rfl⟩
        | succ j' =>
          simp only [List.getElem?_cons_succ] at hj
          rw [hl1] at hr
          exact ih p' m' ts1 hr j' t hj (by omega)

theorem tokens_after_eof (s : List Char) (hnul : NUL ∉ s) (fuel : Nat) :
    ∀ (n p m : Nat) (ts : List Token), tokens fuel n (state_at s p m) = .ok ts →
    ∀ (i : Nat) (ti : Token), ts[i]? = some ti → ti.type = .EOF_ →
    ∀ (j : Nat) (tj : Token), i < j → ts[j]? = some tj → tj.type = .EOF_ ∧ tj.literal = [] := by
  intro n
  induction n with
  | zero =>
    intro p m ts h i ti hi
    simp only [tokens] at h
    injection h with h
    rw [← h] at hi
    simp at hi
  | succ k ih =>
    intro p m ts h i ti hi hti j tj hij hj
    rw [tokens] at h
    cases hq : next_token fuel (state_at s p m) with
    | error e => rw [hq] at h; simp at h
    | ok r =>
      obtain ⟨t0, l1⟩ := r
      rw [hq] at h
      dsimp only at h
      cases hr : tokens fuel k l1 with
      | error e => rw [hr] at h; simp at h
      | ok ts1 =>
        rw [hr] at h
        injection h with h
        obtain ⟨p', m', hl1, hpp, heof⟩ := next_token_progress s fuel p m t0 l1 hq
        rw [hl1] at hr
        rw [← h] at hi hj
        obtain ⟨j', rfl⟩ : ∃ j', j = j' + 1 := ⟨j - 1, by omega⟩
        simp only [List.getElem?_cons_succ] at hj
        cases i with
        | zero =>
          simp only [List.getElem?_cons_zero, Option.some.injEq] at hi
          rw [← hi] at hti
          have hend : s.length ≤ p' - 1 := length_le_of_getD_nul s hnul _ (heof hti).2
          exact tokens_at_end s fuel k p' m' ts1 hr j' tj hj (by omega)
        | succ i' =>
          simp only [List.getElem?_cons_succ] at hi
          exact ih p' m' ts1 hr i' ti hi hti j' tj (by omega) hj

end Lexer

namespace Lexer

theorem lt_length_of_getD_ne_nul (s : List Char) (p : Nat) (h : s.getD p NUL ≠ NUL) :
    p < s.length := by
  by_contra hge
  exact h (getD_nul_of_le s p (by omega))

theorem skip_whitespace_error (f : Nat) : ∀ (l : Lexer) (e : Abort),
    skip_whitespace f l = .error e → e = .out_of_fuel := by
  induction f with
  | zero => intro l e h; simp only [skip_whitespace] at h; injection h with h; exact h.symm
  | succ k ih =>
    intro l e h
    rw [skip_whitespace] at h
    split at h
    · exact ih _ _ h
    · exact Except.noConfusion h

theorem skip_whitespace_returns (s : List Char) : ∀ (f p m : Nat), 1 ≤ f → s.length + 1 ≤ p + f →
    ∃ l, skip_whitespace f (state_at s p m) = .ok l := by
  intro f
  induction f with
  | zero => intro p m h; omega
  | succ k ih =>
    intro p m _ hlen
    rw [skip_whitespace]
    have hcur : (state_at s p m).current_char = s.getD p NUL := rfl
    rw [hcur]
    by_cases hsp : is_space (s.getD p NUL) = true
    · rw [if_pos hsp]
      have hp : p < s.length := lt_length_of_getD_ne_nul s p (by
        intro h0; rw [h0] at hsp; exact absurd hsp (by decide))
      dsimp only
      by_cases hnl : s.getD p NUL = '\n'
      · rw [if_pos hnl]
        have h' := ih (p + 1) (m + 1) (by omega) (by omega)
        rw [← read_char_state_at] at h'
        exact h'
      · rw [if_neg hnl, read_char_state_at]
        exact ih (p + 1) m (by omega) (by omega)
    · rw [if_neg hsp]
      exact ⟨_, rfl⟩

theorem read_ident_loop_returns (s : List Char) : ∀ (f p m : Nat), 1 ≤ f →
    s.length + 1 ≤ p + f → ∃ l, read_ident_loop f (state_at s p m) = .ok l := by
  intro f
  induction f with
  | zero => intro p m h; omega
  | succ k ih =>
    intro p m _ hlen
    rw [read_ident_loop]
    have hcur : (state_at s p m).current_char = s.getD p NUL := rfl
    rw [hcur]
    by_cases hc : ((s.getD p NUL).isAlpha || (s.getD p NUL).isAlphanum
        || s.getD p NUL == '_') = true
    · rw [if_pos hc, read_char_state_at]
      have hp : p < s.length := lt_length_of_getD_ne_nul s p (by
        intro h0; rw [h0] at hc; exact absurd hc (by decide))
      exact ih (p + 1) m (by omega) (by omega)
    · rw [if_neg hc]
      exact ⟨_, rfl⟩

theorem read_invalid_number_returns_or_not (s : List Char) : ∀ (f p m : Nat) (acc : List Char),
    s.length ≤ p + f →
    (∃ r, read_invalid_number f (state_at s p m) acc = .ok r) ∨
    (∀ f', read_invalid_number f' (state_at s p m) acc = .error .out_of_fuel) := by
  intro f
  induction f with
  | zero =>
    intro p m acc hlen
    exact Or.inr (fun f' => read_invalid_number_at_end s f' p m acc (by omega))
  | succ k ih =>
    intro p m acc hlen
    cases hsp : is_space (s.getD p NUL) with
    | true => exact Or.inl ⟨_, read_invalid_number_stop k s p m acc hsp⟩
    | false =>
      rcases ih (p + 1) m (acc ++ [s.getD p NUL]) (by omega) with ⟨r, hr⟩ | hdiv
      · exact Or.inl ⟨r, by rw [read_invalid_number_step k s p m acc hsp]; exact hr⟩
      · refine Or.inr (fun f' => ?_)
        cases f' with
        | zero => rfl
        | succ g => rw [read_invalid_number_step g s p m acc hsp]; exact hdiv g

theorem read_number_loop_returns_or_not (s : List Char) :
    ∀ (f p m sp dc : Nat) (out : List Char), 1 ≤ f → s.length + 1 ≤ p + f →
    (∃ r, read_number_loop f (state_at s p m) sp dc out = .ok r) ∨
    (∀ f', read_number_loop f' (state_at s p m) sp dc out = .error .out_of_fuel) := by
  intro f
  induction f with
  | zero => intro p m sp dc out h; omega
  | succ k ih =>
    intro p m sp dc out _ hlen
    have hcur : (state_at s p m).current_char = s.getD p NUL := rfl
    by_cases hc : ((s.getD p NUL).isDigit || s.getD p NUL == '.') = true
    · have hp : p < s.length := lt_length_of_getD_ne_nul s p (by
        intro h0; rw [h0] at hc; exact absurd hc (by decide))
      by_cases hd : (if s.getD p NUL = '.' then dc + 1 else dc) > 1
      · rcases read_invalid_number_returns_or_not s k p m (substr s sp (p - sp)) (by omega)
          with ⟨r, hr⟩ | hdiv
        · left
          rw [read_number_loop_invalid k s p m sp dc out hc hd, hr]
          exact ⟨_, rfl⟩
        · right
          intro f'
          cases f' with
          | zero => rfl
          | succ g => rw [read_number_loop_invalid g s p m sp dc out hc hd, hdiv g]
      · by_cases hn : s.getD (p + 1) NUL = NUL
        · left
          rw [read_number_loop, hcur, if_pos hc]
          dsimp only
          rw [if_neg hd, read_char_state_at,
            if_pos (show (state_at s (p + 1) m).current_char = NUL from hn)]
          exact ⟨_, rfl⟩
        · have hp1 : p + 1 < s.length := lt_length_of_getD_ne_nul s (p + 1) hn
          rcases ih (p + 1) m sp (if s.getD p NUL = '.' then dc + 1 else dc)
            (out ++ [s.getD p NUL]) (by omega) (by omega) with ⟨r, hr⟩ | hdiv
          · left
            rw [read_number_loop_step k s p m sp dc out hc hd hn]
            exact ⟨r, hr⟩
          · right
            intro f'
            cases f' with
            | zero => rfl
            | succ g => rw [read_number_loop_step g s p m sp dc out hc hd hn]; exact hdiv g
    · left
      rw [read_number_loop, hcur, if_neg hc]
      exact ⟨_, rfl⟩

/-- With fuel `source.length + 2` a call of `next_token` returns, unless it never
returns whatever the fuel. -/
theorem next_token_returns_or_not (s : List Char) (p m : Nat) :
    (∃ r, next_token (s.length + 2) (state_at s p m) = .ok r) ∨
    (∀ f, next_token f (state_at s p m) = .error .out_of_fuel) := by
  obtain ⟨l1, hsw⟩ := skip_whitespace_returns s (s.length + 2) p m (by omega) (by omega)
  obtain ⟨q, m', rfl, hpq, hns⟩ := skip_whitespace_state s _ _ _ _ hsw
  have hsw' : ∀ f, skip_whitespace f (state_at s p m) = .ok (state_at s q m') ∨
      skip_whitespace f (state_at s p m) = .error .out_of_fuel := by
    intro f
    cases hf : skip_whitespace f (state_at s p m) with
    | error e => right; rw [skip_whitespace_error f _ e hf]
    | ok l =>
      left
      have h1 := skip_whitespace_mono f _ _ hf (max f (s.length + 2)) (le_max_left _ _)
      have h2 := skip_whitespace_mono _ _ _ hsw (max f (s.length + 2)) (le_max_right _ _)
      rw [h1] at h2
      exact h2
  have hcur : (state_at s q m').current_char = s.getD q NUL := rfl
  cases hc : next_token_cases (state_at s q m') with
  | some r =>
    left
    exact ⟨r, by rw [next_token, hsw]; simp only [next_token_switch, hc]⟩
  | none =>
    by_cases ha : (s.getD q NUL).isAlpha = true
    · left
      obtain ⟨l2, hl2⟩ := read_ident_loop_returns s (s.length + 2) q m' (by omega) (by omega)
      rw [next_token, hsw]
      simp only [next_token_switch, hc, next_token_default, hcur, ha, if_true, read_ident, hl2]
      exact ⟨_, rfl⟩
    · by_cases hd : (s.getD q NUL).isDigit = true
      · rcases read_number_loop_returns_or_not s (s.length + 2) q m' q 0 [] (by omega)
          (by omega) with ⟨r, hr⟩ | hdiv
        · left
          rw [next_token, hsw]
          simp only [next_token_switch, hc, next_token_default, hcur, ha, hd, if_true,
            read_number]
          exact ⟨r, hr⟩
        · right
          intro f
          rw [next_token]
          rcases hsw' f with h1 | h1
          · rw [h1]
            simp only [next_token_switch, hc, next_token_default, hcur, ha, hd, if_true,
              read_number]
            exact hdiv f
          · rw [h1]
      · left
        rw [next_token, hsw]
        simp only [next_token_switch, hc, next_token_default, hcur, ha, hd]
        exact ⟨_, rfl⟩

/-- With fuel `source.length + 2`, either `n` successive calls of `next_token`
return, or after some `k < n` calls the next call never returns. -/
theorem run_returns_or_not (s : List Char) : ∀ (n p m : Nat),
    (∃ ts l, run (s.length + 2) n (state_at s p m) = .ok (ts, l)) ∨
    (∃ k ts l, k < n ∧ run (s.length + 2) k (state_at s p m) = .ok (ts, l) ∧
      ∀ f, next_token f l = .error .out_of_fuel) := by
  intro n
  induction n with
  | zero => intro p m; exact Or.inl ⟨[], _, rfl⟩
  | succ k ih =>
    intro p m
    rcases next_token_returns_or_not s p m with ⟨⟨t, l1⟩, hr⟩ | hdiv
    · obtain ⟨p', m', rfl, -, -⟩ := next_token_progress s _ p m t l1 hr
      rcases ih p' m' with ⟨ts, l, h⟩ | ⟨j, ts, l, hj, h, hdiv⟩
      · left
        exact ⟨t :: ts, l, by rw [run, hr]; dsimp only; rw [h]⟩
      · right
        exact ⟨j + 1, t :: ts, l, by omega, by rw [run, hr]; dsimp only; rw [h], hdiv⟩
    · right
      exact ⟨0, [], _, by omega, rfl, hdiv⟩

end Lexer

namespace Lexer

theorem tokens_of_run (fuel : Nat) : ∀ (n : Nat) (l : Lexer) (ts : List Token) (l' : Lexer),
    run fuel n l = .ok (ts, l') → tokens fuel n l = .ok ts := by
  intro n
  induction n with
  | zero =>
    intro l ts l' h
    simp only [run] at h
    injection h with h
    injection h with h1 h2
    rw [tokens, h1]
  | succ k ih =>
    intro l ts l' h
    rw [run] at h
    rw [tokens]
    cases hq : next_token fuel l with
    | error e => rw [hq] at h; simp at h
    | ok r =>
      obtain ⟨t, l1⟩ := r
      rw [hq] at h
      dsimp only at h ⊢
      cases hr : run fuel k l1 with
      | error e => rw [hr] at h; simp at h
      | ok v =>
        obtain ⟨ts1, l2⟩ := v
        rw [hr] at h
        injection h with h
        injection h with h1 h2
        rw [ih l1 ts1 l2 hr, ← h1]

end Lexer

/-! ## The tokens of a text and of the text followed by a line end -/

namespace Lexer

theorem getD_append_of_lt (s x : List Char) (i : Nat) (h : i < s.length) :
    (s ++ x).getD i NUL = s.getD i NUL := by
  have h' : i < (s ++ x).length := by rw [List.length_append]; omega
  rw [List.getD_eq_getElem _ _ h', List.getD_eq_getElem _ _ h, List.getElem_append_left h]

theorem getD_append_length (s : List Char) (c : Char) :
    (s ++ [c]).getD s.length NUL = c := by
  have h' : s.length < (s ++ [c]).length := by rw [List.length_append]; simp
  rw [List.getD_eq_getElem _ _ h']
  simp

theorem skip_whitespace_step (f : Nat) (s : List Char) (p m : Nat)
    (h : is_space (s.getD p NUL) = true) :
    skip_whitespace (f + 1) (state_at s p m) =
      skip_whitespace f (state_at s (p + 1) (if s.getD p NUL = '\n' then m + 1 else m)) := by
  have hcur : (state_at s p m).current_char = s.getD p NUL := rfl
  rw [skip_whitespace, hcur, if_pos h]
  dsimp only
  by_cases hnl : s.getD p NUL = '\n'
  · rw [if_pos hnl, if_pos hnl]
    show skip_whitespace f (read_char (state_at s p (m + 1))) = _
    rw [read_char_state_at]
  · rw [if_neg hnl, if_neg hnl, read_char_state_at]

theorem read_ident_loop_step (f : Nat) (s : List Char) (p m : Nat)
    (h : ((s.getD p NUL).isAlpha || (s.getD p NUL).isAlphanum || s.getD p NUL == '_') = true) :
    read_ident_loop (f + 1) (state_at s p m) = read_ident_loop f (state_at s (p + 1) m) := by
  have hcur : (state_at s p m).current_char = s.getD p NUL := rfl
  rw [read_ident_loop, hcur, if_pos h, read_char_state_at]

theorem read_ident_loop_stop (f : Nat) (s : List Char) (p m : Nat)
    (h : ¬ ((s.getD p NUL).isAlpha || (s.getD p NUL).isAlphanum || s.getD p NUL == '_') = true) :
    read_ident_loop (f + 1) (state_at s p m) = .ok (state_at s p m) := by
  have hcur : (state_at s p m).current_char = s.getD p NUL := rfl
  rw [read_ident_loop, hcur, if_neg h]

theorem read_number_loop_last (f : Nat) (s : List Char) (p n sp dc : Nat) (out : List Char)
    (hcd : ((s.getD p NUL).isDigit || s.getD p NUL == '.') = true)
    (hdc : ¬ (if s.getD p NUL = '.' then dc + 1 else dc) > 1)
    (hn : s.getD (p + 1) NUL = NUL) :
    read_number_loop (f + 1) (state_at s p n) sp dc out =
      .ok (read_number_finish (state_at s (p + 1) n)
        (if s.getD p NUL = '.' then dc + 1 else dc) (out ++ [s.getD p NUL])) := by
  have hcur : (state_at s p n).current_char = s.getD p NUL := rfl
  have hnext : (state_at s (p + 1) n).current_char = s.getD (p + 1) NUL := rfl
  rw [read_number_loop, hcur, if_pos hcd]
  dsimp only
  rw [if_neg hdc, read_char_state_at, hnext, if_pos hn]

theorem read_number_loop_stop (f : Nat) (s : List Char) (p n sp dc : Nat) (out : List Char)
    (hcd : ¬ ((s.getD p NUL).isDigit || s.getD p NUL == '.') = true) :
    read_number_loop (f + 1) (state_at s p n) sp dc out =
      .ok (read_number_finish (state_at s p n) dc out) := by
  have hcur : (state_at s p n).current_char = s.getD p NUL := rfl
  rw [read_number_loop, hcur, if_neg hcd]

theorem state_at_pos_inj (s : List Char) (p p' n n' : Nat)
    (h : state_at s p n = state_at s p' n') : p = p' :=
  congrArg Lexer.pos h

theorem state_at_line_inj (s : List Char) (p p' n n' : Nat)
    (h : state_at s p n = state_at s p' n') : n = n' :=
  congrArg Lexer.line_no h

/-- `skip_whitespace` that stops before position `b` does the same on every
text with the same characters before `b`. -/
theorem skip_whitespace_stable (s s' : List Char) (b : Nat)
    (hag : ∀ i, i < b → s'.getD i NUL = s.getD i NUL) :
    ∀ (f p m q m' : Nat), skip_whitespace f (state_at s p m) = .ok (state_at s q m') → q < b →
      skip_whitespace f (state_at s' p m) = .ok (state_at s' q m') := by
  intro f
  induction f with
  | zero => intro p m q m' h _; simp [skip_whitespace] at h
  | succ k ih =>
    intro p m q m' h hq
    obtain ⟨p', n', h1, h2, -⟩ := skip_whitespace_state s _ _ _ _ h
    have hpq : p ≤ q := by rw [state_at_pos_inj s q p' m' n' h1]; exact h2
    have hch := hag p (by omega)
    cases hsp : is_space (s.getD p NUL) with
    | true =>
      rw [skip_whitespace_step k s p m hsp] at h
      rw [skip_whitespace_step k s' p m (by rw [hch]; exact hsp), hch]
      exact ih _ _ _ _ h hq
    | false =>
      rw [skip_whitespace_stop k _ (show is_space (state_at s p m).current_char = false from hsp)]
        at h
      injection h with h
      have e1 := state_at_pos_inj s p q m m' h
      have e2 := state_at_line_inj s p q m m' h
      subst e1; subst e2
      exact skip_whitespace_stop k _ (show is_space (s'.getD p NUL) = false by rw [hch]; exact hsp)

theorem read_ident_loop_stable (s s' : List Char) (b : Nat)
    (hag : ∀ i, i < b → s'.getD i NUL = s.getD i NUL) :
    ∀ (f p m q m' : Nat), read_ident_loop f (state_at s p m) = .ok (state_at s q m') → q < b →
      read_ident_loop f (state_at s' p m) = .ok (state_at s' q m') := by
  intro f
  induction f with
  | zero => intro p m q m' h _; simp [read_ident_loop] at h
  | succ k ih =>
    intro p m q m' h hq
    obtain ⟨p', h1, h2⟩ := read_ident_loop_state s _ _ _ _ h
    have hpq : p ≤ q := by rw [state_at_pos_inj s q p' m' m h1]; exact h2
    have hch := hag p (by omega)
    by_cases hc : ((s.getD p NUL).isAlpha || (s.getD p NUL).isAlphanum ||
        s.getD p NUL == '_') = true
    · rw [read_ident_loop_step k s p m hc] at h
      rw [read_ident_loop_step k s' p m (by rw [hch]; exact hc)]
      exact ih _ _ _ _ h hq
    · rw [read_ident_loop_stop k s p m hc] at h
      injection h with h
      have e1 := state_at_pos_inj s p q m m' h
      have e2 := state_at_line_inj s p q m m' h
      subst e1; subst e2
      exact read_ident_loop_stop k s' p m (by rw [hch]; exact hc)

theorem read_invalid_number_stable (s s' : List Char) (b : Nat)
    (hag : ∀ i, i < b → s'.getD i NUL = s.getD i NUL) :
    ∀ (f p m : Nat) (acc acc' r : List Char) (q m' : Nat),
      read_invalid_number f (state_at s p m) acc = .ok (r, state_at s q m') → q < b →
      ∃ r', read_invalid_number f (state_at s' p m) acc' = .ok (r', state_at s' q m') := by
  intro f
  induction f with
  | zero => intro p m acc acc' r q m' h _; simp [read_invalid_number] at h
  | succ k ih =>
    intro p m acc acc' r q m' h hq
    obtain ⟨p', h1, h2⟩ := read_invalid_number_state s _ _ _ _ _ h
    have hpq : p ≤ q := by rw [state_at_pos_inj s q p' m' m h1]; exact h2
    have hch := hag p (by omega)
    cases hsp : is_space (s.getD p NUL) with
    | false =>
      rw [read_invalid_number_step k s p m acc hsp] at h
      rw [read_invalid_number_step k s' p m acc' (by rw [hch]; exact hsp)]
      exact ih _ _ _ _ _ _ _ h hq
    | true =>
      rw [read_invalid_number_stop k s p m acc hsp] at h
      injection h with h
      injection h with h3 h4
      have e1 := state_at_pos_inj s p q m m' h4
      have e2 := state_at_line_inj s p q m m' h4
      subst e1; subst e2
      exact ⟨acc', read_invalid_number_stop k s' p m acc' (by rw [hch]; exact hsp)⟩

theorem read_number_loop_stable (s s' : List Char) (b : Nat)
    (hag : ∀ i, i < b → s'.getD i NUL = s.getD i NUL) :
    ∀ (f p m sp dc : Nat) (out : List Char) (sp' : Nat) (out' : List Char) (t : Token)
      (q m' : Nat),
      read_number_loop f (state_at s p m) sp dc out = .ok (t, state_at s q m') → q < b →
      ∃ t', read_number_loop f (state_at s' p m) sp' dc out' = .ok (t', state_at s' q m') := by
  intro f
  induction f with
  | zero => intro p m sp dc out sp' out' t q m' h _; simp [read_number_loop] at h
  | succ k ih =>
    intro p m sp dc out sp' out' t q m' h hq
    obtain ⟨⟨p', h1, h2⟩, -⟩ := read_number_loop_state s _ _ _ _ _ _ _ h
    have hpq : p ≤ q := by rw [state_at_pos_inj s q p' m' m h1]; exact h2
    have hch := hag p (by omega)
    by_cases hc : ((s.getD p NUL).isDigit || s.getD p NUL == '.') = true
    · have hc' : ((s'.getD p NUL).isDigit || s'.getD p NUL == '.') = true := by
        rw [hch]; exact hc
      by_cases hd : (if s.getD p NUL = '.' then dc + 1 else dc) > 1
      · have hd' : (if s'.getD p NUL = '.' then dc + 1 else dc) > 1 := by rw [hch]; exact hd
        rw [read_number_loop_invalid k s p m sp dc out hc hd] at h
        rw [read_number_loop_invalid k s' p m sp' dc out' hc' hd']
        cases hr : read_invalid_number k (state_at s p m) (substr s sp (p - sp)) with
        | error e => rw [hr] at h; simp at h
        | ok v =>
          obtain ⟨inv, l1⟩ := v
          rw [hr] at h
          injection h with h
          injection h with h3 h4
          rw [h4] at hr
          obtain ⟨r', hr'⟩ := read_invalid_number_stable s s' b hag k p m _
            (substr s' sp' (p - sp')) _ q m' hr hq
          rw [hr']
          exact ⟨_, rfl⟩
      · have hd' : ¬ (if s'.getD p NUL = '.' then dc + 1 else dc) > 1 := by rw [hch]; exact hd
        by_cases hn : s.getD (p + 1) NUL = NUL
        · rw [read_number_loop_last k s p m sp dc out hc hd hn] at h
          injection h with h
          have h4 : (read_number_finish (state_at s (p + 1) m)
              (if s.getD p NUL = '.' then dc + 1 else dc) (out ++ [s.getD p NUL])).2 =
              state_at s q m' := by rw [h]
          rw [(read_number_finish_state _ _ _).1] at h4
          have e1 := state_at_pos_inj s (p + 1) q m m' h4
          have e2 := state_at_line_inj s (p + 1) q m m' h4
          subst e1; subst e2
          have hn' : s'.getD (p + 1) NUL = NUL := by rw [hag (p + 1) hq]; exact hn
          rw [read_number_loop_last k s' p m sp' dc out' hc' hd' hn']
          refine ⟨(read_number_finish (state_at s' (p + 1) m)
            (if s'.getD p NUL = '.' then dc + 1 else dc) (out' ++ [s'.getD p NUL])).1, ?_⟩
          congr 1
          exact Prod.ext rfl (read_number_finish_state _ _ _).1
        · rw [read_number_loop_step k s p m sp dc out hc hd hn] at h
          obtain ⟨⟨p2, h5, h6⟩, -⟩ := read_number_loop_state s _ _ _ _ _ _ _ h
          have hp1 : p + 1 ≤ q := by rw [state_at_pos_inj s q p2 m' m h5]; exact h6
          have hn' : s'.getD (p + 1) NUL ≠ NUL := by rw [hag (p + 1) (by omega)]; exact hn
          rw [read_number_loop_step k s' p m sp' dc out' hc' hd' hn', hch]
          exact ih _ _ _ _ _ _ _ _ _ _ h hq
    · have hc' : ¬ ((s'.getD p NUL).isDigit || s'.getD p NUL == '.') = true := by
        rw [hch]; exact hc
      rw [read_number_loop_stop k s p m sp dc out hc] at h
      injection h with h
      have h4 : (read_number_finish (state_at s p m) dc out).2 = state_at s q m' := by rw [h]
      rw [(read_number_finish_state _ _ _).1] at h4
      have e1 := state_at_pos_inj s p q m m' h4
      have e2 := state_at_line_inj s p q m m' h4
      subst e1; subst e2
      rw [read_number_loop_stop k s' p m sp' dc out' hc']
      refine ⟨(read_number_finish (state_at s' p m) dc out').1, ?_⟩
      congr 1
      exact Prod.ext rfl (read_number_finish_state _ _ _).1

end Lexer

namespace Lexer

theorem next_token_cases_stable (s s' : List Char) (q m : Nat)
    (h0 : s'.getD q NUL = s.getD q NUL) (h1 : s'.getD (q + 1) NUL = s.getD (q + 1) NUL) :
    (next_token_cases (state_at s q m) = none → next_token_cases (state_at s' q m) = none) ∧
    ∀ (t : Token) (p' m' : Nat),
      next_token_cases (state_at s q m) = some (t, state_at s p' m') →
      next_token_cases (state_at s' q m) = some (t, state_at s' p' m') := by
  have hcur : (state_at s q m).current_char = s.getD q NUL := rfl
  have hcur' : (state_at s' q m).current_char = s.getD q NUL := h0
  unfold next_token_cases
  rw [hcur, hcur']
  cases hl : switch_table.lookup (s.getD q NUL) with
  | none => exact ⟨fun _ => rfl, fun t p' m' h => by simp at h⟩
  | some v =>
    obtain ⟨o, ty, lit⟩ := v
    cases o with
    | none =>
      refine ⟨fun h => by simp [emit] at h, fun t p' m' h => ?_⟩
      simp only [emit, read_char_state_at, Option.some.injEq, Prod.mk.injEq] at h ⊢
      obtain ⟨h2, h3⟩ := h
      have e1 := state_at_pos_inj s _ _ _ _ h3
      have e2 := state_at_line_inj s _ _ _ _ h3
      subst e1; subst e2
      exact ⟨h2, rfl⟩
    | some w =>
      obtain ⟨c2, ty2, lit2⟩ := w
      have hp : peek_char (state_at s' q m) = peek_char (state_at s q m) := by
        rw [peek_char_state_at, peek_char_state_at, h1]
      dsimp only
      unfold emit2
      rw [hp]
      by_cases hpk : peek_char (state_at s q m) = c2
      · rw [if_pos hpk, if_pos hpk]
        refine ⟨fun h => by simp [emit] at h, fun t p' m' h => ?_⟩
        simp only [emit, read_char_state_at, Option.some.injEq, Prod.mk.injEq] at h ⊢
        obtain ⟨h2, h3⟩ := h
        have e1 := state_at_pos_inj s _ _ _ _ h3
        have e2 := state_at_line_inj s _ _ _ _ h3
        subst e1; subst e2
        exact ⟨h2, rfl⟩
      · rw [if_neg hpk, if_neg hpk]
        refine ⟨fun h => by simp [emit] at h, fun t p' m' h => ?_⟩
        simp only [emit, read_char_state_at, Option.some.injEq, Prod.mk.injEq] at h ⊢
        obtain ⟨h2, h3⟩ := h
        have e1 := state_at_pos_inj s _ _ _ _ h3
        have e2 := state_at_line_inj s _ _ _ _ h3
        subst e1; subst e2
        exact ⟨h2, rfl⟩

theorem next_token_default_stable (s s' : List Char) (b : Nat)
    (hag : ∀ i, i < b → s'.getD i NUL = s.getD i NUL)
    (f q m : Nat) (t : Token) (p' m' : Nat)
    (h : next_token_default f (state_at s q m) = .ok (t, state_at s p' m')) (hp : p' < b) :
    ∃ t', next_token_default f (state_at s' q m) = .ok (t', state_at s' p' m') := by
  obtain ⟨⟨p2, h1, h2⟩, -⟩ := next_token_default_state s f q m _ h
  have hqp : q < p' := by rw [state_at_pos_inj s p' p2 m' m h1]; exact h2
  have hch := hag q (by omega)
  have hcur : (state_at s q m).current_char = s.getD q NUL := rfl
  have hcur' : (state_at s' q m).current_char = s.getD q NUL := hch
  unfold next_token_default at h ⊢
  rw [hcur] at h
  rw [hcur']
  by_cases ha : (s.getD q NUL).isAlpha = true
  · rw [if_pos ha] at h ⊢
    unfold read_ident at h ⊢
    cases hr : read_ident_loop f (state_at s q m) with
    | error e => rw [hr] at h; simp at h
    | ok l1 =>
      rw [hr] at h
      injection h with h
      injection h with h3 h4
      rw [h4] at hr
      rw [read_ident_loop_stable s s' b hag f q m p' m' hr hp]
      exact ⟨_, rfl⟩
  · rw [if_neg ha] at h ⊢
    by_cases hd : (s.getD q NUL).isDigit = true
    · rw [if_pos hd] at h ⊢
      unfold read_number at h ⊢
      exact read_number_loop_stable s s' b hag f q m _ 0 [] _ [] t p' m' h hp
    · rw [if_neg hd] at h ⊢
      injection h with h
      injection h with h3 h4
      rw [read_char_state_at] at h4 ⊢
      have e1 := state_at_pos_inj s _ _ _ _ h4
      have e2 := state_at_line_inj s _ _ _ _ h4
      subst e1; subst e2
      exact ⟨_, rfl⟩

/-- A call of `next_token` that returns before position `b` returns, on every
text with the same characters before `b`, at the same position. -/
theorem next_token_stable (s s' : List Char) (b : Nat)
    (hag : ∀ i, i < b → s'.getD i NUL = s.getD i NUL)
    (f p m : Nat) (t : Token) (p' m' : Nat)
    (h : next_token f (state_at s p m) = .ok (t, state_at s p' m')) (hp : p' < b) :
    ∃ t', next_token f (state_at s' p m) = .ok (t', state_at s' p' m') := by
  unfold next_token at h ⊢
  cases hsk : skip_whitespace f (state_at s p m) with
  | error e => rw [hsk] at h; simp at h
  | ok l1 =>
    obtain ⟨q, m0, rfl, -, -⟩ := skip_whitespace_state s _ _ _ _ hsk
    rw [hsk] at h
    dsimp only at h
    unfold next_token_switch at h
    cases hc : next_token_cases (state_at s q m0) with
    | some r =>
      rw [hc] at h
      injection h with h
      rw [h] at hc
      have hq : q + 1 ≤ p' := by
        rcases (next_token_cases_state s q m0 _ hc).1 with e | e
        · have := state_at_pos_inj s _ _ _ _ e; omega
        · have := state_at_pos_inj s _ _ _ _ e; omega
      rw [skip_whitespace_stable s s' b hag f p m q m0 hsk (by omega)]
      dsimp only
      unfold next_token_switch
      rw [(next_token_cases_stable s s' q m0 (hag q (by omega)) (hag (q + 1) (by omega))).2
        t p' m' hc]
      exact ⟨t, rfl⟩
    | none =>
      rw [hc] at h
      dsimp only at h
      obtain ⟨⟨p2, h1, h2⟩, -⟩ := next_token_default_state s f q m0 _ h
      have hq : q < p' := by rw [state_at_pos_inj s p' p2 m' m0 h1]; exact h2
      rw [skip_whitespace_stable s s' b hag f p m q m0 hsk (by omega)]
      dsimp only
      unfold next_token_switch
      have hc0 : next_token_cases (state_at s q m0) = none := hc
      have hc' : next_token_cases (state_at s' q m0) = none := by
        have hcur' : (state_at s' q m0).current_char = s.getD q NUL := hag q (by omega)
        have hcur : (state_at s q m0).current_char = s.getD q NUL := rfl
        unfold next_token_cases at hc0 ⊢
        rw [hcur] at hc0
        rw [hcur']
        cases hl : switch_table.lookup (s.getD q NUL) with
        | none => rfl
        | some v =>
          exfalso
          rw [hl] at hc0
          obtain ⟨o, ty, lit⟩ := v
          cases o with
          | none => simp [emit] at hc0
          | some w =>
            obtain ⟨c2, ty2, lit2⟩ := w
            dsimp only at hc0
            unfold emit2 at hc0
            split at hc0 <;> simp [emit] at hc0
      rw [hc']
      exact next_token_default_stable s s' b hag f q m0 t p' m' h (by omega)

end Lexer

namespace Lexer

/-- On a text that ends with a blank, the inner loop of `read_number` returns. -/
theorem read_invalid_number_returns (s : List Char) (c : Char) (hc : is_space c = true) :
    ∀ (n p m : Nat) (acc : List Char), p + n = s.length →
      ∃ r, read_invalid_number (n + 1) (state_at (s ++ [c]) p m) acc = .ok r := by
  intro n
  induction n with
  | zero =>
    intro p m acc hp
    have hch : (s ++ [c]).getD p NUL = c := by
      have : p = s.length := by omega
      rw [this]; exact getD_append_length s c
    exact ⟨_, read_invalid_number_stop 0 _ p m acc (by rw [hch]; exact hc)⟩
  | succ k ih =>
    intro p m acc hp
    cases hsp : is_space ((s ++ [c]).getD p NUL) with
    | true => exact ⟨_, read_invalid_number_stop _ _ p m acc hsp⟩
    | false =>
      rw [read_invalid_number_step _ _ p m acc hsp]
      exact ih (p + 1) m _ (by omega)

/-- When the outer loop of `read_number` returns for no fuel, it returns, on
the text followed by a line end, a token of the kind `ILLEGAL`. -/
theorem read_number_loop_padded (s : List Char) :
    ∀ (n p m sp dc : Nat) (out : List Char) (sp' : Nat) (out' : List Char),
      s.length ≤ p + n →
      (∀ f r, read_number_loop f (state_at s p m) sp dc out ≠ .ok r) →
      p < s.length ∧
      ∃ f t l, read_number_loop f (state_at (s ++ ['\n']) p m) sp' dc out' = .ok (t, l) ∧
        t.type = .ILLEGAL := by
  intro n
  induction n with
  | zero =>
    intro p m sp dc out sp' out' hp hdiv
    exfalso
    have hnul : s.getD p NUL = NUL := getD_nul_of_le s p (by omega)
    exact hdiv 1 _ (read_number_loop_stop 0 s p m sp dc out (by rw [hnul]; decide))
  | succ k ih =>
    intro p m sp dc out sp' out' hp hdiv
    by_cases hc : ((s.getD p NUL).isDigit || s.getD p NUL == '.') = true
    · have hlt : p < s.length := lt_length_of_getD_ne_nul s p (by
        intro h0; rw [h0] at hc; exact absurd hc (by decide))
      have hch : (s ++ ['\n']).getD p NUL = s.getD p NUL := getD_append_of_lt s _ p hlt
      have hc' : (((s ++ ['\n']).getD p NUL).isDigit || (s ++ ['\n']).getD p NUL == '.') = true := by
        rw [hch]; exact hc
      refine ⟨hlt, ?_⟩
      by_cases hd : (if s.getD p NUL = '.' then dc + 1 else dc) > 1
      · have hd' : (if (s ++ ['\n']).getD p NUL = '.' then dc + 1 else dc) > 1 := by
          rw [hch]; exact hd
        obtain ⟨r, hr⟩ := read_invalid_number_returns s '\n' (by decide) (s.length - p) p m
          (substr (s ++ ['\n']) sp' (p - sp')) (by omega)
        refine ⟨s.length - p + 1 + 1, create_token r.2 .ILLEGAL r.1, r.2, ?_, rfl⟩
        rw [read_number_loop_invalid _ (s ++ ['\n']) p m sp' dc out' hc' hd', hr]
      · have hd' : ¬ (if (s ++ ['\n']).getD p NUL = '.' then dc + 1 else dc) > 1 := by
          rw [hch]; exact hd
        by_cases hn : s.getD (p + 1) NUL = NUL
        · exfalso
          exact hdiv 1 _ (read_number_loop_last 0 s p m sp dc out hc hd hn)
        · have hlt1 : p + 1 < s.length := lt_length_of_getD_ne_nul s (p + 1) hn
          have hn' : (s ++ ['\n']).getD (p + 1) NUL ≠ NUL := by
            rw [getD_append_of_lt s _ (p + 1) hlt1]; exact hn
          obtain ⟨-, f, t, l, hf, ht⟩ := ih (p + 1) m sp
            (if s.getD p NUL = '.' then dc + 1 else dc) (out ++ [s.getD p NUL]) sp'
            (out' ++ [s.getD p NUL]) (by omega) (by
              intro f r hfr
              exact hdiv (f + 1) r (by
                rw [read_number_loop_step f s p m sp dc out hc hd hn]; exact hfr))
          refine ⟨f + 1, t, l, ?_, ht⟩
          rw [read_number_loop_step f (s ++ ['\n']) p m sp' dc out' hc' hd' hn', hch]
          exact hf
    · exfalso
      exact hdiv 1 _ (read_number_loop_stop 0 s p m sp dc out hc)

/-- A call of `next_token` that never returns is made at a number with a second
`.`: on the text followed by a line end it returns a token of the kind `ILLEGAL`. -/
theorem next_token_padded (s : List Char) (p m : Nat)
    (hdiv : ∀ f, next_token f (state_at s p m) = .error .out_of_fuel) :
    p < s.length ∧
    ∃ f t l, next_token f (state_at (s ++ ['\n']) p m) = .ok (t, l) ∧ t.type = .ILLEGAL := by
  obtain ⟨l1, hsw⟩ := skip_whitespace_returns s (s.length + 2) p m (by omega) (by omega)
  obtain ⟨q, m', rfl, hpq, hns⟩ := skip_whitespace_state s _ _ _ _ hsw
  have hcur : (state_at s q m').current_char = s.getD q NUL := rfl
  have hret : ∀ r, next_token (s.length + 2) (state_at s p m) ≠ .ok r := by
    intro r hr; rw [hdiv] at hr; exact Except.noConfusion hr
  have hnt : ∀ f, s.length + 2 ≤ f →
      next_token f (state_at s p m) = next_token_switch f (state_at s q m') := by
    intro f hf
    rw [next_token, skip_whitespace_mono _ _ _ hsw f hf]
  cases hc : next_token_cases (state_at s q m') with
  | some r =>
    exfalso
    exact hret r (by rw [hnt _ (le_refl _)]; simp only [next_token_switch, hc])
  | none =>
    by_cases ha : (s.getD q NUL).isAlpha = true
    · exfalso
      obtain ⟨l2, hl2⟩ := read_ident_loop_returns s (s.length + 2) q m' (by omega) (by omega)
      have hex : ∃ r, next_token (s.length + 2) (state_at s p m) = .ok r := by
        rw [hnt _ (le_refl _)]
        simp only [next_token_switch, hc, next_token_default, hcur, ha, if_true, read_ident,
          hl2]
        exact ⟨_, rfl⟩
      obtain ⟨r, hr⟩ := hex
      exact hret r hr
    · by_cases hd : (s.getD q NUL).isDigit = true
      · have hloop : ∀ f r, read_number_loop f (state_at s q m') q 0 [] ≠ .ok r := by
          intro f r hfr
          have h1 := read_number_loop_mono f _ _ _ _ _ hfr (max f (s.length + 2))
            (le_max_left _ _)
          have h2 := hdiv (max f (s.length + 2))
          rw [hnt _ (le_max_right _ _)] at h2
          simp only [next_token_switch, hc, next_token_default, hcur, ha, hd, if_true,
            read_number] at h2
          have h3 : read_number_loop (max f (s.length + 2)) (state_at s q m') q 0 [] =
              .error .out_of_fuel := h2
          rw [h1] at h3
          exact Except.noConfusion h3
        obtain ⟨hlt, f, t, l, hf, ht⟩ := read_number_loop_padded s (s.length + 1) q m' q 0 []
          q [] (by omega) hloop
        refine ⟨by omega, max f (s.length + 2), t, l, ?_, ht⟩
        have hag : ∀ i, i < s.length → (s ++ ['\n']).getD i NUL = s.getD i NUL :=
          fun i hi => getD_append_of_lt s _ i hi
        have hsw' := skip_whitespace_stable s (s ++ ['\n']) s.length hag _ p m q m' hsw hlt
        have hch : (s ++ ['\n']).getD q NUL = s.getD q NUL := hag q hlt
        have hcur' : (state_at (s ++ ['\n']) q m').current_char = s.getD q NUL := hch
        have hc' : next_token_cases (state_at (s ++ ['\n']) q m') = none :=
          next_token_cases_eq_none _ (by rw [hcur']; exact not_case_char_of_isDigit _ hd)
        rw [next_token, skip_whitespace_mono _ _ _ hsw' _ (le_max_right _ _)]
        simp only [next_token_switch, hc', next_token_default, hcur', ha, hd, if_true,
          read_number]
        exact read_number_loop_mono f _ _ _ _ _ hf _ (le_max_left _ _)
      · exfalso
        have hex : ∃ r, next_token (s.length + 2) (state_at s p m) = .ok r := by
          rw [hnt _ (le_refl _)]
          simp only [next_token_switch, hc, next_token_default, hcur, ha, hd]
          exact ⟨_, rfl⟩
        obtain ⟨r, hr⟩ := hex
        exact hret r hr

theorem run_mono (f : Nat) : ∀ (n : Nat) (l : Lexer) (r : List Token × Lexer),
    run f n l = .ok r → ∀ f', f ≤ f' → run f' n l = .ok r := by
  intro n
  induction n with
  | zero => intro l r h f' _; exact h
  | succ k ih =>
    intro l r h f' hf
    rw [run] at h ⊢
    cases hq : next_token f l with
    | error e => rw [hq] at h; simp at h
    | ok v =>
      obtain ⟨t, l1⟩ := v
      rw [hq] at h
      dsimp only at h
      rw [next_token_mono f l _ hq f' hf]
      dsimp only
      cases hr : run f k l1 with
      | error e => rw [hr] at h; simp at h
      | ok w =>
        rw [ih l1 w hr f' hf]
        rw [hr] at h
        exact h

/-- When, after `k` calls of `next_token` that return, the next call never
returns, the same calls on the text followed by a line end all return, the last
one a token of the kind `ILLEGAL`. -/
theorem run_padded (s : List Char) (F : Nat) : ∀ (k p m : Nat) (ts : List Token) (l : Lexer),
    run F k (state_at s p m) = .ok (ts, l) →
    (∀ f, next_token f l = .error .out_of_fuel) →
    p + k < s.length ∧
    ∃ f ts' t l', run f (k + 1) (state_at (s ++ ['\n']) p m) = .ok (ts' ++ [t], l') ∧
      t.type = .ILLEGAL := by
  have hag : ∀ i, i < s.length → (s ++ ['\n']).getD i NUL = s.getD i NUL :=
    fun i hi => getD_append_of_lt s _ i hi
  intro k
  induction k with
  | zero =>
    intro p m ts l h hdiv
    simp only [run] at h
    injection h with h
    injection h with h1 h2
    rw [← h2] at hdiv
    obtain ⟨hlt, f, t, l', hf, ht⟩ := next_token_padded s p m hdiv
    refine ⟨by omega, f, [], t, l', ?_, ht⟩
    rw [run, hf]
    rfl
  | succ k ih =>
    intro p m ts l h hdiv
    rw [run] at h
    cases hq : next_token F (state_at s p m) with
    | error e => rw [hq] at h; simp at h
    | ok v =>
      obtain ⟨t0, l1⟩ := v
      rw [hq] at h
      dsimp only at h
      cases hr : run F k l1 with
      | error e => rw [hr] at h; simp at h
      | ok w =>
        obtain ⟨ts1, l2⟩ := w
        rw [hr] at h
        injection h with h
        injection h with h1 h2
        obtain ⟨p1, m1, rfl, hpp, -⟩ := next_token_progress s F p m t0 l1 hq
        rw [h2] at hr
        obtain ⟨hlt, f, ts', t, l', hf, ht⟩ := ih p1 m1 ts1 l hr hdiv
        obtain ⟨t0', hq'⟩ := next_token_stable s (s ++ ['\n']) s.length hag F p m t0 p1 m1 hq
          (by omega)
        refine ⟨by omega, max F f, t0' :: ts', t, l', ?_, ht⟩
        rw [run, next_token_mono F _ _ hq' _ (le_max_left _ _)]
        dsimp only
        rw [run_mono f _ _ _ hf _ (le_max_right _ _)]
        rfl

theorem mem_tokens_of_run (f g : Nat) : ∀ (a n : Nat) (l l1 : Lexer) (ts1 ts2 : List Token),
    run f a l = .ok (ts1, l1) → tokens g n l = .ok ts2 → a ≤ n → ∀ t ∈ ts1, t ∈ ts2 := by
  intro a
  induction a with
  | zero =>
    intro n l l1 ts1 ts2 h _ _ t ht
    simp only [run] at h
    injection h with h
    injection h with h1 h2
    rw [← h1] at ht
    simp at ht
  | succ k ih =>
    intro n l l1 ts1 ts2 h h2 hn t ht
    obtain ⟨n', rfl⟩ : ∃ n', n = n' + 1 := ⟨n - 1, by omega⟩
    rw [run] at h
    rw [tokens] at h2
    cases hq : next_token f l with
    | error e => rw [hq] at h; simp at h
    | ok v =>
      obtain ⟨t0, l0⟩ := v
      rw [hq] at h
      dsimp only at h
      cases hq2 : next_token g l with
      | error e => rw [hq2] at h2; simp at h2
      | ok v2 =>
        obtain ⟨t2, l2⟩ := v2
        rw [hq2] at h2
        dsimp only at h2
        have e1 := next_token_mono f l _ hq (max f g) (le_max_left _ _)
        have e2 := next_token_mono g l _ hq2 (max f g) (le_max_right _ _)
        rw [e1] at e2
        injection e2 with e2
        injection e2 with e3 e4
        subst e3; subst e4
        cases hr : run f k l0 with
        | error e => rw [hr] at h; simp at h
        | ok w =>
          obtain ⟨ts1', l1'⟩ := w
          rw [hr] at h
          injection h with h
          injection h with h3 h4
          cases hr2 : tokens g n' l0 with
          | error e => rw [hr2] at h2; simp at h2
          | ok ts2' =>
            rw [hr2] at h2
            injection h2 with h2
            rw [← h3] at ht
            rw [← h2]
            rcases List.mem_cons.1 ht with e | hmem
            · rw [e]; exact List.mem_cons_self _ _
            · exact List.mem_cons_of_mem _ (ih n' l0 l1' ts1' ts2' hr hr2 (by omega) t hmem)

/-- On a text whose tokens are all legal, every call of `next_token` returns. -/
theorem run_returns_of_all_legal (s : List Char) (hlegal : all_legal s = true) (n : Nat) :
    ∃ ts l, run (s.length + 2) n (Lexer.new s) = .ok (ts, l) := by
  rw [new_eq]
  rcases run_returns_or_not s n 0 1 with h | ⟨k, ts, l, -, hrun, hdiv⟩
  · exact h
  · exfalso
    obtain ⟨hlt, f, ts', t, l', hf, ht⟩ := run_padded s _ k 0 1 ts l hrun hdiv
    unfold all_legal at hlegal
    rw [new_eq] at hlegal
    cases htk : tokens (s.length + 3) (s.length + 1) (state_at (s ++ ['\n']) 0 1) with
    | error e => rw [htk] at hlegal; exact Bool.noConfusion hlegal
    | ok tsL =>
      rw [htk] at hlegal
      have hmem := mem_tokens_of_run f _ (k + 1) (s.length + 1) _ _ _ _ hf htk (by omega) t
        (by simp)
      have := List.all_eq_true.1 hlegal t hmem
      rw [ht] at this
      exact absurd this (by decide)

end Lexer

/-! ## The tokens of a text followed by a line end are those of the text -/

namespace Lexer

theorem getD_padded_of_le (s : List Char) (p : Nat) (h : s.length ≤ p) :
    (s ++ ['\n']).getD p NUL = '\n' ∨ (s ++ ['\n']).getD p NUL = NUL := by
  by_cases hp : p = s.length
  · left; rw [hp]; exact getD_append_length s '\n'
  · right
    exact getD_nul_of_le _ _ (by rw [List.length_append]; simp; omega)

theorem substr_append_of_le (s x : List Char) (q n : Nat) (h : q + n ≤ s.length) :
    substr (s ++ x) q n = substr s q n := by
  unfold substr
  rw [List.drop_append_of_le_length (by omega),
    List.take_append_of_le_length (by rw [List.length_drop]; omega)]

theorem read_ident_loop_same (s : List Char) :
    ∀ (f p m q m' : Nat), read_ident_loop f (state_at s p m) = .ok (state_at s q m') →
      read_ident_loop f (state_at (s ++ ['\n']) p m) = .ok (state_at (s ++ ['\n']) q m') ∧
      q ≤ max p s.length := by
  intro f
  induction f with
  | zero => intro p m q m' h; simp [read_ident_loop] at h
  | succ k ih =>
    intro p m q m' h
    by_cases hc : ((s.getD p NUL).isAlpha || (s.getD p NUL).isAlphanum ||
        s.getD p NUL == '_') = true
    · have hlt : p < s.length := lt_length_of_getD_ne_nul s p (by
        intro h0; rw [h0] at hc; exact absurd hc (by decide))
      have hch := getD_append_of_lt s ['\n'] p hlt
      rw [read_ident_loop_step k s p m hc] at h
      rw [read_ident_loop_step k _ p m (by rw [hch]; exact hc)]
      obtain ⟨h1, h2⟩ := ih _ _ _ _ h
      exact ⟨h1, by omega⟩
    · rw [read_ident_loop_stop k s p m hc] at h
      injection h with h
      have e1 := state_at_pos_inj s p q m m' h
      have e2 := state_at_line_inj s p q m m' h
      subst e1; subst e2
      refine ⟨read_ident_loop_stop k _ p m ?_, by omega⟩
      by_cases hlt : p < s.length
      · rw [getD_append_of_lt s _ p hlt]; exact hc
      · rcases getD_padded_of_le s p (by omega) with e | e <;> rw [e] <;> decide

theorem read_invalid_number_same (s : List Char) :
    ∀ (f p m : Nat) (acc acc' r : List Char) (q m' : Nat),
      read_invalid_number f (state_at s p m) acc = .ok (r, state_at s q m') →
      (∃ r', read_invalid_number f (state_at (s ++ ['\n']) p m) acc' =
        .ok (r', state_at (s ++ ['\n']) q m')) ∧ q < s.length := by
  intro f
  induction f with
  | zero => intro p m acc acc' r q m' h; simp [read_invalid_number] at h
  | succ k ih =>
    intro p m acc acc' r q m' h
    cases hsp : is_space (s.getD p NUL) with
    | false =>
      rw [read_invalid_number_step k s p m acc hsp] at h
      by_cases hlt : p < s.length
      · have hch := getD_append_of_lt s ['\n'] p hlt
        rw [read_invalid_number_step k _ p m acc' (by rw [hch]; exact hsp)]
        exact ih _ _ _ _ _ _ _ h
      · exfalso
        rw [read_invalid_number_at_end s k (p + 1) m _ (by omega)] at h
        exact Except.noConfusion h
    | true =>
      have hlt : p < s.length := lt_length_of_getD_ne_nul s p (by
        intro h0; rw [h0] at hsp; exact absurd hsp (by decide))
      have hch := getD_append_of_lt s ['\n'] p hlt
      rw [read_invalid_number_stop k s p m acc hsp] at h
      injection h with h
      injection h with h3 h4
      have e1 := state_at_pos_inj s p q m m' h4
      have e2 := state_at_line_inj s p q m m' h4
      subst e1; subst e2
      exact ⟨⟨acc', read_invalid_number_stop k _ p m acc' (by rw [hch]; exact hsp)⟩, hlt⟩

theorem read_number_finish_same_type (l l' : Lexer) (dc : Nat) (out out' : List Char) :
    (read_number_finish l' dc out').1.type = (read_number_finish l dc out).1.type := by
  unfold read_number_finish
  split <;> rfl

theorem read_number_loop_same (s : List Char) :
    ∀ (f p m sp dc : Nat) (out : List Char) (sp' : Nat) (out' : List Char) (t : Token)
      (q m' : Nat),
      read_number_loop f (state_at s p m) sp dc out = .ok (t, state_at s q m') →
      (∃ t', read_number_loop (f + 1) (state_at (s ++ ['\n']) p m) sp' dc out' =
          .ok (t', state_at (s ++ ['\n']) q m') ∧ t'.type = t.type) ∧
      q ≤ max p s.length := by
  intro f
  induction f with
  | zero => intro p m sp dc out sp' out' t q m' h; simp [read_number_loop] at h
  | succ k ih =>
    intro p m sp dc out sp' out' t q m' h
    by_cases hc : ((s.getD p NUL).isDigit || s.getD p NUL == '.') = true
    · have hlt : p < s.length := lt_length_of_getD_ne_nul s p (by
        intro h0; rw [h0] at hc; exact absurd hc (by decide))
      have hch := getD_append_of_lt s ['\n'] p hlt
      have hc' : (((s ++ ['\n']).getD p NUL).isDigit || (s ++ ['\n']).getD p NUL == '.') =
          true := by rw [hch]; exact hc
      by_cases hd : (if s.getD p NUL = '.' then dc + 1 else dc) > 1
      · have hd' : (if (s ++ ['\n']).getD p NUL = '.' then dc + 1 else dc) > 1 := by
          rw [hch]; exact hd
        rw [read_number_loop_invalid k s p m sp dc out hc hd] at h
        rw [read_number_loop_invalid (k + 1) _ p m sp' dc out' hc' hd']
        cases hr : read_invalid_number k (state_at s p m) (substr s sp (p - sp)) with
        | error e => rw [hr] at h; simp at h
        | ok v =>
          obtain ⟨inv, l1⟩ := v
          rw [hr] at h
          injection h with h
          injection h with h3 h4
          rw [h4] at hr
          obtain ⟨⟨r', hr'⟩, hq⟩ := read_invalid_number_same s k p m _
            (substr (s ++ ['\n']) sp' (p - sp')) _ q m' hr
          rw [read_invalid_number_mono k _ _ _ hr' (k + 1) (by omega)]
          refine ⟨⟨_, rfl, ?_⟩, by omega⟩
          rw [← h3]
          rfl
      · have hd' : ¬ (if (s ++ ['\n']).getD p NUL = '.' then dc + 1 else dc) > 1 := by
          rw [hch]; exact hd
        by_cases hn : s.getD (p + 1) NUL = NUL
        · rw [read_number_loop_last k s p m sp dc out hc hd hn] at h
          injection h with h
          have h4 : (read_number_finish (state_at s (p + 1) m)
              (if s.getD p NUL = '.' then dc + 1 else dc) (out ++ [s.getD p NUL])).2 =
              state_at s q m' := by rw [h]
          have h5 : (read_number_finish (state_at s (p + 1) m)
              (if s.getD p NUL = '.' then dc + 1 else dc) (out ++ [s.getD p NUL])).1 = t := by
            rw [h]
          rw [(read_number_finish_state _ _ _).1] at h4
          have e1 := state_at_pos_inj s (p + 1) q m m' h4
          have e2 := state_at_line_inj s (p + 1) q m m' h4
          subst e1; subst e2
          refine ⟨?_, by omega⟩
          by_cases hlt1 : p + 1 < s.length
          · have hn' : (s ++ ['\n']).getD (p + 1) NUL = NUL := by
              rw [getD_append_of_lt s _ (p + 1) hlt1]; exact hn
            rw [read_number_loop_last (k + 1) _ p m sp' dc out' hc' hd' hn', hch]
            refine ⟨(read_number_finish (state_at (s ++ ['\n']) (p + 1) m)
              (if s.getD p NUL = '.' then dc + 1 else dc) (out' ++ [s.getD p NUL])).1, ?_, ?_⟩
            · congr 1
              exact Prod.ext rfl (read_number_finish_state _ _ _).1
            · rw [← h5]; exact read_number_finish_same_type _ _ _ _ _
          · have hp1 : p + 1 = s.length := by omega
            have hnl : (s ++ ['\n']).getD (p + 1) NUL = '\n' := by
              rw [hp1]; exact getD_append_length s '\n'
            have hn' : (s ++ ['\n']).getD (p + 1) NUL ≠ NUL := by rw [hnl]; decide
            rw [read_number_loop_step (k + 1) _ p m sp' dc out' hc' hd' hn', hch,
              read_number_loop_stop k _ (p + 1) m sp' _ _ (by rw [hnl]; decide)]
            refine ⟨(read_number_finish (state_at (s ++ ['\n']) (p + 1) m)
              (if s.getD p NUL = '.' then dc + 1 else dc) (out' ++ [s.getD p NUL])).1, ?_, ?_⟩
            · congr 1
              exact Prod.ext rfl (read_number_finish_state _ _ _).1
            · rw [← h5]; exact read_number_finish_same_type _ _ _ _ _
        · have hlt1 : p + 1 < s.length := lt_length_of_getD_ne_nul s (p + 1) hn
          have hn' : (s ++ ['\n']).getD (p + 1) NUL ≠ NUL := by
            rw [getD_append_of_lt s _ (p + 1) hlt1]; exact hn
          rw [read_number_loop_step k s p m sp dc out hc hd hn] at h
          rw [read_number_loop_step (k + 1) _ p m sp' dc out' hc' hd' hn', hch]
          obtain ⟨h1, h2⟩ := ih _ _ _ _ _ sp' (out' ++ [s.getD p NUL]) _ _ _ h
          exact ⟨h1, by omega⟩
    · rw [read_number_loop_stop k s p m sp dc out hc] at h
      injection h with h
      have h4 : (read_number_finish (state_at s p m) dc out).2 = state_at s q m' := by rw [h]
      have h5 : (read_number_finish (state_at s p m) dc out).1 = t := by rw [h]
      rw [(read_number_finish_state _ _ _).1] at h4
      have e1 := state_at_pos_inj s p q m m' h4
      have e2 := state_at_line_inj s p q m m' h4
      subst e1; subst e2
      have hc' : ¬ (((s ++ ['\n']).getD p NUL).isDigit || (s ++ ['\n']).getD p NUL == '.') =
          true := by
        by_cases hlt : p < s.length
        · rw [getD_append_of_lt s _ p hlt]; exact hc
        · rcases getD_padded_of_le s p (by omega) with e | e <;> rw [e] <;> decide
      rw [read_number_loop_stop (k + 1) _ p m sp' dc out' hc']
      refine ⟨⟨(read_number_finish (state_at (s ++ ['\n']) p m) dc out').1, ?_, ?_⟩, by omega⟩
      · congr 1
        exact Prod.ext rfl (read_number_finish_state _ _ _).1
      · rw [← h5]; exact read_number_finish_same_type _ _ _ _ _

end Lexer

namespace Lexer

theorem next_token_cases_none_same (s s' : List Char) (q m : Nat)
    (h0 : s'.getD q NUL = s.getD q NUL) (hc : next_token_cases (state_at s q m) = none) :
    next_token_cases (state_at s' q m) = none := by
  have hcur' : (state_at s' q m).current_char = s.getD q NUL := h0
  have hcur : (state_at s q m).current_char = s.getD q NUL := rfl
  unfold next_token_cases at hc ⊢
  rw [hcur] at hc
  rw [hcur']
  cases hl : switch_table.lookup (s.getD q NUL) with
  | none => rfl
  | some v =>
    exfalso
    rw [hl] at hc
    obtain ⟨o, ty, lit⟩ := v
    cases o with
    | none => simp [emit] at hc
    | some w =>
      obtain ⟨c2, ty2, lit2⟩ := w
      dsimp only at hc
      unfold emit2 at hc
      split at hc <;> simp [emit] at hc

/-- A `case` of the `switch` makes the same token on the text followed by a line
end, and a token other than the end-of-input token ends inside the text. -/
theorem next_token_cases_same (s : List Char) (q m : Nat) (hq : q < s.length)
    (t : Token) (p' m' : Nat)
    (h : next_token_cases (state_at s q m) = some (t, state_at s p' m')) :
    next_token_cases (state_at (s ++ ['\n']) q m) = some (t, state_at (s ++ ['\n']) p' m') ∧
    (t.type ≠ .EOF_ → p' ≤ s.length) := by
  have hall : ∀ e ∈ switch_table,
      (∀ x, e.2.1 = some x → x.1 ≠ NUL ∧ x.1 ≠ '\n') := by
    decide
  have h0 := getD_append_of_lt s ['\n'] q hq
  have hcur : (state_at s q m).current_char = s.getD q NUL := rfl
  have hcur' : (state_at (s ++ ['\n']) q m).current_char = s.getD q NUL := h0
  unfold next_token_cases at h ⊢
  rw [hcur] at h
  rw [hcur']
  cases hl : switch_table.lookup (s.getD q NUL) with
  | none => rw [hl] at h; simp at h
  | some v =>
    rw [hl] at h
    have hm := hall _ (mem_of_lookup_eq_some _ _ _ hl)
    obtain ⟨o, ty, lit⟩ := v
    cases o with
    | none =>
      simp only [emit, read_char_state_at, Option.some.injEq, Prod.mk.injEq] at h ⊢
      obtain ⟨h2, h3⟩ := h
      have e1 := state_at_pos_inj s _ _ _ _ h3
      have e2 := state_at_line_inj s _ _ _ _ h3
      subst e1; subst e2
      exact ⟨⟨h2, rfl⟩, fun _ => by omega⟩
    | some w =>
      obtain ⟨c2, ty2, lit2⟩ := w
      have hc2 := hm _ rfl
      dsimp only at h ⊢
      unfold emit2 at h ⊢
      rw [peek_char_state_at] at h ⊢
      by_cases hpk : s.getD (q + 1) NUL = c2
      · have hlt1 : q + 1 < s.length := lt_length_of_getD_ne_nul s (q + 1) (by
          rw [hpk]; exact hc2.1)
        rw [if_pos hpk] at h
        rw [getD_append_of_lt s _ (q + 1) hlt1, if_pos hpk]
        simp only [emit, read_char_state_at, Option.some.injEq, Prod.mk.injEq] at h ⊢
        obtain ⟨h2, h3⟩ := h
        have e1 := state_at_pos_inj s _ _ _ _ h3
        have e2 := state_at_line_inj s _ _ _ _ h3
        subst e1; subst e2
        exact ⟨⟨h2, rfl⟩, fun _ => by omega⟩
      · rw [if_neg hpk] at h
        have hpk' : ¬ (s ++ ['\n']).getD (q + 1) NUL = c2 := by
          by_cases hlt1 : q + 1 < s.length
          · rw [getD_append_of_lt s _ (q + 1) hlt1]; exact hpk
          · rcases getD_padded_of_le s (q + 1) (by omega) with e | e
            · rw [e]; exact fun h9 => hc2.2 h9.symm
            · rw [e]; exact fun h9 => hc2.1 h9.symm
        rw [if_neg hpk']
        simp only [emit, read_char_state_at, Option.some.injEq, Prod.mk.injEq] at h ⊢
        obtain ⟨h2, h3⟩ := h
        have e1 := state_at_pos_inj s _ _ _ _ h3
        have e2 := state_at_line_inj s _ _ _ _ h3
        subst e1; subst e2
        exact ⟨⟨h2, rfl⟩, fun _ => by omega⟩

theorem next_token_default_same (s : List Char) (f q m : Nat) (hq : q < s.length)
    (t : Token) (p' m' : Nat)
    (h : next_token_default f (state_at s q m) = .ok (t, state_at s p' m')) :
    (∃ t', next_token_default (f + 1) (state_at (s ++ ['\n']) q m) =
        .ok (t', state_at (s ++ ['\n']) p' m') ∧ t'.type = t.type) ∧ p' ≤ s.length := by
  have hch := getD_append_of_lt s ['\n'] q hq
  have hcur : (state_at s q m).current_char = s.getD q NUL := rfl
  have hcur' : (state_at (s ++ ['\n']) q m).current_char = s.getD q NUL := hch
  unfold next_token_default at h ⊢
  rw [hcur] at h
  rw [hcur']
  by_cases ha : (s.getD q NUL).isAlpha = true
  · rw [if_pos ha] at h ⊢
    unfold read_ident at h ⊢
    cases hr : read_ident_loop f (state_at s q m) with
    | error e => rw [hr] at h; simp at h
    | ok l1 =>
      rw [hr] at h
      injection h with h
      injection h with h3 h4
      rw [h4] at hr
      obtain ⟨hr', hle⟩ := read_ident_loop_same s f q m p' m' hr
      have hle' : p' ≤ s.length := by omega
      rw [read_ident_loop_mono f _ _ hr' (f + 1) (by omega)]
      refine ⟨⟨_, rfl, ?_⟩, hle'⟩
      rw [← h3, h4]
      show lookup_ident (substr (s ++ ['\n']) q (p' - q)) = lookup_ident (substr s q (p' - q))
      obtain ⟨p2, h5, h6⟩ := read_ident_loop_state s _ _ _ _ hr
      have hqp : q ≤ p' := by rw [state_at_pos_inj s p' p2 m' m h5]; exact h6
      rw [substr_append_of_le s _ q (p' - q) (by omega)]
  · rw [if_neg ha] at h ⊢
    by_cases hd : (s.getD q NUL).isDigit = true
    · rw [if_pos hd] at h ⊢
      unfold read_number at h ⊢
      obtain ⟨h1, h2⟩ := read_number_loop_same s f q m _ 0 [] (state_at (s ++ ['\n']) q m).pos
        [] t p' m' h
      exact ⟨h1, by omega⟩
    · rw [if_neg hd] at h ⊢
      injection h with h
      injection h with h3 h4
      rw [read_char_state_at] at h4 ⊢
      have e1 := state_at_pos_inj s _ _ _ _ h4
      have e2 := state_at_line_inj s _ _ _ _ h4
      subst e1; subst e2
      refine ⟨⟨_, rfl, ?_⟩, by omega⟩
      rw [← h3]
      rfl

/-- A call of `next_token` that returns a token other than the end-of-input
token returns a token of the same kind, at the same place, on the text followed
by a line end; the token ends inside the text. -/
theorem next_token_same (s : List Char) (f p m : Nat) (t : Token) (p' m' : Nat)
    (h : next_token f (state_at s p m) = .ok (t, state_at s p' m')) (ht : t.type ≠ .EOF_) :
    (∃ t', next_token (f + 1) (state_at (s ++ ['\n']) p m) =
        .ok (t', state_at (s ++ ['\n']) p' m') ∧ t'.type = t.type) ∧ p' ≤ s.length := by
  have hag : ∀ i, i < s.length → (s ++ ['\n']).getD i NUL = s.getD i NUL :=
    fun i hi => getD_append_of_lt s _ i hi
  obtain ⟨f0, rfl⟩ : ∃ f0, f = f0 + 1 := by
    cases f with
    | zero => rw [next_token_zero] at h; exact Except.noConfusion h
    | succ f0 => exact ⟨f0, rfl⟩
  have h' := h
  unfold next_token at h
  cases hsk : skip_whitespace (f0 + 1) (state_at s p m) with
  | error e => rw [hsk] at h; simp at h
  | ok l1 =>
    obtain ⟨q, m0, rfl, hpq, hns⟩ := skip_whitespace_state s _ _ _ _ hsk
    rw [hsk] at h
    dsimp only at h
    have hq : q < s.length := by
      by_contra hge
      have hend := next_token_at_end s f0 q m0 (by omega)
      rw [next_token, skip_whitespace_stop f0 _
        (show is_space (state_at s q m0).current_char = false from hns)] at hend
      dsimp only at hend
      rw [hend] at h
      injection h with h
      injection h with h3 h4
      rw [← h3] at ht
      exact ht rfl
    have hsk' := skip_whitespace_mono _ _ _
      (skip_whitespace_stable s (s ++ ['\n']) s.length hag _ p m q m0 hsk hq) (f0 + 1 + 1)
      (by omega)
    rw [next_token, hsk']
    dsimp only
    unfold next_token_switch at h ⊢
    cases hc : next_token_cases (state_at s q m0) with
    | some r =>
      rw [hc] at h
      injection h with h
      rw [h] at hc
      obtain ⟨h1, h2⟩ := next_token_cases_same s q m0 hq t p' m' hc
      rw [h1]
      exact ⟨⟨t, rfl, rfl⟩, h2 ht⟩
    | none =>
      rw [hc] at h
      dsimp only at h
      rw [next_token_cases_none_same s (s ++ ['\n']) q m0 (hag q hq) hc]
      exact next_token_default_same s (f0 + 1) q m0 hq t p' m' h

/-- Where `next_token` returns the end-of-input token of a text without `'\0'`,
it returns, on the text followed by a line end, the end-of-input token and
leaves the lexer past the end. -/
theorem skip_whitespace_to_end (s : List Char) :
    ∀ (f p m q m' : Nat), skip_whitespace f (state_at s p m) = .ok (state_at s q m') →
      s.length ≤ q →
      ∃ q' m'', skip_whitespace (f + 1) (state_at (s ++ ['\n']) p m) =
          .ok (state_at (s ++ ['\n']) q' m'') ∧ s.length + 1 ≤ q' := by
  intro f
  induction f with
  | zero => intro p m q m' h _; simp [skip_whitespace] at h
  | succ k ih =>
    intro p m q m' h hq
    cases hsp : is_space (s.getD p NUL) with
    | true =>
      have hlt : p < s.length := lt_length_of_getD_ne_nul s p (by
        intro h0; rw [h0] at hsp; exact absurd hsp (by decide))
      have hch := getD_append_of_lt s ['\n'] p hlt
      rw [skip_whitespace_step k s p m hsp] at h
      rw [skip_whitespace_step (k + 1) _ p m (by rw [hch]; exact hsp), hch]
      exact ih _ _ _ _ h hq
    | false =>
      rw [skip_whitespace_stop k _ (show is_space (state_at s p m).current_char = false from hsp)]
        at h
      injection h with h
      have e1 := state_at_pos_inj s p q m m' h
      subst e1
      by_cases hp : p = s.length
      · have hnl : (s ++ ['\n']).getD p NUL = '\n' := by rw [hp]; exact getD_append_length s '\n'
        have hn1 : (s ++ ['\n']).getD (p + 1) NUL = NUL :=
          getD_nul_of_le _ _ (by rw [List.length_append]; simp; omega)
        refine ⟨p + 1, m + 1, ?_, by omega⟩
        rw [skip_whitespace_step (k + 1) _ p m (by rw [hnl]; decide), hnl, if_pos rfl]
        exact skip_whitespace_stop k _ (show is_space ((s ++ ['\n']).getD (p + 1) NUL) = false by
          rw [hn1]; decide)
      · have hn0 : (s ++ ['\n']).getD p NUL = NUL :=
          getD_nul_of_le _ _ (by rw [List.length_append]; simp; omega)
        exact ⟨p, m, skip_whitespace_stop (k + 1) _
          (show is_space ((s ++ ['\n']).getD p NUL) = false by rw [hn0]; decide), by omega⟩

theorem next_token_end_same (s : List Char) (hnul : NUL ∉ s) (f p m : Nat) (t : Token)
    (l : Lexer) (h : next_token f (state_at s p m) = .ok (t, l)) (ht : t.type = .EOF_) :
    ∃ t' q' m'', next_token (f + 1) (state_at (s ++ ['\n']) p m) =
        .ok (t', state_at (s ++ ['\n']) q' m'') ∧ t'.type = .EOF_ ∧ s.length + 1 < q' := by
  obtain ⟨f0, rfl⟩ : ∃ f0, f = f0 + 1 := by
    cases f with
    | zero => rw [next_token_zero] at h; exact Except.noConfusion h
    | succ f0 => exact ⟨f0, rfl⟩
  have h' := h
  unfold next_token at h
  cases hsk : skip_whitespace (f0 + 1) (state_at s p m) with
  | error e => rw [hsk] at h; simp at h
  | ok l1 =>
    obtain ⟨q, m0, rfl, hpq, hns⟩ := skip_whitespace_state s _ _ _ _ hsk
    rw [hsk] at h
    dsimp only at h
    have hq : s.length ≤ q := by
      unfold next_token_switch at h
      cases hc : next_token_cases (state_at s q m0) with
      | some r =>
        rw [hc] at h
        injection h with h
        rw [h] at hc
        exact length_le_of_getD_nul s hnul q ((next_token_cases_state s q m0 _ hc).2 ht).1
      | none =>
        rw [hc] at h
        exact absurd ht (next_token_default_state s _ q m0 _ h).2
    obtain ⟨q', m'', hsk', hq'⟩ := skip_whitespace_to_end s _ p m q m0 hsk hq
    have hlen : (s ++ ['\n']).length ≤ q' := by rw [List.length_append]; simp; omega
    have hend := next_token_at_end (s ++ ['\n']) (f0 + 1) q' m'' hlen
    have hcur : (state_at (s ++ ['\n']) q' m'').current_char = NUL := getD_nul_of_le _ _ hlen
    rw [next_token, skip_whitespace_stop (f0 + 1) _ (by rw [hcur]; decide)] at hend
    dsimp only at hend
    refine ⟨⟨.EOF_, [], m'', q'⟩, q' + 1, m'', ?_, rfl, by omega⟩
    rw [next_token, hsk']
    exact hend

end Lexer

namespace Lexer

theorem tokens_from_end (s : List Char) (f : Nat) : ∀ (n p m : Nat), s.length ≤ p →
    ∃ ts, tokens (f + 1) n (state_at s p m) = .ok ts ∧ ∀ t ∈ ts, t.type = .EOF_ := by
  intro n
  induction n with
  | zero => intro p m _; exact ⟨[], rfl, fun t ht => by simp at ht⟩
  | succ k ih =>
    intro p m hp
    obtain ⟨ts, h1, h2⟩ := ih (p + 1) m (by omega)
    refine ⟨⟨.EOF_, [], m, p⟩ :: ts, ?_, ?_⟩
    · rw [tokens, next_token_at_end s f p m hp]
      dsimp only
      rw [h1]
    · intro t ht
      rcases List.mem_cons.1 ht with e | hmem
      · rw [e]
      · exact h2 t hmem

/-- The tokens of a text without `'\0'` that are all returned and legal are
legal tokens of the text followed by a line end. -/
theorem tokens_padded_legal (s : List Char) (hnul : NUL ∉ s) (F : Nat) :
    ∀ (n p m : Nat) (ts : List Token) (l : Lexer),
      run F n (state_at s p m) = .ok (ts, l) → (∀ t ∈ ts, t.type ≠ .ILLEGAL) →
      ∃ ts', tokens (F + 1) n (state_at (s ++ ['\n']) p m) = .ok ts' ∧
        ∀ t ∈ ts', t.type ≠ .ILLEGAL := by
  intro n
  induction n with
  | zero => intro p m ts l _ _; exact ⟨[], rfl, fun t ht => by simp at ht⟩
  | succ k ih =>
    intro p m ts l h hleg
    rw [run] at h
    cases hq : next_token F (state_at s p m) with
    | error e => rw [hq] at h; simp at h
    | ok v =>
      obtain ⟨t0, l1⟩ := v
      rw [hq] at h
      dsimp only at h
      cases hr : run F k l1 with
      | error e => rw [hr] at h; simp at h
      | ok w =>
        obtain ⟨ts1, l2⟩ := w
        rw [hr] at h
        injection h with h
        injection h with h1 h2
        obtain ⟨p1, m1, rfl, hpp, -⟩ := next_token_progress s F p m t0 l1 hq
        have hleg0 : t0.type ≠ .ILLEGAL := hleg t0 (by rw [← h1]; exact List.mem_cons_self _ _)
        by_cases ht : t0.type = .EOF_
        · obtain ⟨t', q', m'', hq', ht', hlen⟩ := next_token_end_same s hnul F p m t0 _ hq ht
          obtain ⟨f0, rfl⟩ : ∃ f0, F = f0 + 1 := by
            cases F with
            | zero => rw [next_token_zero] at hq; exact Except.noConfusion hq
            | succ f0 => exact ⟨f0, rfl⟩
          obtain ⟨ts2, h3, h4⟩ := tokens_from_end (s ++ ['\n']) (f0 + 1) k q' m''
            (by rw [List.length_append]; simp; omega)
          refine ⟨t' :: ts2, ?_, ?_⟩
          · rw [tokens, hq']
            dsimp only
            rw [h3]
          · intro t hmem
            rcases List.mem_cons.1 hmem with e | hm
            · rw [e, ht']; decide
            · rw [h4 t hm]; decide
        · obtain ⟨⟨t', hq', ht'⟩, -⟩ := next_token_same s F p m t0 p1 m1 hq ht
          obtain ⟨ts2, h3, h4⟩ := ih p1 m1 ts1 l2 hr
            (fun t hm => hleg t (by rw [← h1]; exact List.mem_cons_of_mem _ hm))
          refine ⟨t' :: ts2, ?_, ?_⟩
          · rw [tokens, hq']
            dsimp only
            rw [h3]
          · intro t hmem
            rcases List.mem_cons.1 hmem with e | hm
            · rw [e, ht']; exact hleg0
            · exact h4 t hm

/-- The tokens returned for a text without `'\0'` are legal when those of the
text followed by a line end are. -/
theorem tokens_legal_of_padded (s : List Char) (hnul : NUL ∉ s) (F g : Nat) :
    ∀ (n p m : Nat) (ts : List Token) (l : Lexer) (N : Nat) (tsL : List Token),
      run F n (state_at s p m) = .ok (ts, l) →
      tokens g N (state_at (s ++ ['\n']) p m) = .ok tsL → (∀ t ∈ tsL, t.type ≠ .ILLEGAL) →
      s.length + 1 ≤ p + N → ∀ t ∈ ts, t.type ≠ .ILLEGAL := by
  intro n
  induction n with
  | zero =>
    intro p m ts l N tsL h _ _ _ t ht
    simp only [run] at h
    injection h with h
    injection h with h1 h2
    rw [← h1] at ht
    simp at ht
  | succ k ih =>
    intro p m ts l N tsL h htk hleg hN t ht
    have hts := tokens_of_run _ _ _ _ _ h
    rw [run] at h
    cases hq : next_token F (state_at s p m) with
    | error e => rw [hq] at h; simp at h
    | ok v =>
      obtain ⟨t0, l1⟩ := v
      rw [hq] at h
      dsimp only at h
      cases hr : run F k l1 with
      | error e => rw [hr] at h; simp at h
      | ok w =>
        obtain ⟨ts1, l2⟩ := w
        rw [hr] at h
        injection h with h
        injection h with h1 h2
        obtain ⟨p1, m1, rfl, hpp, -⟩ := next_token_progress s F p m t0 l1 hq
        by_cases ht0 : t0.type = .EOF_
        · obtain ⟨i, hi, hget⟩ := List.getElem_of_mem ht
          have hget' : ts[i]? = some t := by rw [List.getElem?_eq_getElem hi, hget]
          have h0 : ts[0]? = some t0 := by rw [← h1]; exact List.getElem?_cons_zero
          cases i with
          | zero =>
            rw [h0] at hget'
            injection hget' with e
            rw [← e, ht0]; decide
          | succ j =>
            rw [(tokens_after_eof s hnul _ _ p m ts hts 0 t0 h0 ht0 (j + 1) t (by omega)
              hget').1]
            decide
        · obtain ⟨⟨t', hq', ht'⟩, hle⟩ := next_token_same s F p m t0 p1 m1 hq ht0
          obtain ⟨N', rfl⟩ : ∃ N', N = N' + 1 := ⟨N - 1, by omega⟩
          rw [tokens] at htk
          cases hq2 : next_token g (state_at (s ++ ['\n']) p m) with
          | error e => rw [hq2] at htk; simp at htk
          | ok v2 =>
            obtain ⟨x, lx⟩ := v2
            rw [hq2] at htk
            dsimp only at htk
            have e1 := next_token_mono _ _ _ hq' (max (F + 1) g) (le_max_left _ _)
            have e2 := next_token_mono _ _ _ hq2 (max (F + 1) g) (le_max_right _ _)
            rw [e1] at e2
            injection e2 with e2
            injection e2 with e3 e4
            subst e3; subst e4
            cases hr2 : tokens g N' (state_at (s ++ ['\n']) p1 m1) with
            | error e => rw [hr2] at htk; simp at htk
            | ok tsL' =>
              rw [hr2] at htk
              injection htk with htk
              rw [← h1] at ht
              rcases List.mem_cons.1 ht with e | hm
              · rw [e, ← ht']
                exact hleg t' (by rw [← htk]; exact List.mem_cons_self _ _)
              · exact ih p1 m1 ts1 l2 N' tsL' hr hr2
                  (fun y hy => hleg y (by rw [← htk]; exact List.mem_cons_of_mem _ hy))
                  (by omega) t hm

/-- On a text without `'\0'`, the tokens are all legal exactly when the first
`source.length + 1` calls of `next_token` on the text itself return, and return
no token of the kind `ILLEGAL`. -/
theorem all_legal_iff (s : List Char) (hnul : NUL ∉ s) :
    all_legal s = true ↔
      ∃ ts l, run (s.length + 2) (s.length + 1) (Lexer.new s) = .ok (ts, l) ∧
        ∀ t ∈ ts, t.type ≠ .ILLEGAL := by
  constructor
  · intro hlegal
    obtain ⟨ts, l, h⟩ := run_returns_of_all_legal s hlegal (s.length + 1)
    refine ⟨ts, l, h, ?_⟩
    rw [new_eq] at h
    unfold all_legal at hlegal
    rw [new_eq] at hlegal
    cases htk : tokens (s.length + 3) (s.length + 1) (state_at (s ++ ['\n']) 0 1) with
    | error e => rw [htk] at hlegal; exact Bool.noConfusion hlegal
    | ok tsL =>
      rw [htk] at hlegal
      refine tokens_legal_of_padded s hnul _ _ _ 0 1 ts l _ tsL h htk ?_ (by omega)
      intro t ht
      have := List.all_eq_true.1 hlegal t ht
      exact fun e => by rw [e] at this; exact absurd this (by decide)
  · rintro ⟨ts, l, h, hleg⟩
    rw [new_eq] at h
    obtain ⟨ts', h1, h2⟩ := tokens_padded_legal s hnul _ _ 0 1 ts l h hleg
    unfold all_legal
    rw [new_eq, h1]
    exact List.all_eq_true.2 (fun t ht => by
      have := h2 t ht
      simpa using this)

end Lexer

/-- C4 (which texts have only legal tokens): a lone `!`, a character that starts
no token, and a number with a second `.`, whether a blank follows it or the
text ends with it, are tokens that are not legal; on the last of these texts the
first call of `next_token` does not return (C5). -/
theorem C4_examples :
    Lexer.all_legal "x = 1.5 <= y".toList = true ∧
    Lexer.all_legal "".toList = true ∧
    Lexer.all_legal "a ! b".toList = false ∧
    Lexer.all_legal "a @ b".toList = false ∧
    Lexer.all_legal "1.2.3 + 4".toList = false ∧
    Lexer.all_legal "1.2.3".toList = false ∧
    (Lexer.tokens 8 2 (Lexer.new "1.2.3\n".toList)).map (fun ts => ts.map Token.type) =
      .ok [.ILLEGAL, .EOF_] ∧
    (Lexer.run 17 17 (Lexer.new "let x: int = 5;".toList)).map
        (fun r => r.1.map Token.type) =
      .ok [.LET, .IDENT, .COLON, .TYPE, .EQ, .INT, .SEMICOLON, .EOF_, .EOF_, .EOF_, .EOF_,
        .EOF_, .EOF_, .EOF_, .EOF_, .EOF_, .EOF_] := by
  decide

/-! ## Token streams -/

namespace Lexer

theorem yields_of_run (fuel : Nat) : ∀ (n : Nat) (l : Lexer) (ts : List Token) (l' : Lexer),
    run fuel n l = .ok (ts, l') → yields l ts l' := by
  intro n
  induction n with
  | zero =>
    intro l ts l' h
    simp only [run] at h
    injection h with h
    injection h with h1 h2
    rw [← h1, ← h2]
    rfl
  | succ k ih =>
    intro l ts l' h
    rw [run] at h
    cases hq : next_token fuel l with
    | error e => rw [hq] at h; simp at h
    | ok r =>
      obtain ⟨t, l1⟩ := r
      rw [hq] at h
      dsimp only at h
      cases hr : run fuel k l1 with
      | error e => rw [hr] at h; simp at h
      | ok v =>
        obtain ⟨ts1, l2⟩ := v
        rw [hr] at h
        injection h with h
        injection h with h1 h2
        rw [← h1, ← h2]
        exact ⟨l1, ⟨fuel, hq⟩, ih l1 ts1 l2 hr⟩

theorem yields_with_mono (F G : Nat) (hFG : F ≤ G) : ∀ (ts : List Token) (l l' : Lexer),
    yields_with F l ts l' → yields_with G l ts l' := by
  intro ts
  induction ts with
  | nil => intro l l' h; exact h
  | cons t ts ih =>
    intro l l' h
    obtain ⟨l1, h1, h2⟩ := h
    exact ⟨l1, fun fuel hf => h1 fuel (by omega), ih l1 l' h2⟩

theorem yields_with_of_yields : ∀ (ts : List Token) (l l' : Lexer),
    yields l ts l' → ∃ F, yields_with F l ts l' := by
  intro ts
  induction ts with
  | nil => intro l l' h; exact ⟨0, h⟩
  | cons t ts ih =>
    intro l l' h
    obtain ⟨l1, ⟨f, hf⟩, h2⟩ := h
    obtain ⟨F, hF⟩ := ih l1 l' h2
    refine ⟨max f F, l1, fun fuel hfuel => ?_, ?_⟩
    · exact next_token_mono f l _ hf fuel (le_trans (le_max_left _ _) hfuel)
    · exact yields_with_mono F _ (le_max_right _ _) ts l1 l' hF

end Lexer

/-! ## The Pratt loop, one step at a time -/

namespace Parser

theorem next_token_of_lexer (F fuel : Nat) (l l' : Lexer) (t : Token)
    (h : ∀ fuel, F ≤ fuel → Lexer.next_token fuel l = .ok (t, l')) (hf : F ≤ fuel)
    (errs : List String) (cur peek : Token) :
    next_token fuel { lexer := l, errors := errs, current_token := cur, peek_token := peek } =
      .ok { lexer := l', errors := errs, current_token := peek, peek_token := t } := by
  simp only [next_token, h fuel hf]

theorem parse_expression_atom (f : Nat) (prec : PrecedenceType) (p : Parser) (e : Expression)
    (h : atom_expression p.current_token = some e) :
    parse_expression (f + 1) prec p = parse_expression_loop f prec (some e) p := by
  unfold atom_expression at h
  rw [parse_expression]
  split at h
  · next ht =>
    injection h with h
    rw [ht]
    simp only [prefix_parse_fns, parse_identifier, h]
  · next ht =>
    rw [ht]
    simp only [prefix_parse_fns, parse_integer_literal]
    split at h
    · next v hv =>
      injection h with h
      rw [hv, ← h]
      rfl
    · exact Option.noConfusion h
  · exact Option.noConfusion h

theorem parse_expression_loop_stop (f : Nat) (prec : PrecedenceType) (left : Option Expression)
    (p : Parser)
    (h : p.peek_token.type = .SEMICOLON ∨
      ¬ prec.toNat < (token_precedence p.peek_token.type).toNat) :
    parse_expression_loop (f + 1) prec left p = .ok (left, p) := by
  rw [parse_expression_loop]
  have hc : (!peek_token_is p .SEMICOLON &&
      decide (prec.toNat < (peek_precedence p).toNat)) = false := by
    rcases h with h | h
    · simp [peek_token_is, h]
    · have : peek_precedence p = token_precedence p.peek_token.type := rfl
      simp [this, h]
  rw [hc]
  rfl

theorem not_semicolon_of_binary (t : TokenType) (h : is_binary_operator t = true) :
    t ≠ .SEMICOLON := by
  intro he
  rw [he] at h
  exact absurd h (by decide)

theorem infix_parse_fns_of_binary (t : TokenType) (h : is_binary_operator t = true) :
    infix_parse_fns t = some .parse_infix_expression := by
  simpa [is_binary_operator] using h

theorem parse_expression_loop_infix (f : Nat) (prec : PrecedenceType)
    (left : Option Expression) (p : Parser)
    (hop : is_binary_operator p.peek_token.type = true)
    (hprec : prec.toNat < (token_precedence p.peek_token.type).toNat) :
    parse_expression_loop (f + 1) prec left p =
      (do
        let p1 ← next_token f p
        let (left1, p2) ← parse_infix_expression f left p1
        parse_expression_loop f prec left1 p2) := by
  rw [parse_expression_loop]
  have hc : (!peek_token_is p .SEMICOLON &&
      decide (prec.toNat < (peek_precedence p).toNat)) = true := by
    have h1 : peek_precedence p = token_precedence p.peek_token.type := rfl
    have h2 := not_semicolon_of_binary _ hop
    simp [h1, hprec, peek_token_is, h2]
  rw [hc, infix_parse_fns_of_binary _ hop]
  rfl

end Parser

namespace Parser

theorem type_of_atom (t : Token) (e : Expression) (h : atom_expression t = some e) :
    t.type = .IDENT ∨ t.type = .INT := by
  unfold atom_expression at h
  split at h
  · next ht => exact Or.inl ht
  · next ht => exact Or.inr ht
  · exact Option.noConfusion h

theorem parse_program_loop_step (f : Nat) (stmts : List Statement) (p : Parser)
    (h : p.current_token.type ≠ .EOF_) :
    parse_program_loop (f + 1) stmts p =
      (do
        let (stmt, p1) ← parse_statement f p
        let p2 ← next_token f p1
        parse_program_loop f (match stmt with | some s => stmts ++ [s] | none => stmts) p2) := by
  rw [parse_program_loop, if_pos h]

theorem parse_program_loop_stop (f : Nat) (stmts : List Statement) (p : Parser)
    (h : p.current_token.type = .EOF_) :
    parse_program_loop (f + 1) stmts p = .ok ({ statements := stmts }, p) := by
  rw [parse_program_loop, if_neg (by simpa using h)]

theorem parse_statement_atom (f : Nat) (p : Parser) (e : Expression)
    (h : atom_expression p.current_token = some e) (hpeek : p.peek_token.type ≠ .EQ) :
    parse_statement (f + 1) p = parse_expression_statement f p := by
  rw [parse_statement]
  have hc : (current_token_is p .IDENT && peek_token_is p .EQ) = false := by
    simp [peek_token_is, hpeek]
  rw [hc]
  rcases type_of_atom _ _ h with ht | ht <;> simp [ht]

theorem not_eq_of_binary (t : TokenType) (h : is_binary_operator t = true) : t ≠ .EQ := by
  intro he
  rw [he] at h
  exact absurd h (by decide)

theorem precedence_pos_of_binary (t : TokenType) (h : is_binary_operator t = true) :
    PrecedenceType.LOWEST.toNat < (token_precedence t).toNat := by
  revert h
  cases t <;> decide

theorem parse_expression_atom_stop (f : Nat) (prec : PrecedenceType) (p : Parser)
    (e : Expression) (h : atom_expression p.current_token = some e)
    (hstop : p.peek_token.type = .SEMICOLON ∨
      ¬ prec.toNat < (token_precedence p.peek_token.type).toNat) :
    parse_expression (f + 2) prec p = .ok (some e, p) := by
  rw [parse_expression_atom (f + 1) prec p e h, parse_expression_loop_stop f prec _ p hstop]

/-- An operator whose right operand is an atom that the next token does not extend. -/
theorem parse_infix_expression_atom (F f : Nat) (hF : F ≤ f) (l l1 : Lexer) (errs : List String)
    (op tb tn : Token) (left : Option Expression) (b : Expression)
    (hl : ∀ fuel, F ≤ fuel → Lexer.next_token fuel l = .ok (tn, l1))
    (hb : atom_expression tb = some b)
    (hstop : tn.type = .SEMICOLON ∨
      ¬ (token_precedence op.type).toNat < (token_precedence tn.type).toNat) :
    parse_infix_expression (f + 3) left
        { lexer := l, errors := errs, current_token := op, peek_token := tb } =
      .ok (some (.InfixExpression left op.literal (some b)),
        { lexer := l1, errors := errs, current_token := tb, peek_token := tn }) := by
  rw [parse_infix_expression]
  simp only [bind, Except.bind, next_token_of_lexer F _ _ _ _ hl (show F ≤ f + 2 by omega)]
  have hcp : current_precedence
      { lexer := l, errors := errs, current_token := op, peek_token := tb } =
      token_precedence op.type := rfl
  rw [hcp, parse_expression_atom_stop f _ _ b hb hstop]
  rfl

theorem parse_expression_statement_eq (f : Nat) (p p1 : Parser) (e : Option Expression)
    (h : parse_expression f .LOWEST p = .ok (e, p1)) (hpeek : p1.peek_token.type ≠ .SEMICOLON) :
    parse_expression_statement f p = .ok (some (.ExpressionStatement e), p1) := by
  unfold parse_expression_statement
  simp only [bind, Except.bind, h, peek_token_is]
  simp [hpeek]
  rfl

theorem stop_at_eof (prec : PrecedenceType) (t : Token) (h : t.type = .EOF_) :
    t.type = .SEMICOLON ∨ ¬ prec.toNat < (token_precedence t.type).toNat := by
  right
  rw [h]
  simp [token_precedence, precedence_map, PrecedenceType.toNat]

end Parser


/-- C1: whenever the lexer yields an atom `a`, a binary operator `op1`, an atom
`b`, a binary operator `op2` of strictly higher precedence, an atom `c` and then
the end-of-input token `te1` (and any token `te2` at the call after it),
`parse_program` returns the single expression statement
`InfixExpression(a, op1, InfixExpression(b, op2, c))` and records no diagnostic.
An atom is an `IDENT` token or an `INT` token that `std::stoi` converts. -/
theorem C1_higher_precedence_binds_tighter
    (l0 l' : Lexer) (ta top1 tb top2 tc te1 te2 : Token) (a b c : Expression)
    (hlex : Lexer.yields l0 [ta, top1, tb, top2, tc, te1, te2] l')
    (ha : atom_expression ta = some a) (hb : atom_expression tb = some b)
    (hc : atom_expression tc = some c)
    (hop1 : is_binary_operator top1.type = true) (hop2 : is_binary_operator top2.type = true)
    (hprec : (token_precedence top1.type).toNat < (token_precedence top2.type).toNat)
    (he1 : te1.type = .EOF_) :
    ∃ N, ∀ fuel, N ≤ fuel →
      parse_lexer fuel l0 = .ok (⟨[.ExpressionStatement (some (.InfixExpression (some a)
        top1.literal (some (.InfixExpression (some b) top2.literal (some c)))))]⟩, []) := by
  obtain ⟨F, hF⟩ := Lexer.yields_with_of_yields _ _ _ hlex
  obtain ⟨l1, h1, l2, h2, l3, h3, l4, h4, l5, h5, l6, h6, l7, h7, -⟩ := hF
  refine ⟨F + 12, fun fuel hf => ?_⟩
  obtain ⟨m, rfl⟩ : ∃ m, fuel = (F + m) + 12 := ⟨fuel - F - 12, by omega⟩
  have hta : ta.type ≠ .EOF_ := by
    rcases Parser.type_of_atom _ _ ha with h | h <;> simp [h]
  have hexpr : Parser.parse_expression (F + m + 10) .LOWEST
      { lexer := l2, errors := [], current_token := ta, peek_token := top1 } =
      .ok (some (.InfixExpression (some a) top1.literal
          (some (.InfixExpression (some b) top2.literal (some c)))),
        { lexer := l6, errors := [], current_token := tc, peek_token := te1 }) := by
    rw [Parser.parse_expression_atom _ _ _ a ha]
    rw [Parser.parse_expression_loop_infix _ _ _ _ hop1 (Parser.precedence_pos_of_binary _ hop1)]
    simp only [bind, Except.bind,
      Parser.next_token_of_lexer F _ _ _ _ h3 (show F ≤ F + m + 8 by omega)]
    rw [Parser.parse_infix_expression]
    simp only [bind, Except.bind,
      Parser.next_token_of_lexer F _ _ _ _ h4 (show F ≤ F + m + 7 by omega)]
    have hcp : Parser.current_precedence
        { lexer := l3, errors := [], current_token := top1, peek_token := tb } =
        token_precedence top1.type := rfl
    rw [hcp, Parser.parse_expression_atom _ _ _ b hb]
    rw [Parser.parse_expression_loop_infix _ _ _ _ hop2 hprec]
    simp only [bind, Except.bind,
      Parser.next_token_of_lexer F _ _ _ _ h5 (show F ≤ F + m + 5 by omega)]
    rw [Parser.parse_infix_expression_atom F (F + m + 2) (by omega) l5 l6 [] top2 tc te1 _ c h6 hc
      (Parser.stop_at_eof _ _ he1)]
    simp only []
    rw [Parser.parse_expression_loop_stop _ _ _ _ (Parser.stop_at_eof _ te1 he1)]
    simp only [pure, Except.pure]
    rw [Parser.parse_expression_loop_stop _ _ _ _ (Parser.stop_at_eof _ te1 he1)]
  simp only [parse_lexer, Parser.new, Parser.parse_program, bind, Except.bind,
    Parser.next_token_of_lexer F _ _ _ _ h1 (show F ≤ F + m + 12 by omega),
    Parser.next_token_of_lexer F _ _ _ _ h2 (show F ≤ F + m + 12 by omega)]
  rw [Parser.parse_program_loop_step _ _ _ hta]
  rw [Parser.parse_statement_atom _ _ a ha (Parser.not_eq_of_binary _ hop1)]
  rw [Parser.parse_expression_statement_eq _ _ _ _ hexpr (by simp [he1])]
  simp only [bind, Except.bind,
    Parser.next_token_of_lexer F _ _ _ _ h7 (show F ≤ F + m + 11 by omega)]
  rw [Parser.parse_program_loop_stop _ _ _ he1]
  rfl

/-- C1 (witness): the source `2 + 3 * 4`; its seven first tokens, and the program
`2 + (3 * 4)` that `parse_program` returns for every fuel from some `N` on. -/
theorem C1_higher_precedence_binds_tighter_witness :
    Lexer.yields (Lexer.new "2 + 3 * 4".toList)
        [⟨.INT, ['2'], 1, 1⟩, ⟨.PLUS, ['+'], 1, 2⟩, ⟨.INT, ['3'], 1, 5⟩,
          ⟨.ASTERISK, ['*'], 1, 6⟩, ⟨.INT, ['4'], 1, 9⟩, ⟨.EOF_, [], 1, 9⟩, ⟨.EOF_, [], 1, 10⟩]
        (Lexer.state_at "2 + 3 * 4".toList 11 1) ∧
    ∃ N, ∀ fuel, N ≤ fuel →
      parse_lexer fuel (Lexer.new "2 + 3 * 4".toList) =
        .ok (⟨[.ExpressionStatement (some (.InfixExpression (some (.IntegerLiteral 2)) ['+']
          (some (.InfixExpression (some (.IntegerLiteral 3)) ['*']
            (some (.IntegerLiteral 4))))))]⟩, []) :=
  ⟨Lexer.yields_of_run 12 7 _ _ _ (by decide),
   C1_higher_precedence_binds_tighter (Lexer.new "2 + 3 * 4".toList)
     (Lexer.state_at "2 + 3 * 4".toList 11 1)
     ⟨.INT, ['2'], 1, 1⟩ ⟨.PLUS, ['+'], 1, 2⟩ ⟨.INT, ['3'], 1, 5⟩ ⟨.ASTERISK, ['*'], 1, 6⟩
     ⟨.INT, ['4'], 1, 9⟩ ⟨.EOF_, [], 1, 9⟩ ⟨.EOF_, [], 1, 10⟩
     (.IntegerLiteral 2) (.IntegerLiteral 3) (.IntegerLiteral 4)
     (Lexer.yields_of_run 12 7 _ _ _ (by decide)) (by decide) (by decide) (by decide)
     (by decide) (by decide) (by decide) (by decide)⟩

/-- C1 (the example of the claim, evaluated): `parse_program` on `2 + 3 * 4`. -/
theorem C1_example_2_plus_3_times_4 :
    parse_source 12 "2 + 3 * 4".toList =
      .ok (⟨[.ExpressionStatement (some (.InfixExpression (some (.IntegerLiteral 2)) ['+']
        (some (.InfixExpression (some (.IntegerLiteral 3)) ['*']
          (some (.IntegerLiteral 4))))))]⟩, []) := by
  decide!

/-- C2: whenever the lexer yields an atom `a`, a binary operator `op1`, an atom
`b`, a binary operator `op2` of the same precedence (the same operator or not,
`^` included), an atom `c` and then the end-of-input token, `parse_program`
returns the single expression statement
`InfixExpression(InfixExpression(a, op1, b), op2, c)` and records no diagnostic. -/
theorem C2_equal_precedence_folds_left
    (l0 l' : Lexer) (ta top1 tb top2 tc te1 te2 : Token) (a b c : Expression)
    (hlex : Lexer.yields l0 [ta, top1, tb, top2, tc, te1, te2] l')
    (ha : atom_expression ta = some a) (hb : atom_expression tb = some b)
    (hc : atom_expression tc = some c)
    (hop1 : is_binary_operator top1.type = true) (hop2 : is_binary_operator top2.type = true)
    (hprec : token_precedence top1.type = token_precedence top2.type)
    (he1 : te1.type = .EOF_) :
    ∃ N, ∀ fuel, N ≤ fuel →
      parse_lexer fuel l0 = .ok (⟨[.ExpressionStatement (some (.InfixExpression
        (some (.InfixExpression (some a) top1.literal (some b))) top2.literal (some c)))]⟩,
        []) := by
  obtain ⟨F, hF⟩ := Lexer.yields_with_of_yields _ _ _ hlex
  obtain ⟨l1, h1, l2, h2, l3, h3, l4, h4, l5, h5, l6, h6, l7, h7, -⟩ := hF
  refine ⟨F + 12, fun fuel hf => ?_⟩
  obtain ⟨m, rfl⟩ : ∃ m, fuel = (F + m) + 12 := ⟨fuel - F - 12, by omega⟩
  have hta : ta.type ≠ .EOF_ := by
    rcases Parser.type_of_atom _ _ ha with h | h <;> simp [h]
  have hstop : top2.type = .SEMICOLON ∨
      ¬ (token_precedence top1.type).toNat < (token_precedence top2.type).toNat := by
    right
    rw [hprec]
    omega
  have hexpr : Parser.parse_expression (F + m + 10) .LOWEST
      { lexer := l2, errors := [], current_token := ta, peek_token := top1 } =
      .ok (some (.InfixExpression (some (.InfixExpression (some a) top1.literal (some b)))
          top2.literal (some c)),
        { lexer := l6, errors := [], current_token := tc, peek_token := te1 }) := by
    rw [Parser.parse_expression_atom _ _ _ a ha]
    rw [Parser.parse_expression_loop_infix _ _ _ _ hop1 (Parser.precedence_pos_of_binary _ hop1)]
    simp only [bind, Except.bind,
      Parser.next_token_of_lexer F _ _ _ _ h3 (show F ≤ F + m + 8 by omega)]
    rw [Parser.parse_infix_expression_atom F (F + m + 5) (by omega) l3 l4 [] top1 tb top2 _ b h4 hb
      hstop]
    simp only []
    rw [Parser.parse_expression_loop_infix _ _ _ _ hop2 (Parser.precedence_pos_of_binary _ hop2)]
    simp only [bind, Except.bind,
      Parser.next_token_of_lexer F _ _ _ _ h5 (show F ≤ F + m + 7 by omega)]
    rw [Parser.parse_infix_expression_atom F (F + m + 4) (by omega) l5 l6 [] top2 tc te1 _ c h6 hc
      (Parser.stop_at_eof _ _ he1)]
    simp only []
    rw [Parser.parse_expression_loop_stop _ _ _ _ (Parser.stop_at_eof _ te1 he1)]
  simp only [parse_lexer, Parser.new, Parser.parse_program, bind, Except.bind,
    Parser.next_token_of_lexer F _ _ _ _ h1 (show F ≤ F + m + 12 by omega),
    Parser.next_token_of_lexer F _ _ _ _ h2 (show F ≤ F + m + 12 by omega)]
  rw [Parser.parse_program_loop_step _ _ _ hta]
  rw [Parser.parse_statement_atom _ _ a ha (Parser.not_eq_of_binary _ hop1)]
  rw [Parser.parse_expression_statement_eq _ _ _ _ hexpr (by simp [he1])]
  simp only [bind, Except.bind,
    Parser.next_token_of_lexer F _ _ _ _ h7 (show F ≤ F + m + 11 by omega)]
  rw [Parser.parse_program_loop_stop _ _ _ he1]
  rfl

/-- C2 (witness): the source `10 - 2 - 3`; its seven first tokens, and the
program `(10 - 2) - 3` that `parse_program` returns for every fuel from some `N` on. -/
theorem C2_equal_precedence_folds_left_witness :
    Lexer.yields (Lexer.new "10 - 2 - 3".toList)
        [⟨.INT, ['1', '0'], 1, 2⟩, ⟨.MINUS, ['-'], 1, 3⟩, ⟨.INT, ['2'], 1, 6⟩,
          ⟨.MINUS, ['-'], 1, 7⟩, ⟨.INT, ['3'], 1, 10⟩, ⟨.EOF_, [], 1, 10⟩,
          ⟨.EOF_, [], 1, 11⟩]
        (Lexer.state_at "10 - 2 - 3".toList 12 1) ∧
    ∃ N, ∀ fuel, N ≤ fuel →
      parse_lexer fuel (Lexer.new "10 - 2 - 3".toList) =
        .ok (⟨[.ExpressionStatement (some (.InfixExpression
          (some (.InfixExpression (some (.IntegerLiteral 10)) ['-'] (some (.IntegerLiteral 2))))
          ['-'] (some (.IntegerLiteral 3))))]⟩, []) :=
  ⟨Lexer.yields_of_run 12 7 _ _ _ (by decide),
   C2_equal_precedence_folds_left (Lexer.new "10 - 2 - 3".toList)
     (Lexer.state_at "10 - 2 - 3".toList 12 1)
     ⟨.INT, ['1', '0'], 1, 2⟩ ⟨.MINUS, ['-'], 1, 3⟩ ⟨.INT, ['2'], 1, 6⟩ ⟨.MINUS, ['-'], 1, 7⟩
     ⟨.INT, ['3'], 1, 10⟩ ⟨.EOF_, [], 1, 10⟩ ⟨.EOF_, [], 1, 11⟩
     (.IntegerLiteral 10) (.IntegerLiteral 2) (.IntegerLiteral 3)
     (Lexer.yields_of_run 12 7 _ _ _ (by decide)) (by decide) (by decide) (by decide)
     (by decide) (by decide) (by decide) (by decide)⟩

/-- C2 (the examples of the claim, evaluated): `parse_program` on `10 - 2 - 3`
gives `(10 - 2) - 3`, not `10 - (2 - 3)`, and on `2 ^ 3 ^ 2` gives `(2 ^ 3) ^ 2`. -/
theorem C2_examples :
    parse_source 12 "10 - 2 - 3".toList =
      .ok (⟨[.ExpressionStatement (some (.InfixExpression
        (some (.InfixExpression (some (.IntegerLiteral 10)) ['-'] (some (.IntegerLiteral 2))))
        ['-'] (some (.IntegerLiteral 3))))]⟩, []) ∧
    parse_source 12 "10 - 2 - 3".toList ≠
      .ok (⟨[.ExpressionStatement (some (.InfixExpression (some (.IntegerLiteral 10)) ['-']
        (some (.InfixExpression (some (.IntegerLiteral 2)) ['-']
          (some (.IntegerLiteral 3))))))]⟩, []) ∧
    parse_source 12 "2 ^ 3 ^ 2".toList =
      .ok (⟨[.ExpressionStatement (some (.InfixExpression
        (some (.InfixExpression (some (.IntegerLiteral 2)) ['^'] (some (.IntegerLiteral 3))))
        ['^'] (some (.IntegerLiteral 2))))]⟩, []) := by
  decide!

/-! ## Lexing one token of a source cut in two -/

namespace Lexer

theorem at_split_current (pre rest : List Char) (n : Nat) :
    (at_split pre rest n).current_char = rest.headD NUL := by
  unfold at_split
  show (pre ++ rest).getD pre.length NUL = rest.headD NUL
  rw [List.getD_eq_getElem?_getD, List.getElem?_append_right (le_refl _)]
  cases rest with
  | nil => simp
  | cons c cs => simp

theorem at_split_cons (pre : List Char) (c : Char) (rest : List Char) (n : Nat) :
    at_split (pre ++ [c]) rest n = state_at (pre ++ c :: rest) (pre.length + 1) n := by
  unfold at_split
  simp

theorem read_char_at_split (pre : List Char) (c : Char) (rest : List Char) (n : Nat) :
    read_char (at_split pre (c :: rest) n) = at_split (pre ++ [c]) rest n := by
  rw [at_split_cons]
  unfold at_split
  rw [read_char_state_at]

theorem at_split_pos (pre rest : List Char) (n : Nat) : (at_split pre rest n).pos = pre.length :=
  rfl

theorem at_split_source (pre rest : List Char) (n : Nat) :
    (at_split pre rest n).source = pre ++ rest :=
  rfl

theorem at_split_line (pre rest : List Char) (n : Nat) : (at_split pre rest n).line_no = n :=
  rfl

theorem new_eq_at_split (source : List Char) : Lexer.new source = at_split [] source 1 := by
  rw [new_eq]
  rfl

/-- `skip_whitespace` stops at once at a character that is no blank. -/
theorem skip_whitespace_at_split_stop (f : Nat) (pre rest : List Char) (n : Nat)
    (h : is_space (rest.headD NUL) = false) :
    skip_whitespace (f + 1) (at_split pre rest n) = .ok (at_split pre rest n) :=
  skip_whitespace_stop f _ (by rw [at_split_current]; exact h)

/-- `skip_whitespace` goes over one space. -/
theorem skip_whitespace_at_split_space (f : Nat) (pre rest : List Char) (n : Nat)
    (h : is_space (rest.headD NUL) = false) :
    skip_whitespace (f + 2) (at_split pre (' ' :: rest) n) = .ok (at_split (pre ++ [' ']) rest n) := by
  rw [skip_whitespace, at_split_current]
  simp only [List.headD_cons]
  rw [if_pos (by decide), if_neg (by decide), read_char_at_split]
  exact skip_whitespace_at_split_stop f _ rest n h

theorem read_ident_loop_at_split : ∀ (w : List Char) (f : Nat) (pre rest : List Char) (n : Nat),
    (∀ c ∈ w, is_ident_char c = true) → is_ident_char (rest.headD NUL) = false →
    w.length + 1 ≤ f →
    read_ident_loop f (at_split pre (w ++ rest) n) = .ok (at_split (pre ++ w) rest n) := by
  intro w
  induction w with
  | nil =>
    intro f pre rest n _ hrest hf
    obtain ⟨g, rfl⟩ : ∃ g, f = g + 1 := ⟨f - 1, by simp at hf; omega⟩
    rw [read_ident_loop]
    simp only [List.nil_append, List.append_nil, at_split_current]
    have : (((rest.headD NUL).isAlpha || (rest.headD NUL).isAlphanum) ||
        rest.headD NUL == '_') = false := hrest
    rw [this]
    rfl
  | cons c w ih =>
    intro f pre rest n hw hrest hf
    obtain ⟨g, rfl⟩ : ∃ g, f = g + 1 := ⟨f - 1, by simp at hf; omega⟩
    rw [read_ident_loop]
    simp only [List.cons_append, at_split_current, List.headD_cons]
    have hc : ((c.isAlpha || c.isAlphanum) || c == '_') = true := hw c (List.mem_cons_self _ _)
    rw [hc, if_pos rfl, read_char_at_split]
    have := ih g (pre ++ [c]) rest n (fun d hd => hw d (List.mem_cons_of_mem _ hd)) hrest
      (by simp at hf; omega)
    rw [this]
    simp

theorem substr_at_split (pre w rest : List Char) :
    substr (pre ++ (w ++ rest)) pre.length ((pre ++ w).length - pre.length) = w := by
  unfold substr
  simp

end Lexer

namespace Lexer

theorem is_ident_char_of_isAlpha (c : Char) (h : c.isAlpha = true) : is_ident_char c = true := by
  simp [is_ident_char, h]

/-- An identifier run `c :: w`, followed by a character that cannot extend it,
is one token of kind `lookup_ident (c :: w)`. -/
theorem next_token_switch_ident (f : Nat) (pre : List Char) (c : Char) (w rest : List Char)
    (n : Nat) (hc : c.isAlpha = true) (hw : ∀ d ∈ w, is_ident_char d = true)
    (hrest : is_ident_char (rest.headD NUL) = false) (hf : w.length + 2 ≤ f) :
    next_token_switch f (at_split pre ((c :: w) ++ rest) n) =
      .ok (⟨lookup_ident (c :: w), c :: w, n, (pre ++ (c :: w)).length⟩,
        at_split (pre ++ (c :: w)) rest n) := by
  have hcur : (at_split pre ((c :: w) ++ rest) n).current_char = c := by
    rw [at_split_current]; rfl
  have hall : ∀ d ∈ c :: w, is_ident_char d = true := by
    intro d hd
    rcases List.mem_cons.1 hd with h | h
    · rw [h]; exact is_ident_char_of_isAlpha c hc
    · exact hw d h
  have hloop := read_ident_loop_at_split (c :: w) f pre rest n hall hrest
    (by simp only [List.length_cons]; omega)
  unfold next_token_switch
  rw [next_token_cases_eq_none _ (by rw [hcur]; exact not_case_char_of_isAlpha c hc)]
  simp only [next_token_default, hcur, hc, if_true, read_ident, hloop, at_split_source,
    at_split_pos, substr_at_split, create_token, at_split_line]

theorem not_number_char_nul_or (c : Char) (h : is_number_char c = false) :
    c.isDigit = false ∧ c ≠ '.' := by
  simpa [is_number_char] using h

theorem read_number_loop_digits : ∀ (d : List Char) (f : Nat) (pre rest : List Char)
    (n sp : Nat) (out : List Char),
    (∀ c ∈ d, c.isDigit = true) → is_number_char (rest.headD NUL) = false →
    d.length + 1 ≤ f →
    read_number_loop f (at_split pre (d ++ rest) n) sp 0 out =
      .ok (⟨.INT, out ++ d, n, (pre ++ d).length⟩, at_split (pre ++ d) rest n) := by
  intro d
  induction d with
  | nil =>
    intro f pre rest n sp out _ hrest hf
    obtain ⟨g, rfl⟩ : ∃ g, f = g + 1 := ⟨f - 1, by simp at hf; omega⟩
    rw [read_number_loop]
    simp only [List.nil_append, List.append_nil, at_split_current]
    have : ((rest.headD NUL).isDigit || rest.headD NUL == '.') = false := hrest
    rw [this]
    rfl
  | cons c d ih =>
    intro f pre rest n sp out hd hrest hf
    obtain ⟨g, rfl⟩ : ∃ g, f = g + 1 := ⟨f - 1, by simp at hf; omega⟩
    have hc : c.isDigit = true := hd c (List.mem_cons_self _ _)
    have hnd : ¬ c = '.' := by
      intro h0; rw [h0] at hc; exact absurd hc (by decide)
    have hrec := ih g (pre ++ [c]) rest n sp (out ++ [c])
      (fun x hx => hd x (List.mem_cons_of_mem _ hx)) hrest (by simp at hf; omega)
    rw [read_number_loop]
    simp only [List.cons_append, at_split_current, List.headD_cons, hc, Bool.true_or, if_true,
      hnd, if_false, read_char_at_split]
    rw [if_neg (by omega)]
    have hres : (⟨.INT, out ++ c :: d, n, (pre ++ c :: d).length⟩, at_split (pre ++ c :: d) rest n)
        = ((⟨.INT, out ++ [c] ++ d, n, (pre ++ [c] ++ d).length⟩ : Token),
            at_split (pre ++ [c] ++ d) rest n) := by
      simp
    rw [hres]
    split
    · next hn =>
      cases d with
      | nil =>
        simp only [List.nil_append, List.append_nil] at hn ⊢
        rfl
      | cons c2 d2 =>
        exfalso
        simp only [List.cons_append, List.headD_cons] at hn
        have h2 : c2.isDigit = true := hd c2 (by simp)
        rw [hn] at h2
        exact absurd h2 (by decide)
    · exact hrec

/-- A run of digits, followed by a character that is neither a digit nor `.`,
is one `INT` token. -/
theorem next_token_switch_int (f : Nat) (pre : List Char) (c : Char) (d rest : List Char)
    (n : Nat) (hc : c.isDigit = true) (hd : ∀ x ∈ d, x.isDigit = true)
    (hrest : is_number_char (rest.headD NUL) = false) (hf : d.length + 2 ≤ f) :
    next_token_switch f (at_split pre ((c :: d) ++ rest) n) =
      .ok (⟨.INT, c :: d, n, (pre ++ (c :: d)).length⟩, at_split (pre ++ (c :: d)) rest n) := by
  have hcur : (at_split pre ((c :: d) ++ rest) n).current_char = c := by
    rw [at_split_current]; rfl
  have hall : ∀ x ∈ c :: d, x.isDigit = true := by
    intro x hx
    rcases List.mem_cons.1 hx with h | h
    · rw [h]; exact hc
    · exact hd x h
  have hloop := read_number_loop_digits (c :: d) f pre rest n pre.length [] hall hrest
    (by simp only [List.length_cons]; omega)
  unfold next_token_switch
  rw [next_token_cases_eq_none _ (by rw [hcur]; exact not_case_char_of_isDigit c hc)]
  simp only [next_token_default, hcur, not_alpha_of_isDigit c hc, hc, if_true, read_number,
    at_split_pos]
  rw [hloop]
  simp

theorem peek_char_at_split (pre : List Char) (c : Char) (rest : List Char) (n : Nat) :
    peek_char (at_split pre (c :: rest) n) = rest.headD NUL := by
  have h := at_split_current (pre ++ [c]) rest n
  rw [at_split_cons] at h
  unfold at_split
  rw [peek_char_state_at]
  exact h

/-- A character whose `case` has no lookahead is one token. -/
theorem next_token_switch_single (f : Nat) (pre : List Char) (c : Char) (rest : List Char)
    (n : Nat) (ty : TokenType) (lit : String)
    (h : switch_table.lookup c = some (none, ty, lit)) :
    next_token_switch f (at_split pre (c :: rest) n) =
      .ok (⟨ty, lit.toList, n, pre.length⟩, at_split (pre ++ [c]) rest n) := by
  have hcur : (at_split pre (c :: rest) n).current_char = c := by
    rw [at_split_current]; rfl
  simp only [next_token_switch, next_token_cases, hcur, h, emit, read_char_at_split,
    create_token, at_split_pos, at_split_line]

/-- A character whose `case` has a lookahead, not followed by the second
character of the pair, is the one-character token. -/
theorem next_token_switch_first_only (f : Nat) (pre : List Char) (c : Char) (rest : List Char)
    (n : Nat) (c2 : Char) (ty2 : TokenType) (lit2 : String) (ty1 : TokenType) (lit1 : String)
    (h : switch_table.lookup c = some (some (c2, ty2, lit2), ty1, lit1))
    (hnext : rest.headD NUL ≠ c2) :
    next_token_switch f (at_split pre (c :: rest) n) =
      .ok (⟨ty1, lit1.toList, n, pre.length⟩, at_split (pre ++ [c]) rest n) := by
  have hcur : (at_split pre (c :: rest) n).current_char = c := by
    rw [at_split_current]; rfl
  simp only [next_token_switch, next_token_cases, hcur, h, emit2, peek_char_at_split, hnext,
    if_false, emit, read_char_at_split, create_token, at_split_pos, at_split_line]

theorem next_token_at_split_stop (f : Nat) (pre rest : List Char) (n : Nat)
    (h : is_space (rest.headD NUL) = false) :
    next_token (f + 1) (at_split pre rest n) = next_token_switch (f + 1) (at_split pre rest n) := by
  rw [next_token, skip_whitespace_at_split_stop f pre rest n h]

theorem next_token_at_split_space (f : Nat) (pre rest : List Char) (n : Nat)
    (h : is_space (rest.headD NUL) = false) :
    next_token (f + 2) (at_split pre (' ' :: rest) n) =
      next_token_switch (f + 2) (at_split (pre ++ [' ']) rest n) := by
  rw [next_token, skip_whitespace_at_split_space f pre rest n h]

end Lexer

/-! ## `let` statements -/

namespace Parser

theorem expect_peek_of_lexer (F fuel : Nat) (l l' : Lexer) (t : Token)
    (h : ∀ fuel, F ≤ fuel → Lexer.next_token fuel l = .ok (t, l')) (hf : F ≤ fuel)
    (errs : List String) (cur peek : Token) (type : TokenType) (hty : peek.type = type) :
    expect_peek fuel { lexer := l, errors := errs, current_token := cur, peek_token := peek }
        type =
      .ok (true, { lexer := l', errors := errs, current_token := peek, peek_token := t }) := by
  unfold expect_peek
  simp only [peek_token_is, hty, beq_self_eq_true, if_true,
    next_token_of_lexer F fuel l l' t h hf]

theorem skip_to_semicolon_stop (f : Nat) (p : Parser)
    (h : p.current_token.type = .SEMICOLON ∨ p.current_token.type = .EOF_) :
    skip_to_semicolon (f + 1) p = .ok p := by
  rw [skip_to_semicolon]
  rcases h with h | h <;> simp [current_token_is, h]

theorem skip_to_semicolon_step (f : Nat) (p : Parser)
    (h1 : p.current_token.type ≠ .SEMICOLON) (h2 : p.current_token.type ≠ .EOF_) :
    skip_to_semicolon (f + 1) p = (do
      let p1 ← next_token f p
      skip_to_semicolon f p1) := by
  rw [skip_to_semicolon]
  simp [current_token_is, h1, h2]

theorem parse_statement_let (f : Nat) (p : Parser) (h : p.current_token.type = .LET) :
    parse_statement (f + 1) p = parse_let_statement f p := by
  rw [parse_statement]
  simp [current_token_is, h]

/-- The tokens `let`, identifier, `:`, type name, `=`, integer literal, `;` and
the end of input parse to one `LetStatement` without a diagnostic. -/
theorem parse_lexer_let_tokens
    (l0 l' : Lexer) (tl tx t1 tt t2 tn t3 te1 te2 : Token) (v : Int)
    (hlex : Lexer.yields l0 [tl, tx, t1, tt, t2, tn, t3, te1, te2] l')
    (hl : tl.type = .LET) (hx : tx.type = .IDENT) (h1 : t1.type = .COLON)
    (ht : tt.type = .TYPE) (h2 : t2.type = .EQ) (hn : tn.type = .INT)
    (hv : stoi tn.literal = .ok v) (h3 : t3.type = .SEMICOLON) (he : te1.type = .EOF_) :
    ∃ N, ∀ fuel, N ≤ fuel →
      parse_lexer fuel l0 = .ok (⟨[.LetStatement (some (.IdentifierLiteral tx.literal))
        (some (.IntegerLiteral v)) tt.literal]⟩, []) := by
  obtain ⟨F, hF⟩ := Lexer.yields_with_of_yields _ _ _ hlex
  obtain ⟨l1, e1, l2, e2, l3, e3, l4, e4, l5, e5, l6, e6, l7, e7, l8, e8, l9, e9, -⟩ := hF
  refine ⟨F + 12, fun fuel hf => ?_⟩
  obtain ⟨m, rfl⟩ : ∃ m, fuel = (F + m) + 12 := ⟨fuel - F - 12, by omega⟩
  have hatom : atom_expression tn = some (.IntegerLiteral v) := by
    simp [atom_expression, hn, hv]
  have hlet : parse_let_statement (F + m + 10)
      { lexer := l2, errors := [], current_token := tl, peek_token := tx } =
      .ok (some (.LetStatement (some (.IdentifierLiteral tx.literal))
          (some (.IntegerLiteral v)) tt.literal),
        { lexer := l8, errors := [], current_token := t3, peek_token := te1 }) := by
    unfold parse_let_statement
    simp only [bind, Except.bind, pure, Except.pure,
      expect_peek_of_lexer F _ _ _ _ e3 (show F ≤ F + m + 10 by omega) _ _ _ _ hx,
      expect_peek_of_lexer F _ _ _ _ e4 (show F ≤ F + m + 10 by omega) _ _ _ _ h1,
      expect_peek_of_lexer F _ _ _ _ e5 (show F ≤ F + m + 10 by omega) _ _ _ _ ht,
      expect_peek_of_lexer F _ _ _ _ e6 (show F ≤ F + m + 10 by omega) _ _ _ _ h2,
      next_token_of_lexer F _ _ _ _ e7 (show F ≤ F + m + 10 by omega),
      Bool.not_true, Bool.false_eq_true, if_false]
    rw [parse_expression_atom_stop (F + m + 8) _ _ _ hatom (Or.inl h3)]
    simp only []
    rw [skip_to_semicolon_step _ _ (by simp [hn]) (by simp [hn])]
    simp only [bind, Except.bind,
      next_token_of_lexer F _ _ _ _ e8 (show F ≤ F + m + 9 by omega)]
    rw [skip_to_semicolon_stop _ _ (Or.inl h3)]
  simp only [parse_lexer, Parser.new, Parser.parse_program, bind, Except.bind,
    Parser.next_token_of_lexer F _ _ _ _ e1 (show F ≤ F + m + 12 by omega),
    Parser.next_token_of_lexer F _ _ _ _ e2 (show F ≤ F + m + 12 by omega)]
  rw [parse_program_loop_step _ _ _ (by simp [hl])]
  rw [parse_statement_let _ _ hl, hlet]
  simp only [bind, Except.bind,
    Parser.next_token_of_lexer F _ _ _ _ e9 (show F ≤ F + m + 11 by omega)]
  rw [parse_program_loop_stop _ _ _ he]
  rfl

end Parser

namespace Lexer

theorem next_token_ident_here (fuel : Nat) (pre : List Char) (c : Char) (w rest : List Char)
    (n : Nat) (hc : c.isAlpha = true) (hw : ∀ d ∈ w, is_ident_char d = true)
    (hrest : is_ident_char (rest.headD NUL) = false) (hf : w.length + 2 ≤ fuel) :
    next_token fuel (at_split pre ((c :: w) ++ rest) n) =
      .ok (⟨lookup_ident (c :: w), c :: w, n, (pre ++ (c :: w)).length⟩,
        at_split (pre ++ (c :: w)) rest n) := by
  obtain ⟨g, rfl⟩ : ∃ g, fuel = g + 1 := ⟨fuel - 1, by omega⟩
  rw [next_token_at_split_stop g pre ((c :: w) ++ rest) n
    (show is_space (((c :: w) ++ rest).headD NUL) = false from not_space_of_isAlpha c hc)]
  exact next_token_switch_ident (g + 1) pre c w rest n hc hw hrest hf

theorem next_token_ident_after_space (fuel : Nat) (pre : List Char) (c : Char)
    (w rest : List Char) (n : Nat) (hc : c.isAlpha = true)
    (hw : ∀ d ∈ w, is_ident_char d = true)
    (hrest : is_ident_char (rest.headD NUL) = false) (hf : w.length + 2 ≤ fuel) :
    next_token fuel (at_split pre (' ' :: ((c :: w) ++ rest)) n) =
      .ok (⟨lookup_ident (c :: w), c :: w, n, (pre ++ [' '] ++ (c :: w)).length⟩,
        at_split (pre ++ [' '] ++ (c :: w)) rest n) := by
  obtain ⟨g, rfl⟩ : ∃ g, fuel = g + 2 := ⟨fuel - 2, by omega⟩
  rw [next_token_at_split_space g pre ((c :: w) ++ rest) n
    (show is_space (((c :: w) ++ rest).headD NUL) = false from not_space_of_isAlpha c hc)]
  exact next_token_switch_ident (g + 2) (pre ++ [' ']) c w rest n hc hw hrest hf

theorem next_token_int_after_space (fuel : Nat) (pre : List Char) (c : Char)
    (d rest : List Char) (n : Nat) (hc : c.isDigit = true) (hd : ∀ x ∈ d, x.isDigit = true)
    (hrest : is_number_char (rest.headD NUL) = false) (hf : d.length + 2 ≤ fuel) :
    next_token fuel (at_split pre (' ' :: ((c :: d) ++ rest)) n) =
      .ok (⟨.INT, c :: d, n, (pre ++ [' '] ++ (c :: d)).length⟩,
        at_split (pre ++ [' '] ++ (c :: d)) rest n) := by
  obtain ⟨g, rfl⟩ : ∃ g, fuel = g + 2 := ⟨fuel - 2, by omega⟩
  rw [next_token_at_split_space g pre ((c :: d) ++ rest) n
    (show is_space (((c :: d) ++ rest).headD NUL) = false from not_space_of_isDigit c hc)]
  exact next_token_switch_int (g + 2) (pre ++ [' ']) c d rest n hc hd hrest hf

theorem next_token_single_here (fuel : Nat) (pre : List Char) (c : Char) (rest : List Char)
    (n : Nat) (ty : TokenType) (lit : String)
    (h : switch_table.lookup c = some (none, ty, lit)) (hsp : is_space c = false)
    (hf : 1 ≤ fuel) :
    next_token fuel (at_split pre (c :: rest) n) =
      .ok (⟨ty, lit.toList, n, pre.length⟩, at_split (pre ++ [c]) rest n) := by
  obtain ⟨g, rfl⟩ : ∃ g, fuel = g + 1 := ⟨fuel - 1, by omega⟩
  rw [next_token_at_split_stop g pre (c :: rest) n
    (show is_space ((c :: rest).headD NUL) = false from hsp)]
  exact next_token_switch_single (g + 1) pre c rest n ty lit h

theorem next_token_first_only_after_space (fuel : Nat) (pre : List Char) (c : Char)
    (rest : List Char) (n : Nat) (c2 : Char) (ty2 : TokenType) (lit2 : String)
    (ty1 : TokenType) (lit1 : String)
    (h : switch_table.lookup c = some (some (c2, ty2, lit2), ty1, lit1))
    (hsp : is_space c = false) (hnext : rest.headD NUL ≠ c2) (hf : 2 ≤ fuel) :
    next_token fuel (at_split pre (' ' :: c :: rest) n) =
      .ok (⟨ty1, lit1.toList, n, (pre ++ [' ']).length⟩, at_split (pre ++ [' '] ++ [c]) rest n) := by
  obtain ⟨g, rfl⟩ : ∃ g, fuel = g + 2 := ⟨fuel - 2, by omega⟩
  rw [next_token_at_split_space g pre (c :: rest) n
    (show is_space ((c :: rest).headD NUL) = false from hsp)]
  exact next_token_switch_first_only (g + 2) (pre ++ [' ']) c rest n c2 ty2 lit2 ty1 lit1 h hnext

theorem next_token_at_split_end (fuel : Nat) (pre : List Char) (n : Nat) (hf : 1 ≤ fuel) :
    next_token fuel (at_split pre [] n) =
      .ok (⟨.EOF_, [], n, pre.length⟩, state_at (pre ++ []) (pre.length + 1) n) := by
  obtain ⟨g, rfl⟩ : ∃ g, fuel = g + 1 := ⟨fuel - 1, by omega⟩
  exact next_token_at_end (pre ++ []) g pre.length n (by simp)

theorem type_keyword_shape (t : List Char) (ht : t ∈ TYPE_KEYWORDS) :
    ∃ c w, t = c :: w ∧ c.isAlpha = true ∧ (∀ d ∈ w, is_ident_char d = true) ∧
      lookup_ident (c :: w) = .TYPE ∧ w.length ≤ 4 := by
  have hall : ∀ t ∈ TYPE_KEYWORDS, (t.headD NUL).isAlpha = true ∧
      (t.tail.all is_ident_char = true) ∧ lookup_ident t = .TYPE ∧ t.tail.length ≤ 4 ∧
      t ≠ [] := by
    decide
  obtain ⟨h1, h2, h3, h4, h5⟩ := hall t ht
  cases t with
  | nil => exact absurd rfl h5
  | cons c w =>
    exact ⟨c, w, rfl, h1, fun d hd => List.all_eq_true.1 h2 d hd, h3, h4⟩

end Lexer

theorem stoi_of_digits (d : List Char) (hne : d ≠ []) (hd : ∀ x ∈ d, x.isDigit = true)
    (hv : decimal_value d ≤ 2147483647) : stoi d = .ok (decimal_value d) := by
  unfold stoi
  have htw : d.takeWhile Char.isDigit = d := List.takeWhile_eq_self_iff.2 hd
  simp only [htw, hne, if_false]
  rw [if_neg (by omega)]

/-- C3: for every identifier name `x` (a text the lexer scans as `IDENT`), every
type name `t` among `int`, `float`, `bool`, and every decimal integer literal
`n` whose value is at most `2^31 - 1`, `parse_program` on the source
`let x: t = n;` returns a program of exactly one statement, the `LetStatement`
of name `IdentifierLiteral(x)`, declared type `t` and value
`IntegerLiteral(value of n)`, and records no diagnostic. -/
theorem C3_let_statement_shape (x t n : List Char)
    (hx : is_identifier_name x = true) (ht : t ∈ TYPE_KEYWORDS)
    (hn : is_decimal_literal n = true) (hv : decimal_value n ≤ 2147483647) :
    ∃ N, ∀ fuel, N ≤ fuel →
      parse_source fuel (let_source x t n) =
        .ok (⟨[.LetStatement (some (.IdentifierLiteral x))
          (some (.IntegerLiteral (decimal_value n))) t]⟩, []) := by
  obtain ⟨c, w, rfl⟩ : ∃ c w, x = c :: w := by
    cases x with
    | nil => simp [is_identifier_name] at hx
    | cons c w => exact ⟨c, w, rfl⟩
  obtain ⟨c', d', rfl⟩ : ∃ c' d', n = c' :: d' := by
    cases n with
    | nil => simp [is_decimal_literal] at hn
    | cons c' d' => exact ⟨c', d', rfl⟩
  have hd := hn
  simp only [is_identifier_name, Bool.and_eq_true, beq_iff_eq, List.all_eq_true] at hx
  obtain ⟨⟨hc, hw⟩, hlook⟩ := hx
  simp only [is_decimal_literal, Bool.and_eq_true, List.all_eq_true] at hd
  obtain ⟨hc', hd'⟩ := hd
  obtain ⟨ct, wt, rfl, hct, hwt, hlt, hlen⟩ := Lexer.type_keyword_shape t ht
  have hsrc : let_source (c :: w) (ct :: wt) (c' :: d') =
      [] ++ (('l' :: ['e', 't']) ++ (' ' :: ((c :: w) ++ (':' :: ' ' :: ((ct :: wt) ++
        (' ' :: '=' :: ' ' :: ((c' :: d') ++ [';']))))))) := by
    simp [let_source]
  have e1 := Lexer.next_token_ident_here (w.length + d'.length + 8) [] 'l' ['e', 't']
    (' ' :: ((c :: w) ++ (':' :: ' ' :: ((ct :: wt) ++
        (' ' :: '=' :: ' ' :: ((c' :: d') ++ [';'])))))) 1 (by decide) (by decide)
    (show Lexer.is_ident_char ' ' = false by decide) (by simp)
  have e2 := Lexer.next_token_ident_after_space (w.length + d'.length + 8)
    ([] ++ ('l' :: ['e', 't'])) c w (':' :: ' ' :: ((ct :: wt) ++
        (' ' :: '=' :: ' ' :: ((c' :: d') ++ [';'])))) 1 hc hw
    (show Lexer.is_ident_char ':' = false by decide) (by omega)
  have e3 := Lexer.next_token_single_here (w.length + d'.length + 8)
    ([] ++ ('l' :: ['e', 't']) ++ [' '] ++ (c :: w)) ':' (' ' :: ((ct :: wt) ++
        (' ' :: '=' :: ' ' :: ((c' :: d') ++ [';'])))) 1 .COLON ":" (by decide) (by decide)
    (by omega)
  have e4 := Lexer.next_token_ident_after_space (w.length + d'.length + 8)
    ([] ++ ('l' :: ['e', 't']) ++ [' '] ++ (c :: w) ++ [':']) ct wt
    (' ' :: '=' :: ' ' :: ((c' :: d') ++ [';'])) 1 hct hwt
    (show Lexer.is_ident_char ' ' = false by decide) (by omega)
  have e5 := Lexer.next_token_first_only_after_space (w.length + d'.length + 8)
    ([] ++ ('l' :: ['e', 't']) ++ [' '] ++ (c :: w) ++ [':'] ++ [' '] ++ (ct :: wt)) '='
    (' ' :: ((c' :: d') ++ [';'])) 1 '=' .EQ_EQ "==" .EQ "=" (by decide) (by decide)
    (show ' ' ≠ '=' by decide) (by omega)
  have e6 := Lexer.next_token_int_after_space (w.length + d'.length + 8)
    ([] ++ ('l' :: ['e', 't']) ++ [' '] ++ (c :: w) ++ [':'] ++ [' '] ++ (ct :: wt) ++ [' ']
      ++ ['=']) c' d' [';'] 1 hc' hd' (show Lexer.is_number_char ';' = false by decide) (by omega)
  have e7 := Lexer.next_token_single_here (w.length + d'.length + 8)
    ([] ++ ('l' :: ['e', 't']) ++ [' '] ++ (c :: w) ++ [':'] ++ [' '] ++ (ct :: wt) ++ [' ']
      ++ ['='] ++ [' '] ++ (c' :: d')) ';' [] 1 .SEMICOLON ";" (by decide) (by decide)
    (by omega)
  have e8 := Lexer.next_token_at_split_end (w.length + d'.length + 8)
    ([] ++ ('l' :: ['e', 't']) ++ [' '] ++ (c :: w) ++ [':'] ++ [' '] ++ (ct :: wt) ++ [' ']
      ++ ['='] ++ [' '] ++ (c' :: d') ++ [';']) 1 (by omega)
  have e9 := Lexer.next_token_at_end
    ([] ++ ('l' :: ['e', 't']) ++ [' '] ++ (c :: w) ++ [':'] ++ [' '] ++ (ct :: wt) ++ [' ']
      ++ ['='] ++ [' '] ++ (c' :: d') ++ [';'] ++ []) (w.length + d'.length + 7)
    (([] ++ ('l' :: ['e', 't']) ++ [' '] ++ (c :: w) ++ [':'] ++ [' '] ++ (ct :: wt) ++ [' ']
      ++ ['='] ++ [' '] ++ (c' :: d') ++ [';']).length + 1) 1 (by simp)
  rw [hlook] at e2
  rw [hlt] at e4
  have hstoi : stoi (c' :: d') = .ok (decimal_value (c' :: d')) :=
    stoi_of_digits (c' :: d') (by simp) (by
      intro y hy
      rcases List.mem_cons.1 hy with h | h
      · rw [h]; exact hc'
      · exact hd' y h) hv
  unfold parse_source
  rw [Lexer.new_eq_at_split, hsrc]
  exact Parser.parse_lexer_let_tokens _ _ _ _ _ _ _ _ _ _ _ (decimal_value (c' :: d'))
    ⟨_, ⟨_, e1⟩, _, ⟨_, e2⟩, _, ⟨_, e3⟩, _, ⟨_, e4⟩, _, ⟨_, e5⟩, _, ⟨_, e6⟩, _, ⟨_, e7⟩,
      _, ⟨_, e8⟩, _, ⟨_, e9⟩, rfl⟩
    (by decide) rfl rfl rfl rfl rfl hstoi rfl rfl

/-- C3 (witness): the source `let x: int = 5;`. -/
theorem C3_let_statement_shape_witness :
    let_source "x".toList "int".toList "5".toList = "let x: int = 5;".toList ∧
    is_identifier_name "x".toList = true ∧ "int".toList ∈ TYPE_KEYWORDS ∧
    is_decimal_literal "5".toList = true ∧ decimal_value "5".toList = 5 ∧
    ∃ N, ∀ fuel, N ≤ fuel →
      parse_source fuel (let_source "x".toList "int".toList "5".toList) =
        .ok (⟨[.LetStatement (some (.IdentifierLiteral "x".toList))
          (some (.IntegerLiteral (decimal_value "5".toList))) "int".toList]⟩, []) :=
  ⟨by decide, by decide, by decide, by decide, by decide,
   C3_let_statement_shape "x".toList "int".toList "5".toList (by decide) (by decide)
     (by decide) (by decide)⟩

/-- C3 (the example of the claim, evaluated): `parse_program` on `let x: int = 5;`. -/
theorem C3_example_let_x_int_5 :
    parse_source 17 "let x: int = 5;".toList =
      .ok (⟨[.LetStatement (some (.IdentifierLiteral ['x'])) (some (.IntegerLiteral 5))
        ['i', 'n', 't']]⟩, []) := by
  decide!

/-! ## An empty diagnostics list certifies a complete tree -/

namespace Parser

theorem bind_eq_ok {α β : Type} (x : Except Abort α) (g : α → Except Abort β) (b : β) :
    (x >>= g) = .ok b ↔ ∃ a, x = .ok a ∧ g a = .ok b := by
  cases x with
  | error e => simp [bind, Except.bind]
  | ok a => simp [bind, Except.bind]

theorem grows_refl (p : Parser) (Q : Prop) (h : Q) : grows p p Q :=
  ⟨[], by simp, fun _ => h⟩

theorem grows_of_eq (p p' : Parser) (Q : Prop) (h : p'.errors = p.errors) (hq : Q) :
    grows p p' Q :=
  ⟨[], by simp [h], fun _ => hq⟩

theorem grows_trans (p p1 p2 : Parser) (Q1 Q2 Q : Prop) (h1 : grows p p1 Q1)
    (h2 : grows p1 p2 Q2) (h : Q1 → Q2 → Q) : grows p p2 Q := by
  obtain ⟨x1, e1, q1⟩ := h1
  obtain ⟨x2, e2, q2⟩ := h2
  refine ⟨x1 ++ x2, by rw [e2, e1, List.append_assoc], fun hx => ?_⟩
  have hx1 : x1 = [] := (List.append_eq_nil.1 hx).1
  have hx2 : x2 = [] := (List.append_eq_nil.1 hx).2
  exact h (q1 hx1) (q2 hx2)

theorem grows_mono (p p' : Parser) (Q Q' : Prop) (h : grows p p' Q) (hq : Q → Q') :
    grows p p' Q' := by
  obtain ⟨x, e, q⟩ := h
  exact ⟨x, e, fun hx => hq (q hx)⟩

theorem grows_of_error (p p' : Parser) (Q : Prop) (msg : String)
    (h : p'.errors = p.errors ++ [msg]) : grows p p' Q :=
  ⟨[msg], h, fun hx => absurd hx (by simp)⟩

theorem next_token_errors (f : Nat) (p p' : Parser) (h : next_token f p = .ok p') :
    p'.errors = p.errors := by
  unfold next_token at h
  split at h
  · exact Except.noConfusion h
  · injection h with h
    rw [← h]

theorem peek_error_errors (p : Parser) (type : TokenType) :
    (peek_error p type).errors = p.errors ++
      ["expected next token to be " ++ token_type_map type ++ ", got " ++
        token_type_map p.peek_token.type ++ " instead"] := rfl

theorem next_token_grows (f : Nat) (p p' : Parser) (h : next_token f p = .ok p') :
    grows p p' True :=
  grows_of_eq p p' True (next_token_errors f p p' h) trivial

theorem expect_peek_grows (f : Nat) (p p' : Parser) (type : TokenType) (b : Bool)
    (h : expect_peek f p type = .ok (b, p')) : grows p p' (b = true) := by
  unfold expect_peek at h
  split at h
  · cases hn : next_token f p with
    | error e => rw [hn] at h; exact Except.noConfusion h
    | ok p1 =>
      rw [hn] at h
      injection h with h
      injection h with h1 h2
      rw [← h2]
      exact grows_of_eq p p1 _ (next_token_errors f p p1 hn) h1.symm
  · injection h with h
    injection h with h1 h2
    rw [← h2]
    exact grows_of_error _ _ _ _ rfl

theorem complete_list_append (xs : List (Option Expression)) (x : Option Expression) :
    Expression.complete_list (xs ++ [x]) =
      (Expression.complete_list xs && Expression.complete_opt x) := by
  induction xs with
  | nil => simp [Expression.complete_list]
  | cons y ys ih => simp [Expression.complete_list, ih, Bool.and_assoc]

/-- The expression parsers: when they add no diagnostic, what they return is complete. -/
theorem expression_parsers_complete : ∀ (f : Nat),
    (∀ prec p e p', parse_expression f prec p = .ok (e, p') →
      grows p p' (Expression.complete_opt e = true)) ∧
    (∀ prec left p e p', parse_expression_loop f prec left p = .ok (e, p') →
      grows p p' (Expression.complete_opt left = true → Expression.complete_opt e = true)) ∧
    (∀ left p e p', parse_infix_expression f left p = .ok (e, p') →
      grows p p' (Expression.complete_opt left = true → Expression.complete_opt e = true)) ∧
    (∀ p e p', parse_grouped_expression f p = .ok (e, p') →
      grows p p' (Expression.complete_opt e = true)) ∧
    (∀ fn p e p', parse_call_expression f fn p = .ok (e, p') →
      grows p p' (Expression.complete_opt fn = true → Expression.complete_opt e = true)) ∧
    (∀ end_ p es p', parse_expression_list f end_ p = .ok (es, p') →
      grows p p' (Expression.complete_list es = true)) ∧
    (∀ end_ acc p es p', parse_expression_list_loop f end_ acc p = .ok (es, p') →
      grows p p' (Expression.complete_list acc = true → Expression.complete_list es = true)) := by
  intro f
  induction f with
  | zero =>
    refine ⟨?_, ?_, ?_, ?_, ?_, ?_, ?_⟩ <;> intros <;> rename_i h <;>
      simp [parse_expression, parse_expression_loop, parse_infix_expression,
        parse_grouped_expression, parse_call_expression, parse_expression_list,
        parse_expression_list_loop] at h
  | succ k ih =>
    obtain ⟨ihE, ihL, ihI, ihG, ihC, ihA, ihAL⟩ := ih
    refine ⟨?_, ?_, ?_, ?_, ?_, ?_, ?_⟩
    · -- parse_expression
      intro prec p e p' h
      rw [parse_expression] at h
      split at h
      · injection h with h
        injection h with h1 h2
        rw [← h2]
        exact grows_of_error _ _ _ _ rfl
      · rw [bind_eq_ok] at h
        obtain ⟨left, hl, h⟩ := h
        refine grows_mono _ _ _ _ (ihL _ _ _ _ _ h) (fun hq => hq ?_)
        unfold parse_integer_literal at hl
        split at hl
        · exact Except.noConfusion hl
        · injection hl with hl
          rw [← hl]
          rfl
      · rw [bind_eq_ok] at h
        obtain ⟨left, hl, h⟩ := h
        refine grows_mono _ _ _ _ (ihL _ _ _ _ _ h) (fun hq => hq ?_)
        unfold parse_float_literal at hl
        split at hl
        · exact Except.noConfusion hl
        · injection hl with hl
          rw [← hl]
          rfl
      · rw [bind_eq_ok] at h
        obtain ⟨⟨left, p1⟩, hg, h⟩ := h
        exact grows_trans _ _ _ _ _ _ (ihG _ _ _ hg) (ihL _ _ _ _ _ h) (fun q1 q2 => q2 q1)
      · exact grows_mono _ _ _ _ (ihL _ _ _ _ _ h) (fun hq => hq rfl)
      · exact grows_mono _ _ _ _ (ihL _ _ _ _ _ h) (fun hq => hq rfl)
    · -- parse_expression_loop
      intro prec left p e p' h
      rw [parse_expression_loop] at h
      split at h
      · split at h
        · injection h with h
          injection h with h1 h2
          rw [← h1, ← h2]
          exact grows_refl _ _ id
        · rw [bind_eq_ok] at h
          obtain ⟨p1, hn, h⟩ := h
          rw [bind_eq_ok] at h
          obtain ⟨⟨left1, p2⟩, hi, h⟩ := h
          have g1 := next_token_grows _ _ _ hn
          have g2 := ihI _ _ _ _ hi
          have g3 := ihL _ _ _ _ _ h
          exact grows_trans _ _ _ _ _ _ (grows_trans _ _ _ _ _ _ g1 g2 (fun _ q => q)) g3
            (fun q1 q2 hleft => q2 (q1 hleft))
        · rw [bind_eq_ok] at h
          obtain ⟨p1, hn, h⟩ := h
          rw [bind_eq_ok] at h
          obtain ⟨⟨left1, p2⟩, hi, h⟩ := h
          have g1 := next_token_grows _ _ _ hn
          have g2 := ihC _ _ _ _ hi
          have g3 := ihL _ _ _ _ _ h
          exact grows_trans _ _ _ _ _ _ (grows_trans _ _ _ _ _ _ g1 g2 (fun _ q => q)) g3
            (fun q1 q2 hleft => q2 (q1 hleft))
      · injection h with h
        injection h with h1 h2
        rw [← h1, ← h2]
        exact grows_refl _ _ id
    · -- parse_infix_expression
      intro left p e p' h
      rw [parse_infix_expression] at h
      rw [bind_eq_ok] at h
      obtain ⟨p1, hn, h⟩ := h
      rw [bind_eq_ok] at h
      obtain ⟨⟨right, p2⟩, hr, h⟩ := h
      injection h with h
      injection h with h1 h2
      rw [← h1, ← h2]
      have g1 := next_token_grows _ _ _ hn
      have g2 := ihE _ _ _ _ hr
      refine grows_trans _ _ _ _ _ _ g1 g2 (fun _ q hleft => ?_)
      simp only [Expression.complete_opt, Expression.complete, Bool.and_eq_true]
      exact ⟨hleft, q⟩
    · -- parse_grouped_expression
      intro p e p' h
      rw [parse_grouped_expression] at h
      rw [bind_eq_ok] at h
      obtain ⟨p1, hn, h⟩ := h
      rw [bind_eq_ok] at h
      obtain ⟨⟨expr, p2⟩, he, h⟩ := h
      rw [bind_eq_ok] at h
      obtain ⟨⟨ok1, p3⟩, hp, h⟩ := h
      have g1 := next_token_grows _ _ _ hn
      have g2 := ihE _ _ _ _ he
      have g3 := expect_peek_grows _ _ _ _ _ hp
      cases ok1 with
      | false =>
        obtain ⟨x, hx, hq⟩ := g3
        injection h with h
        injection h with h1 h2
        rw [← h2]
        refine grows_trans _ _ _ _ _ _ (grows_trans _ _ _ _ _ _ g1 g2 (fun _ q => q))
          ⟨x, hx, hq⟩ (fun _ q2 => absurd q2 (by simp))
      | true =>
        injection h with h
        injection h with h1 h2
        rw [← h1, ← h2]
        exact grows_trans _ _ _ _ _ _ (grows_trans _ _ _ _ _ _ g1 g2 (fun _ q => q)) g3
          (fun q1 _ => q1)
    · -- parse_call_expression
      intro fn p e p' h
      rw [parse_call_expression] at h
      rw [bind_eq_ok] at h
      obtain ⟨⟨args, p1⟩, ha, h⟩ := h
      injection h with h
      injection h with h1 h2
      rw [← h1, ← h2]
      refine grows_mono _ _ _ _ (ihA _ _ _ _ ha) (fun q hfn => ?_)
      simp only [Expression.complete_opt, Expression.complete, Bool.and_eq_true]
      exact ⟨hfn, q⟩
    · -- parse_expression_list
      intro end_ p es p' h
      rw [parse_expression_list] at h
      split at h
      · rw [bind_eq_ok] at h
        obtain ⟨p1, hn, h⟩ := h
        injection h with h
        injection h with h1 h2
        rw [← h1, ← h2]
        exact grows_mono _ _ _ _ (next_token_grows _ _ _ hn) (fun _ => rfl)
      · rw [bind_eq_ok] at h
        obtain ⟨p1, hn, h⟩ := h
        rw [bind_eq_ok] at h
        obtain ⟨⟨first, p2⟩, he, h⟩ := h
        have g1 := next_token_grows _ _ _ hn
        have g2 := ihE _ _ _ _ he
        have g3 := ihAL _ _ _ _ _ h
        refine grows_trans _ _ _ _ _ _ (grows_trans _ _ _ _ _ _ g1 g2 (fun _ q => q)) g3
          (fun q1 q2 => q2 ?_)
        simp only [Expression.complete_list, Bool.and_eq_true, and_true]
        exact q1
    · -- parse_expression_list_loop
      intro end_ acc p es p' h
      rw [parse_expression_list_loop] at h
      split at h
      · rw [bind_eq_ok] at h
        obtain ⟨p1, hn1, h⟩ := h
        rw [bind_eq_ok] at h
        obtain ⟨p2, hn2, h⟩ := h
        rw [bind_eq_ok] at h
        obtain ⟨⟨next, p3⟩, he, h⟩ := h
        have g1 := next_token_grows _ _ _ hn1
        have g2 := next_token_grows _ _ _ hn2
        have g3 := ihE _ _ _ _ he
        have g4 := ihAL _ _ _ _ _ h
        refine grows_trans _ _ _ _ _ _ (grows_trans _ _ _ _ _ _
          (grows_trans _ _ _ _ _ _ g1 g2 (fun _ _ => trivial)) g3 (fun _ q => q)) g4
          (fun q1 q2 hacc => q2 ?_)
        rw [complete_list_append, hacc, q1]
        rfl
      · rw [bind_eq_ok] at h
        obtain ⟨⟨ok1, p1⟩, hp, h⟩ := h
        have g1 := expect_peek_grows _ _ _ _ _ hp
        cases ok1 with
        | false =>
          injection h with h
          injection h with h1 h2
          rw [← h2]
          exact grows_mono _ _ _ _ g1 (fun q => absurd q (by simp))
        | true =>
          injection h with h
          injection h with h1 h2
          rw [← h1, ← h2]
          exact grows_mono _ _ _ _ g1 (fun _ hacc => hacc)

end Parser

namespace Parser

theorem skip_to_semicolon_errors : ∀ (f : Nat) (p p' : Parser),
    skip_to_semicolon f p = .ok p' → p'.errors = p.errors := by
  intro f
  induction f with
  | zero => intro p p' h; simp [skip_to_semicolon] at h
  | succ k ih =>
    intro p p' h
    rw [skip_to_semicolon] at h
    split at h
    · rw [bind_eq_ok] at h
      obtain ⟨p1, hn, h⟩ := h
      rw [ih _ _ h, next_token_errors _ _ _ hn]
    · injection h with h
      rw [h]

theorem statement_complete_list_append (xs : List Statement) (x : Statement) :
    Statement.complete_list (xs ++ [x]) = (Statement.complete_list xs && Statement.complete x) := by
  induction xs with
  | nil => simp [Statement.complete_list]
  | cons y ys ih => simp [Statement.complete_list, ih, Bool.and_assoc]

theorem parse_expression_statement_complete (f : Nat) (p p' : Parser) (s : Option Statement)
    (h : parse_expression_statement f p = .ok (s, p')) :
    grows p p' (∀ s', s = some s' → Statement.complete s' = true) := by
  unfold parse_expression_statement at h
  rw [bind_eq_ok] at h
  obtain ⟨⟨expr, p1⟩, he, h⟩ := h
  have g1 := (expression_parsers_complete f).1 _ _ _ _ he
  dsimp only at h
  split at h
  · rw [bind_eq_ok] at h
    obtain ⟨p2, hn, h⟩ := h
    injection h with h
    injection h with h1 h2
    rw [← h1, ← h2]
    refine grows_trans _ _ _ _ _ _ g1 (next_token_grows _ _ _ hn) (fun q _ s' hs => ?_)
    injection hs with hs
    rw [← hs]
    exact q
  · injection h with h
    injection h with h1 h2
    rw [← h1, ← h2]
    refine grows_mono _ _ _ _ g1 (fun q s' hs => ?_)
    injection hs with hs
    rw [← hs]
    exact q

theorem parse_let_statement_complete (f : Nat) (p p' : Parser) (s : Option Statement)
    (h : parse_let_statement f p = .ok (s, p')) :
    grows p p' (∀ s', s = some s' → Statement.complete s' = true) := by
  unfold parse_let_statement at h
  rw [bind_eq_ok] at h
  obtain ⟨⟨ok1, p1⟩, hp1, h⟩ := h
  have g1 := expect_peek_grows _ _ _ _ _ hp1
  cases ok1 with
  | false =>
    injection h with h
    injection h with h1 h2
    rw [← h2]
    exact grows_mono _ _ _ _ g1 (fun q => absurd q (by simp))
  | true =>
    simp only [Bool.not_true, Bool.false_eq_true, if_false] at h
    rw [bind_eq_ok] at h
    obtain ⟨⟨ok2, p2⟩, hp2, h⟩ := h
    have g2 := grows_trans _ _ _ _ _ _ g1 (expect_peek_grows _ _ _ _ _ hp2) (fun _ q => q)
    cases ok2 with
    | false =>
      injection h with h
      injection h with h1 h2
      rw [← h2]
      exact grows_mono _ _ _ _ g2 (fun q => absurd q (by simp))
    | true =>
      simp only [Bool.not_true, Bool.false_eq_true, if_false] at h
      rw [bind_eq_ok] at h
      obtain ⟨⟨ok3, p3⟩, hp3, h⟩ := h
      have g3 := grows_trans _ _ _ _ _ _ g2 (expect_peek_grows _ _ _ _ _ hp3) (fun _ q => q)
      cases ok3 with
      | false =>
        injection h with h
        injection h with h1 h2
        rw [← h2]
        exact grows_mono _ _ _ _ g3 (fun q => absurd q (by simp))
      | true =>
        simp only [Bool.not_true, Bool.false_eq_true, if_false] at h
        rw [bind_eq_ok] at h
        obtain ⟨⟨ok4, p4⟩, hp4, h⟩ := h
        have g4 := grows_trans _ _ _ _ _ _ g3 (expect_peek_grows _ _ _ _ _ hp4) (fun _ q => q)
        cases ok4 with
        | false =>
          injection h with h
          injection h with h1 h2
          rw [← h2]
          exact grows_mono _ _ _ _ g4 (fun q => absurd q (by simp))
        | true =>
          simp only [Bool.not_true, Bool.false_eq_true, if_false] at h
          rw [bind_eq_ok] at h
          obtain ⟨p5, hn, h⟩ := h
          rw [bind_eq_ok] at h
          obtain ⟨⟨value, p6⟩, he, h⟩ := h
          rw [bind_eq_ok] at h
          obtain ⟨p7, hs, h⟩ := h
          injection h with h
          injection h with h1 h2
          rw [← h1, ← h2]
          have g5 := grows_trans _ _ _ _ _ _ g4 (next_token_grows _ _ _ hn) (fun _ _ => trivial)
          have g6 := grows_trans _ _ _ _ _ _ g5 ((expression_parsers_complete f).1 _ _ _ _ he)
            (fun _ q => q)
          have g7 : grows p6 p7 True :=
            grows_of_eq _ _ _ (skip_to_semicolon_errors _ _ _ hs) trivial
          refine grows_trans _ _ _ _ _ _ g6 g7 (fun q _ s' hs' => ?_)
          injection hs' with hs'
          rw [← hs']
          simp only [Statement.complete, Expression.complete_opt, Expression.complete,
            Bool.true_and]
          exact q

theorem parse_return_statement_complete (f : Nat) (p p' : Parser) (s : Option Statement)
    (h : parse_return_statement f p = .ok (s, p')) :
    grows p p' (∀ s', s = some s' → Statement.complete s' = true) := by
  unfold parse_return_statement at h
  rw [bind_eq_ok] at h
  obtain ⟨p1, hn, h⟩ := h
  rw [bind_eq_ok] at h
  obtain ⟨⟨value, p2⟩, he, h⟩ := h
  rw [bind_eq_ok] at h
  obtain ⟨⟨ok1, p3⟩, hp, h⟩ := h
  have g1 := grows_trans _ _ _ _ _ _ (next_token_grows _ _ _ hn)
    ((expression_parsers_complete f).1 _ _ _ _ he) (fun _ q => q)
  have g2 := expect_peek_grows _ _ _ _ _ hp
  cases ok1 with
  | false =>
    injection h with h
    injection h with h1 h2
    rw [← h2]
    exact grows_trans _ _ _ _ _ _ g1 g2 (fun _ q => absurd q (by simp))
  | true =>
    injection h with h
    injection h with h1 h2
    rw [← h1, ← h2]
    refine grows_trans _ _ _ _ _ _ g1 g2 (fun q _ s' hs' => ?_)
    injection hs' with hs'
    rw [← hs']
    exact q

theorem parse_assignment_statement_complete (f : Nat) (p p' : Parser) (s : Option Statement)
    (h : parse_assignment_statement f p = .ok (s, p')) :
    grows p p' (∀ s', s = some s' → Statement.complete s' = true) := by
  unfold parse_assignment_statement at h
  rw [bind_eq_ok] at h
  obtain ⟨p1, hn1, h⟩ := h
  rw [bind_eq_ok] at h
  obtain ⟨p2, hn2, h⟩ := h
  rw [bind_eq_ok] at h
  obtain ⟨⟨value, p3⟩, he, h⟩ := h
  rw [bind_eq_ok] at h
  obtain ⟨p4, hn4, h⟩ := h
  injection h with h
  injection h with h1 h2
  rw [← h1, ← h2]
  have g1 := grows_trans _ _ _ _ _ _ (next_token_grows _ _ _ hn1) (next_token_grows _ _ _ hn2)
    (fun _ _ => trivial)
  have g2 := grows_trans _ _ _ _ _ _ g1 ((expression_parsers_complete f).1 _ _ _ _ he)
    (fun _ q => q)
  refine grows_trans _ _ _ _ _ _ g2 (next_token_grows _ _ _ hn4) (fun q _ s' hs' => ?_)
  injection hs' with hs'
  rw [← hs']
  simp only [Statement.complete, Expression.complete_opt, Expression.complete, Bool.true_and]
  exact q

theorem all_isSome_append (xs : List (Option FunctionParameter)) (x : FunctionParameter) :
    (xs ++ [some x]).all Option.isSome = xs.all Option.isSome := by
  simp

theorem parse_function_parameters_loop_complete : ∀ (f : Nat) (p p' : Parser)
    (acc ps : List (Option FunctionParameter)),
    parse_function_parameters_loop f p acc = .ok (ps, p') →
    grows p p' (acc.all Option.isSome = true → ps.all Option.isSome = true) := by
  intro f
  induction f with
  | zero => intro p p' acc ps h; simp [parse_function_parameters_loop] at h
  | succ k ih =>
    intro p p' acc ps h
    rw [parse_function_parameters_loop] at h
    split at h
    · rw [bind_eq_ok] at h
      obtain ⟨p1, hn1, h⟩ := h
      rw [bind_eq_ok] at h
      obtain ⟨p2, hn2, h⟩ := h
      dsimp only at h
      rw [bind_eq_ok] at h
      obtain ⟨⟨ok1, p3⟩, hp1, h⟩ := h
      have g1 := grows_trans _ _ _ _ _ _ (next_token_grows _ _ _ hn1)
        (next_token_grows _ _ _ hn2) (fun _ _ => trivial)
      have g2 := grows_trans _ _ _ _ _ _ g1 (expect_peek_grows _ _ _ _ _ hp1) (fun _ q => q)
      cases ok1 with
      | false =>
        injection h with h
        injection h with h1 h2
        rw [← h2]
        exact grows_mono _ _ _ _ g2 (fun q => absurd q (by simp))
      | true =>
        simp only [Bool.not_true, Bool.false_eq_true, if_false] at h
        rw [bind_eq_ok] at h
        obtain ⟨⟨ok2, p4⟩, hp2, h⟩ := h
        have g3 := grows_trans _ _ _ _ _ _ g2 (expect_peek_grows _ _ _ _ _ hp2) (fun _ q => q)
        cases ok2 with
        | false =>
          injection h with h
          injection h with h1 h2
          rw [← h2]
          exact grows_mono _ _ _ _ g3 (fun q => absurd q (by simp))
        | true =>
          simp only [Bool.not_true, Bool.false_eq_true, if_false] at h
          refine grows_trans _ _ _ _ _ _ g3 (ih _ _ _ _ h) (fun _ q hacc => q ?_)
          rw [all_isSome_append]
          exact hacc
    · rw [bind_eq_ok] at h
      obtain ⟨⟨ok3, p1⟩, hp, h⟩ := h
      have g1 := expect_peek_grows _ _ _ _ _ hp
      cases ok3 with
      | false =>
        injection h with h
        injection h with h1 h2
        rw [← h2]
        exact grows_mono _ _ _ _ g1 (fun q => absurd q (by simp))
      | true =>
        injection h with h
        injection h with h1 h2
        rw [← h1, ← h2]
        exact grows_mono _ _ _ _ g1 (fun _ hacc => hacc)

theorem parse_function_parameters_complete (f : Nat) (p p' : Parser)
    (ps : List (Option FunctionParameter))
    (h : parse_function_parameters f p = .ok (ps, p')) :
    grows p p' (ps.all Option.isSome = true) := by
  unfold parse_function_parameters at h
  split at h
  · rw [bind_eq_ok] at h
    obtain ⟨p1, hn, h⟩ := h
    injection h with h
    injection h with h1 h2
    rw [← h1, ← h2]
    exact grows_mono _ _ _ _ (next_token_grows _ _ _ hn) (fun _ => rfl)
  · rw [bind_eq_ok] at h
    obtain ⟨p1, hn, h⟩ := h
    dsimp only at h
    rw [bind_eq_ok] at h
    obtain ⟨⟨ok1, p2⟩, hp1, h⟩ := h
    have g1 := grows_trans _ _ _ _ _ _ (next_token_grows _ _ _ hn)
      (expect_peek_grows _ _ _ _ _ hp1) (fun _ q => q)
    cases ok1 with
    | false =>
      injection h with h
      injection h with h1 h2
      rw [← h2]
      exact grows_mono _ _ _ _ g1 (fun q => absurd q (by simp))
    | true =>
      simp only [Bool.not_true, Bool.false_eq_true, if_false] at h
      rw [bind_eq_ok] at h
      obtain ⟨⟨ok2, p3⟩, hp2, h⟩ := h
      have g2 := grows_trans _ _ _ _ _ _ g1 (expect_peek_grows _ _ _ _ _ hp2) (fun _ q => q)
      cases ok2 with
      | false =>
        injection h with h
        injection h with h1 h2
        rw [← h2]
        exact grows_mono _ _ _ _ g2 (fun q => absurd q (by simp))
      | true =>
        simp only [Bool.not_true, Bool.false_eq_true, if_false] at h
        exact grows_trans _ _ _ _ _ _ g2 (parse_function_parameters_loop_complete _ _ _ _ _ h)
          (fun _ q => q (by simp))

end Parser

namespace Parser

/-- The statement parsers: when they add no diagnostic, what they return is complete. -/
theorem statement_parsers_complete : ∀ (f : Nat),
    (∀ p s p', parse_statement f p = .ok (s, p') →
      grows p p' (∀ s', s = some s' → Statement.complete s' = true)) ∧
    (∀ p s p', parse_function_statement f p = .ok (s, p') →
      grows p p' (∀ s', s = some s' → Statement.complete s' = true)) ∧
    (∀ p b p', parse_block_statement f p = .ok (b, p') →
      grows p p' (Statement.complete b = true)) ∧
    (∀ acc p ss p', parse_block_statement_loop f acc p = .ok (ss, p') →
      grows p p' (Statement.complete_list acc = true → Statement.complete_list ss = true)) ∧
    (∀ p s p', parse_if_statement f p = .ok (s, p') →
      grows p p' (∀ s', s = some s' → Statement.complete s' = true)) := by
  intro f
  induction f with
  | zero =>
    refine ⟨?_, ?_, ?_, ?_, ?_⟩ <;> intros <;> rename_i h <;>
      simp [parse_statement, parse_function_statement, parse_block_statement,
        parse_block_statement_loop, parse_if_statement] at h
  | succ k ih =>
    obtain ⟨ihS, ihF, ihB, ihBL, ihI⟩ := ih
    refine ⟨?_, ?_, ?_, ?_, ?_⟩
    · -- parse_statement
      intro p s p' h
      rw [parse_statement] at h
      split at h
      · exact parse_assignment_statement_complete _ _ _ _ h
      · split at h
        · exact parse_let_statement_complete _ _ _ _ h
        · exact ihF _ _ _ h
        · exact parse_return_statement_complete _ _ _ _ h
        · exact ihI _ _ _ h
        · exact parse_expression_statement_complete _ _ _ _ h
    · -- parse_function_statement
      intro p s p' h
      rw [parse_function_statement] at h
      rw [bind_eq_ok] at h
      obtain ⟨⟨ok1, p1⟩, hp1, h⟩ := h
      have g1 := expect_peek_grows _ _ _ _ _ hp1
      cases ok1 with
      | false =>
        injection h with h
        injection h with h1 h2
        rw [← h2]
        exact grows_mono _ _ _ _ g1 (fun q => absurd q (by simp))
      | true =>
        simp only [Bool.not_true, Bool.false_eq_true, if_false] at h
        rw [bind_eq_ok] at h
        obtain ⟨⟨ok2, p2⟩, hp2, h⟩ := h
        have g2 := grows_trans _ _ _ _ _ _ g1 (expect_peek_grows _ _ _ _ _ hp2) (fun _ q => q)
        cases ok2 with
        | false =>
          injection h with h
          injection h with h1 h2
          rw [← h2]
          exact grows_mono _ _ _ _ g2 (fun q => absurd q (by simp))
        | true =>
          simp only [Bool.not_true, Bool.false_eq_true, if_false] at h
          rw [bind_eq_ok] at h
          obtain ⟨⟨params, p3⟩, hps, h⟩ := h
          have g3 := grows_trans _ _ _ _ _ _ g2 (parse_function_parameters_complete _ _ _ _ hps)
            (fun _ q => q)
          simp only at h
          rw [bind_eq_ok] at h
          obtain ⟨⟨ok3, p4⟩, hp3, h⟩ := h
          have g4 := grows_trans _ _ _ _ _ _ g3 (expect_peek_grows _ _ _ _ _ hp3) (fun q _ => q)
          have g4' := grows_trans _ _ _ _ _ _ g3 (expect_peek_grows _ _ _ _ _ hp3) (fun _ q => q)
          cases ok3 with
          | false =>
            injection h with h
            injection h with h1 h2
            rw [← h2]
            exact grows_mono _ _ _ _ g4' (fun q => absurd q (by simp))
          | true =>
            simp only [Bool.not_true, Bool.false_eq_true, if_false] at h
            rw [bind_eq_ok] at h
            obtain ⟨⟨ok4, p5⟩, hp4, h⟩ := h
            have g5 := grows_trans _ _ _ _ _ _ g4 (expect_peek_grows _ _ _ _ _ hp4) (fun q _ => q)
            have g5' := grows_trans _ _ _ _ _ _ g4 (expect_peek_grows _ _ _ _ _ hp4)
              (fun _ q => q)
            cases ok4 with
            | false =>
              injection h with h
              injection h with h1 h2
              rw [← h2]
              exact grows_mono _ _ _ _ g5' (fun q => absurd q (by simp))
            | true =>
              simp only [Bool.not_true, Bool.false_eq_true, if_false] at h
              rw [bind_eq_ok] at h
              obtain ⟨⟨ok5, p6⟩, hp5, h⟩ := h
              have g6 := grows_trans _ _ _ _ _ _ g5 (expect_peek_grows _ _ _ _ _ hp5)
                (fun q _ => q)
              have g6' := grows_trans _ _ _ _ _ _ g5 (expect_peek_grows _ _ _ _ _ hp5)
                (fun _ q => q)
              cases ok5 with
              | false =>
                injection h with h
                injection h with h1 h2
                rw [← h2]
                exact grows_mono _ _ _ _ g6' (fun q => absurd q (by simp))
              | true =>
                simp only [Bool.not_true, Bool.false_eq_true, if_false] at h
                rw [bind_eq_ok] at h
                obtain ⟨⟨body, p7⟩, hb, h⟩ := h
                injection h with h
                injection h with h1 h2
                rw [← h1, ← h2]
                refine grows_trans _ _ _ _ _ _ g6 (ihB _ _ _ hb) (fun q1 q2 s' hs' => ?_)
                injection hs' with hs'
                rw [← hs']
                simp only [Statement.complete, Statement.complete_opt, Expression.complete_opt,
                  Expression.complete, Bool.and_true, Bool.and_eq_true]
                exact ⟨q1, q2⟩
    · -- parse_block_statement
      intro p b p' h
      rw [parse_block_statement] at h
      rw [bind_eq_ok] at h
      obtain ⟨p1, hn, h⟩ := h
      rw [bind_eq_ok] at h
      obtain ⟨⟨ss, p2⟩, hl, h⟩ := h
      injection h with h
      injection h with h1 h2
      rw [← h1, ← h2]
      refine grows_trans _ _ _ _ _ _ (next_token_grows _ _ _ hn) (ihBL _ _ _ _ hl)
        (fun _ q => ?_)
      simp only [Statement.complete]
      exact q rfl
    · -- parse_block_statement_loop
      intro acc p ss p' h
      rw [parse_block_statement_loop] at h
      split at h
      · rw [bind_eq_ok] at h
        obtain ⟨⟨stmt, p1⟩, hs, h⟩ := h
        simp only at h
        rw [bind_eq_ok] at h
        obtain ⟨p2, hn, h⟩ := h
        have g1 := grows_trans _ _ _ _ _ _ (ihS _ _ _ hs) (next_token_grows _ _ _ hn)
          (fun q _ => q)
        refine grows_trans _ _ _ _ _ _ g1 (ihBL _ _ _ _ h) (fun q1 q2 hacc => q2 ?_)
        cases stmt with
        | none => exact hacc
        | some s0 =>
          simp only
          rw [statement_complete_list_append, hacc, q1 s0 rfl]
          rfl
      · injection h with h
        injection h with h1 h2
        rw [← h1, ← h2]
        exact grows_refl _ _ id
    · -- parse_if_statement
      intro p s p' h
      rw [parse_if_statement] at h
      rw [bind_eq_ok] at h
      obtain ⟨p1, hn, h⟩ := h
      rw [bind_eq_ok] at h
      obtain ⟨⟨condition, p2⟩, hc, h⟩ := h
      simp only at h
      rw [bind_eq_ok] at h
      obtain ⟨⟨ok1, p3⟩, hp1, h⟩ := h
      have g1 := grows_trans _ _ _ _ _ _ (next_token_grows _ _ _ hn)
        ((expression_parsers_complete k).1 _ _ _ _ hc) (fun _ q => q)
      have g2 := grows_trans _ _ _ _ _ _ g1 (expect_peek_grows _ _ _ _ _ hp1) (fun q _ => q)
      have g2' := grows_trans _ _ _ _ _ _ g1 (expect_peek_grows _ _ _ _ _ hp1) (fun _ q => q)
      cases ok1 with
      | false =>
        injection h with h
        injection h with h1 h2
        rw [← h2]
        exact grows_mono _ _ _ _ g2' (fun q => absurd q (by simp))
      | true =>
        simp only [Bool.not_true, Bool.false_eq_true, if_false] at h
        rw [bind_eq_ok] at h
        obtain ⟨⟨ok2, p4⟩, hp2, h⟩ := h
        have g3 := grows_trans _ _ _ _ _ _ g2 (expect_peek_grows _ _ _ _ _ hp2) (fun q _ => q)
        have g3' := grows_trans _ _ _ _ _ _ g2 (expect_peek_grows _ _ _ _ _ hp2) (fun _ q => q)
        cases ok2 with
        | false =>
          injection h with h
          injection h with h1 h2
          rw [← h2]
          exact grows_mono _ _ _ _ g3' (fun q => absurd q (by simp))
        | true =>
          simp only [Bool.not_true, Bool.false_eq_true, if_false] at h
          rw [bind_eq_ok] at h
          obtain ⟨⟨cons, p5⟩, hb, h⟩ := h
          have g4 := grows_trans _ _ _ _ _ _ g3 (ihB _ _ _ hb) (fun q1 q2 => And.intro q1 q2)
          simp only at h
          split at h
          · rw [bind_eq_ok] at h
            obtain ⟨p6, hn6, h⟩ := h
            rw [bind_eq_ok] at h
            obtain ⟨⟨ok3, p7⟩, hp3, h⟩ := h
            have g5 := grows_trans _ _ _ _ _ _ g4 (next_token_grows _ _ _ hn6) (fun q _ => q)
            have g6 := grows_trans _ _ _ _ _ _ g5 (expect_peek_grows _ _ _ _ _ hp3)
              (fun q _ => q)
            have g6' := grows_trans _ _ _ _ _ _ g5 (expect_peek_grows _ _ _ _ _ hp3)
              (fun _ q => q)
            cases ok3 with
            | false =>
              injection h with h
              injection h with h1 h2
              rw [← h2]
              exact grows_mono _ _ _ _ g6' (fun q => absurd q (by simp))
            | true =>
              simp only [Bool.not_true, Bool.false_eq_true, if_false] at h
              rw [bind_eq_ok] at h
              obtain ⟨⟨alt, p8⟩, ha, h⟩ := h
              injection h with h
              injection h with h1 h2
              rw [← h1, ← h2]
              refine grows_trans _ _ _ _ _ _ g6 (ihB _ _ _ ha) (fun q1 q2 s' hs' => ?_)
              injection hs' with hs'
              rw [← hs']
              simp only [Statement.complete, Statement.complete_opt, Statement.complete_alt,
                Bool.and_eq_true]
              exact ⟨⟨q1.1, q1.2⟩, q2⟩
          · injection h with h
            injection h with h1 h2
            rw [← h1, ← h2]
            refine grows_mono _ _ _ _ g4 (fun q1 s' hs' => ?_)
            injection hs' with hs'
            rw [← hs']
            simp only [Statement.complete, Statement.complete_opt, Statement.complete_alt,
              Bool.and_eq_true, and_true]
            exact ⟨q1.1, q1.2⟩

theorem parse_program_loop_complete : ∀ (f : Nat) (acc : List Statement) (p p' : Parser)
    (program : Program), parse_program_loop f acc p = .ok (program, p') →
    grows p p' (Statement.complete_list acc = true → Program.complete program = true) := by
  intro f
  induction f with
  | zero => intro acc p p' program h; simp [parse_program_loop] at h
  | succ k ih =>
    intro acc p p' program h
    rw [parse_program_loop] at h
    split at h
    · rw [bind_eq_ok] at h
      obtain ⟨⟨stmt, p1⟩, hs, h⟩ := h
      simp only at h
      rw [bind_eq_ok] at h
      obtain ⟨p2, hn, h⟩ := h
      have g1 := grows_trans _ _ _ _ _ _ ((statement_parsers_complete k).1 _ _ _ hs)
        (next_token_grows _ _ _ hn) (fun q _ => q)
      refine grows_trans _ _ _ _ _ _ g1 (ih _ _ _ _ h) (fun q1 q2 hacc => q2 ?_)
      cases stmt with
      | none => exact hacc
      | some s0 =>
        simp only
        rw [statement_complete_list_append, hacc, q1 s0 rfl]
        rfl
    · injection h with h
      injection h with h1 h2
      rw [← h1, ← h2]
      exact grows_refl _ _ id

/-- A program parsed without a diagnostic has no null pointer, the `alternative`
of an `if` without `else` apart. -/
theorem parse_lexer_complete (fuel : Nat) (lexer : Lexer) (program : Program)
    (h : parse_lexer fuel lexer = .ok (program, [])) : Program.complete program = true := by
  unfold parse_lexer Parser.new at h
  rw [bind_eq_ok] at h
  obtain ⟨p, hp, h⟩ := h
  rw [bind_eq_ok] at hp
  obtain ⟨p1, hn1, hn2⟩ := hp
  rw [bind_eq_ok] at h
  obtain ⟨⟨prog, p'⟩, hpl, h⟩ := h
  injection h with h
  injection h with h1 h2
  have e1 := next_token_errors _ _ _ hn1
  have e2 := next_token_errors _ _ _ hn2
  obtain ⟨ext, hext, hq⟩ := parse_program_loop_complete _ _ _ _ _ hpl
  rw [e2, e1] at hext
  simp only [List.nil_append] at hext
  rw [← h1]
  exact hq (by rw [← hext]; exact h2) rfl

end Parser

mutual

theorem Expression.fully_formed_of_complete :
    ∀ (e : Expression), Expression.complete e = true → Expression.fully_formed e = true
  | .InfixExpression left _ right, h => by
    simp only [Expression.complete, Bool.and_eq_true] at h
    simp only [Expression.fully_formed, Bool.and_eq_true]
    exact ⟨Expression.present_of_complete_opt left h.1,
      Expression.present_of_complete_opt right h.2⟩
  | .CallExpression function arguments, h => by
    simp only [Expression.complete, Bool.and_eq_true] at h
    simp only [Expression.fully_formed, Bool.and_eq_true]
    exact ⟨Expression.absent_or_of_complete_opt function h.1,
      Expression.all_present_of_complete_list arguments h.2⟩
  | .IdentifierLiteral _, _ => rfl
  | .IntegerLiteral _, _ => rfl
  | .FloatLiteral _, _ => rfl
  | .BooleanLiteral _, _ => rfl

theorem Expression.present_of_complete_opt :
    ∀ (o : Option Expression), Expression.complete_opt o = true →
      Expression.present_fully_formed o = true
  | none, h => by simp [Expression.complete_opt] at h
  | some e, h => by
    simp only [Expression.complete_opt] at h
    simp only [Expression.present_fully_formed]
    exact Expression.fully_formed_of_complete e h

theorem Expression.absent_or_of_complete_opt :
    ∀ (o : Option Expression), Expression.complete_opt o = true →
      Expression.absent_or_fully_formed o = true
  | none, _ => rfl
  | some e, h => by
    simp only [Expression.complete_opt] at h
    simp only [Expression.absent_or_fully_formed]
    exact Expression.fully_formed_of_complete e h

theorem Expression.all_present_of_complete_list :
    ∀ (es : List (Option Expression)), Expression.complete_list es = true →
      Expression.all_present_fully_formed es = true
  | [], _ => rfl
  | e :: es, h => by
    simp only [Expression.complete_list, Bool.and_eq_true] at h
    simp only [Expression.all_present_fully_formed, Bool.and_eq_true]
    exact ⟨Expression.present_of_complete_opt e h.1,
      Expression.all_present_of_complete_list es h.2⟩

end

mutual

theorem Statement.tree_fully_formed_of_complete :
    ∀ (s : Statement), Statement.complete s = true → Statement.fully_formed s = true
  | .ExpressionStatement expr, h => by
    simp only [Statement.complete] at h
    simp only [Statement.fully_formed]
    exact Expression.present_of_complete_opt expr h
  | .LetStatement name value _, h => by
    simp only [Statement.complete, Bool.and_eq_true] at h
    simp only [Statement.fully_formed, Bool.and_eq_true]
    exact ⟨Expression.absent_or_of_complete_opt name h.1,
      Expression.present_of_complete_opt value h.2⟩
  | .BlockStatement statements, h => by
    simp only [Statement.complete] at h
    simp only [Statement.fully_formed]
    exact Statement.all_of_complete_list statements h
  | .FunctionStatement _ body name _, h => by
    simp only [Statement.complete, Bool.and_eq_true] at h
    simp only [Statement.fully_formed, Bool.and_eq_true]
    exact ⟨Statement.tree_absent_or_of_complete_opt body h.1.2,
      Expression.absent_or_of_complete_opt name h.2⟩
  | .ReturnStatement return_value, h => by
    simp only [Statement.complete] at h
    simp only [Statement.fully_formed]
    exact Expression.present_of_complete_opt return_value h
  | .AssignStatement ident right_value, h => by
    simp only [Statement.complete, Bool.and_eq_true] at h
    simp only [Statement.fully_formed, Bool.and_eq_true]
    exact ⟨Expression.absent_or_of_complete_opt ident h.1,
      Expression.present_of_complete_opt right_value h.2⟩
  | .IfStatement condition concequence alternative, h => by
    simp only [Statement.complete, Bool.and_eq_true] at h
    simp only [Statement.fully_formed, Bool.and_eq_true]
    exact ⟨⟨Expression.present_of_complete_opt condition h.1.1,
      Statement.tree_absent_or_of_complete_opt concequence h.1.2⟩,
      Statement.absent_or_of_complete_alt alternative h.2⟩

theorem Statement.tree_absent_or_of_complete_opt :
    ∀ (o : Option Statement), Statement.complete_opt o = true →
      Statement.absent_or_fully_formed o = true
  | none, _ => rfl
  | some s, h => by
    simp only [Statement.complete_opt] at h
    simp only [Statement.absent_or_fully_formed]
    exact Statement.tree_fully_formed_of_complete s h

theorem Statement.absent_or_of_complete_alt :
    ∀ (o : Option Statement), Statement.complete_alt o = true →
      Statement.absent_or_fully_formed o = true
  | none, _ => rfl
  | some s, h => by
    simp only [Statement.complete_alt] at h
    simp only [Statement.absent_or_fully_formed]
    exact Statement.tree_fully_formed_of_complete s h

theorem Statement.all_of_complete_list :
    ∀ (ss : List Statement), Statement.complete_list ss = true →
      Statement.all_fully_formed ss = true
  | [], _ => rfl
  | s :: ss, h => by
    simp only [Statement.complete_list, Bool.and_eq_true] at h
    simp only [Statement.all_fully_formed, Bool.and_eq_true]
    exact ⟨Statement.tree_fully_formed_of_complete s h.1, Statement.all_of_complete_list ss h.2⟩

end

/-- C10 (as stated, refuted): on the source `;` the parser returns an
`ExpressionStatement` whose `expr` is null, and on `1 +` an `InfixExpression`
whose `right` is null; each time a diagnostic is recorded. -/
theorem C10_counterexample_absent_children :
    parse_source 8 ";".toList =
      .ok (⟨[.ExpressionStatement none]⟩, ["no prefix parse function for SEMICOLON found"]) ∧
    parse_source 8 "1 +".toList =
      .ok (⟨[.ExpressionStatement (some (.InfixExpression (some (.IntegerLiteral 1)) ['+']
        none))]⟩, ["no prefix parse function for EOF found"]) ∧
    Program.fully_formed ⟨[.ExpressionStatement none]⟩ = false := by
  decide!

/-- C10 (amended): for every source text on which `parse_program` returns
without having recorded a diagnostic, no node of the returned program has an
absent expression child: `ExpressionStatement.expr`, `InfixExpression.left` and
`right`, `LetStatement.value`, `ReturnStatement.return_value`,
`AssignStatement.right_value`, `IfStatement.condition` and every element of
`CallExpression.arguments` are present. -/
theorem C10_no_absent_child_without_diagnostic (fuel : Nat) (source : List Char)
    (program : Program) (h : parse_source fuel source = .ok (program, [])) :
    Program.fully_formed program = true :=
  Statement.all_of_complete_list _ (Parser.parse_lexer_complete fuel (Lexer.new source) program h)

/-- C10 (witness): the source `return f(1, a + 2);`, parsed without a diagnostic. -/
theorem C10_no_absent_child_without_diagnostic_witness :
    parse_source 20 "return f(1, a + 2);".toList =
      .ok (⟨[.ReturnStatement (some (.CallExpression (some (.IdentifierLiteral ['f']))
        [some (.IntegerLiteral 1),
         some (.InfixExpression (some (.IdentifierLiteral ['a'])) ['+']
           (some (.IntegerLiteral 2)))]))]⟩, []) ∧
    Program.fully_formed ⟨[.ReturnStatement (some (.CallExpression
        (some (.IdentifierLiteral ['f']))
        [some (.IntegerLiteral 1),
         some (.InfixExpression (some (.IdentifierLiteral ['a'])) ['+']
           (some (.IntegerLiteral 2)))]))]⟩ = true :=
  ⟨by decide!,
   C10_no_absent_child_without_diagnostic 20 "return f(1, a + 2);".toList
     ⟨[.ReturnStatement (some (.CallExpression (some (.IdentifierLiteral ['f']))
        [some (.IntegerLiteral 1),
         some (.InfixExpression (some (.IdentifierLiteral ['a'])) ['+']
           (some (.IntegerLiteral 2)))]))]⟩ (by decide!)⟩


/-! ## Code generation: expressions -/

theorem Compiler.resolve_value_some (e : Expression) (c : Compiler) :
    Compiler.resolve_value (some e) c = Compiler.resolve_node e c := rfl

theorem Compiler.resolve_node_of_operands (left right : Expression) (op : List Char)
    (c c1 c2 : Compiler) (left_value right_value : Option Value) (left_type right_type : Option Ty)
    (hl : Compiler.resolve_node left c = .ok ((left_value, left_type), c1))
    (hr : Compiler.resolve_node right c1 = .ok ((right_value, right_type), c2)) :
    Compiler.resolve_node (.InfixExpression (some left) op (some right)) c =
      .ok (Compiler.infix_result op left_value left_type right_value right_type c2) := by
  rw [Compiler.resolve_node]
  simp only [hl, hr, bind, Except.bind, pure, Except.pure]

/-- C9 (as stated, refuted by the code): for every infix expression whose operands
both resolve to the type `type_map["int"]`, or both to `type_map["float"]`, and
whose operator is one of `+ - * / %`, `resolve_value` requests one arithmetic
instruction on the two operand values and returns its handle, which is not null,
together with a null type: `result_type` is still `nullptr` at the `return`. -/
theorem C9_arithmetic_result_type_is_null
    (left right : Expression) (op : List Char) (c c1 c2 : Compiler)
    (left_value right_value : Option Value) (type : Option Ty)
    (htype : type = Compiler.type_map "int".toList ∨ type = Compiler.type_map "float".toList)
    (hop : op ∈ [['+'], ['-'], ['*'], ['/'], ['%']])
    (hl : Compiler.resolve_value (some left) c = .ok ((left_value, type), c1))
    (hr : Compiler.resolve_value (some right) c1 = .ok ((right_value, type), c2)) :
    ∃ bin, Compiler.resolve_value (some (.InfixExpression (some left) op (some right))) c =
      .ok ((some (.Instruction c2.requests.length), none),
        { c2 with requests := c2.requests ++
            [(c2.insert_block, .BinOp bin left_value right_value)] }) := by
  rw [Compiler.resolve_value_some] at hl hr ⊢
  rw [Compiler.resolve_node_of_operands left right op c c1 c2 _ _ _ _ hl hr]
  simp only [List.mem_cons, List.mem_singleton, List.not_mem_nil, or_false] at hop
  rcases htype with rfl | rfl <;> rcases hop with rfl | rfl | rfl | rfl | rfl
  · exact ⟨.Add, rfl⟩
  · exact ⟨.Sub, rfl⟩
  · exact ⟨.Mul, rfl⟩
  · exact ⟨.SDiv, rfl⟩
  · exact ⟨.SRem, rfl⟩
  · exact ⟨.FAdd, rfl⟩
  · exact ⟨.FSub, rfl⟩
  · exact ⟨.FMul, rfl⟩
  · exact ⟨.FDiv, rfl⟩
  · exact ⟨.FRem, rfl⟩

/-- C9 (failing input): `1 + 2`, resolved by a fresh `Compiler`: the two operands
resolve to the type `int`, and the sum to a handle with a null type. -/
theorem C9_arithmetic_result_type_is_null_witness :
    Compiler.resolve_value (some (.IntegerLiteral 1)) Compiler.new =
      .ok ((some (.ConstantInt 32 1), Compiler.type_map "int".toList), Compiler.new) ∧
    Compiler.resolve_value (some (.IntegerLiteral 2)) Compiler.new =
      .ok ((some (.ConstantInt 32 2), Compiler.type_map "int".toList), Compiler.new) ∧
    ∃ bin, Compiler.resolve_value (some (.InfixExpression (some (.IntegerLiteral 1)) ['+']
        (some (.IntegerLiteral 2)))) Compiler.new =
      .ok ((some (.Instruction Compiler.new.requests.length), none),
        { Compiler.new with requests := Compiler.new.requests ++
            [(Compiler.new.insert_block,
              .BinOp bin (some (.ConstantInt 32 1)) (some (.ConstantInt 32 2)))] }) :=
  ⟨rfl, rfl,
   C9_arithmetic_result_type_is_null (.IntegerLiteral 1) (.IntegerLiteral 2) ['+']
     Compiler.new Compiler.new Compiler.new (some (.ConstantInt 32 1)) (some (.ConstantInt 32 2))
     (Compiler.type_map "int".toList) (Or.inl rfl) (by decide) rfl rfl⟩

/-- C9 (the same on source text): in `let x: int = 1 + 2;` the type that
`visit_let_statement` passes to `CreateAlloca` is null, and a comparison, unlike
a sum, does get its type. -/
theorem C9_examples :
    (parse_source 20 "let x: int = 1 + 2;".toList).bind
        (fun r => (Compiler.compile r.1 Compiler.new).map (fun c => c.requests)) =
      .ok [(none, .BinOp .Add (some (.ConstantInt 32 1)) (some (.ConstantInt 32 2))),
           (none, .Alloca none ['x']),
           (none, .Store (some (.Instruction 0)) (some (.Instruction 1)))] ∧
    (Compiler.resolve_value (some (.InfixExpression (some (.IntegerLiteral 1)) ['<']
        (some (.IntegerLiteral 2)))) Compiler.new).map (fun r => r.1) =
      .ok (some (.Instruction 0), some .int1) := by
  decide!


/-- C7: the source `def add(a: int, b: int) -> int { return a + b; }` parses to one
function statement; compiling it in a fresh `Compiler` declares one function,
`add`, with two parameters of the 32-bit integer type, and binds the name `add`
to it; resolving the call expression that `add(2, 3)` parses to then requests
one call instruction, of that function, with the constants 2 and 3 in this
order, and returns its handle with the 32-bit integer type. -/
theorem C7_call_of_declared_function :
    ∃ program call c,
      parse_source 40 "def add(a: int, b: int) -> int { return a + b; }".toList =
        .ok (program, []) ∧
      parse_source 20 "add(2, 3)".toList = .ok (⟨[.ExpressionStatement (some call)]⟩, []) ∧
      call = .CallExpression (some (.IdentifierLiteral "add".toList))
        [some (.IntegerLiteral 2), some (.IntegerLiteral 3)] ∧
      Compiler.compile program Compiler.new = .ok c ∧
      c.functions = [{ name := "add".toList, return_type := some .int32,
                       param_types := [some .int32, some .int32] }] ∧
      c.env.lookup "add".toList = (some (.Function 0), some .int32) ∧
      Compiler.resolve_value (some call) c =
        .ok ((some (.Instruction c.requests.length), some .int32),
          { c with requests := c.requests ++
              [(c.insert_block,
                .Call 0 [some (.ConstantInt 32 2), some (.ConstantInt 32 3)])] }) :=
  ⟨⟨[.FunctionStatement
        [some { name := ['a'], value_type := "int".toList },
         some { name := ['b'], value_type := "int".toList }]
        (some (.BlockStatement
          [.ReturnStatement (some (.InfixExpression (some (.IdentifierLiteral ['a'])) ['+']
            (some (.IdentifierLiteral ['b']))))]))
        (some (.IdentifierLiteral "add".toList)) "int".toList]⟩,
   .CallExpression (some (.IdentifierLiteral "add".toList))
     [some (.IntegerLiteral 2), some (.IntegerLiteral 3)],
   { env := .mk
       [("true".toList, some (.GlobalVariable "true".toList), some .int1),
        ("false".toList, some (.GlobalVariable "false".toList), some .int1),
        ("add".toList, some (.Function 0), some .int32)] none [],
     errors := [],
     requests :=
       [(some 0, .Alloca (some .int32) ['a']),
        (some 0, .Store (some (.Argument 0 0)) (some (.Instruction 0))),
        (some 0, .Alloca (some .int32) ['b']),
        (some 0, .Store (some (.Argument 0 1)) (some (.Instruction 2))),
        (some 0, .Load (some .int32) (some (.Instruction 0))),
        (some 0, .Load (some .int32) (some (.Instruction 2))),
        (some 0, .BinOp .Add (some (.Instruction 4)) (some (.Instruction 5))),
        (some 0, .Ret (some (.Instruction 6)))],
     insert_block := none,
     functions := [{ name := "add".toList, return_type := some .int32,
                     param_types := [some .int32, some .int32] }],
     blocks := [{ name := "add_entry".toList, parent := some 0 }],
     globals := [("true".toList, some .int1, .ConstantInt 1 1),
                 ("false".toList, some .int1, .ConstantInt 1 0)] },
   by decide!⟩


/-! ## Code generation: what resolving an expression changes -/

namespace Compiler

theorem only_requests_refl (c : Compiler) : only_requests c c :=
  ⟨[], by simp, by simp⟩

theorem only_requests_trans (c c1 c2 : Compiler) (h1 : only_requests c c1)
    (h2 : only_requests c1 c2) : only_requests c c2 := by
  obtain ⟨a1, rfl, ha1⟩ := h1
  obtain ⟨a2, rfl, ha2⟩ := h2
  refine ⟨a1 ++ a2, by simp, ?_⟩
  intro r hr
  rcases List.mem_append.mp hr with h | h
  · exact ha1 r h
  · exact ha2 r h

theorem only_requests_request (c : Compiler) (r : Request) (h : r.is_store = false) :
    only_requests c (request c r).2 :=
  ⟨[(c.insert_block, r)], rfl, by simp [h]⟩

theorem only_requests_infix_result (op : List Char) (lv rv : Option Value) (lt rt : Option Ty)
    (c : Compiler) : only_requests c (infix_result op lv lt rv rt c).2 := by
  unfold infix_result
  cases hsel : select_request op lt rt with
  | none => exact only_requests_refl c
  | some p =>
    obtain ⟨r, t⟩ := p
    cases r with
    | inl bin => exact only_requests_request c _ rfl
    | inr pred => exact only_requests_request c _ rfl

mutual

theorem resolve_node_only_requests :
    ∀ (e : Expression) (c c1 : Compiler) (r : Option Value × Option Ty),
      resolve_node e c = .ok (r, c1) → only_requests c c1
  | .IntegerLiteral _, c, c1, r, h => by
    simp only [resolve_node, Except.ok.injEq, Prod.mk.injEq] at h
    rw [← h.2]; exact only_requests_refl c
  | .FloatLiteral _, c, c1, r, h => by
    simp only [resolve_node, Except.ok.injEq, Prod.mk.injEq] at h
    rw [← h.2]; exact only_requests_refl c
  | .BooleanLiteral _, c, c1, r, h => by
    simp only [resolve_node, Except.ok.injEq, Prod.mk.injEq] at h
    rw [← h.2]; exact only_requests_refl c
  | .IdentifierLiteral name, c, c1, r, h => by
    rw [resolve_node] at h
    rcases hl : c.env.lookup name with ⟨v, t⟩
    rw [hl] at h
    cases v with
    | none =>
      simp only [Except.ok.injEq, Prod.mk.injEq] at h
      rw [← h.2]; exact only_requests_refl c
    | some value =>
      simp only [Except.ok.injEq, Prod.mk.injEq] at h
      rw [← h.2]; exact only_requests_request c _ rfl
  | .InfixExpression none _ _, c, c1, r, h => by
    simp only [resolve_node, Except.ok.injEq, Prod.mk.injEq] at h
    rw [← h.2]; exact only_requests_refl c
  | .InfixExpression (some _) _ none, c, c1, r, h => by
    simp only [resolve_node, Except.ok.injEq, Prod.mk.injEq] at h
    rw [← h.2]; exact only_requests_refl c
  | .InfixExpression (some l) op (some rr), c, c1, r, h => by
    rw [resolve_node] at h
    simp only [Parser.bind_eq_ok] at h
    obtain ⟨⟨⟨lv, lt⟩, c2⟩, hl, h⟩ := h
    obtain ⟨⟨⟨rv, rt⟩, c3⟩, hr, h⟩ := h
    simp only [pure, Except.pure, Except.ok.injEq] at h
    have h1 := resolve_node_only_requests l c c2 _ hl
    have h2 := resolve_node_only_requests rr c2 c3 _ hr
    have h3 := only_requests_infix_result op lv rv lt rt c3
    rw [h] at h3
    exact only_requests_trans _ _ _ (only_requests_trans _ _ _ h1 h2) h3
  | .CallExpression function arguments, c, c1, r, h => by
    simp only [resolve_node, Parser.bind_eq_ok] at h
    obtain ⟨func_name, _, h⟩ := h
    obtain ⟨⟨values, c2⟩, ha, h⟩ := h
    have h1 := resolve_nodes_only_requests arguments c c2 values ha
    rcases hl : c2.env.lookup func_name with ⟨v, t⟩
    rw [hl] at h
    cases v with
    | none => simp at h
    | some value =>
      cases value with
      | Function id =>
        simp only [pure, Except.pure, Except.ok.injEq, Prod.mk.injEq] at h
        rw [← h.2]
        exact only_requests_trans _ _ _ h1 (only_requests_request c2 _ rfl)
      | ConstantInt _ _ => simp at h
      | ConstantFP _ => simp at h
      | GlobalVariable _ => simp at h
      | Argument _ _ => simp at h
      | Instruction _ => simp at h

theorem resolve_nodes_only_requests :
    ∀ (args : List (Option Expression)) (c c1 : Compiler) (values : List (Option Value)),
      resolve_nodes args c = .ok (values, c1) → only_requests c c1
  | [], c, c1, values, h => by
    simp only [resolve_nodes, Except.ok.injEq, Prod.mk.injEq] at h
    rw [← h.2]; exact only_requests_refl c
  | none :: rest, c, c1, values, h => by
    rw [resolve_nodes] at h
    simp only [Parser.bind_eq_ok] at h
    obtain ⟨⟨vs, c2⟩, hr, h⟩ := h
    simp only [pure, Except.pure, Except.ok.injEq, Prod.mk.injEq] at h
    rw [← h.2]
    exact resolve_nodes_only_requests rest c c2 vs hr
  | some e :: rest, c, c1, values, h => by
    rw [resolve_nodes] at h
    simp only [Parser.bind_eq_ok] at h
    obtain ⟨⟨⟨v, t⟩, c2⟩, he, h⟩ := h
    obtain ⟨⟨vs, c3⟩, hr, h⟩ := h
    simp only [pure, Except.pure, Except.ok.injEq, Prod.mk.injEq] at h
    rw [← h.2]
    exact only_requests_trans _ _ _ (resolve_node_only_requests e c c2 _ he)
      (resolve_nodes_only_requests rest c2 c3 vs hr)

end

theorem resolve_value_only_requests (node : Option Expression) (c c1 : Compiler)
    (r : Option Value × Option Ty) (h : resolve_value node c = .ok (r, c1)) :
    only_requests c c1 := by
  cases node with
  | none =>
    simp only [resolve_value, Except.ok.injEq, Prod.mk.injEq] at h
    rw [← h.2]; exact only_requests_refl c
  | some e => exact resolve_node_only_requests e c c1 r h

theorem only_requests_stores (c c1 : Compiler) (h : only_requests c c1) :
    c1.stores = c.stores := by
  obtain ⟨added, rfl, ha⟩ := h
  simp only [stores, List.filter_append]
  have : added.filter (fun r => r.2.is_store) = [] := by
    rw [List.filter_eq_nil_iff]
    intro r hr
    simp [(ha r hr).2]
  rw [this, List.append_nil]

end Compiler


/-! ## Code generation: what compiling a statement keeps -/

namespace Compiler

theorem prefix_modify {α : Type} (f : α → α) :
    ∀ (l m : List α) (i : Nat), l <+: m → l.length ≤ i → l <+: m.modify f i
  | [], m, i, _, _ => List.nil_prefix
  | a :: l, [], i, h, _ => by simp at h
  | a :: l, b :: m, 0, _, hi => by simp at hi
  | a :: l, b :: m, i + 1, h, hi => by
    rw [List.cons_prefix_cons] at h
    rw [List.modify_succ_cons, List.cons_prefix_cons]
    exact ⟨h.1, prefix_modify f l m i h.2 (by simpa using hi)⟩

theorem cursor_from_mono (c c1 c2 : Compiler) (o : Option Nat) (h : cursor_from c c1 o)
    (hlen : c1.blocks.length ≤ c2.blocks.length) : cursor_from c c2 o := by
  rcases h with h | ⟨k, hk, h1, h2⟩
  · exact Or.inl h
  · exact Or.inr ⟨k, hk, h1, by omega⟩

theorem cursor_from_trans (c c1 c2 : Compiler) (o : Option Nat)
    (h1 : cursor_from c c1 c1.insert_block) (hlen : c.blocks.length ≤ c1.blocks.length)
    (hlen2 : c1.blocks.length ≤ c2.blocks.length) (h2 : cursor_from c1 c2 o) :
    cursor_from c c2 o := by
  rcases h2 with h | ⟨k, hk, ha, hb⟩
  · rw [h]; exact cursor_from_mono c c1 c2 _ h1 hlen2
  · exact Or.inr ⟨k, hk, by omega, hb⟩

theorem advances_length (c c1 : Compiler) (h : advances c c1) :
    c.blocks.length ≤ c1.blocks.length :=
  h.1.length_le

theorem advances_refl (c : Compiler) : advances c c :=
  ⟨List.prefix_refl _, Or.inl rfl, [], by simp, by simp⟩

theorem advances_trans (c c1 c2 : Compiler) (h1 : advances c c1) (h2 : advances c1 c2) :
    advances c c2 := by
  have l1 := advances_length c c1 h1
  have l2 := advances_length c1 c2 h2
  obtain ⟨p1, q1, a1, e1, r1⟩ := h1
  obtain ⟨p2, q2, a2, e2, r2⟩ := h2
  refine ⟨p1.trans p2, cursor_from_trans c c1 c2 _ q1 l1 l2 q2, a1 ++ a2, ?_, ?_⟩
  · rw [e2, e1, List.append_assoc]
  · intro r hr
    rcases List.mem_append.mp hr with h | h
    · exact cursor_from_mono c c1 c2 _ (r1 r h) l2
    · exact cursor_from_trans c c1 c2 _ q1 l1 l2 (r2 r h)

theorem advances_of_fields (c c1 c2 : Compiler) (h : advances c c1)
    (hb : c2.blocks = c1.blocks) (hc : c2.insert_block = c1.insert_block)
    (hr : c2.requests = c1.requests) : advances c c2 := by
  obtain ⟨p1, q1, a1, e1, r1⟩ := h
  refine ⟨by rw [hb]; exact p1, ?_, a1, by rw [hr, e1], ?_⟩
  · rw [hc]; exact cursor_from_mono c c1 c2 _ q1 (by rw [hb])
  · intro r hr'
    exact cursor_from_mono c c1 c2 _ (r1 r hr') (by rw [hb])

theorem advances_of_only_requests (c c1 : Compiler) (h : only_requests c c1) :
    advances c c1 := by
  obtain ⟨added, rfl, ha⟩ := h
  exact ⟨List.prefix_refl _, Or.inl rfl, added, rfl, fun r hr => Or.inl (ha r hr).1⟩

theorem advances_request (c c1 : Compiler) (r : Request) (h : advances c c1) :
    advances c (request c1 r).2 := by
  obtain ⟨p1, q1, a1, e1, r1⟩ := h
  refine ⟨p1, q1, a1 ++ [(c1.insert_block, r)], ?_, ?_⟩
  · show c1.requests ++ _ = _
    rw [e1, List.append_assoc]
  · intro x hx
    rcases List.mem_append.mp hx with h | h
    · exact r1 x h
    · rw [List.mem_singleton] at h
      rw [h]; exact q1

theorem advances_create_block (c c1 : Compiler) (name : List Char) (parent : Option Nat)
    (h : advances c c1) : advances c (create_block c1 name parent).2 := by
  obtain ⟨p1, q1, a1, e1, r1⟩ := h
  have hl : c1.blocks.length ≤ (create_block c1 name parent).2.blocks.length := by
    simp [create_block]
  refine ⟨p1.trans (List.prefix_append _ _), cursor_from_mono c c1 _ _ q1 hl, a1, e1, ?_⟩
  intro r hr
  exact cursor_from_mono c c1 _ _ (r1 r hr) hl

theorem advances_insert_into (c c1 : Compiler) (f b : Nat) (h : advances c c1)
    (hb : c.blocks.length ≤ b) : advances c (insert_into c1 f b) := by
  obtain ⟨p1, q1, a1, e1, r1⟩ := h
  have hl : c1.blocks.length ≤ (insert_into c1 f b).blocks.length := by
    simp [insert_into]
  refine ⟨prefix_modify _ _ _ _ p1 hb, cursor_from_mono c c1 _ _ q1 hl, a1, e1, ?_⟩
  intro r hr
  exact cursor_from_mono c c1 _ _ (r1 r hr) hl

theorem advances_set_cursor (c c1 : Compiler) (o : Option Nat) (h : advances c c1)
    (ho : cursor_from c c1 o) : advances c { c1 with insert_block := o } := by
  obtain ⟨p1, _, a1, e1, r1⟩ := h
  exact ⟨p1, ho, a1, e1, r1⟩

theorem advances_store_params (func : Nat) :
    ∀ (fields : List (List Char × Option Ty)) (i : Nat) (c c1 : Compiler), advances c c1 →
      advances c (store_params func i fields c1).2 ∧
      (store_params func i fields c1).2.env = c1.env
  | [], i, c, c1, h => ⟨h, rfl⟩
  | (param_name, param_type) :: rest, i, c, c1, h => by
    rw [store_params]
    have h1 := advances_request c c1 (.Alloca param_type param_name) h
    have h2 := advances_request c _ (.Store (some (.Argument func i))
      (some (request c1 (.Alloca param_type param_name)).1)) h1
    exact advances_store_params func rest (i + 1) c _ h2

theorem advances_coherent (c c1 : Compiler) (h : advances c c1) (hc : c.coherent = true) :
    c1.coherent = true := by
  have hl := advances_length c c1 h
  obtain ⟨_, q1, a1, e1, r1⟩ := h
  simp only [coherent, Bool.and_eq_true, List.all_eq_true] at hc ⊢
  have key : ∀ o, cursor_from c c1 o → c1.block_exists o = true := by
    intro o ho
    rcases ho with ho | ⟨k, hk, _, hb⟩
    · have := hc.2
      rw [ho]
      cases hcur : c.insert_block with
      | none => rfl
      | some k =>
        rw [hcur] at this
        simp only [block_exists, decide_eq_true_eq] at this ⊢
        omega
    · rw [hk]; simp only [block_exists, decide_eq_true_eq]; exact hb
  refine ⟨?_, key _ q1⟩
  intro r hr
  rw [e1] at hr
  rcases List.mem_append.mp hr with h | h
  · have := hc.1 r h
    cases hcur : r.1 with
    | none => rfl
    | some k =>
      rw [hcur] at this
      simp only [block_exists, decide_eq_true_eq] at this ⊢
      omega
  · exact key _ (r1 r h)

end Compiler


namespace Environment

theorem insert_all (name : List Char) (entry : Option Value × Option Ty)
    (he : entry.1.isSome = true) :
    ∀ (r : List (List Char × Option Value × Option Ty)),
      r.all (fun e => e.2.1.isSome) = true →
      (insert name entry r).all (fun e => e.2.1.isSome) = true
  | [], _ => by simp [insert, he]
  | (k, v) :: rest, h => by
    simp only [List.all_cons, Bool.and_eq_true] at h
    rw [insert]
    by_cases hk : k = name
    · rw [if_pos hk]
      simp only [List.all_cons, Bool.and_eq_true]
      exact ⟨he, h.2⟩
    · rw [if_neg hk]
      simp only [List.all_cons, Bool.and_eq_true]
      exact ⟨h.1, insert_all name entry he rest h.2⟩

theorem handles_present_define (env : Environment) (name : List Char) (v : Value)
    (t : Option Ty) (h : env.handles_present = true) :
    (env.define name (some v) t).handles_present = true := by
  cases env with
  | mk r p n =>
    cases p with
    | none =>
      simp only [define, handles_present, Bool.and_eq_true, and_true] at h ⊢
      exact insert_all name (some v, t) rfl r h
    | some parent =>
      simp only [define, handles_present, Bool.and_eq_true] at h ⊢
      exact ⟨insert_all name (some v, t) rfl r h.1, h.2⟩

end Environment

namespace Compiler

theorem keeps_of_only_requests (c c1 : Compiler) (h : only_requests c c1) : keeps c c1 := by
  refine ⟨advances_of_only_requests c c1 h, ?_⟩
  obtain ⟨added, rfl, _⟩ := h
  exact id

theorem keeps_trans (c c1 c2 : Compiler) (h1 : keeps c c1) (h2 : keeps c1 c2) : keeps c c2 :=
  ⟨advances_trans c c1 c2 h1.1 h2.1, fun h => h2.2 (h1.2 h)⟩

theorem compile_expression_only_requests (node : Option Expression) (c c1 : Compiler)
    (h : compile_expression node c = .ok c1) : only_requests c c1 := by
  unfold compile_expression at h
  split at h
  · simp only [Parser.bind_eq_ok, visit_infix_expression] at h
    obtain ⟨⟨r, c2⟩, hr, h⟩ := h
    simp only [pure, Except.pure, Except.ok.injEq] at h
    rw [← h]
    exact resolve_node_only_requests _ c c2 r hr
  · simp only [Parser.bind_eq_ok, visit_call_expression] at h
    obtain ⟨⟨r, c2⟩, hr, h⟩ := h
    simp only [pure, Except.pure, Except.ok.injEq] at h
    rw [← h]
    exact resolve_node_only_requests _ c c2 r hr
  · simp only [Except.ok.injEq] at h
    rw [← h]; exact only_requests_refl c

theorem visit_return_statement_only_requests (node : Option Expression) (c c1 : Compiler)
    (h : visit_return_statement node c = .ok c1) : only_requests c c1 := by
  unfold visit_return_statement at h
  simp only [Parser.bind_eq_ok] at h
  obtain ⟨⟨⟨val, t⟩, c2⟩, hr, h⟩ := h
  simp only [pure, Except.pure, Except.ok.injEq] at h
  rw [← h]
  exact only_requests_trans _ _ _ (resolve_value_only_requests node c c2 _ hr)
    (only_requests_request c2 _ rfl)

theorem visit_assign_statement_keeps (ident value : Option Expression) (c c1 : Compiler)
    (h : visit_assign_statement ident value c = .ok c1) : keeps c c1 := by
  unfold visit_assign_statement at h
  simp only [Parser.bind_eq_ok] at h
  obtain ⟨name, _, h⟩ := h
  obtain ⟨⟨⟨val, t⟩, c2⟩, hr, h⟩ := h
  have h2 := keeps_of_only_requests c c2 (resolve_value_only_requests value c c2 _ hr)
  by_cases hl : c2.env.lookup name = (none, none)
  · rw [if_pos hl] at h
    simp only [pure, Except.pure, Except.ok.injEq] at h
    rw [← h]
    exact ⟨advances_of_fields c c2 _ h2.1 rfl rfl rfl, h2.2⟩
  · rw [if_neg hl] at h
    simp only [pure, Except.pure, Except.ok.injEq] at h
    rw [← h]
    exact ⟨advances_request c c2 _ h2.1, h2.2⟩

theorem visit_let_statement_keeps (name value : Option Expression) (c c1 : Compiler)
    (h : visit_let_statement name value c = .ok c1) : keeps c c1 := by
  unfold visit_let_statement at h
  by_cases hg : name.isSome = true ∧ value.isSome = true
  · rw [if_pos hg] at h
    simp only [Parser.bind_eq_ok] at h
    obtain ⟨x, _, h⟩ := h
    obtain ⟨⟨⟨val, t⟩, c2⟩, hr, h⟩ := h
    have h2 := keeps_of_only_requests c c2 (resolve_value_only_requests value c c2 _ hr)
    by_cases hl : c2.env.lookup x = (none, none)
    · rw [if_pos hl] at h
      simp only [pure, Except.pure, Except.ok.injEq] at h
      rw [← h]
      refine ⟨advances_of_fields c _ _
        (advances_request c _ (.Store val (some (request c2 (.Alloca t x)).1))
          (advances_request c c2 (.Alloca t x) h2.1)) rfl rfl rfl, ?_⟩
      intro hh
      exact Environment.handles_present_define _ _ _ _ (h2.2 hh)
    · rw [if_neg hl] at h
      simp only [pure, Except.pure, Except.ok.injEq] at h
      rw [← h]
      exact ⟨advances_request c c2 _ h2.1, h2.2⟩
  · rw [if_neg hg] at h
    simp only [Except.ok.injEq] at h
    rw [← h]
    exact ⟨advances_refl c, id⟩

end Compiler


namespace Compiler

mutual

theorem compile_node_keeps :
    ∀ (s : Statement) (c c' : Compiler), compile_node s c = .ok c' → keeps c c'
  | .ExpressionStatement expr, c, c', h => by
    rw [compile_node] at h
    exact keeps_of_only_requests c c' (compile_expression_only_requests expr c c' h)
  | .LetStatement name value _, c, c', h => by
    rw [compile_node] at h
    exact visit_let_statement_keeps name value c c' h
  | .BlockStatement statements, c, c', h => by
    rw [compile_node] at h
    exact compile_nodes_keeps statements c c' h
  | .ReturnStatement return_value, c, c', h => by
    rw [compile_node] at h
    exact keeps_of_only_requests c c' (visit_return_statement_only_requests _ c c' h)
  | .AssignStatement ident right_value, c, c', h => by
    rw [compile_node] at h
    exact visit_assign_statement_keeps ident right_value c c' h
  | .FunctionStatement params body name rt, c, c', h => by
    rw [compile_node] at h
    simp only [Parser.bind_eq_ok] at h
    obtain ⟨func_name, _, fields, _, h⟩ := h
    simp only [create_block] at h
    obtain ⟨a, hbody, h⟩ := h
    simp only [pure, Except.pure, Except.ok.injEq] at h
    have h3 : advances c { c with
        insert_block := some c.blocks.length,
        functions := c.functions ++ [⟨func_name, type_map rt, fields.map Prod.snd⟩],
        blocks := c.blocks ++ [⟨func_name ++ "_entry".toList, some c.functions.length⟩] } :=
      ⟨List.prefix_append _ _, Or.inr ⟨c.blocks.length, rfl, le_refl _, by simp⟩, [],
        by simp, by simp⟩
    have h4 := (advances_store_params c.functions.length fields 0 c _ h3).1
    have h5 := (compile_opt_keeps body _ a hbody).1
    have h6 := advances_trans c _ a (advances_of_fields c _ _ h4 rfl rfl rfl) h5
    rw [← h]
    exact ⟨advances_of_fields c _ _ (advances_set_cursor c a c.insert_block h6 (Or.inl rfl))
        rfl rfl rfl,
      fun hh => Environment.handles_present_define _ _ _ _ hh⟩
  | .IfStatement condition concequence alternative, c, c', h => by
    rw [compile_node] at h
    simp only [Parser.bind_eq_ok] at h
    obtain ⟨⟨⟨cond_val, cond_type⟩, c1⟩, hcond, func, hfunc, h⟩ := h
    simp only [create_block, request, insert_into, Parser.bind_eq_ok, List.length_append,
      List.length_cons, List.length_nil, List.append_assoc, List.cons_append,
      List.nil_append] at h
    obtain ⟨c6, hcons, f, hf, c9, halt, h⟩ := h
    simp only [pure, Except.pure, Except.ok.injEq] at h
    have k1 := keeps_of_only_requests c c1 (resolve_value_only_requests condition c c1 _ hcond)
    have a5 : advances c1 { c1 with
        requests := c1.requests ++
          [(c1.insert_block, .CondBr cond_val c1.blocks.length (c1.blocks.length + 1))],
        insert_block := some c1.blocks.length,
        blocks := c1.blocks ++ [BasicBlock.mk "then".toList func,
          BasicBlock.mk "else".toList none, BasicBlock.mk "ifcont".toList none] } :=
      ⟨by simp, Or.inr ⟨c1.blocks.length, rfl, le_refl _, by simp⟩,
        [(c1.insert_block, .CondBr cond_val c1.blocks.length (c1.blocks.length + 1))], rfl,
        by intro r hr; rw [List.mem_singleton] at hr; rw [hr]; exact Or.inl rfl⟩
    have k6 := compile_opt_keeps concequence _ c6 hcons
    have a6 : advances c1 c6 := advances_trans c1 _ c6 a5 k6.1
    have l6 : c1.blocks.length + 3 ≤ c6.blocks.length := by
      have := advances_length _ _ k6.1
      simpa using this
    have a8 : advances c1 { (insert_into (request c6 (.Br (c1.blocks.length + 2))).2 f
        (c1.blocks.length + 1)) with insert_block := some (c1.blocks.length + 1) } :=
      advances_set_cursor c1 _ _
        (advances_insert_into c1 _ f _ (advances_request c1 c6 _ a6) (by omega))
        (Or.inr ⟨_, rfl, by omega, by simp [insert_into, request]; omega⟩)
    have k9 := compile_opt_keeps alternative _ c9 halt
    have a9 : advances c1 c9 := advances_trans c1 _ c9 a8 k9.1
    have l9 : c1.blocks.length + 3 ≤ c9.blocks.length := by
      have := advances_length _ _ k9.1
      simp at this
      omega
    have a11 : advances c1 { (insert_into (request c9 (.Br (c1.blocks.length + 2))).2 f
        (c1.blocks.length + 2)) with insert_block := some (c1.blocks.length + 2) } :=
      advances_set_cursor c1 _ _
        (advances_insert_into c1 _ f _ (advances_request c1 c9 _ a9) (by omega))
        (Or.inr ⟨_, rfl, by omega, by simp [insert_into, request]; omega⟩)
    rw [← h]
    exact ⟨advances_trans c c1 _ k1.1 a11, fun hh => k9.2 (k6.2 (k1.2 hh))⟩

theorem compile_opt_keeps :
    ∀ (s : Option Statement) (c c' : Compiler), compile_opt s c = .ok c' → keeps c c'
  | none, c, c', h => by
    simp only [compile_opt, Except.ok.injEq] at h
    rw [← h]; exact ⟨advances_refl c, id⟩
  | some s, c, c', h => by
    rw [compile_opt] at h
    exact compile_node_keeps s c c' h

theorem compile_nodes_keeps :
    ∀ (ss : List Statement) (c c' : Compiler), compile_nodes ss c = .ok c' → keeps c c'
  | [], c, c', h => by
    simp only [compile_nodes, Except.ok.injEq] at h
    rw [← h]; exact ⟨advances_refl c, id⟩
  | s :: rest, c, c', h => by
    rw [compile_nodes] at h
    simp only [Parser.bind_eq_ok] at h
    obtain ⟨c1, h1, h2⟩ := h
    exact keeps_trans c c1 c' (compile_node_keeps s c c1 h1) (compile_nodes_keeps rest c1 c' h2)

end

end Compiler


/-! ## Code generation: assignment -/

namespace Environment

theorem lookup_handle (name : List Char) :
    ∀ (r : List (List Char × Option Value × Option Ty)) (entry : Option Value × Option Ty),
      r.all (fun e => e.2.1.isSome) = true → r.lookup name = some entry →
      entry.1.isSome = true
  | [], _, _, h => by simp at h
  | (k, v) :: rest, entry, hall, h => by
    simp only [List.all_cons, Bool.and_eq_true] at hall
    rw [List.lookup_cons] at h
    by_cases hk : (name == k) = true
    · rw [hk] at h
      simp only [Option.some.injEq] at h
      rw [← h]; exact hall.1
    · simp only [Bool.not_eq_true] at hk
      rw [hk] at h
      exact lookup_handle name rest entry hall.2 h

theorem lookup_of_bound :
    ∀ (env : Environment) (name : List Char), env.handles_present = true →
      (env.bound name = false → env.lookup name = (none, none)) ∧
      (env.bound name = true → ∃ v t, env.lookup name = (some v, t))
  | .mk r none n, name, h => by
    simp only [handles_present, Bool.and_true] at h
    simp only [bound, Bool.or_false, lookup, resolve]
    cases hl : r.lookup name with
    | none => simp
    | some entry =>
      have := lookup_handle name r entry h hl
      obtain ⟨v, t⟩ := entry
      cases v with
      | none => simp at this
      | some v => simp
  | .mk r (some p) n, name, h => by
    simp only [handles_present, Bool.and_eq_true] at h
    have ih := lookup_of_bound p name h.2
    simp only [bound, lookup, resolve]
    cases hl : r.lookup name with
    | none =>
      simp only [Option.isSome_none, Bool.false_or]
      exact ih
    | some entry =>
      have := lookup_handle name r entry h.1 hl
      obtain ⟨v, t⟩ := entry
      cases v with
      | none => simp at this
      | some v => simp

end Environment

theorem Compiler.new_reachable :
    Compiler.new.env.handles_present = true ∧ Compiler.new.coherent = true := by
  decide

theorem Compiler.compile_reachable (program : Program) (c c1 : Compiler)
    (h : Compiler.compile program c = .ok c1)
    (hc : c.env.handles_present = true ∧ c.coherent = true) :
    c1.env.handles_present = true ∧ c1.coherent = true := by
  have k := Compiler.compile_nodes_keeps program.statements c c1 h
  exact ⟨k.2 hc.1, Compiler.advances_coherent c c1 k.1 hc.2⟩

/-- C6: for every assignment statement `x = E`, compiled in a state where no
binding has a null handle (every state reached from a fresh `Compiler` is such a
state) and where `E` resolves to a value `val`: `compile` returns; a diagnostic
is appended if and only if `x` is not bound in the scope chain; when `x` is not
bound, exactly one diagnostic is appended and the store requests are those made
before; when `x` is bound, no diagnostic is appended and exactly one store is
requested, of `val` into the location bound to `x`. -/
theorem C6_assign_diagnostic_iff_unbound
    (x : List Char) (E : Expression) (c c1 : Compiler) (val : Value) (type : Option Ty)
    (henv : c.env.handles_present = true)
    (hE : Compiler.resolve_value (some E) c = .ok ((some val, type), c1)) :
    ∃ c2, Compiler.compile_node (.AssignStatement (some (.IdentifierLiteral x)) (some E)) c =
        .ok c2 ∧
      (c2.errors ≠ c.errors ↔ c.env.bound x = false) ∧
      (c.env.bound x = false →
        c2.errors = c.errors ++ ["COMPILE ERROR: Identifier " ++ String.mk x ++
          " has not been defined before its re-assigned"] ∧
        c2.stores = c.stores) ∧
      (c.env.bound x = true →
        c2.errors = c.errors ∧
        ∃ location, (c.env.lookup x).1 = some location ∧
          c2.stores = c.stores ++ [(c.insert_block, .Store (some val) (some location))]) := by
  have ho := Compiler.resolve_value_only_requests (some E) c c1 _ hE
  have hs := Compiler.only_requests_stores c c1 ho
  obtain ⟨added, hc1, _⟩ := ho
  have henv1 : c1.env = c.env := by rw [hc1]
  have herr1 : c1.errors = c.errors := by rw [hc1]
  have hcur1 : c1.insert_block = c.insert_block := by rw [hc1]
  have hb := Environment.lookup_of_bound c.env x henv
  rw [Compiler.compile_node, Compiler.visit_assign_statement]
  simp only [Compiler.identifier_value, hE, bind, Except.bind, henv1]
  cases hbound : c.env.bound x with
  | false =>
    have hl := hb.1 hbound
    rw [if_pos hl]
    refine ⟨_, rfl, ?_, ?_, ?_⟩
    · simp only [herr1, iff_true]
      intro h
      have := congrArg List.length h
      simp at this
    · intro _
      exact ⟨by rw [herr1], hs⟩
    · intro h; cases h
  | true =>
    obtain ⟨v, t, hl⟩ := hb.2 hbound
    rw [if_neg (by rw [hl]; simp)]
    refine ⟨_, rfl, ?_, ?_, ?_⟩
    · simp only [hl, Compiler.request, herr1, ne_eq, not_true_eq_false, Bool.true_eq_false]
    · intro h; cases h
    · intro _
      refine ⟨by simp only [hl, Compiler.request, herr1], v, by rw [hl], ?_⟩
      simp only [hl, Compiler.request, Compiler.stores, List.filter_append, hcur1]
      simp only [Compiler.stores] at hs
      rw [hs]
      simp [Request.is_store]

/-- C6 (witness): `x = 5;` in a fresh `Compiler`, where `x` is not bound. -/
theorem C6_assign_diagnostic_iff_unbound_witness :
    Compiler.new.env.handles_present = true ∧
    Compiler.resolve_value (some (.IntegerLiteral 5)) Compiler.new =
      .ok ((some (.ConstantInt 32 5), some .int32), Compiler.new) ∧
    Compiler.new.env.bound ['x'] = false ∧
    ∃ c2, Compiler.compile_node (.AssignStatement (some (.IdentifierLiteral ['x']))
        (some (.IntegerLiteral 5))) Compiler.new = .ok c2 ∧
      (c2.errors ≠ Compiler.new.errors ↔ Compiler.new.env.bound ['x'] = false) ∧
      (Compiler.new.env.bound ['x'] = false →
        c2.errors = Compiler.new.errors ++ ["COMPILE ERROR: Identifier " ++ String.mk ['x'] ++
          " has not been defined before its re-assigned"] ∧
        c2.stores = Compiler.new.stores) ∧
      (Compiler.new.env.bound ['x'] = true →
        c2.errors = Compiler.new.errors ∧
        ∃ location, (Compiler.new.env.lookup ['x']).1 = some location ∧
          c2.stores = Compiler.new.stores ++
            [(Compiler.new.insert_block, .Store (some (.ConstantInt 32 5)) (some location))]) :=
  ⟨by decide, rfl, by decide,
   C6_assign_diagnostic_iff_unbound ['x'] (.IntegerLiteral 5) Compiler.new Compiler.new
     (.ConstantInt 32 5) (some .int32) (by decide) rfl⟩

/-- C6 (on source text): `x = 5;` with `x` never declared gives exactly one
diagnostic and no request at all; in `def f(a: int) -> int { a = 5; return a; }`
the assignment gives no diagnostic and one store, into the slot of `a`. -/
theorem C6_examples :
    (parse_source 20 "x = 5;".toList).bind
        (fun r => (Compiler.compile r.1 Compiler.new).map (fun c => (c.errors, c.requests))) =
      .ok (["COMPILE ERROR: Identifier x has not been defined before its re-assigned"], []) ∧
    (parse_source 60 "def f(a: int) -> int { a = 5; return a; }".toList).bind
        (fun r => (Compiler.compile r.1 Compiler.new).map (fun c => (c.errors, c.stores))) =
      .ok ([], [(some 0, .Store (some (.Argument 0 0)) (some (.Instruction 0))),
                (some 0, .Store (some (.ConstantInt 32 5)) (some (.Instruction 0)))]) := by
  decide!


/-! ## Code generation: `if` -/

namespace Compiler

theorem requests_in_of_coherent (c : Compiler) (k : Nat) (hc : c.coherent = true)
    (hk : c.blocks.length ≤ k) : c.requests_in k = [] ∧ c.insert_block ≠ some k := by
  simp only [coherent, Bool.and_eq_true, List.all_eq_true] at hc
  constructor
  · rw [requests_in, List.filter_eq_nil_iff]
    intro r hr hrk
    have := hc.1 r hr
    simp only [decide_eq_true_eq] at hrk
    rw [hrk] at this
    simp only [block_exists, decide_eq_true_eq] at this
    omega
  · intro h
    have := hc.2
    rw [h] at this
    simp only [block_exists, decide_eq_true_eq] at this
    omega

theorem requests_in_of_advances (c c1 : Compiler) (k : Nat) (h : advances c c1)
    (hcur : c.insert_block ≠ some k) (hk : k < c.blocks.length) (h0 : c.requests_in k = []) :
    c1.requests_in k = [] ∧ c1.insert_block ≠ some k := by
  obtain ⟨_, q, added, e, r⟩ := h
  have key : ∀ o, cursor_from c c1 o → o ≠ some k := by
    intro o ho
    rcases ho with ho | ⟨j, hj, h1, _⟩
    · rw [ho]; exact hcur
    · rw [hj]; intro hh; simp only [Option.some.injEq] at hh; omega
  refine ⟨?_, key _ q⟩
  rw [requests_in, e, List.filter_append]
  rw [requests_in] at h0
  rw [h0, List.nil_append, List.filter_eq_nil_iff]
  intro x hx hxk
  simp only [decide_eq_true_eq] at hxk
  exact key _ (r x hx) hxk

theorem compile_node_if (condition : Option Expression)
    (concequence alternative : Option Statement) (c c1 : Compiler)
    (cond_val : Option Value) (cond_type : Option Ty) (func : Nat)
    (hcond : resolve_value condition c = .ok ((cond_val, cond_type), c1))
    (hparent : insert_block_parent c1 = .ok (some func)) :
    compile_node (.IfStatement condition concequence alternative) c =
      (compile_opt concequence { c1 with
          requests := c1.requests ++
            [(c1.insert_block, .CondBr cond_val c1.blocks.length (c1.blocks.length + 1))],
          insert_block := some c1.blocks.length,
          blocks := c1.blocks ++ [BasicBlock.mk "then".toList (some func),
            BasicBlock.mk "else".toList none, BasicBlock.mk "ifcont".toList none] }).bind
        (fun c6 =>
          (compile_opt alternative { c6 with
              requests := c6.requests ++ [(c6.insert_block, .Br (c1.blocks.length + 2))],
              insert_block := some (c1.blocks.length + 1),
              blocks := c6.blocks.modify (fun b => { b with parent := some func })
                (c1.blocks.length + 1) }).bind
            (fun c9 => .ok { c9 with
              requests := c9.requests ++ [(c9.insert_block, .Br (c1.blocks.length + 2))],
              insert_block := some (c1.blocks.length + 2),
              blocks := c9.blocks.modify (fun b => { b with parent := some func })
                (c1.blocks.length + 2) })) := by
  rw [compile_node]
  simp only [hcond, hparent, bind, Except.bind, function_of, create_block, request,
    insert_into, List.length_append, List.length_cons, List.length_nil, List.append_assoc,
    List.cons_append, List.nil_append, pure, Except.pure]

theorem getElem?_append_offset {α : Type} (l m : List α) (i : Nat) :
    (l ++ m)[l.length + i]? = m[i]? := by
  rw [List.getElem?_append_right (by omega)]
  simp

end Compiler

/-- C8: for every `if` statement whose alternative is absent, compiled in a
state whose cursor is in a block of a function `func` and whose request cursors
are all in existing blocks, and whose condition and consequence compile (the
consequence in the new block `then`, leaving the state `c6`): `compile` returns;
the blocks `then`, `else` and `ifcont` (the merge block) exist in `func`; the
requests are those made up to the end of the consequence, then a branch to the
merge block at the cursor the consequence ended on, then a branch to the merge
block in `else`; this branch is the only request ever made in `else`; and the
cursor is left in the merge block. -/
theorem C8_if_without_else
    (condition : Option Expression) (concequence : Option Statement)
    (c c1 c6 : Compiler) (cond_val : Option Value) (cond_type : Option Ty)
    (b func : Nat) (entry : BasicBlock)
    (hcoh : c.coherent = true)
    (hcursor : c.insert_block = some b)
    (hblock : c.blocks.get? b = some entry)
    (hfunc : entry.parent = some func)
    (hcond : Compiler.resolve_value condition c = .ok ((cond_val, cond_type), c1))
    (hcons : Compiler.compile_opt concequence { c1 with
        requests := c1.requests ++
          [(some b, .CondBr cond_val c.blocks.length (c.blocks.length + 1))],
        insert_block := some c.blocks.length,
        blocks := c.blocks ++ [BasicBlock.mk "then".toList (some func),
          BasicBlock.mk "else".toList none, BasicBlock.mk "ifcont".toList none] } = .ok c6) :
    ∃ c2, Compiler.compile_node (.IfStatement condition concequence none) c = .ok c2 ∧
      c2.blocks.get? c.blocks.length = some (BasicBlock.mk "then".toList (some func)) ∧
      c2.blocks.get? (c.blocks.length + 1) = some (BasicBlock.mk "else".toList (some func)) ∧
      c2.blocks.get? (c.blocks.length + 2) =
        some (BasicBlock.mk "ifcont".toList (some func)) ∧
      c2.requests = c6.requests ++
        [(c6.insert_block, .Br (c.blocks.length + 2)),
         (some (c.blocks.length + 1), .Br (c.blocks.length + 2))] ∧
      c2.requests_in (c.blocks.length + 1) =
        [(some (c.blocks.length + 1), .Br (c.blocks.length + 2))] ∧
      c2.insert_block = some (c.blocks.length + 2) := by
  have ho := Compiler.resolve_value_only_requests condition c c1 _ hcond
  have a1 := Compiler.advances_of_only_requests c c1 ho
  have coh1 := Compiler.advances_coherent c c1 a1 hcoh
  obtain ⟨added, hc1, _⟩ := ho
  have hb1 : c1.blocks = c.blocks := by rw [hc1]
  have hcur1 : c1.insert_block = some b := by rw [hc1]; exact hcursor
  have hparent : Compiler.insert_block_parent c1 = .ok (some func) := by
    simp only [Compiler.insert_block_parent, hcur1, hb1, hblock, hfunc]
  rw [Compiler.compile_node_if condition concequence none c c1 cond_val cond_type func hcond
    hparent]
  simp only [hb1, hcur1]
  rw [hcons]
  simp only [Except.bind, Compiler.compile_opt]
  refine ⟨_, rfl, ?_⟩
  -- the state before the consequence, and what the consequence keeps of it
  have k6 := (Compiler.compile_opt_keeps concequence _ c6 hcons).1
  have coh5 : Compiler.coherent { c1 with
        requests := c1.requests ++
          [(some b, .CondBr cond_val c.blocks.length (c.blocks.length + 1))],
        insert_block := some c.blocks.length,
        blocks := c.blocks ++ [BasicBlock.mk "then".toList (some func),
          BasicBlock.mk "else".toList none, BasicBlock.mk "ifcont".toList none] } = true := by
    refine Compiler.advances_coherent c1 _ ?_ coh1
    refine ⟨by rw [hb1]; exact List.prefix_append _ _,
      Or.inr ⟨c.blocks.length, rfl, by rw [hb1], by simp⟩,
      [(some b, .CondBr cond_val c.blocks.length (c.blocks.length + 1))], rfl, ?_⟩
    intro r hr
    rw [List.mem_singleton] at hr
    rw [hr]; exact Or.inl hcur1.symm
  have hin5 : Compiler.requests_in { c1 with
        requests := c1.requests ++
          [(some b, .CondBr cond_val c.blocks.length (c.blocks.length + 1))],
        insert_block := some c.blocks.length,
        blocks := c.blocks ++ [BasicBlock.mk "then".toList (some func),
          BasicBlock.mk "else".toList none, BasicBlock.mk "ifcont".toList none] }
        (c.blocks.length + 1) = [] := by
    have hbn : b < c.blocks.length := by
      rw [List.get?_eq_getElem?] at hblock
      exact (List.getElem?_eq_some_iff.mp hblock).1
    have h1 := (Compiler.requests_in_of_coherent c1 (c.blocks.length + 1) coh1
      (by rw [hb1]; omega)).1
    simp only [Compiler.requests_in, List.filter_append] at h1 ⊢
    rw [h1, List.nil_append, List.filter_eq_nil_iff]
    intro r hr
    rw [List.mem_singleton] at hr
    rw [hr]
    simp only [decide_eq_true_eq, Option.some.injEq]
    omega
  have h6 := Compiler.requests_in_of_advances _ c6 (c.blocks.length + 1) k6
    (by simp) (by simp) hin5
  obtain ⟨rest, hrest⟩ := k6.1
  simp only [List.append_assoc] at hrest
  have hthen : c6.blocks[c.blocks.length]? = some (BasicBlock.mk "then".toList (some func)) := by
    rw [← hrest]; exact (Compiler.getElem?_append_offset c.blocks _ 0).trans (by simp)
  have helse : c6.blocks[c.blocks.length + 1]? = some (BasicBlock.mk "else".toList none) := by
    rw [← hrest, Compiler.getElem?_append_offset c.blocks _ 1]; simp
  have hmerge : c6.blocks[c.blocks.length + 2]? =
      some (BasicBlock.mk "ifcont".toList none) := by
    rw [← hrest, Compiler.getElem?_append_offset c.blocks _ 2]; simp
  refine ⟨?_, ?_, ?_, by simp, ?_, rfl⟩
  · simp only [List.get?_eq_getElem?]
    rw [List.getElem?_modify_ne _ _ (by omega), List.getElem?_modify_ne _ _ (by omega), hthen]
  · simp only [List.get?_eq_getElem?]
    rw [List.getElem?_modify_ne _ _ (by omega), List.getElem?_modify_eq, helse]
    rfl
  · simp only [List.get?_eq_getElem?]
    rw [List.getElem?_modify_eq, List.getElem?_modify_ne _ _ (by omega), hmerge]
    rfl
  · have h61 := h6.1
    have h62 := h6.2
    simp only [Compiler.requests_in, List.filter_append] at h61 ⊢
    rw [h61]
    simp [h62]


/-- C8 (witness): `if 1 < 2 do { return 1; }` with no `else`, compiled with the
cursor in the entry block of a function. -/
theorem C8_if_without_else_witness :
    ∃ c2, Compiler.compile_node
        (.IfStatement
          (some (.InfixExpression (some (.IntegerLiteral 1)) ['<'] (some (.IntegerLiteral 2))))
          (some (.BlockStatement [.ReturnStatement (some (.IntegerLiteral 1))])) none)
        { Compiler.new with
          insert_block := some 0,
          functions := [{ name := ['f'], return_type := some .int32, param_types := [] }],
          blocks := [{ name := "f_entry".toList, parent := some 0 }] } = .ok c2 ∧
      c2.blocks.get? 1 = some (BasicBlock.mk "then".toList (some 0)) ∧
      c2.blocks.get? 2 = some (BasicBlock.mk "else".toList (some 0)) ∧
      c2.blocks.get? 3 = some (BasicBlock.mk "ifcont".toList (some 0)) ∧
      c2.requests =
        [(some 0, .Cmp .ICMP_SLT (some (.ConstantInt 32 1)) (some (.ConstantInt 32 2))),
         (some 0, .CondBr (some (.Instruction 0)) 1 2),
         (some 1, .Ret (some (.ConstantInt 32 1)))] ++
        [(some 1, .Br 3), (some 2, .Br 3)] ∧
      c2.requests_in 2 = [(some 2, .Br 3)] ∧
      c2.insert_block = some 3 :=
  C8_if_without_else
    (some (.InfixExpression (some (.IntegerLiteral 1)) ['<'] (some (.IntegerLiteral 2))))
    (some (.BlockStatement [.ReturnStatement (some (.IntegerLiteral 1))]))
    { Compiler.new with
      insert_block := some 0,
      functions := [{ name := ['f'], return_type := some .int32, param_types := [] }],
      blocks := [{ name := "f_entry".toList, parent := some 0 }] }
    { Compiler.new with
      requests := [(some 0, .Cmp .ICMP_SLT (some (.ConstantInt 32 1)) (some (.ConstantInt 32 2)))],
      insert_block := some 0,
      functions := [{ name := ['f'], return_type := some .int32, param_types := [] }],
      blocks := [{ name := "f_entry".toList, parent := some 0 }] }
    { Compiler.new with
      requests :=
        [(some 0, .Cmp .ICMP_SLT (some (.ConstantInt 32 1)) (some (.ConstantInt 32 2))),
         (some 0, .CondBr (some (.Instruction 0)) 1 2),
         (some 1, .Ret (some (.ConstantInt 32 1)))],
      insert_block := some 1,
      functions := [{ name := ['f'], return_type := some .int32, param_types := [] }],
      blocks := [{ name := "f_entry".toList, parent := some 0 },
                 { name := "then".toList, parent := some 0 },
                 { name := "else".toList, parent := none },
                 { name := "ifcont".toList, parent := none }] }
    (some (.Instruction 0)) (some .int1) 0 0 { name := "f_entry".toList, parent := some 0 }
    (by decide) rfl rfl rfl (by decide!) (by decide!)

/-- C8 (on source text): the requests, the blocks and the cursor of
`def f(a: int) -> int { if a < 1 do { return 1; } return a; }`, where the
requests made after the `if` are in the merge block, and an `if` outside of any
function, where `GetInsertBlock()` is null. -/
theorem C8_examples :
    (parse_source 80 "def f(a: int) -> int { if a < 1 do { return 1; } return a; }".toList).bind
        (fun r => (Compiler.compile r.1 Compiler.new).map
          (fun c => (c.requests, c.blocks))) =
      .ok ([(some 0, .Alloca (some .int32) ['a']),
            (some 0, .Store (some (.Argument 0 0)) (some (.Instruction 0))),
            (some 0, .Load (some .int32) (some (.Instruction 0))),
            (some 0, .Cmp .ICMP_SLT (some (.Instruction 2)) (some (.ConstantInt 32 1))),
            (some 0, .CondBr (some (.Instruction 3)) 1 2),
            (some 1, .Ret (some (.ConstantInt 32 1))),
            (some 1, .Br 3),
            (some 2, .Br 3),
            (some 3, .Load (some .int32) (some (.Instruction 0))),
            (some 3, .Ret (some (.Instruction 8)))],
           [{ name := "f_entry".toList, parent := some 0 },
            { name := "then".toList, parent := some 0 },
            { name := "else".toList, parent := some 0 },
            { name := "ifcont".toList, parent := some 0 }]) ∧
    (parse_source 30 "if 1 < 2 do { }".toList).bind
        (fun r => Compiler.compile r.1 Compiler.new) = .error .null_deref := by
  decide!


/-! ## Fuel: more fuel never changes a result of the lexer or of the parser -/

theorem settles_refl {α : Type} (r : Except Abort α) : settles r r := Or.inr rfl

theorem settles_bind {α β : Type} {x x1 : Except Abort α} {g g1 : α → Except Abort β}
    (hx : settles x x1) (hg : ∀ a, settles (g a) (g1 a)) :
    settles (x >>= g) (x1 >>= g1) := by
  rcases hx with hx | hx
  · left; rw [hx]; rfl
  · rw [hx]
    cases x with
    | error e => right; rfl
    | ok a => exact hg a

theorem settles_ite {α : Type} (c : Prop) [Decidable c] {a a1 b b1 : Except Abort α}
    (ha : settles a a1) (hb : settles b b1) :
    settles (if c then a else b) (if c then a1 else b1) := by
  by_cases h : c
  · rw [if_pos h, if_pos h]; exact ha
  · rw [if_neg h, if_neg h]; exact hb

theorem settles_ok {α : Type} {r r1 : Except Abort α} {a : α} (h : settles r r1)
    (hr : r = .ok a) : r1 = .ok a := by
  rcases h with h | h
  · rw [h] at hr; exact Except.noConfusion hr
  · rw [h]; exact hr

theorem settles_error {α : Type} {r r1 : Except Abort α} {e : Abort} (h : settles r r1)
    (hr : r = .error e) (he : e ≠ .out_of_fuel) : r1 = .error e := by
  rcases h with h | h
  · rw [h] at hr; injection hr with hr; exact absurd hr.symm he
  · rw [h]; exact hr

namespace Lexer

theorem read_ident_loop_error (f : Nat) : ∀ (l : Lexer) (e : Abort),
    read_ident_loop f l = .error e → e = .out_of_fuel := by
  induction f with
  | zero => intro l e h; simp only [read_ident_loop] at h; injection h with h; exact h.symm
  | succ k ih =>
    intro l e h
    rw [read_ident_loop] at h
    split at h
    · exact ih _ _ h
    · exact Except.noConfusion h

theorem read_invalid_number_error (f : Nat) : ∀ (l : Lexer) (acc : List Char) (e : Abort),
    read_invalid_number f l acc = .error e → e = .out_of_fuel := by
  induction f with
  | zero =>
    intro l acc e h; simp only [read_invalid_number] at h; injection h with h; exact h.symm
  | succ k ih =>
    intro l acc e h
    rw [read_invalid_number] at h
    split at h
    · exact ih _ _ _ h
    · exact Except.noConfusion h

theorem read_number_loop_error (f : Nat) : ∀ (l : Lexer) (sp dc : Nat) (out : List Char)
    (e : Abort), read_number_loop f l sp dc out = .error e → e = .out_of_fuel := by
  induction f with
  | zero =>
    intro l sp dc out e h; simp only [read_number_loop] at h; injection h with h; exact h.symm
  | succ k ih =>
    intro l sp dc out e h
    rw [read_number_loop] at h
    by_cases hc : (l.current_char.isDigit || l.current_char == '.') = true
    · rw [if_pos hc] at h
      dsimp only at h
      by_cases hd : (if l.current_char = '.' then dc + 1 else dc) > 1
      · rw [if_pos hd] at h
        cases hq : read_invalid_number k l (substr l.source sp (l.pos - sp)) with
        | error e1 =>
          rw [hq] at h
          injection h with h
          rw [← h]
          exact read_invalid_number_error k _ _ _ hq
        | ok v => rw [hq] at h; exact Except.noConfusion h
      · rw [if_neg hd] at h
        by_cases hn : (read_char l).current_char = NUL
        · rw [if_pos hn] at h; exact Except.noConfusion h
        · rw [if_neg hn] at h; exact ih _ _ _ _ _ h
    · rw [if_neg hc] at h; exact Except.noConfusion h

theorem next_token_error (f : Nat) (l : Lexer) (e : Abort)
    (h : next_token f l = .error e) : e = .out_of_fuel := by
  unfold next_token at h
  cases hq : skip_whitespace f l with
  | error e1 =>
    rw [hq] at h
    injection h with h
    rw [← h]
    exact skip_whitespace_error f l e1 hq
  | ok l1 =>
    rw [hq] at h
    dsimp only at h
    unfold next_token_switch at h
    cases hc : next_token_cases l1 with
    | some r => rw [hc] at h; exact Except.noConfusion h
    | none =>
      rw [hc] at h
      dsimp only at h
      unfold next_token_default at h
      by_cases ha : l1.current_char.isAlpha = true
      · rw [if_pos ha] at h
        unfold read_ident at h
        cases hi : read_ident_loop f l1 with
        | error e1 =>
          rw [hi] at h
          injection h with h
          rw [← h]
          exact read_ident_loop_error f l1 e1 hi
        | ok v => rw [hi] at h; exact Except.noConfusion h
      · rw [if_neg ha] at h
        by_cases hd : l1.current_char.isDigit = true
        · rw [if_pos hd] at h
          exact read_number_loop_error f _ _ _ _ _ h
        · rw [if_neg hd] at h; exact Except.noConfusion h

theorem next_token_fuel_settles (f f1 : Nat) (hf : f ≤ f1) (l : Lexer) :
    settles (next_token f l) (next_token f1 l) := by
  cases h : next_token f l with
  | error e => left; rw [next_token_error f l e h]
  | ok r => right; exact next_token_mono f l r h f1 hf

end Lexer

namespace Parser

theorem next_token_settles (f f1 : Nat) (hf : f ≤ f1) (p : Parser) :
    settles (next_token f p) (next_token f1 p) := by
  unfold next_token
  rcases Lexer.next_token_fuel_settles f f1 hf p.lexer with h | h
  · left; rw [h]
  · right; rw [h]

theorem expect_peek_settles (f f1 : Nat) (hf : f ≤ f1) (p : Parser) (type : TokenType) :
    settles (expect_peek f p type) (expect_peek f1 p type) := by
  unfold expect_peek
  by_cases hc : peek_token_is p type = true
  · rw [if_pos hc, if_pos hc]
    rcases next_token_settles f f1 hf p with h | h
    · left; rw [h]
    · right; rw [h]
  · rw [if_neg hc, if_neg hc]; exact settles_refl _

theorem skip_to_semicolon_settles : ∀ (f f1 : Nat), f ≤ f1 → ∀ (p : Parser),
    settles (skip_to_semicolon f p) (skip_to_semicolon f1 p) := by
  intro f
  induction f with
  | zero => intro f1 _ p; exact Or.inl rfl
  | succ k ih =>
    intro f1 hf p
    obtain ⟨g, rfl⟩ : ∃ g, f1 = g + 1 := ⟨f1 - 1, by omega⟩
    rw [skip_to_semicolon, skip_to_semicolon]
    refine settles_ite _ ?_ (settles_refl _)
    exact settles_bind (next_token_settles k g (by omega) p) (fun p1 => ih g (by omega) p1)

theorem parse_function_parameters_loop_settles : ∀ (f f1 : Nat), f ≤ f1 →
    ∀ (p : Parser) (params : List (Option FunctionParameter)),
      settles (parse_function_parameters_loop f p params)
        (parse_function_parameters_loop f1 p params) := by
  intro f
  induction f with
  | zero => intro f1 _ p params; exact Or.inl rfl
  | succ k ih =>
    intro f1 hf p params
    obtain ⟨g, rfl⟩ : ∃ g, f1 = g + 1 := ⟨f1 - 1, by omega⟩
    have hk : k ≤ g := by omega
    rw [parse_function_parameters_loop, parse_function_parameters_loop]
    refine settles_ite _ ?_ ?_
    · refine settles_bind (next_token_settles k g hk p) (fun p1 => ?_)
      refine settles_bind (next_token_settles k g hk p1) (fun p2 => ?_)
      refine settles_bind (expect_peek_settles k g hk p2 .COLON) (fun ⟨ok1, p3⟩ => ?_)
      refine settles_ite _ (settles_refl _) ?_
      refine settles_bind (expect_peek_settles k g hk p3 .TYPE) (fun ⟨ok2, p4⟩ => ?_)
      exact settles_ite _ (settles_refl _) (ih g hk p4 _)
    · refine settles_bind (expect_peek_settles k g hk p .RPAREN) (fun ⟨ok3, p1⟩ => ?_)
      exact settles_refl _

theorem parse_function_parameters_settles (f f1 : Nat) (hf : f ≤ f1) (p : Parser) :
    settles (parse_function_parameters f p) (parse_function_parameters f1 p) := by
  unfold parse_function_parameters
  refine settles_ite _ ?_ ?_
  · exact settles_bind (next_token_settles f f1 hf p) (fun p1 => settles_refl _)
  · refine settles_bind (next_token_settles f f1 hf p) (fun p1 => ?_)
    refine settles_bind (expect_peek_settles f f1 hf p1 .COLON) (fun ⟨ok1, p2⟩ => ?_)
    refine settles_ite _ (settles_refl _) ?_
    refine settles_bind (expect_peek_settles f f1 hf p2 .TYPE) (fun ⟨ok2, p3⟩ => ?_)
    exact settles_ite _ (settles_refl _) (parse_function_parameters_loop_settles f f1 hf p3 _)

end Parser


namespace Parser

theorem expression_parsers_settle : ∀ (f f1 : Nat), f ≤ f1 →
    (∀ prec p, settles (parse_expression f prec p) (parse_expression f1 prec p)) ∧
    (∀ prec left p, settles (parse_expression_loop f prec left p)
      (parse_expression_loop f1 prec left p)) ∧
    (∀ left p, settles (parse_infix_expression f left p) (parse_infix_expression f1 left p)) ∧
    (∀ p, settles (parse_grouped_expression f p) (parse_grouped_expression f1 p)) ∧
    (∀ function p, settles (parse_call_expression f function p)
      (parse_call_expression f1 function p)) ∧
    (∀ end_ p, settles (parse_expression_list f end_ p) (parse_expression_list f1 end_ p)) ∧
    (∀ end_ acc p, settles (parse_expression_list_loop f end_ acc p)
      (parse_expression_list_loop f1 end_ acc p)) := by
  intro f
  induction f with
  | zero =>
    intro f1 _
    refine ⟨?_, ?_, ?_, ?_, ?_, ?_, ?_⟩ <;> intros <;> exact Or.inl rfl
  | succ k ih =>
    intro f1 hf
    obtain ⟨g, rfl⟩ : ∃ g, f1 = g + 1 := ⟨f1 - 1, by omega⟩
    have hk : k ≤ g := by omega
    obtain ⟨ih1, ih2, ih3, ih4, ih5, ih6, ih7⟩ := ih g hk
    refine ⟨?_, ?_, ?_, ?_, ?_, ?_, ?_⟩
    · intro prec p
      rw [parse_expression, parse_expression]
      cases prefix_parse_fns p.current_token.type with
      | none => exact settles_refl _
      | some fn =>
        cases fn with
        | parse_integer_literal =>
          exact settles_bind (settles_refl _) (fun left => ih2 prec left p)
        | parse_float_literal =>
          exact settles_bind (settles_refl _) (fun left => ih2 prec left p)
        | parse_grouped_expression =>
          exact settles_bind (ih4 p) (fun ⟨left, p1⟩ => ih2 prec left p1)
        | parse_identifier => exact ih2 prec _ p
        | parse_boolean_literal => exact ih2 prec _ p
    · intro prec left p
      rw [parse_expression_loop, parse_expression_loop]
      refine settles_ite _ ?_ (settles_refl _)
      cases infix_parse_fns p.peek_token.type with
      | none => exact settles_refl _
      | some fn =>
        cases fn with
        | parse_infix_expression =>
          refine settles_bind (next_token_settles k g hk p) (fun p1 => ?_)
          exact settles_bind (ih3 left p1) (fun ⟨left1, p2⟩ => ih2 prec left1 p2)
        | parse_call_expression =>
          refine settles_bind (next_token_settles k g hk p) (fun p1 => ?_)
          exact settles_bind (ih5 left p1) (fun ⟨left1, p2⟩ => ih2 prec left1 p2)
    · intro left p
      rw [parse_infix_expression, parse_infix_expression]
      refine settles_bind (next_token_settles k g hk p) (fun p1 => ?_)
      exact settles_bind (ih1 _ p1) (fun ⟨right, p2⟩ => settles_refl _)
    · intro p
      rw [parse_grouped_expression, parse_grouped_expression]
      refine settles_bind (next_token_settles k g hk p) (fun p1 => ?_)
      refine settles_bind (ih1 _ p1) (fun ⟨expr, p2⟩ => ?_)
      exact settles_bind (expect_peek_settles k g hk p2 .RPAREN) (fun ⟨ok1, p3⟩ => settles_refl _)
    · intro function p
      rw [parse_call_expression, parse_call_expression]
      exact settles_bind (ih6 _ p) (fun ⟨arguments, p1⟩ => settles_refl _)
    · intro end_ p
      rw [parse_expression_list, parse_expression_list]
      refine settles_ite _ ?_ ?_
      · exact settles_bind (next_token_settles k g hk p) (fun p1 => settles_refl _)
      · refine settles_bind (next_token_settles k g hk p) (fun p1 => ?_)
        exact settles_bind (ih1 _ p1) (fun ⟨first, p2⟩ => ih7 end_ _ p2)
    · intro end_ acc p
      rw [parse_expression_list_loop, parse_expression_list_loop]
      refine settles_ite _ ?_ ?_
      · refine settles_bind (next_token_settles k g hk p) (fun p1 => ?_)
        refine settles_bind (next_token_settles k g hk p1) (fun p2 => ?_)
        exact settles_bind (ih1 _ p2) (fun ⟨next, p3⟩ => ih7 end_ _ p3)
      · exact settles_bind (expect_peek_settles k g hk p end_) (fun ⟨ok1, p1⟩ => settles_refl _)

theorem parse_expression_settles (f f1 : Nat) (hf : f ≤ f1) (prec : PrecedenceType)
    (p : Parser) : settles (parse_expression f prec p) (parse_expression f1 prec p) :=
  (expression_parsers_settle f f1 hf).1 prec p

theorem parse_expression_statement_settles (f f1 : Nat) (hf : f ≤ f1) (p : Parser) :
    settles (parse_expression_statement f p) (parse_expression_statement f1 p) := by
  unfold parse_expression_statement
  refine settles_bind (parse_expression_settles f f1 hf _ p) (fun ⟨expr, p1⟩ => ?_)
  refine settles_ite _ ?_ (settles_refl _)
  exact settles_bind (next_token_settles f f1 hf p1) (fun p2 => settles_refl _)

theorem parse_let_statement_settles (f f1 : Nat) (hf : f ≤ f1) (p : Parser) :
    settles (parse_let_statement f p) (parse_let_statement f1 p) := by
  unfold parse_let_statement
  refine settles_bind (expect_peek_settles f f1 hf p .IDENT) (fun ⟨ok1, p1⟩ => ?_)
  refine settles_ite _ (settles_refl _) ?_
  refine settles_bind (expect_peek_settles f f1 hf p1 .COLON) (fun ⟨ok2, p2⟩ => ?_)
  refine settles_ite _ (settles_refl _) ?_
  refine settles_bind (expect_peek_settles f f1 hf p2 .TYPE) (fun ⟨ok3, p3⟩ => ?_)
  refine settles_ite _ (settles_refl _) ?_
  refine settles_bind (expect_peek_settles f f1 hf p3 .EQ) (fun ⟨ok4, p4⟩ => ?_)
  refine settles_ite _ (settles_refl _) ?_
  refine settles_bind (next_token_settles f f1 hf p4) (fun p5 => ?_)
  refine settles_bind (parse_expression_settles f f1 hf _ p5) (fun ⟨value, p6⟩ => ?_)
  exact settles_bind (skip_to_semicolon_settles f f1 hf p6) (fun p7 => settles_refl _)

theorem parse_return_statement_settles (f f1 : Nat) (hf : f ≤ f1) (p : Parser) :
    settles (parse_return_statement f p) (parse_return_statement f1 p) := by
  unfold parse_return_statement
  refine settles_bind (next_token_settles f f1 hf p) (fun p1 => ?_)
  refine settles_bind (parse_expression_settles f f1 hf _ p1) (fun ⟨value, p2⟩ => ?_)
  exact settles_bind (expect_peek_settles f f1 hf p2 .SEMICOLON) (fun ⟨ok1, p3⟩ => settles_refl _)

theorem parse_assignment_statement_settles (f f1 : Nat) (hf : f ≤ f1) (p : Parser) :
    settles (parse_assignment_statement f p) (parse_assignment_statement f1 p) := by
  unfold parse_assignment_statement
  refine settles_bind (next_token_settles f f1 hf p) (fun p1 => ?_)
  refine settles_bind (next_token_settles f f1 hf p1) (fun p2 => ?_)
  refine settles_bind (parse_expression_settles f f1 hf _ p2) (fun ⟨value, p3⟩ => ?_)
  exact settles_bind (next_token_settles f f1 hf p3) (fun p4 => settles_refl _)

theorem statement_parsers_settle : ∀ (f f1 : Nat), f ≤ f1 →
    (∀ p, settles (parse_statement f p) (parse_statement f1 p)) ∧
    (∀ p, settles (parse_function_statement f p) (parse_function_statement f1 p)) ∧
    (∀ p, settles (parse_block_statement f p) (parse_block_statement f1 p)) ∧
    (∀ acc p, settles (parse_block_statement_loop f acc p)
      (parse_block_statement_loop f1 acc p)) ∧
    (∀ p, settles (parse_if_statement f p) (parse_if_statement f1 p)) := by
  intro f
  induction f with
  | zero =>
    intro f1 _
    refine ⟨?_, ?_, ?_, ?_, ?_⟩ <;> intros <;> exact Or.inl rfl
  | succ k ih =>
    intro f1 hf
    obtain ⟨g, rfl⟩ : ∃ g, f1 = g + 1 := ⟨f1 - 1, by omega⟩
    have hk : k ≤ g := by omega
    obtain ⟨ih1, ih2, ih3, ih4, ih5⟩ := ih g hk
    refine ⟨?_, ?_, ?_, ?_, ?_⟩
    · intro p
      rw [parse_statement, parse_statement]
      refine settles_ite _ (parse_assignment_statement_settles k g hk p) ?_
      cases p.current_token.type <;>
        first
        | exact parse_let_statement_settles k g hk p
        | exact parse_return_statement_settles k g hk p
        | exact ih2 p
        | exact ih5 p
        | exact parse_expression_statement_settles k g hk p
    · intro p
      rw [parse_function_statement, parse_function_statement]
      refine settles_bind (expect_peek_settles k g hk p .IDENT) (fun ⟨ok1, p1⟩ => ?_)
      refine settles_ite _ (settles_refl _) ?_
      refine settles_bind (expect_peek_settles k g hk p1 .LPAREN) (fun ⟨ok2, p2⟩ => ?_)
      refine settles_ite _ (settles_refl _) ?_
      refine settles_bind (parse_function_parameters_settles k g hk p2) (fun ⟨params, p3⟩ => ?_)
      refine settles_bind (expect_peek_settles k g hk p3 .ARROW) (fun ⟨ok3, p4⟩ => ?_)
      refine settles_ite _ (settles_refl _) ?_
      refine settles_bind (expect_peek_settles k g hk p4 .TYPE) (fun ⟨ok4, p5⟩ => ?_)
      refine settles_ite _ (settles_refl _) ?_
      refine settles_bind (expect_peek_settles k g hk p5 .LBRACE) (fun ⟨ok5, p6⟩ => ?_)
      refine settles_ite _ (settles_refl _) ?_
      exact settles_bind (ih3 p6) (fun ⟨body, p7⟩ => settles_refl _)
    · intro p
      rw [parse_block_statement, parse_block_statement]
      refine settles_bind (next_token_settles k g hk p) (fun p1 => ?_)
      exact settles_bind (ih4 _ p1) (fun ⟨statements, p2⟩ => settles_refl _)
    · intro acc p
      rw [parse_block_statement_loop, parse_block_statement_loop]
      refine settles_ite _ ?_ (settles_refl _)
      refine settles_bind (ih1 p) (fun ⟨stmt, p1⟩ => ?_)
      exact settles_bind (next_token_settles k g hk p1) (fun p2 => ih4 _ p2)
    · intro p
      rw [parse_if_statement, parse_if_statement]
      refine settles_bind (next_token_settles k g hk p) (fun p1 => ?_)
      refine settles_bind (parse_expression_settles k g hk _ p1) (fun ⟨condition, p2⟩ => ?_)
      refine settles_bind (expect_peek_settles k g hk p2 .DO) (fun ⟨ok1, p3⟩ => ?_)
      refine settles_ite _ (settles_refl _) ?_
      refine settles_bind (expect_peek_settles k g hk p3 .LBRACE) (fun ⟨ok2, p4⟩ => ?_)
      refine settles_ite _ (settles_refl _) ?_
      refine settles_bind (ih3 p4) (fun ⟨concequence, p5⟩ => ?_)
      refine settles_ite _ ?_ (settles_refl _)
      refine settles_bind (next_token_settles k g hk p5) (fun p6 => ?_)
      refine settles_bind (expect_peek_settles k g hk p6 .LBRACE) (fun ⟨ok3, p7⟩ => ?_)
      refine settles_ite _ (settles_refl _) ?_
      exact settles_bind (ih3 p7) (fun ⟨alternative, p8⟩ => settles_refl _)

theorem parse_statement_settles (f f1 : Nat) (hf : f ≤ f1) (p : Parser) :
    settles (parse_statement f p) (parse_statement f1 p) :=
  (statement_parsers_settle f f1 hf).1 p

theorem parse_block_statement_settles (f f1 : Nat) (hf : f ≤ f1) (p : Parser) :
    settles (parse_block_statement f p) (parse_block_statement f1 p) :=
  (statement_parsers_settle f f1 hf).2.2.1 p

theorem parse_program_loop_settles : ∀ (f f1 : Nat), f ≤ f1 →
    ∀ (acc : List Statement) (p : Parser),
      settles (parse_program_loop f acc p) (parse_program_loop f1 acc p) := by
  intro f
  induction f with
  | zero => intro f1 _ acc p; exact Or.inl rfl
  | succ k ih =>
    intro f1 hf acc p
    obtain ⟨g, rfl⟩ : ∃ g, f1 = g + 1 := ⟨f1 - 1, by omega⟩
    have hk : k ≤ g := by omega
    rw [parse_program_loop, parse_program_loop]
    refine settles_ite _ ?_ (settles_refl _)
    refine settles_bind (parse_statement_settles k g hk p) (fun ⟨stmt, p1⟩ => ?_)
    exact settles_bind (next_token_settles k g hk p1) (fun p2 => ih g hk _ p2)

theorem new_settles (f f1 : Nat) (hf : f ≤ f1) (l : Lexer) : settles (new f l) (new f1 l) := by
  unfold new
  exact settles_bind (next_token_settles f f1 hf _) (fun p1 => next_token_settles f f1 hf p1)

end Parser

theorem parse_lexer_settles (f f1 : Nat) (hf : f ≤ f1) (l : Lexer) :
    settles (parse_lexer f l) (parse_lexer f1 l) := by
  unfold parse_lexer
  refine settles_bind (Parser.new_settles f f1 hf l) (fun p => ?_)
  exact settles_bind (Parser.parse_program_loop_settles f f1 hf [] p)
    (fun ⟨program, p1⟩ => settles_refl _)

theorem parse_source_settles (f f1 : Nat) (hf : f ≤ f1) (source : List Char) :
    settles (parse_source f source) (parse_source f1 source) :=
  parse_lexer_settles f f1 hf _


/-! ## Integer literals that do not fit an `int` -/

theorem stoi_out_of_range (d : List Char) (hne : d ≠ []) (hd : ∀ x ∈ d, x.isDigit = true)
    (hv : decimal_value d > 2147483647) : stoi d = .error .out_of_range := by
  unfold stoi
  have htw : d.takeWhile Char.isDigit = d := List.takeWhile_eq_self_iff.2 hd
  simp only [htw, hne, if_false]
  rw [if_pos hv]

theorem Lexer.next_token_int_here (fuel : Nat) (pre : List Char) (c : Char)
    (d rest : List Char) (n : Nat) (hc : c.isDigit = true) (hd : ∀ x ∈ d, x.isDigit = true)
    (hrest : Lexer.is_number_char (rest.headD NUL) = false) (hf : d.length + 2 ≤ fuel) :
    Lexer.next_token fuel (Lexer.at_split pre ((c :: d) ++ rest) n) =
      .ok (⟨.INT, c :: d, n, (pre ++ (c :: d)).length⟩, Lexer.at_split (pre ++ (c :: d)) rest n) := by
  obtain ⟨f, rfl⟩ : ∃ f, fuel = f + 1 := ⟨fuel - 1, by omega⟩
  rw [Lexer.next_token_at_split_stop f _ _ _ (by
    show Lexer.is_space c = false
    exact Lexer.not_space_of_isDigit c hc)]
  exact Lexer.next_token_switch_int (f + 1) pre c d rest n hc hd hrest (by omega)

/-- C11 (the code at the failing inputs): for every decimal integer literal whose
value is above `2^31 - 1`, `parse_program` on the source made of this literal
does not return: the `std::out_of_range` thrown by `std::stoi` in
`parse_integer_literal` leaves it, whatever the fuel from some `N` on. -/
theorem C11_integer_literal_out_of_range (d : List Char)
    (hd : is_decimal_literal d = true) (hv : decimal_value d > 2147483647) :
    ∃ N, ∀ fuel, N ≤ fuel → parse_source fuel d = .error .out_of_range := by
  obtain ⟨c, w, rfl⟩ : ∃ c w, d = c :: w := by
    cases d with
    | nil => simp [is_decimal_literal] at hd
    | cons c w => exact ⟨c, w, rfl⟩
  simp only [is_decimal_literal, Bool.and_eq_true, List.all_eq_true] at hd
  obtain ⟨hc, hw⟩ := hd
  have hstoi : stoi (c :: w) = .error .out_of_range :=
    stoi_out_of_range (c :: w) (by simp) (by
      intro y hy
      rcases List.mem_cons.1 hy with h | h
      · rw [h]; exact hc
      · exact hw y h) hv
  refine ⟨w.length + 6, fun fuel hfuel => ?_⟩
  obtain ⟨f, rfl⟩ : ∃ f, fuel = f + 3 := ⟨fuel - 3, by omega⟩
  have e1 := Lexer.next_token_int_here (f + 3) [] c w [] 1 hc hw (by decide) (by omega)
  have e2 := Lexer.next_token_at_split_end (f + 3) ([] ++ (c :: w)) 1 (by omega)
  simp only [List.nil_append, List.append_nil] at e1 e2
  unfold parse_source parse_lexer Parser.new
  rw [Lexer.new_eq_at_split]
  simp only [Parser.next_token, e1, e2, bind, Except.bind, Parser.parse_program,
    Parser.parse_program_loop, Parser.parse_statement, Parser.parse_expression_statement,
    Parser.parse_expression, Parser.current_token_is, prefix_parse_fns,
    Parser.parse_integer_literal, hstoi]
  simp

/-- C11 (failing input): the source `2147483648`. -/
theorem C11_integer_literal_out_of_range_witness :
    is_decimal_literal "2147483648".toList = true ∧
    decimal_value "2147483648".toList = 2147483648 ∧
    ∃ N, ∀ fuel, N ≤ fuel → parse_source fuel "2147483648".toList = .error .out_of_range :=
  ⟨by decide, by decide!,
   C11_integer_literal_out_of_range "2147483648".toList (by decide) (by decide!)⟩

/-- C11 (the same, evaluated): `2147483647` is the last literal that parses, the
literal may be anywhere in the program, and the other errors of the parser are
recorded in `errors`, after which `parse_program` returns. -/
theorem C11_examples :
    parse_source 14 "2147483647".toList =
      .ok (⟨[.ExpressionStatement (some (.IntegerLiteral 2147483647))]⟩, []) ∧
    parse_source 14 "2147483648".toList = .error .out_of_range ∧
    parse_source 60 "def f() -> int \x7b return 99999999999; \x7d".toList =
      .error .out_of_range ∧
    parse_source 14 "let = ;".toList =
      .ok (⟨[.ExpressionStatement none]⟩,
        ["expected next token to be IDENT, got EQ instead",
         "no prefix parse function for EQ found"]) := by
  decide!


/-! ## A malformed number that no blank follows -/

namespace Lexer

theorem next_token_never_of_large (l : Lexer)
    (h : ∀ N, ∃ fuel, N ≤ fuel ∧ ∃ e, next_token fuel l = .error e) :
    ∀ fuel, next_token fuel l = .error .out_of_fuel := by
  intro fuel
  cases hq : next_token fuel l with
  | error e => rw [next_token_error fuel l e hq]
  | ok r =>
    obtain ⟨g, hg, e, he⟩ := h fuel
    rw [next_token_mono fuel l r hq g hg] at he
    exact Except.noConfusion he

theorem read_invalid_number_no_blank : ∀ (rest : List Char) (f : Nat) (pre : List Char)
    (n : Nat) (acc : List Char), (∀ x ∈ rest, is_space x = false) →
    read_invalid_number f (at_split pre rest n) acc = .error .out_of_fuel := by
  intro rest
  induction rest with
  | nil =>
    intro f pre n acc _
    exact read_invalid_number_at_end _ f _ n acc (by simp)
  | cons x xs ih =>
    intro f pre n acc h
    cases f with
    | zero => rfl
    | succ g =>
      have hx : is_space x = false := h x (List.mem_cons_self _ _)
      have h4 := (is_space_eq_false x).1 hx
      rw [read_invalid_number, at_split_current]
      simp only [List.headD_cons]
      rw [if_pos h4, read_char_at_split]
      exact ih g (pre ++ [x]) n _ (fun y hy => h y (List.mem_cons_of_mem _ hy))

theorem read_number_loop_at_split_step (f : Nat) (pre : List Char) (x : Char)
    (xs : List Char) (n sp dc : Nat) (out : List Char)
    (hx : is_number_char x = true)
    (hdc : ¬ (if x = '.' then dc + 1 else dc) > 1)
    (hn : xs.headD NUL ≠ NUL) :
    read_number_loop (f + 1) (at_split pre (x :: xs) n) sp dc out =
      read_number_loop f (at_split (pre ++ [x]) xs n) sp (if x = '.' then dc + 1 else dc)
        (out ++ [x]) := by
  have hx1 : (x.isDigit || x == '.') = true := hx
  rw [read_number_loop, at_split_current]
  simp only [List.headD_cons]
  rw [if_pos hx1]
  rw [if_neg hdc, read_char_at_split, at_split_current, if_neg hn]

theorem read_number_loop_second_dot (f : Nat) (pre rest : List Char) (n sp : Nat)
    (out : List Char) (hrest : ∀ x ∈ rest, is_space x = false) :
    read_number_loop f (at_split pre ('.' :: rest) n) sp 1 out = .error .out_of_fuel := by
  cases f with
  | zero => rfl
  | succ g =>
    rw [read_number_loop, at_split_current]
    simp only [List.headD_cons]
    rw [if_pos (by decide)]
    rw [if_pos (by decide)]
    rw [read_invalid_number_no_blank ('.' :: rest) g pre n _ (by
      intro y hy
      rcases List.mem_cons.1 hy with h | h
      · rw [h]; decide
      · exact hrest y h)]

theorem ne_nul_of_number_char (c : Char) (h : is_number_char c = true) : c ≠ NUL := by
  intro h0
  rw [h0] at h
  exact absurd h (by decide)

theorem read_number_loop_after_dot : ∀ (d2 : List Char) (f : Nat) (pre rest : List Char)
    (n sp : Nat) (out : List Char), (∀ x ∈ d2, x.isDigit = true) →
    (∀ x ∈ rest, is_space x = false) →
    read_number_loop f (at_split pre (d2 ++ '.' :: rest) n) sp 1 out = .error .out_of_fuel := by
  intro d2
  induction d2 with
  | nil =>
    intro f pre rest n sp out _ hrest
    exact read_number_loop_second_dot f pre rest n sp out hrest
  | cons x xs ih =>
    intro f pre rest n sp out hd hrest
    cases f with
    | zero => rfl
    | succ g =>
      have hx : x.isDigit = true := hd x (List.mem_cons_self _ _)
      have hnd : ¬ x = '.' := by
        intro h0; rw [h0] at hx; exact absurd hx (by decide)
      have hnext : is_number_char ((xs ++ '.' :: rest).headD NUL) = true := by
        cases xs with
        | nil => show is_number_char '.' = true; decide
        | cons y ys =>
          have hy : y.isDigit = true := hd y (by simp)
          simp [is_number_char, hy]
      rw [List.cons_append, read_number_loop_at_split_step g pre x _ n sp 1 out
        (by simp [is_number_char, hx]) (by rw [if_neg hnd]; omega)
        (ne_nul_of_number_char _ hnext), if_neg hnd]
      exact ih g _ rest n sp _ (fun y hy => hd y (List.mem_cons_of_mem _ hy)) hrest

theorem read_number_loop_before_dot : ∀ (d1 : List Char) (f : Nat) (pre d2 rest : List Char)
    (n sp : Nat) (out : List Char), (∀ x ∈ d1, x.isDigit = true) →
    (∀ x ∈ d2, x.isDigit = true) → (∀ x ∈ rest, is_space x = false) →
    read_number_loop f (at_split pre (d1 ++ '.' :: (d2 ++ '.' :: rest)) n) sp 0 out =
      .error .out_of_fuel := by
  intro d1
  induction d1 with
  | nil =>
    intro f pre d2 rest n sp out _ hd2 hrest
    cases f with
    | zero => rfl
    | succ g =>
      have hnext : is_number_char ((d2 ++ '.' :: rest).headD NUL) = true := by
        cases d2 with
        | nil => show is_number_char '.' = true; decide
        | cons y ys =>
          have hy : y.isDigit = true := hd2 y (by simp)
          simp [is_number_char, hy]
      rw [List.nil_append, read_number_loop_at_split_step g pre '.' _ n sp 0 out
        (by decide) (by decide) (ne_nul_of_number_char _ hnext)]
      exact read_number_loop_after_dot d2 g _ rest n sp _ hd2 hrest
  | cons x xs ih =>
    intro f pre d2 rest n sp out hd hd2 hrest
    cases f with
    | zero => rfl
    | succ g =>
      have hx : x.isDigit = true := hd x (List.mem_cons_self _ _)
      have hnd : ¬ x = '.' := by
        intro h0; rw [h0] at hx; exact absurd hx (by decide)
      have hnext : is_number_char ((xs ++ '.' :: (d2 ++ '.' :: rest)).headD NUL) = true := by
        cases xs with
        | nil => show is_number_char '.' = true; decide
        | cons y ys =>
          have hy : y.isDigit = true := hd y (by simp)
          simp [is_number_char, hy]
      rw [List.cons_append, read_number_loop_at_split_step g pre x _ n sp 0 out
        (by simp [is_number_char, hx]) (by rw [if_neg hnd]; omega)
        (ne_nul_of_number_char _ hnext), if_neg hnd]
      exact ih g _ d2 rest n sp _ (fun y hy => hd y (List.mem_cons_of_mem _ hy)) hd2 hrest

theorem skip_whitespace_blanks : ∀ (ws : List Char) (f : Nat) (pre rest : List Char) (n : Nat),
    (∀ x ∈ ws, is_space x = true) → is_space (rest.headD NUL) = false → ws.length + 1 ≤ f →
    ∃ m, skip_whitespace f (at_split pre (ws ++ rest) n) = .ok (at_split (pre ++ ws) rest m) := by
  intro ws
  induction ws with
  | nil =>
    intro f pre rest n _ hrest hf
    obtain ⟨g, rfl⟩ : ∃ g, f = g + 1 := ⟨f - 1, by simp at hf; omega⟩
    refine ⟨n, ?_⟩
    rw [List.nil_append, List.append_nil]
    exact skip_whitespace_at_split_stop g pre rest n hrest
  | cons x xs ih =>
    intro f pre rest n hws hrest hf
    obtain ⟨g, rfl⟩ : ∃ g, f = g + 1 := ⟨f - 1, by simp at hf; omega⟩
    have hx : is_space x = true := hws x (List.mem_cons_self _ _)
    have hcur : (at_split pre (x :: (xs ++ rest)) n).current_char = x := by
      rw [at_split_current]; rfl
    rw [List.cons_append, skip_whitespace, hcur, if_pos hx]
    by_cases hnl : x = '\n'
    · subst hnl
      obtain ⟨m, hm⟩ := ih g (pre ++ ['\n']) rest (n + 1)
        (fun y hy => hws y (List.mem_cons_of_mem _ hy)) hrest (by simp at hf; omega)
      refine ⟨m, ?_⟩
      show skip_whitespace g (read_char (at_split pre ('\n' :: (xs ++ rest)) (n + 1))) = _
      rw [read_char_at_split, hm]
      simp
    · obtain ⟨m, hm⟩ := ih g (pre ++ [x]) rest n
        (fun y hy => hws y (List.mem_cons_of_mem _ hy)) hrest (by simp at hf; omega)
      refine ⟨m, ?_⟩
      simp only [hnl, if_false]
      rw [read_char_at_split, hm]
      simp

theorem next_token_switch_of_isDigit (f : Nat) (l : Lexer) (h : l.current_char.isDigit = true) :
    next_token_switch f l = read_number_loop f l l.pos 0 [] := by
  simp only [next_token_switch, next_token_cases_eq_none l (not_case_char_of_isDigit _ h),
    next_token_default, not_alpha_of_isDigit _ h, h, if_true, read_number]
  rfl

end Lexer

/-- C20 (the code at the failing inputs): a lexer that has read `pre` and has
before it blanks `ws`, then digits `d1` (one or more), a `.`, digits `d2`, a
second `.`, and then text `rest` without any blank up to the end of the source:
its next call of `next_token` never returns, whatever the fuel. -/
theorem C20_next_token_never_returns (pre ws d1 d2 rest : List Char) (n : Nat)
    (hws : ∀ x ∈ ws, Lexer.is_space x = true)
    (hd1 : is_decimal_literal d1 = true) (hd2 : ∀ x ∈ d2, x.isDigit = true)
    (hrest : ∀ x ∈ rest, Lexer.is_space x = false) :
    ∀ fuel, Lexer.next_token fuel
        (Lexer.at_split pre (ws ++ (d1 ++ '.' :: (d2 ++ '.' :: rest))) n) =
      .error .out_of_fuel := by
  obtain ⟨c, w, rfl⟩ : ∃ c w, d1 = c :: w := by
    cases d1 with
    | nil => simp [is_decimal_literal] at hd1
    | cons c w => exact ⟨c, w, rfl⟩
  simp only [is_decimal_literal, Bool.and_eq_true, List.all_eq_true] at hd1
  obtain ⟨hc, hw⟩ := hd1
  have hall : ∀ x ∈ c :: w, x.isDigit = true := by
    intro y hy
    rcases List.mem_cons.1 hy with h | h
    · rw [h]; exact hc
    · exact hw y h
  apply Lexer.next_token_never_of_large
  intro N
  refine ⟨N + ws.length + 1, by omega, .out_of_fuel, ?_⟩
  obtain ⟨m, hm⟩ := Lexer.skip_whitespace_blanks ws (N + ws.length + 1) pre
    ((c :: w) ++ '.' :: (d2 ++ '.' :: rest)) n hws
    (by
      show Lexer.is_space c = false
      exact Lexer.not_space_of_isDigit c hc) (by omega)
  rw [Lexer.next_token, hm]
  dsimp only
  rw [Lexer.next_token_switch_of_isDigit _ _ (by
    rw [Lexer.at_split_current]
    exact hc)]
  exact Lexer.read_number_loop_before_dot (c :: w) _ _ d2 rest m _ [] hall hd2 hrest

/-- C20 (failing input): the source `x = 1..`; its first two calls return `x` and
`=`, and leave the state from which the third call never returns. -/
theorem C20_next_token_never_returns_witness :
    Lexer.run 4 2 (Lexer.new "x = 1..".toList) =
      .ok ([⟨.IDENT, ['x'], 1, 1⟩, ⟨.EQ, ['='], 1, 2⟩],
        Lexer.at_split "x =".toList (" ".toList ++ ("1".toList ++ '.' :: ([] ++ '.' :: []))) 1) ∧
    ∀ fuel, Lexer.next_token fuel
        (Lexer.at_split "x =".toList (" ".toList ++ ("1".toList ++ '.' :: ([] ++ '.' :: []))) 1) =
      .error .out_of_fuel :=
  ⟨by decide,
   C20_next_token_never_returns "x =".toList " ".toList "1".toList [] [] 1
     (by decide) (by decide) (by decide) (by decide)⟩

/-- C20 (where the claim holds): an unknown character is returned as an `ILLEGAL`
token, and so is a malformed number that a blank follows. -/
theorem C20_examples :
    Lexer.tokens 8 3 (Lexer.new "@ 7".toList) =
      .ok [⟨.ILLEGAL, ['@'], 1, 0⟩, ⟨.INT, ['7'], 1, 3⟩, ⟨.EOF_, [], 1, 3⟩] ∧
    Lexer.tokens 12 3 (Lexer.new "1..2.x y".toList) =
      .ok [⟨.ILLEGAL, "1..2.x".toList, 1, 6⟩, ⟨.IDENT, ['y'], 1, 8⟩, ⟨.EOF_, [], 1, 8⟩] := by
  decide


/-! ## Statements that start with a keyword -/

namespace Parser

theorem expect_peek_fail (f : Nat) (p : Parser) (type : TokenType)
    (h : p.peek_token.type ≠ type) :
    expect_peek f p type = .ok (false, peek_error p type) := by
  unfold expect_peek peek_token_is
  rw [if_neg (by simpa using h)]

theorem expect_peek_pass (f : Nat) (p p1 : Parser) (type : TokenType)
    (h : p.peek_token.type = type) (hn : next_token f p = .ok p1) :
    expect_peek f p type = .ok (true, p1) := by
  unfold expect_peek peek_token_is
  rw [if_pos (by simpa using h), hn]

end Parser

/-- C12 (as stated, refuted): on `let x = 5;` the program is not empty. After
the diagnostic for the missing `:`, `parse_program` goes on with the token `=`,
and the rest of the malformed statement gives two expression statements and a
second diagnostic. -/
theorem C12_counterexample_let_x_eq_5 :
    parse_source 14 "let x = 5;".toList =
      .ok (⟨[.ExpressionStatement none, .ExpressionStatement (some (.IntegerLiteral 5))]⟩,
        ["expected next token to be COLON, got EQ instead",
         "no prefix parse function for EQ found"]) := by
  decide!

/-- C12 (amended): at a `let` token, when the first of the four mandatory tokens
(identifier, `:`, type name, `=`) that is not the expected one is met at the
state `q` (`p` itself, or `p` after one, two or three calls of `next_token`),
`parse_statement` returns no statement and the state `peek_error q X`, whose
diagnostics are those of `p` followed by the one diagnostic "expected next
token to be X, got Y instead", `Y` being the kind of the token found, which
is still the `peek_token`. Nothing is skipped: from a state where
`parse_statement` returned no statement, `parse_program` makes one call of
`next_token` and goes on parsing statements. -/
theorem C12_malformed_let_is_not_skipped (fuel : Nat) (p : Parser)
    (hlet : p.current_token.type = .LET) :
    (p.peek_token.type ≠ .IDENT →
      Parser.parse_statement (fuel + 1) p = .ok (none, Parser.peek_error p .IDENT) ∧
      (Parser.peek_error p .IDENT).errors = p.errors ++
        ["expected next token to be IDENT, got " ++ token_type_map p.peek_token.type ++
          " instead"] ∧
      (Parser.peek_error p .IDENT).peek_token = p.peek_token) ∧
    (∀ p1, p.peek_token.type = .IDENT → Parser.next_token fuel p = .ok p1 →
      p1.peek_token.type ≠ .COLON →
      Parser.parse_statement (fuel + 1) p = .ok (none, Parser.peek_error p1 .COLON) ∧
      (Parser.peek_error p1 .COLON).errors = p.errors ++
        ["expected next token to be COLON, got " ++ token_type_map p1.peek_token.type ++
          " instead"] ∧
      (Parser.peek_error p1 .COLON).peek_token = p1.peek_token) ∧
    (∀ p1 p2, p.peek_token.type = .IDENT → Parser.next_token fuel p = .ok p1 →
      p1.peek_token.type = .COLON → Parser.next_token fuel p1 = .ok p2 →
      p2.peek_token.type ≠ .TYPE →
      Parser.parse_statement (fuel + 1) p = .ok (none, Parser.peek_error p2 .TYPE) ∧
      (Parser.peek_error p2 .TYPE).errors = p.errors ++
        ["expected next token to be TYPE, got " ++ token_type_map p2.peek_token.type ++
          " instead"] ∧
      (Parser.peek_error p2 .TYPE).peek_token = p2.peek_token) ∧
    (∀ p1 p2 p3, p.peek_token.type = .IDENT → Parser.next_token fuel p = .ok p1 →
      p1.peek_token.type = .COLON → Parser.next_token fuel p1 = .ok p2 →
      p2.peek_token.type = .TYPE → Parser.next_token fuel p2 = .ok p3 →
      p3.peek_token.type ≠ .EQ →
      Parser.parse_statement (fuel + 1) p = .ok (none, Parser.peek_error p3 .EQ) ∧
      (Parser.peek_error p3 .EQ).errors = p.errors ++
        ["expected next token to be EQ, got " ++ token_type_map p3.peek_token.type ++
          " instead"] ∧
      (Parser.peek_error p3 .EQ).peek_token = p3.peek_token) ∧
    (∀ q statements, Parser.parse_statement (fuel + 1) p = .ok (none, q) →
      Parser.parse_program_loop (fuel + 2) statements p =
        (Parser.next_token (fuel + 1) q).bind
          (Parser.parse_program_loop (fuel + 1) statements)) := by
  have hdispatch : Parser.parse_statement (fuel + 1) p = Parser.parse_let_statement fuel p :=
    Parser.parse_statement_let fuel p hlet
  rw [hdispatch]
  have hI : "expected next token to be " ++ token_type_map .IDENT ++ ", got " =
      "expected next token to be IDENT, got " := by decide
  have hC : "expected next token to be " ++ token_type_map .COLON ++ ", got " =
      "expected next token to be COLON, got " := by decide
  have hT : "expected next token to be " ++ token_type_map .TYPE ++ ", got " =
      "expected next token to be TYPE, got " := by decide
  have hE : "expected next token to be " ++ token_type_map .EQ ++ ", got " =
      "expected next token to be EQ, got " := by decide
  refine ⟨?_, ?_, ?_, ?_, ?_⟩
  · intro h0
    refine ⟨?_, ?_, rfl⟩
    · unfold Parser.parse_let_statement
      rw [Parser.expect_peek_fail fuel p .IDENT h0]
      rfl
    · rw [Parser.peek_error_errors, hI]
  · intro p1 h0 n0 h1
    refine ⟨?_, ?_, rfl⟩
    · unfold Parser.parse_let_statement
      rw [Parser.expect_peek_pass fuel p p1 .IDENT h0 n0]
      simp only [bind, Except.bind, Parser.expect_peek_fail fuel p1 .COLON h1]
      rfl
    · rw [Parser.peek_error_errors, hC, Parser.next_token_errors fuel p p1 n0]
  · intro p1 p2 h0 n0 h1 n1 h2
    refine ⟨?_, ?_, rfl⟩
    · unfold Parser.parse_let_statement
      rw [Parser.expect_peek_pass fuel p p1 .IDENT h0 n0]
      simp only [bind, Except.bind, Parser.expect_peek_pass fuel p1 p2 .COLON h1 n1,
        Parser.expect_peek_fail fuel p2 .TYPE h2]
      rfl
    · rw [Parser.peek_error_errors, hT, Parser.next_token_errors fuel p1 p2 n1,
        Parser.next_token_errors fuel p p1 n0]
  · intro p1 p2 p3 h0 n0 h1 n1 h2 n2 h3
    refine ⟨?_, ?_, rfl⟩
    · unfold Parser.parse_let_statement
      rw [Parser.expect_peek_pass fuel p p1 .IDENT h0 n0]
      simp only [bind, Except.bind, Parser.expect_peek_pass fuel p1 p2 .COLON h1 n1,
        Parser.expect_peek_pass fuel p2 p3 .TYPE h2 n2, Parser.expect_peek_fail fuel p3 .EQ h3]
      rfl
    · rw [Parser.peek_error_errors, hE, Parser.next_token_errors fuel p2 p3 n2,
        Parser.next_token_errors fuel p1 p2 n1, Parser.next_token_errors fuel p p1 n0]
  · intro q statements hq
    rw [Parser.parse_program_loop_step (fuel + 1) statements p (by rw [hlet]; decide),
      hdispatch, hq]
    rfl

/-- C12 (witness): the parser on `let x = 5;`, at the token `let`; the token `x`
is accepted, the `=` found in place of `:` stays the `peek_token`, and the one
diagnostic is "expected next token to be COLON, got EQ instead". -/
theorem C12_malformed_let_is_not_skipped_witness :
    Parser.new 10 (Lexer.new "let x = 5;".toList) =
      .ok { lexer := Lexer.state_at "let x = 5;".toList 5 1, errors := [],
            current_token := ⟨.LET, "let".toList, 1, 3⟩,
            peek_token := ⟨.IDENT, ['x'], 1, 5⟩ } ∧
    Parser.parse_statement 11
        { lexer := Lexer.state_at "let x = 5;".toList 5 1, errors := [],
          current_token := ⟨.LET, "let".toList, 1, 3⟩,
          peek_token := ⟨.IDENT, ['x'], 1, 5⟩ } =
      .ok (none,
        { lexer := Lexer.state_at "let x = 5;".toList 7 1,
          errors := ["expected next token to be COLON, got EQ instead"],
          current_token := ⟨.IDENT, ['x'], 1, 5⟩,
          peek_token := ⟨.EQ, ['='], 1, 6⟩ }) := by
  have h := (C12_malformed_let_is_not_skipped 10
      { lexer := Lexer.state_at "let x = 5;".toList 5 1, errors := [],
        current_token := ⟨.LET, "let".toList, 1, 3⟩,
        peek_token := ⟨.IDENT, ['x'], 1, 5⟩ } rfl).2.1
      { lexer := Lexer.state_at "let x = 5;".toList 7 1, errors := [],
        current_token := ⟨.IDENT, ['x'], 1, 5⟩,
        peek_token := ⟨.EQ, ['='], 1, 6⟩ } rfl (by decide!) (by decide)
  refine ⟨by decide!, ?_⟩
  rw [h.1]
  decide

/-- C12 (the other three mandatory tokens, evaluated): each time one diagnostic
for the token that is missing, no `LetStatement`, and the tokens after it parsed
as statements of their own. -/
theorem C12_examples :
    parse_source 14 "let 5;".toList =
      .ok (⟨[.ExpressionStatement (some (.IntegerLiteral 5))]⟩,
        ["expected next token to be IDENT, got INT instead"]) ∧
    parse_source 20 "let x: = 5;".toList =
      .ok (⟨[.ExpressionStatement none, .ExpressionStatement (some (.IntegerLiteral 5))]⟩,
        ["expected next token to be TYPE, got EQ instead",
         "no prefix parse function for EQ found"]) ∧
    parse_source 20 "let x: int 5; y".toList =
      .ok (⟨[.ExpressionStatement (some (.IntegerLiteral 5)),
             .ExpressionStatement (some (.IdentifierLiteral ['y']))]⟩,
        ["expected next token to be EQ, got INT instead"]) := by
  decide!


/-! ## Results that do not depend on the fuel -/

theorem returns_of_settles {α : Type} (g : Nat → Except Abort α)
    (hg : ∀ f f1, f ≤ f1 → settles (g f) (g f1)) (r : α) (h : ∃ fuel, g fuel = .ok r) :
    ∃ N, ∀ fuel, N ≤ fuel → g fuel = .ok r := by
  obtain ⟨f, hf⟩ := h
  exact ⟨f, fun fuel hfuel => settles_ok (hg f fuel hfuel) hf⟩

namespace Parser

theorem advances_to_all (p p1 : Parser) (h : advances_to p p1) :
    ∃ N, ∀ fuel, N ≤ fuel → next_token fuel p = .ok p1 :=
  returns_of_settles (fun f => next_token f p) (fun f f1 hf => next_token_settles f f1 hf p) p1 h

theorem expression_at_all (prec : PrecedenceType) (p : Parser) (e : Option Expression)
    (p1 : Parser) (h : expression_at prec p e p1) :
    ∃ N, ∀ fuel, N ≤ fuel → parse_expression fuel prec p = .ok (e, p1) :=
  returns_of_settles (fun f => parse_expression f prec p)
    (fun f f1 hf => parse_expression_settles f f1 hf prec p) (e, p1) h

theorem block_at_all (p : Parser) (ss : List Statement) (p1 : Parser) (h : block_at p ss p1) :
    ∃ N, ∀ fuel, N ≤ fuel → parse_block_statement fuel p = .ok (.BlockStatement ss, p1) :=
  returns_of_settles (fun f => parse_block_statement f p)
    (fun f f1 hf => parse_block_statement_settles f f1 hf p) (.BlockStatement ss, p1) h

theorem advances_to_errors (p p1 : Parser) (h : advances_to p p1) : p1.errors = p.errors := by
  obtain ⟨f, hf⟩ := h
  exact next_token_errors f p p1 hf

theorem advances_to_current (p p1 : Parser) (h : advances_to p p1) :
    p1.current_token = p.peek_token := by
  obtain ⟨f, hf⟩ := h
  unfold next_token at hf
  cases hq : p.lexer.next_token f with
  | error e => rw [hq] at hf; exact Except.noConfusion hf
  | ok r =>
    obtain ⟨t, l⟩ := r
    rw [hq] at hf
    injection hf with hf
    rw [← hf]

theorem reads_of_advance (fuel : Nat) : ∀ (n : Nat) (p : Parser) (ts : List Token)
    (p1 : Parser), advance fuel n p = .ok (ts, p1) → reads p ts p1 := by
  intro n
  induction n with
  | zero =>
    intro p ts p1 h
    simp only [advance, Except.ok.injEq, Prod.mk.injEq] at h
    rw [← h.1, ← h.2]
    rfl
  | succ k ih =>
    intro p ts p1 h
    rw [advance] at h
    cases hq : next_token fuel p with
    | error e => rw [hq] at h; exact Except.noConfusion h
    | ok p2 =>
      rw [hq] at h
      dsimp only at h
      cases hr : advance fuel k p2 with
      | error e => rw [hr] at h; exact Except.noConfusion h
      | ok v =>
        obtain ⟨ts1, p3⟩ := v
        rw [hr] at h
        simp only [Except.ok.injEq, Prod.mk.injEq] at h
        rw [← h.1, ← h.2]
        exact ⟨rfl, p2, ⟨fuel, hq⟩, ih p2 ts1 p3 hr⟩

theorem reads_errors : ∀ (ts : List Token) (p p1 : Parser), reads p ts p1 →
    p1.errors = p.errors := by
  intro ts
  induction ts with
  | nil => intro p p1 h; rw [show p1 = p from h]
  | cons t ts ih =>
    intro p p1 h
    obtain ⟨_, p2, h2, h3⟩ := h
    rw [ih p2 p1 h3, advances_to_errors p p2 h2]

theorem reads_append : ∀ (ts us : List Token) (p p1 : Parser), reads p (ts ++ us) p1 →
    ∃ q, reads p ts q ∧ reads q us p1 := by
  intro ts
  induction ts with
  | nil => intro us p p1 h; exact ⟨p, rfl, h⟩
  | cons t ts ih =>
    intro us p p1 h
    obtain ⟨ht, p2, h2, h3⟩ := h
    obtain ⟨q, hq1, hq2⟩ := ih us p2 p1 h3
    exact ⟨q, ⟨ht, p2, h2, hq1⟩, hq2⟩

end Parser


namespace Parser

theorem parse_statement_return (f : Nat) (p : Parser) (h : p.current_token.type = .RETURN) :
    parse_statement (f + 1) p = parse_return_statement f p := by
  rw [parse_statement]
  simp [current_token_is, h]

theorem parse_statement_if (f : Nat) (p : Parser) (h : p.current_token.type = .IF) :
    parse_statement (f + 1) p = parse_if_statement f p := by
  rw [parse_statement]
  simp [current_token_is, h]

theorem parse_statement_def (f : Nat) (p : Parser) (h : p.current_token.type = .DEF) :
    parse_statement (f + 1) p = parse_function_statement f p := by
  rw [parse_statement]
  simp [current_token_is, h]

theorem peek_error_semicolon (p : Parser) :
    (peek_error p .SEMICOLON).errors = p.errors ++
      ["expected next token to be SEMICOLON, got " ++ token_type_map p.peek_token.type ++
        " instead"] := by
  have h : "expected next token to be " ++ token_type_map .SEMICOLON ++ ", got " =
      "expected next token to be SEMICOLON, got " := by decide
  simp only [peek_error, h]

end Parser

/-- C19: at a `return` token, when the expression after it parses to `E` without
a diagnostic: if the token after `E` is `;`, `parse_statement` returns the
`ReturnStatement` of `E`, the `;` being consumed, and no diagnostic is recorded;
if it is any other token, `parse_statement` returns no statement and records
exactly one diagnostic, "expected next token to be SEMICOLON, got <kind>
instead", where <kind> names the token found, which is not consumed. -/
theorem C19_return_semicolon_is_mandatory (p p1 p2 : Parser) (E : Option Expression)
    (hret : p.current_token.type = .RETURN)
    (h1 : Parser.advances_to p p1)
    (hE : Parser.expression_at .LOWEST p1 E p2)
    (hclean : p2.errors = p.errors) :
    (∀ p3, p2.peek_token.type = .SEMICOLON → Parser.advances_to p2 p3 →
      (∃ N, ∀ fuel, N ≤ fuel →
        Parser.parse_statement fuel p = .ok (some (.ReturnStatement E), p3)) ∧
      p3.errors = p.errors) ∧
    (p2.peek_token.type ≠ .SEMICOLON →
      (∃ N, ∀ fuel, N ≤ fuel →
        Parser.parse_statement fuel p = .ok (none, Parser.peek_error p2 .SEMICOLON)) ∧
      (Parser.peek_error p2 .SEMICOLON).errors = p.errors ++
        ["expected next token to be SEMICOLON, got " ++ token_type_map p2.peek_token.type ++
          " instead"] ∧
      (Parser.peek_error p2 .SEMICOLON).peek_token = p2.peek_token) := by
  obtain ⟨N1, a1⟩ := Parser.advances_to_all p p1 h1
  obtain ⟨N2, a2⟩ := Parser.expression_at_all _ p1 E p2 hE
  constructor
  · intro p3 hsemi h3
    obtain ⟨N3, a3⟩ := Parser.advances_to_all p2 p3 h3
    refine ⟨⟨N1 + N2 + N3 + 1, fun fuel hf => ?_⟩, ?_⟩
    · obtain ⟨f, rfl⟩ : ∃ f, fuel = f + 1 := ⟨fuel - 1, by omega⟩
      rw [Parser.parse_statement_return f p hret]
      unfold Parser.parse_return_statement
      rw [a1 f (by omega)]
      simp only [bind, Except.bind, a2 f (by omega),
        Parser.expect_peek_pass f p2 p3 .SEMICOLON hsemi (a3 f (by omega))]
      rfl
    · rw [Parser.advances_to_errors p2 p3 h3, hclean]
  · intro hsemi
    refine ⟨⟨N1 + N2 + 1, fun fuel hf => ?_⟩, ?_, rfl⟩
    · obtain ⟨f, rfl⟩ : ∃ f, fuel = f + 1 := ⟨fuel - 1, by omega⟩
      rw [Parser.parse_statement_return f p hret]
      unfold Parser.parse_return_statement
      rw [a1 f (by omega)]
      simp only [bind, Except.bind, a2 f (by omega),
        Parser.expect_peek_fail f p2 .SEMICOLON hsemi]
      rfl
    · rw [Parser.peek_error_semicolon, hclean]

/-- C19 (witness): the parser on `return 1;`, at the token `return`. -/
theorem C19_return_semicolon_is_mandatory_witness :
    Parser.new 10 (Lexer.new "return 1;".toList) =
      .ok ⟨Lexer.state_at "return 1;".toList 8 1, [], ⟨.RETURN, "return".toList, 1, 6⟩,
        ⟨.INT, ['1'], 1, 8⟩⟩ ∧
    (∃ N, ∀ fuel, N ≤ fuel →
      Parser.parse_statement fuel
          ⟨Lexer.state_at "return 1;".toList 8 1, [], ⟨.RETURN, "return".toList, 1, 6⟩,
            ⟨.INT, ['1'], 1, 8⟩⟩ =
        .ok (some (.ReturnStatement (some (.IntegerLiteral 1))),
          ⟨Lexer.state_at "return 1;".toList 10 1, [], ⟨.SEMICOLON, [';'], 1, 8⟩,
            ⟨.EOF_, [], 1, 9⟩⟩)) :=
  by
  have h := C19_return_semicolon_is_mandatory
    ⟨Lexer.state_at "return 1;".toList 8 1, [], ⟨.RETURN, "return".toList, 1, 6⟩,
      ⟨.INT, ['1'], 1, 8⟩⟩
    ⟨Lexer.state_at "return 1;".toList 9 1, [], ⟨.INT, ['1'], 1, 8⟩, ⟨.SEMICOLON, [';'], 1, 8⟩⟩
    ⟨Lexer.state_at "return 1;".toList 9 1, [], ⟨.INT, ['1'], 1, 8⟩, ⟨.SEMICOLON, [';'], 1, 8⟩⟩
    (some (.IntegerLiteral 1)) rfl ⟨10, by decide!⟩ ⟨10, by decide!⟩ rfl
  have h2 := h.1
    ⟨Lexer.state_at "return 1;".toList 10 1, [], ⟨.SEMICOLON, [';'], 1, 8⟩, ⟨.EOF_, [], 1, 9⟩⟩
    rfl ⟨10, by decide!⟩
  exact ⟨by decide!, h2.1⟩

/-- C19 (on source text): `return a + 1;` is a `ReturnStatement`; without the
`;`, at the end of input or before another token, there is no statement and one
diagnostic, and the token found is parsed next. -/
theorem C19_examples :
    parse_source 20 "return a + 1;".toList =
      .ok (⟨[.ReturnStatement (some (.InfixExpression (some (.IdentifierLiteral ['a'])) ['+']
        (some (.IntegerLiteral 1))))]⟩, []) ∧
    parse_source 20 "return a + 1".toList =
      .ok (⟨[]⟩, ["expected next token to be SEMICOLON, got EOF instead"]) ∧
    parse_source 20 "return 1 2".toList =
      .ok (⟨[.ExpressionStatement (some (.IntegerLiteral 2))]⟩,
        ["expected next token to be SEMICOLON, got INT instead"]) := by
  decide!


namespace Parser

theorem parse_statement_assignment (f : Nat) (p : Parser)
    (hc : p.current_token.type = .IDENT) (hp : p.peek_token.type = .EQ) :
    parse_statement (f + 1) p = parse_assignment_statement f p := by
  rw [parse_statement]
  simp [current_token_is, peek_token_is, hc, hp]

theorem parse_statement_expression (f : Nat) (p : Parser)
    (h1 : ¬ (p.current_token.type = .IDENT ∧ p.peek_token.type = .EQ))
    (h2 : p.current_token.type ∉ [TokenType.LET, .DEF, .RETURN, .IF]) :
    parse_statement (f + 1) p = parse_expression_statement f p := by
  rw [parse_statement]
  have hc : (current_token_is p .IDENT && peek_token_is p .EQ) = false := by
    simp only [current_token_is, peek_token_is, Bool.and_eq_false_iff, beq_eq_false_iff_ne]
    by_cases h : p.current_token.type = .IDENT
    · right; exact fun h' => h1 ⟨h, h'⟩
    · left; exact h
  rw [hc]
  simp only [List.mem_cons, List.mem_singleton, List.not_mem_nil, or_false, not_or] at h2
  obtain ⟨a, b, c, d⟩ := h2
  cases ht : p.current_token.type <;> simp_all

end Parser

/-- C18: `parse_statement` at a state `p`. When the current token is an
identifier and the next token is `=`, it returns the `AssignStatement` whose
target is the identifier and whose value is what `parse_expression(LOWEST)`
returns at the token after the `=`; one more token is consumed after the
expression. When this is not so and the current token is none of `let`, `def`,
`return`, `if`, it returns the `ExpressionStatement` of what
`parse_expression(LOWEST)` returns at `p`, and consumes the next token when it
is `;`, and no token otherwise. -/
theorem C18_statement_dispatch (p : Parser) :
    (∀ p1 p2 E p3 p4, p.current_token.type = .IDENT → p.peek_token.type = .EQ →
      Parser.advances_to p p1 → Parser.advances_to p1 p2 →
      Parser.expression_at .LOWEST p2 E p3 → Parser.advances_to p3 p4 →
      ∃ N, ∀ fuel, N ≤ fuel → Parser.parse_statement fuel p =
        .ok (some (.AssignStatement (some (.IdentifierLiteral p.current_token.literal)) E),
          p4)) ∧
    (∀ E p1 p2, ¬ (p.current_token.type = .IDENT ∧ p.peek_token.type = .EQ) →
      p.current_token.type ∉ [TokenType.LET, .DEF, .RETURN, .IF] →
      Parser.expression_at .LOWEST p E p1 →
      p1.peek_token.type = .SEMICOLON → Parser.advances_to p1 p2 →
      ∃ N, ∀ fuel, N ≤ fuel → Parser.parse_statement fuel p =
        .ok (some (.ExpressionStatement E), p2)) ∧
    (∀ E p1, ¬ (p.current_token.type = .IDENT ∧ p.peek_token.type = .EQ) →
      p.current_token.type ∉ [TokenType.LET, .DEF, .RETURN, .IF] →
      Parser.expression_at .LOWEST p E p1 → p1.peek_token.type ≠ .SEMICOLON →
      ∃ N, ∀ fuel, N ≤ fuel → Parser.parse_statement fuel p =
        .ok (some (.ExpressionStatement E), p1)) := by
  refine ⟨?_, ?_, ?_⟩
  · intro p1 p2 E p3 p4 hc hp h1 h2 hE h4
    obtain ⟨N1, a1⟩ := Parser.advances_to_all p p1 h1
    obtain ⟨N2, a2⟩ := Parser.advances_to_all p1 p2 h2
    obtain ⟨N3, a3⟩ := Parser.expression_at_all _ p2 E p3 hE
    obtain ⟨N4, a4⟩ := Parser.advances_to_all p3 p4 h4
    refine ⟨N1 + N2 + N3 + N4 + 1, fun fuel hf => ?_⟩
    obtain ⟨f, rfl⟩ : ∃ f, fuel = f + 1 := ⟨fuel - 1, by omega⟩
    rw [Parser.parse_statement_assignment f p hc hp]
    unfold Parser.parse_assignment_statement
    simp only [bind, Except.bind, a1 f (by omega), a2 f (by omega), a3 f (by omega),
      a4 f (by omega)]
    rfl
  · intro E p1 p2 h1 h2 hE hsemi hn
    obtain ⟨N1, a1⟩ := Parser.expression_at_all _ p E p1 hE
    obtain ⟨N2, a2⟩ := Parser.advances_to_all p1 p2 hn
    refine ⟨N1 + N2 + 1, fun fuel hf => ?_⟩
    obtain ⟨f, rfl⟩ : ∃ f, fuel = f + 1 := ⟨fuel - 1, by omega⟩
    rw [Parser.parse_statement_expression f p h1 h2]
    unfold Parser.parse_expression_statement
    simp only [bind, Except.bind, a1 f (by omega), a2 f (by omega), Parser.peek_token_is, hsemi]
    rfl
  · intro E p1 h1 h2 hE hsemi
    obtain ⟨N1, a1⟩ := Parser.expression_at_all _ p E p1 hE
    refine ⟨N1 + 1, fun fuel hf => ?_⟩
    obtain ⟨f, rfl⟩ : ∃ f, fuel = f + 1 := ⟨fuel - 1, by omega⟩
    rw [Parser.parse_statement_expression f p h1 h2]
    unfold Parser.parse_expression_statement
    have hs : Parser.peek_token_is p1 .SEMICOLON = false := by
      simp [Parser.peek_token_is, hsemi]
    simp only [bind, Except.bind, a1 f (by omega), hs]
    rfl

/-- C18 (witness): the parser on `x = y + 1; z`, at the token `x`: the
assignment of `y + 1` to `x`, which leaves the parser at the `;`. -/
theorem C18_statement_dispatch_witness :
    Parser.new 10 (Lexer.new "x = y + 1; z".toList) =
      .ok ⟨Lexer.state_at "x = y + 1; z".toList 3 1, [], ⟨.IDENT, "x".toList, 1, 1⟩,
        ⟨.EQ, "=".toList, 1, 2⟩⟩ ∧
    ∃ N, ∀ fuel, N ≤ fuel →
      Parser.parse_statement fuel
          ⟨Lexer.state_at "x = y + 1; z".toList 3 1, [], ⟨.IDENT, "x".toList, 1, 1⟩,
            ⟨.EQ, "=".toList, 1, 2⟩⟩ =
        .ok (some (.AssignStatement (some (.IdentifierLiteral "x".toList))
            (some (.InfixExpression (some (.IdentifierLiteral ['y'])) ['+']
              (some (.IntegerLiteral 1))))),
          ⟨Lexer.state_at "x = y + 1; z".toList 12 1, [], ⟨.SEMICOLON, ";".toList, 1, 9⟩,
            ⟨.IDENT, "z".toList, 1, 12⟩⟩) := by
  have h := (C18_statement_dispatch
    ⟨Lexer.state_at "x = y + 1; z".toList 3 1, [], ⟨.IDENT, "x".toList, 1, 1⟩,
      ⟨.EQ, "=".toList, 1, 2⟩⟩).1
    ⟨Lexer.state_at "x = y + 1; z".toList 5 1, [], ⟨.EQ, "=".toList, 1, 2⟩,
      ⟨.IDENT, "y".toList, 1, 5⟩⟩
    ⟨Lexer.state_at "x = y + 1; z".toList 7 1, [], ⟨.IDENT, "y".toList, 1, 5⟩,
      ⟨.PLUS, "+".toList, 1, 6⟩⟩
    (some (.InfixExpression (some (.IdentifierLiteral ['y'])) ['+'] (some (.IntegerLiteral 1))))
    ⟨Lexer.state_at "x = y + 1; z".toList 10 1, [], ⟨.INT, "1".toList, 1, 9⟩,
      ⟨.SEMICOLON, ";".toList, 1, 9⟩⟩
    ⟨Lexer.state_at "x = y + 1; z".toList 12 1, [], ⟨.SEMICOLON, ";".toList, 1, 9⟩,
      ⟨.IDENT, "z".toList, 1, 12⟩⟩
    rfl rfl ⟨10, by decide!⟩ ⟨10, by decide!⟩ ⟨10, by decide!⟩ ⟨10, by decide!⟩
  exact ⟨by decide!, h⟩

/-- C18 (on source text): an assignment followed by an expression statement, an
expression statement with its `;`, and tokens that begin no expression, each an
`ExpressionStatement` of its own. -/
theorem C18_examples :
    parse_source 20 "x = y + 1; z".toList =
      .ok (⟨[.AssignStatement (some (.IdentifierLiteral ['x']))
              (some (.InfixExpression (some (.IdentifierLiteral ['y'])) ['+']
                (some (.IntegerLiteral 1)))),
             .ExpressionStatement (some (.IdentifierLiteral ['z']))]⟩, []) ∧
    parse_source 20 "x + 1; 7".toList =
      .ok (⟨[.ExpressionStatement (some (.InfixExpression (some (.IdentifierLiteral ['x']))
              ['+'] (some (.IntegerLiteral 1)))),
             .ExpressionStatement (some (.IntegerLiteral 7))]⟩, []) ∧
    parse_source 20 "x; ; do".toList =
      .ok (⟨[.ExpressionStatement (some (.IdentifierLiteral ['x'])),
             .ExpressionStatement none, .ExpressionStatement none]⟩,
        ["no prefix parse function for SEMICOLON found",
         "no prefix parse function for DO found"]) := by
  decide!


/-- C14: at an `if` token, when the condition after it parses to `C`, leaving
the state `p2`. If the next token is not `do`, or the token after `do` is not
an opening brace, `parse_statement` returns no statement and the diagnostics
are those recorded so far followed by the one diagnostic "expected next token
to be DO, got <kind> instead", or "... LBRACE ...", where <kind> names the
token found, which is not consumed. Otherwise the block parses to the
statements `S`, leaving `p5`: if the next token is not `else`, the result is
the `IfStatement` of `C` and the block `S`, with an absent alternative; if it is
`else` and the token after it is not an opening brace, there is no statement
and the one diagnostic "expected next token to be LBRACE, got <kind> instead"
is appended; and if it is, and the second block parses to `T`, the result is the
`IfStatement` of `C`, `S` and the alternative `T`. -/
theorem C14_if_statement (p p1 p2 : Parser) (C : Option Expression)
    (hif : p.current_token.type = .IF)
    (h1 : Parser.advances_to p p1)
    (hC : Parser.expression_at .LOWEST p1 C p2) :
    (p2.peek_token.type ≠ .DO →
      (∃ N, ∀ fuel, N ≤ fuel →
        Parser.parse_statement fuel p = .ok (none, Parser.peek_error p2 .DO)) ∧
      (Parser.peek_error p2 .DO).errors = p2.errors ++
        ["expected next token to be DO, got " ++ token_type_map p2.peek_token.type ++
          " instead"] ∧
      (Parser.peek_error p2 .DO).peek_token = p2.peek_token) ∧
    (∀ p3, p2.peek_token.type = .DO → Parser.advances_to p2 p3 →
      p3.peek_token.type ≠ .LBRACE →
      (∃ N, ∀ fuel, N ≤ fuel →
        Parser.parse_statement fuel p = .ok (none, Parser.peek_error p3 .LBRACE)) ∧
      (Parser.peek_error p3 .LBRACE).errors = p2.errors ++
        ["expected next token to be LBRACE, got " ++ token_type_map p3.peek_token.type ++
          " instead"] ∧
      (Parser.peek_error p3 .LBRACE).peek_token = p3.peek_token) ∧
    (∀ p3 p4 S p5, p2.peek_token.type = .DO → Parser.advances_to p2 p3 →
      p3.peek_token.type = .LBRACE → Parser.advances_to p3 p4 →
      Parser.block_at p4 S p5 → p5.peek_token.type ≠ .ELSE →
      ∃ N, ∀ fuel, N ≤ fuel →
        Parser.parse_statement fuel p =
          .ok (some (.IfStatement C (some (.BlockStatement S)) none), p5)) ∧
    (∀ p3 p4 S p5 p6, p2.peek_token.type = .DO → Parser.advances_to p2 p3 →
      p3.peek_token.type = .LBRACE → Parser.advances_to p3 p4 →
      Parser.block_at p4 S p5 → p5.peek_token.type = .ELSE → Parser.advances_to p5 p6 →
      p6.peek_token.type ≠ .LBRACE →
      (∃ N, ∀ fuel, N ≤ fuel →
        Parser.parse_statement fuel p = .ok (none, Parser.peek_error p6 .LBRACE)) ∧
      (Parser.peek_error p6 .LBRACE).errors = p5.errors ++
        ["expected next token to be LBRACE, got " ++ token_type_map p6.peek_token.type ++
          " instead"] ∧
      (Parser.peek_error p6 .LBRACE).peek_token = p6.peek_token) ∧
    (∀ p3 p4 S p5 p6 p7 T p8, p2.peek_token.type = .DO → Parser.advances_to p2 p3 →
      p3.peek_token.type = .LBRACE → Parser.advances_to p3 p4 →
      Parser.block_at p4 S p5 → p5.peek_token.type = .ELSE → Parser.advances_to p5 p6 →
      p6.peek_token.type = .LBRACE → Parser.advances_to p6 p7 →
      Parser.block_at p7 T p8 →
      ∃ N, ∀ fuel, N ≤ fuel →
        Parser.parse_statement fuel p =
          .ok (some (.IfStatement C (some (.BlockStatement S)) (some (.BlockStatement T))),
            p8)) := by
  obtain ⟨N1, a1⟩ := Parser.advances_to_all p p1 h1
  obtain ⟨N2, a2⟩ := Parser.expression_at_all _ p1 C p2 hC
  have hD : "expected next token to be " ++ token_type_map .DO ++ ", got " =
      "expected next token to be DO, got " := by decide
  have hL : "expected next token to be " ++ token_type_map .LBRACE ++ ", got " =
      "expected next token to be LBRACE, got " := by decide
  refine ⟨?_, ?_, ?_, ?_, ?_⟩
  · intro hdo
    refine ⟨⟨N1 + N2 + 2, fun fuel hf => ?_⟩, by rw [Parser.peek_error_errors, hD], rfl⟩
    obtain ⟨f, rfl⟩ : ∃ f, fuel = f + 2 := ⟨fuel - 2, by omega⟩
    rw [Parser.parse_statement_if (f + 1) p hif, Parser.parse_if_statement]
    simp only [bind, Except.bind, a1 f (by omega), a2 f (by omega),
      Parser.expect_peek_fail f p2 .DO hdo]
    rfl
  · intro p3 hdo h3 hlb
    obtain ⟨N3, a3⟩ := Parser.advances_to_all p2 p3 h3
    refine ⟨⟨N1 + N2 + N3 + 2, fun fuel hf => ?_⟩,
      by rw [Parser.peek_error_errors, hL, Parser.advances_to_errors p2 p3 h3], rfl⟩
    obtain ⟨f, rfl⟩ : ∃ f, fuel = f + 2 := ⟨fuel - 2, by omega⟩
    rw [Parser.parse_statement_if (f + 1) p hif, Parser.parse_if_statement]
    simp only [bind, Except.bind, a1 f (by omega), a2 f (by omega),
      Parser.expect_peek_pass f p2 p3 .DO hdo (a3 f (by omega)),
      Parser.expect_peek_fail f p3 .LBRACE hlb]
    rfl
  · intro p3 p4 S p5 hdo h3 hlb h4 hS helse
    obtain ⟨N3, a3⟩ := Parser.advances_to_all p2 p3 h3
    obtain ⟨N4, a4⟩ := Parser.advances_to_all p3 p4 h4
    obtain ⟨N5, a5⟩ := Parser.block_at_all p4 S p5 hS
    refine ⟨N1 + N2 + N3 + N4 + N5 + 2, fun fuel hf => ?_⟩
    obtain ⟨f, rfl⟩ : ∃ f, fuel = f + 2 := ⟨fuel - 2, by omega⟩
    have he : Parser.peek_token_is p5 .ELSE = false := by
      simp [Parser.peek_token_is, helse]
    rw [Parser.parse_statement_if (f + 1) p hif, Parser.parse_if_statement]
    simp only [bind, Except.bind, a1 f (by omega), a2 f (by omega),
      Parser.expect_peek_pass f p2 p3 .DO hdo (a3 f (by omega)),
      Parser.expect_peek_pass f p3 p4 .LBRACE hlb (a4 f (by omega)), a5 f (by omega), he]
    rfl
  · intro p3 p4 S p5 p6 hdo h3 hlb h4 hS helse h6 hlb2
    obtain ⟨N3, a3⟩ := Parser.advances_to_all p2 p3 h3
    obtain ⟨N4, a4⟩ := Parser.advances_to_all p3 p4 h4
    obtain ⟨N5, a5⟩ := Parser.block_at_all p4 S p5 hS
    obtain ⟨N6, a6⟩ := Parser.advances_to_all p5 p6 h6
    refine ⟨⟨N1 + N2 + N3 + N4 + N5 + N6 + 2, fun fuel hf => ?_⟩,
      by rw [Parser.peek_error_errors, hL, Parser.advances_to_errors p5 p6 h6], rfl⟩
    obtain ⟨f, rfl⟩ : ∃ f, fuel = f + 2 := ⟨fuel - 2, by omega⟩
    have he : Parser.peek_token_is p5 .ELSE = true := by
      simp [Parser.peek_token_is, helse]
    rw [Parser.parse_statement_if (f + 1) p hif, Parser.parse_if_statement]
    simp only [bind, Except.bind, a1 f (by omega), a2 f (by omega),
      Parser.expect_peek_pass f p2 p3 .DO hdo (a3 f (by omega)),
      Parser.expect_peek_pass f p3 p4 .LBRACE hlb (a4 f (by omega)), a5 f (by omega), he,
      a6 f (by omega), Parser.expect_peek_fail f p6 .LBRACE hlb2]
    rfl
  · intro p3 p4 S p5 p6 p7 T p8 hdo h3 hlb h4 hS helse h6 hlb2 h7 hT
    obtain ⟨N3, a3⟩ := Parser.advances_to_all p2 p3 h3
    obtain ⟨N4, a4⟩ := Parser.advances_to_all p3 p4 h4
    obtain ⟨N5, a5⟩ := Parser.block_at_all p4 S p5 hS
    obtain ⟨N6, a6⟩ := Parser.advances_to_all p5 p6 h6
    obtain ⟨N7, a7⟩ := Parser.advances_to_all p6 p7 h7
    obtain ⟨N8, a8⟩ := Parser.block_at_all p7 T p8 hT
    refine ⟨N1 + N2 + N3 + N4 + N5 + N6 + N7 + N8 + 2, fun fuel hf => ?_⟩
    obtain ⟨f, rfl⟩ : ∃ f, fuel = f + 2 := ⟨fuel - 2, by omega⟩
    have he : Parser.peek_token_is p5 .ELSE = true := by
      simp [Parser.peek_token_is, helse]
    rw [Parser.parse_statement_if (f + 1) p hif, Parser.parse_if_statement]
    simp only [bind, Except.bind, a1 f (by omega), a2 f (by omega),
      Parser.expect_peek_pass f p2 p3 .DO hdo (a3 f (by omega)),
      Parser.expect_peek_pass f p3 p4 .LBRACE hlb (a4 f (by omega)), a5 f (by omega), he,
      a6 f (by omega), Parser.expect_peek_pass f p6 p7 .LBRACE hlb2 (a7 f (by omega)),
      a8 f (by omega)]
    rfl

/-- C14 (witness): the parser on `if a < 1 do { b; } else { c; }`, at the token
`if`, which gives the `IfStatement` with both blocks; and the parser on
`if a do b`, at the token `if`, which gives no statement and the one diagnostic
"expected next token to be LBRACE, got IDENT instead", the token `b` not being
consumed. -/
theorem C14_if_statement_witness :
    (Parser.new 10 (Lexer.new "if a < 1 do \x7b b; \x7d else \x7b c; \x7d".toList) =
      .ok ⟨Lexer.state_at "if a < 1 do \x7b b; \x7d else \x7b c; \x7d".toList 4 1, [],
        ⟨.IF, "if".toList, 1, 2⟩, ⟨.IDENT, "a".toList, 1, 4⟩⟩ ∧
    ∃ N, ∀ fuel, N ≤ fuel →
      Parser.parse_statement fuel
          ⟨Lexer.state_at "if a < 1 do \x7b b; \x7d else \x7b c; \x7d".toList 4 1, [],
            ⟨.IF, "if".toList, 1, 2⟩, ⟨.IDENT, "a".toList, 1, 4⟩⟩ =
        .ok (some (.IfStatement
            (some (.InfixExpression (some (.IdentifierLiteral ['a'])) ['<']
              (some (.IntegerLiteral 1))))
            (some (.BlockStatement [.ExpressionStatement (some (.IdentifierLiteral ['b']))]))
            (some (.BlockStatement [.ExpressionStatement (some (.IdentifierLiteral ['c']))]))),
          ⟨Lexer.state_at "if a < 1 do \x7b b; \x7d else \x7b c; \x7d".toList 31 1, [],
            ⟨.RBRACE, "\x7d".toList, 1, 29⟩, ⟨.EOF_, "".toList, 1, 30⟩⟩)) ∧
    (Parser.new 10 (Lexer.new "if a do b".toList) =
      .ok ⟨Lexer.state_at "if a do b".toList 4 1, [],
        ⟨.IF, "if".toList, 1, 2⟩, ⟨.IDENT, "a".toList, 1, 4⟩⟩ ∧
    ∃ N, ∀ fuel, N ≤ fuel →
      Parser.parse_statement fuel
          ⟨Lexer.state_at "if a do b".toList 4 1, [],
            ⟨.IF, "if".toList, 1, 2⟩, ⟨.IDENT, "a".toList, 1, 4⟩⟩ =
        .ok (none,
          ⟨Lexer.state_at "if a do b".toList 9 1,
            ["expected next token to be LBRACE, got IDENT instead"],
            ⟨.DO, "do".toList, 1, 7⟩, ⟨.IDENT, "b".toList, 1, 9⟩⟩)) := by
  have hfail := (C14_if_statement
    ⟨Lexer.state_at "if a do b".toList 4 1, [],
      ⟨.IF, "if".toList, 1, 2⟩, ⟨.IDENT, "a".toList, 1, 4⟩⟩
    ⟨Lexer.state_at "if a do b".toList 7 1, [],
      ⟨.IDENT, "a".toList, 1, 4⟩, ⟨.DO, "do".toList, 1, 7⟩⟩
    ⟨Lexer.state_at "if a do b".toList 7 1, [],
      ⟨.IDENT, "a".toList, 1, 4⟩, ⟨.DO, "do".toList, 1, 7⟩⟩
    (some (.IdentifierLiteral ['a']))
    rfl ⟨10, by decide!⟩ ⟨10, by decide!⟩).2.1
    ⟨Lexer.state_at "if a do b".toList 9 1, [],
      ⟨.DO, "do".toList, 1, 7⟩, ⟨.IDENT, "b".toList, 1, 9⟩⟩
    rfl ⟨10, by decide!⟩ (by decide)
  have hstate : Parser.peek_error
      ⟨Lexer.state_at "if a do b".toList 9 1, [],
        ⟨.DO, "do".toList, 1, 7⟩, ⟨.IDENT, "b".toList, 1, 9⟩⟩ .LBRACE =
      ⟨Lexer.state_at "if a do b".toList 9 1,
        ["expected next token to be LBRACE, got IDENT instead"],
        ⟨.DO, "do".toList, 1, 7⟩, ⟨.IDENT, "b".toList, 1, 9⟩⟩ := by decide
  rw [hstate] at hfail
  refine ⟨?_, by decide!, hfail.1⟩
  have h := (C14_if_statement
    ⟨Lexer.state_at "if a < 1 do \x7b b; \x7d else \x7b c; \x7d".toList 4 1, [],
      ⟨.IF, "if".toList, 1, 2⟩, ⟨.IDENT, "a".toList, 1, 4⟩⟩
    ⟨Lexer.state_at "if a < 1 do \x7b b; \x7d else \x7b c; \x7d".toList 6 1, [],
      ⟨.IDENT, "a".toList, 1, 4⟩, ⟨.LT, "<".toList, 1, 5⟩⟩
    ⟨Lexer.state_at "if a < 1 do \x7b b; \x7d else \x7b c; \x7d".toList 11 1, [],
      ⟨.INT, "1".toList, 1, 8⟩, ⟨.DO, "do".toList, 1, 11⟩⟩
    (some (.InfixExpression (some (.IdentifierLiteral ['a'])) ['<'] (some (.IntegerLiteral 1))))
    rfl ⟨10, by decide!⟩ ⟨10, by decide!⟩).2.2.2.2
    ⟨Lexer.state_at "if a < 1 do \x7b b; \x7d else \x7b c; \x7d".toList 13 1, [],
      ⟨.DO, "do".toList, 1, 11⟩, ⟨.LBRACE, "\x7b".toList, 1, 12⟩⟩
    ⟨Lexer.state_at "if a < 1 do \x7b b; \x7d else \x7b c; \x7d".toList 15 1, [],
      ⟨.LBRACE, "\x7b".toList, 1, 12⟩, ⟨.IDENT, "b".toList, 1, 15⟩⟩
    [.ExpressionStatement (some (.IdentifierLiteral ['b']))]
    ⟨Lexer.state_at "if a < 1 do \x7b b; \x7d else \x7b c; \x7d".toList 23 1, [],
      ⟨.RBRACE, "\x7d".toList, 1, 17⟩, ⟨.ELSE, "else".toList, 1, 23⟩⟩
    ⟨Lexer.state_at "if a < 1 do \x7b b; \x7d else \x7b c; \x7d".toList 25 1, [],
      ⟨.ELSE, "else".toList, 1, 23⟩, ⟨.LBRACE, "\x7b".toList, 1, 24⟩⟩
    ⟨Lexer.state_at "if a < 1 do \x7b b; \x7d else \x7b c; \x7d".toList 27 1, [],
      ⟨.LBRACE, "\x7b".toList, 1, 24⟩, ⟨.IDENT, "c".toList, 1, 27⟩⟩
    [.ExpressionStatement (some (.IdentifierLiteral ['c']))]
    ⟨Lexer.state_at "if a < 1 do \x7b b; \x7d else \x7b c; \x7d".toList 31 1, [],
      ⟨.RBRACE, "\x7d".toList, 1, 29⟩, ⟨.EOF_, "".toList, 1, 30⟩⟩
    rfl ⟨10, by decide!⟩ rfl ⟨10, by decide!⟩ ⟨10, by decide!⟩ rfl ⟨10, by decide!⟩ rfl
    ⟨10, by decide!⟩ ⟨10, by decide!⟩
  exact ⟨by decide!, h⟩

/-- C14 (on source text): an `if` without `else`, and the three places where an
expected token is missing; the tokens after the missing one are parsed as
statements of their own. -/
theorem C14_examples :
    parse_source 40 "if a < 1 do \x7b b; \x7d".toList =
      .ok (⟨[.IfStatement
              (some (.InfixExpression (some (.IdentifierLiteral ['a'])) ['<']
                (some (.IntegerLiteral 1))))
              (some (.BlockStatement [.ExpressionStatement (some (.IdentifierLiteral ['b']))]))
              none]⟩, []) ∧
    parse_source 40 "if a < 1 \x7b b; \x7d".toList =
      .ok (⟨[.ExpressionStatement none, .ExpressionStatement (some (.IdentifierLiteral ['b'])),
             .ExpressionStatement none]⟩,
        ["expected next token to be DO, got LBRACE instead",
         "no prefix parse function for LBRACE found",
         "no prefix parse function for RBRACE found"]) ∧
    parse_source 40 "if a do b".toList =
      .ok (⟨[.ExpressionStatement (some (.IdentifierLiteral ['b']))]⟩,
        ["expected next token to be LBRACE, got IDENT instead"]) ∧
    parse_source 40 "if a do \x7b b; \x7d else c".toList =
      .ok (⟨[.ExpressionStatement (some (.IdentifierLiteral ['c']))]⟩,
        ["expected next token to be LBRACE, got IDENT instead"]) := by
  decide!


/-- C16: the callee of a `CallExpression` need not be an identifier. The sources
`1(2)`, `true()`, `f(1)(2)` and `(a + b)(c)` parse without a diagnostic to a
`CallExpression` whose callee is an integer literal, a boolean literal, a call
expression and an infix expression: `parse_call_expression` casts whatever
expression stands left of the `(` to `IdentifierLiteral*` without a check. -/
theorem C16_callee_need_not_be_identifier :
    parse_source 20 "1(2)".toList =
      .ok (⟨[.ExpressionStatement (some (.CallExpression (some (.IntegerLiteral 1))
              [some (.IntegerLiteral 2)]))]⟩, []) ∧
    parse_source 20 "true()".toList =
      .ok (⟨[.ExpressionStatement (some (.CallExpression (some (.BooleanLiteral true))
              []))]⟩, []) ∧
    parse_source 20 "f(1)(2)".toList =
      .ok (⟨[.ExpressionStatement (some (.CallExpression
              (some (.CallExpression (some (.IdentifierLiteral ['f']))
                [some (.IntegerLiteral 1)]))
              [some (.IntegerLiteral 2)]))]⟩, []) ∧
    parse_source 20 "(a + b)(c)".toList =
      .ok (⟨[.ExpressionStatement (some (.CallExpression
              (some (.InfixExpression (some (.IdentifierLiteral ['a'])) ['+']
                (some (.IdentifierLiteral ['b']))))
              [some (.IdentifierLiteral ['c'])]))]⟩, []) := by
  decide!


/-! ## Grouped expressions -/

namespace Parser

theorem parse_expression_grouped (f : Nat) (prec : PrecedenceType) (p : Parser)
    (h : p.current_token.type = .LPAREN) :
    parse_expression (f + 1) prec p =
      (do
        let (left, p1) ← parse_grouped_expression f p
        parse_expression_loop f prec left p1) := by
  rw [parse_expression, h]
  rfl

theorem stop_at_rparen (prec : PrecedenceType) (t : Token) (h : t.type = .RPAREN) :
    t.type = .SEMICOLON ∨ ¬ prec.toNat < (token_precedence t.type).toNat := by
  right
  rw [h]
  simp [token_precedence, precedence_map, PrecedenceType.toNat]

theorem peek_error_rparen (p : Parser) :
    (peek_error p .RPAREN).errors = p.errors ++
      ["expected next token to be RPAREN, got " ++ token_type_map p.peek_token.type ++
        " instead"] := by
  have h : "expected next token to be " ++ token_type_map .RPAREN ++ ", got " =
      "expected next token to be RPAREN, got " := by decide
  simp only [peek_error, h]

theorem parse_grouped_expression_pass (p p1 p2 p3 : Parser) (E : Option Expression)
    (h1 : advances_to p p1) (hE : expression_at .LOWEST p1 E p2)
    (hr : p2.peek_token.type = .RPAREN) (h3 : advances_to p2 p3) :
    ∃ N, ∀ fuel, N ≤ fuel → parse_grouped_expression fuel p = .ok (E, p3) := by
  obtain ⟨N1, a1⟩ := advances_to_all p p1 h1
  obtain ⟨N2, a2⟩ := expression_at_all _ p1 E p2 hE
  obtain ⟨N3, a3⟩ := advances_to_all p2 p3 h3
  refine ⟨N1 + N2 + N3 + 1, fun fuel hf => ?_⟩
  obtain ⟨f, rfl⟩ : ∃ f, fuel = f + 1 := ⟨fuel - 1, by omega⟩
  rw [parse_grouped_expression]
  simp only [bind, Except.bind, a1 f (by omega), a2 f (by omega),
    expect_peek_pass f p2 p3 .RPAREN hr (a3 f (by omega))]
  rfl

theorem parse_grouped_expression_fail (p p1 p2 : Parser) (E : Option Expression)
    (h1 : advances_to p p1) (hE : expression_at .LOWEST p1 E p2)
    (hr : p2.peek_token.type ≠ .RPAREN) :
    ∃ N, ∀ fuel, N ≤ fuel →
      parse_grouped_expression fuel p = .ok (none, peek_error p2 .RPAREN) := by
  obtain ⟨N1, a1⟩ := advances_to_all p p1 h1
  obtain ⟨N2, a2⟩ := expression_at_all _ p1 E p2 hE
  refine ⟨N1 + N2 + 1, fun fuel hf => ?_⟩
  obtain ⟨f, rfl⟩ : ∃ f, fuel = f + 1 := ⟨fuel - 1, by omega⟩
  rw [parse_grouped_expression]
  simp only [bind, Except.bind, a1 f (by omega), a2 f (by omega),
    expect_peek_fail f p2 .RPAREN hr]
  rfl

/-- The source `(a op1 b) op2 c`, as tokens. -/
theorem parse_lexer_group_left
    (l0 l' : Lexer) (tlp ta top1 tb trp top2 tc te1 te2 : Token) (a b c : Expression)
    (hlex : Lexer.yields l0 [tlp, ta, top1, tb, trp, top2, tc, te1, te2] l')
    (hlp : tlp.type = .LPAREN) (hrp : trp.type = .RPAREN)
    (ha : atom_expression ta = some a) (hb : atom_expression tb = some b)
    (hc : atom_expression tc = some c)
    (hop1 : is_binary_operator top1.type = true) (hop2 : is_binary_operator top2.type = true)
    (he1 : te1.type = .EOF_) :
    ∃ N, ∀ fuel, N ≤ fuel →
      parse_lexer fuel l0 = .ok (⟨[.ExpressionStatement (some (.InfixExpression
        (some (.InfixExpression (some a) top1.literal (some b))) top2.literal (some c)))]⟩,
        []) := by
  obtain ⟨F, hF⟩ := Lexer.yields_with_of_yields _ _ _ hlex
  obtain ⟨l1, h1, l2, h2, l3, h3, l4, h4, l5, h5, l6, h6, l7, h7, l8, h8, l9, h9, -⟩ := hF
  refine ⟨F + 12, fun fuel hf => ?_⟩
  obtain ⟨m, rfl⟩ : ∃ m, fuel = (F + m) + 12 := ⟨fuel - F - 12, by omega⟩
  have hgroup : parse_grouped_expression (F + m + 9)
      { lexer := l2, errors := [], current_token := tlp, peek_token := ta } =
      .ok (some (.InfixExpression (some a) top1.literal (some b)),
        { lexer := l6, errors := [], current_token := trp, peek_token := top2 }) := by
    rw [parse_grouped_expression]
    simp only [bind, Except.bind,
      next_token_of_lexer F _ _ _ _ h3 (show F ≤ F + m + 8 by omega)]
    rw [parse_expression_atom _ _ _ a ha]
    rw [ parse_expression_loop_infix _ _ _ _ hop1 (precedence_pos_of_binary _ hop1)]
    simp only [bind, Except.bind,
      next_token_of_lexer F _ _ _ _ h4 (show F ≤ F + m + 6 by omega)]
    rw [parse_infix_expression_atom F (F + m + 3) (by omega) l4 l5 [] top1 tb trp _ b h5 hb
      (stop_at_rparen _ _ hrp)]
    simp only []
    rw [parse_expression_loop_stop _ _ _ _ (stop_at_rparen _ trp hrp)]
    simp only []
    rw [expect_peek_of_lexer F _ _ _ _ h6 (show F ≤ F + m + 8 by omega) _ _ _ _ hrp]
    rfl
  have hexpr : parse_expression (F + m + 10) .LOWEST
      { lexer := l2, errors := [], current_token := tlp, peek_token := ta } =
      .ok (some (.InfixExpression (some (.InfixExpression (some a) top1.literal (some b)))
          top2.literal (some c)),
        { lexer := l8, errors := [], current_token := tc, peek_token := te1 }) := by
    rw [parse_expression_grouped _ _ _ hlp]
    simp only [bind, Except.bind, hgroup]
    rw [ parse_expression_loop_infix _ _ _ _ hop2 (precedence_pos_of_binary _ hop2)]
    simp only [bind, Except.bind,
      next_token_of_lexer F _ _ _ _ h7 (show F ≤ F + m + 8 by omega)]
    rw [parse_infix_expression_atom F (F + m + 5) (by omega) l7 l8 [] top2 tc te1 _ c h8 hc
      (stop_at_eof _ _ he1)]
    simp only []
    rw [parse_expression_loop_stop _ _ _ _ (stop_at_eof _ te1 he1)]
  simp only [parse_lexer, Parser.new, parse_program, bind, Except.bind,
    next_token_of_lexer F _ _ _ _ h1 (show F ≤ F + m + 12 by omega),
    next_token_of_lexer F _ _ _ _ h2 (show F ≤ F + m + 12 by omega)]
  rw [parse_program_loop_step _ _ _ (by simp [hlp])]
  rw [parse_statement_expression _ _ (by simp [hlp]) (by simp [hlp])]
  rw [parse_expression_statement_eq _ _ _ _ hexpr (by simp [he1])]
  simp only [bind, Except.bind,
    next_token_of_lexer F _ _ _ _ h9 (show F ≤ F + m + 11 by omega)]
  rw [parse_program_loop_stop _ _ _ he1]
  rfl

/-- The source `a op1 (b op2 c)`, as tokens. -/
theorem parse_lexer_group_right
    (l0 l' : Lexer) (ta top1 tlp tb top2 tc trp te1 te2 : Token) (a b c : Expression)
    (hlex : Lexer.yields l0 [ta, top1, tlp, tb, top2, tc, trp, te1, te2] l')
    (hlp : tlp.type = .LPAREN) (hrp : trp.type = .RPAREN)
    (ha : atom_expression ta = some a) (hb : atom_expression tb = some b)
    (hc : atom_expression tc = some c)
    (hop1 : is_binary_operator top1.type = true) (hop2 : is_binary_operator top2.type = true)
    (he1 : te1.type = .EOF_) :
    ∃ N, ∀ fuel, N ≤ fuel →
      parse_lexer fuel l0 = .ok (⟨[.ExpressionStatement (some (.InfixExpression (some a)
        top1.literal (some (.InfixExpression (some b) top2.literal (some c)))))]⟩, []) := by
  obtain ⟨F, hF⟩ := Lexer.yields_with_of_yields _ _ _ hlex
  obtain ⟨l1, h1, l2, h2, l3, h3, l4, h4, l5, h5, l6, h6, l7, h7, l8, h8, l9, h9, -⟩ := hF
  refine ⟨F + 14, fun fuel hf => ?_⟩
  obtain ⟨m, rfl⟩ : ∃ m, fuel = (F + m) + 14 := ⟨fuel - F - 14, by omega⟩
  have hta : ta.type ≠ .EOF_ := by
    rcases type_of_atom _ _ ha with h | h <;> simp [h]
  have hgroup : parse_grouped_expression (F + m + 8)
      { lexer := l4, errors := [], current_token := tlp, peek_token := tb } =
      .ok (some (.InfixExpression (some b) top2.literal (some c)),
        { lexer := l8, errors := [], current_token := trp, peek_token := te1 }) := by
    rw [parse_grouped_expression]
    simp only [bind, Except.bind,
      next_token_of_lexer F _ _ _ _ h5 (show F ≤ F + m + 7 by omega)]
    rw [parse_expression_atom _ _ _ b hb]
    rw [ parse_expression_loop_infix _ _ _ _ hop2 (precedence_pos_of_binary _ hop2)]
    simp only [bind, Except.bind,
      next_token_of_lexer F _ _ _ _ h6 (show F ≤ F + m + 5 by omega)]
    rw [parse_infix_expression_atom F (F + m + 2) (by omega) l6 l7 [] top2 tc trp _ c h7 hc
      (stop_at_rparen _ _ hrp)]
    simp only []
    rw [parse_expression_loop_stop _ _ _ _ (stop_at_rparen _ trp hrp)]
    simp only []
    rw [expect_peek_of_lexer F _ _ _ _ h8 (show F ≤ F + m + 7 by omega) _ _ _ _ hrp]
    rfl
  have hexpr : parse_expression (F + m + 12) .LOWEST
      { lexer := l2, errors := [], current_token := ta, peek_token := top1 } =
      .ok (some (.InfixExpression (some a) top1.literal
          (some (.InfixExpression (some b) top2.literal (some c)))),
        { lexer := l8, errors := [], current_token := trp, peek_token := te1 }) := by
    rw [parse_expression_atom _ _ _ a ha]
    rw [ parse_expression_loop_infix _ _ _ _ hop1 (precedence_pos_of_binary _ hop1)]
    simp only [bind, Except.bind,
      next_token_of_lexer F _ _ _ _ h3 (show F ≤ F + m + 10 by omega)]
    rw [parse_infix_expression]
    simp only [bind, Except.bind,
      next_token_of_lexer F _ _ _ _ h4 (show F ≤ F + m + 9 by omega)]
    rw [parse_expression_grouped _ _ _ hlp]
    simp only [bind, Except.bind, hgroup]
    rw [parse_expression_loop_stop _ _ _ _ (stop_at_eof _ te1 he1)]
    simp only [pure, Except.pure]
    rw [parse_expression_loop_stop _ _ _ _ (stop_at_eof _ te1 he1)]
  simp only [parse_lexer, Parser.new, parse_program, bind, Except.bind,
    next_token_of_lexer F _ _ _ _ h1 (show F ≤ F + m + 14 by omega),
    next_token_of_lexer F _ _ _ _ h2 (show F ≤ F + m + 14 by omega)]
  rw [parse_program_loop_step _ _ _ hta]
  rw [parse_statement_atom _ _ a ha (not_eq_of_binary _ hop1)]
  rw [parse_expression_statement_eq _ _ _ _ hexpr (by simp [he1])]
  simp only [bind, Except.bind,
    next_token_of_lexer F _ _ _ _ h9 (show F ≤ F + m + 13 by omega)]
  rw [parse_program_loop_stop _ _ _ he1]
  rfl

end Parser

/-- C17: a parenthesized expression parses to the inner expression itself, and
the parentheses decide the grouping whatever the precedences of the operators.
Whenever the lexer yields the tokens of `(a op1 b) op2 c` and then the end of
input, `parse_program` returns the single expression statement
`InfixExpression(InfixExpression(a, op1, b), op2, c)` without a diagnostic; for
the tokens of `a op1 (b op2 c)` it returns
`InfixExpression(a, op1, InfixExpression(b, op2, c))`. At an opening parenthesis
whose inner expression parses to `E`, leaving the state `p2`:
`parse_grouped_expression` returns `E` itself when the next token is `)`, and
otherwise returns no expression and appends the diagnostic "expected next token
to be RPAREN, got ... instead". -/
theorem C17_grouped_expression :
    (∀ (l0 l' : Lexer) (tlp ta top1 tb trp top2 tc te1 te2 : Token) (a b c : Expression),
      Lexer.yields l0 [tlp, ta, top1, tb, trp, top2, tc, te1, te2] l' →
      tlp.type = .LPAREN → trp.type = .RPAREN →
      atom_expression ta = some a → atom_expression tb = some b →
      atom_expression tc = some c →
      is_binary_operator top1.type = true → is_binary_operator top2.type = true →
      te1.type = .EOF_ →
      ∃ N, ∀ fuel, N ≤ fuel →
        parse_lexer fuel l0 = .ok (⟨[.ExpressionStatement (some (.InfixExpression
          (some (.InfixExpression (some a) top1.literal (some b))) top2.literal (some c)))]⟩,
          [])) ∧
    (∀ (l0 l' : Lexer) (ta top1 tlp tb top2 tc trp te1 te2 : Token) (a b c : Expression),
      Lexer.yields l0 [ta, top1, tlp, tb, top2, tc, trp, te1, te2] l' →
      tlp.type = .LPAREN → trp.type = .RPAREN →
      atom_expression ta = some a → atom_expression tb = some b →
      atom_expression tc = some c →
      is_binary_operator top1.type = true → is_binary_operator top2.type = true →
      te1.type = .EOF_ →
      ∃ N, ∀ fuel, N ≤ fuel →
        parse_lexer fuel l0 = .ok (⟨[.ExpressionStatement (some (.InfixExpression (some a)
          top1.literal (some (.InfixExpression (some b) top2.literal (some c)))))]⟩, [])) ∧
    (∀ (p p1 p2 : Parser) (E : Option Expression),
      p.current_token.type = .LPAREN → Parser.advances_to p p1 →
      Parser.expression_at .LOWEST p1 E p2 →
      (∀ p3, p2.peek_token.type = .RPAREN → Parser.advances_to p2 p3 →
        ∃ N, ∀ fuel, N ≤ fuel → Parser.parse_grouped_expression fuel p = .ok (E, p3)) ∧
      (p2.peek_token.type ≠ .RPAREN →
        (∃ N, ∀ fuel, N ≤ fuel →
          Parser.parse_grouped_expression fuel p = .ok (none, Parser.peek_error p2 .RPAREN)) ∧
        (Parser.peek_error p2 .RPAREN).errors = p2.errors ++
          ["expected next token to be RPAREN, got " ++ token_type_map p2.peek_token.type ++
            " instead"])) :=
  ⟨fun l0 l' tlp ta top1 tb trp top2 tc te1 te2 a b c hlex hlp hrp ha hb hc hop1 hop2 he1 =>
      Parser.parse_lexer_group_left l0 l' tlp ta top1 tb trp top2 tc te1 te2 a b c hlex hlp hrp
        ha hb hc hop1 hop2 he1,
   fun l0 l' ta top1 tlp tb top2 tc trp te1 te2 a b c hlex hlp hrp ha hb hc hop1 hop2 he1 =>
      Parser.parse_lexer_group_right l0 l' ta top1 tlp tb top2 tc trp te1 te2 a b c hlex hlp hrp
        ha hb hc hop1 hop2 he1,
   fun p p1 p2 E _ h1 hE =>
     ⟨fun p3 hr h3 => Parser.parse_grouped_expression_pass p p1 p2 p3 E h1 hE hr h3,
      fun hr => ⟨Parser.parse_grouped_expression_fail p p1 p2 E h1 hE hr,
        Parser.peek_error_rparen p2⟩⟩⟩

/-- C17 (witness): the sources `(1 + 2) * 3` and `1 * (2 + 3)`, their tokens and
the programs `parse_program` returns for every fuel from some `N` on; and the
source `(a`, where the inner expression `a` is followed by the end of input. -/
theorem C17_grouped_expression_witness :
    (Lexer.yields (Lexer.new "(1 + 2) * 3".toList)
        [⟨.LPAREN, ['('], 1, 0⟩, ⟨.INT, ['1'], 1, 2⟩, ⟨.PLUS, ['+'], 1, 3⟩,
          ⟨.INT, ['2'], 1, 6⟩, ⟨.RPAREN, [')'], 1, 6⟩, ⟨.ASTERISK, ['*'], 1, 8⟩,
          ⟨.INT, ['3'], 1, 11⟩, ⟨.EOF_, [], 1, 11⟩, ⟨.EOF_, [], 1, 12⟩]
        (Lexer.state_at "(1 + 2) * 3".toList 13 1) ∧
      ∃ N, ∀ fuel, N ≤ fuel →
        parse_lexer fuel (Lexer.new "(1 + 2) * 3".toList) =
          .ok (⟨[.ExpressionStatement (some (.InfixExpression
            (some (.InfixExpression (some (.IntegerLiteral 1)) ['+']
              (some (.IntegerLiteral 2))))
            ['*'] (some (.IntegerLiteral 3))))]⟩, [])) ∧
    (Lexer.yields (Lexer.new "1 * (2 + 3)".toList)
        [⟨.INT, ['1'], 1, 1⟩, ⟨.ASTERISK, ['*'], 1, 2⟩, ⟨.LPAREN, ['('], 1, 4⟩,
          ⟨.INT, ['2'], 1, 6⟩, ⟨.PLUS, ['+'], 1, 7⟩, ⟨.INT, ['3'], 1, 10⟩,
          ⟨.RPAREN, [')'], 1, 10⟩, ⟨.EOF_, [], 1, 11⟩, ⟨.EOF_, [], 1, 12⟩]
        (Lexer.state_at "1 * (2 + 3)".toList 13 1) ∧
      ∃ N, ∀ fuel, N ≤ fuel →
        parse_lexer fuel (Lexer.new "1 * (2 + 3)".toList) =
          .ok (⟨[.ExpressionStatement (some (.InfixExpression (some (.IntegerLiteral 1)) ['*']
            (some (.InfixExpression (some (.IntegerLiteral 2)) ['+']
              (some (.IntegerLiteral 3))))))]⟩, [])) ∧
    (Parser.new 10 (Lexer.new "(a".toList) =
        .ok ⟨Lexer.state_at "(a".toList 2 1, [], ⟨.LPAREN, "(".toList, 1, 0⟩,
          ⟨.IDENT, "a".toList, 1, 2⟩⟩ ∧
      ∃ N, ∀ fuel, N ≤ fuel →
        Parser.parse_grouped_expression fuel
            ⟨Lexer.state_at "(a".toList 2 1, [], ⟨.LPAREN, "(".toList, 1, 0⟩,
              ⟨.IDENT, "a".toList, 1, 2⟩⟩ =
          .ok (none,
            ⟨Lexer.state_at "(a".toList 3 1,
              ["expected next token to be RPAREN, got EOF instead"],
              ⟨.IDENT, "a".toList, 1, 2⟩, ⟨.EOF_, "".toList, 1, 2⟩⟩)) := by
  have hA := C17_grouped_expression.1 (Lexer.new "(1 + 2) * 3".toList)
    (Lexer.state_at "(1 + 2) * 3".toList 13 1)
    ⟨.LPAREN, ['('], 1, 0⟩ ⟨.INT, ['1'], 1, 2⟩ ⟨.PLUS, ['+'], 1, 3⟩
    ⟨.INT, ['2'], 1, 6⟩ ⟨.RPAREN, [')'], 1, 6⟩ ⟨.ASTERISK, ['*'], 1, 8⟩
    ⟨.INT, ['3'], 1, 11⟩ ⟨.EOF_, [], 1, 11⟩ ⟨.EOF_, [], 1, 12⟩
    (.IntegerLiteral 1) (.IntegerLiteral 2) (.IntegerLiteral 3)
    (Lexer.yields_of_run 12 9 _ _ _ (by decide!)) rfl rfl (by decide) (by decide) (by decide)
    (by decide) (by decide) rfl
  have hB := C17_grouped_expression.2.1 (Lexer.new "1 * (2 + 3)".toList)
    (Lexer.state_at "1 * (2 + 3)".toList 13 1)
    ⟨.INT, ['1'], 1, 1⟩ ⟨.ASTERISK, ['*'], 1, 2⟩ ⟨.LPAREN, ['('], 1, 4⟩
    ⟨.INT, ['2'], 1, 6⟩ ⟨.PLUS, ['+'], 1, 7⟩ ⟨.INT, ['3'], 1, 10⟩
    ⟨.RPAREN, [')'], 1, 10⟩ ⟨.EOF_, [], 1, 11⟩ ⟨.EOF_, [], 1, 12⟩
    (.IntegerLiteral 1) (.IntegerLiteral 2) (.IntegerLiteral 3)
    (Lexer.yields_of_run 12 9 _ _ _ (by decide!)) rfl rfl (by decide) (by decide) (by decide)
    (by decide) (by decide) rfl
  have hC := ((C17_grouped_expression.2.2
    ⟨Lexer.state_at "(a".toList 2 1, [], ⟨.LPAREN, "(".toList, 1, 0⟩,
      ⟨.IDENT, "a".toList, 1, 2⟩⟩
    ⟨Lexer.state_at "(a".toList 3 1, [], ⟨.IDENT, "a".toList, 1, 2⟩,
      ⟨.EOF_, "".toList, 1, 2⟩⟩
    ⟨Lexer.state_at "(a".toList 3 1, [], ⟨.IDENT, "a".toList, 1, 2⟩,
      ⟨.EOF_, "".toList, 1, 2⟩⟩
    (some (.IdentifierLiteral ['a'])) rfl ⟨10, by decide!⟩ ⟨10, by decide!⟩).2
    (by decide)).1
  exact ⟨⟨Lexer.yields_of_run 12 9 _ _ _ (by decide!), hA⟩,
    ⟨Lexer.yields_of_run 12 9 _ _ _ (by decide!), hB⟩, by decide!, hC⟩

/-- C17 (on source text): the two groupings with identifiers, a group inside a
group, and two unclosed groups. -/
theorem C17_examples :
    parse_source 20 "(a + b) * c".toList =
      .ok (⟨[.ExpressionStatement (some (.InfixExpression
        (some (.InfixExpression (some (.IdentifierLiteral ['a'])) ['+']
          (some (.IdentifierLiteral ['b']))))
        ['*'] (some (.IdentifierLiteral ['c']))))]⟩, []) ∧
    parse_source 20 "a * (b + c)".toList =
      .ok (⟨[.ExpressionStatement (some (.InfixExpression (some (.IdentifierLiteral ['a'])) ['*']
        (some (.InfixExpression (some (.IdentifierLiteral ['b'])) ['+']
          (some (.IdentifierLiteral ['c']))))))]⟩, []) ∧
    parse_source 20 "((a))".toList =
      .ok (⟨[.ExpressionStatement (some (.IdentifierLiteral ['a']))]⟩, []) ∧
    parse_source 20 "(a".toList =
      .ok (⟨[.ExpressionStatement none]⟩,
        ["expected next token to be RPAREN, got EOF instead"]) ∧
    parse_source 20 "(a + b * c".toList =
      .ok (⟨[.ExpressionStatement none]⟩,
        ["expected next token to be RPAREN, got EOF instead"]) := by
  decide!


/-! ## Call expressions -/

namespace Parser

theorem parse_expression_list_loop_settles (f f1 : Nat) (hf : f ≤ f1) (end_ : TokenType)
    (acc : List (Option Expression)) (p : Parser) :
    settles (parse_expression_list_loop f end_ acc p)
      (parse_expression_list_loop f1 end_ acc p) :=
  (expression_parsers_settle f f1 hf).2.2.2.2.2.2 end_ acc p

theorem parse_expression_list_settles (f f1 : Nat) (hf : f ≤ f1) (end_ : TokenType)
    (p : Parser) :
    settles (parse_expression_list f end_ p) (parse_expression_list f1 end_ p) :=
  (expression_parsers_settle f f1 hf).2.2.2.2.2.1 end_ p

theorem parse_call_expression_settles (f f1 : Nat) (hf : f ≤ f1) (fn : Option Expression)
    (p : Parser) :
    settles (parse_call_expression f fn p) (parse_call_expression f1 fn p) :=
  (expression_parsers_settle f f1 hf).2.2.2.2.1 fn p

theorem parse_expression_loop_settles (f f1 : Nat) (hf : f ≤ f1) (prec : PrecedenceType)
    (left : Option Expression) (p : Parser) :
    settles (parse_expression_loop f prec left p) (parse_expression_loop f1 prec left p) :=
  (expression_parsers_settle f f1 hf).2.1 prec left p

/-- The loop of `parse_expression_list` goes over the arguments after the first. -/
theorem list_loop_of_more (end_ : TokenType) (r : List (Option Expression) × Parser) :
    ∀ (es acc : List (Option Expression)) (q p1 : Parser), more_arguments_at q es p1 →
      (∃ f, parse_expression_list_loop f end_ (acc ++ es) p1 = .ok r) →
      ∃ f, parse_expression_list_loop f end_ acc q = .ok r := by
  intro es
  induction es with
  | nil =>
    intro acc q p1 h hr
    rw [show p1 = q from h, List.append_nil] at hr
    exact hr
  | cons e es ih =>
    intro acc q p1 h hr
    obtain ⟨hcomma, q1, q2, q3, ⟨f1, a1⟩, ⟨f2, a2⟩, ⟨f3, a3⟩, hmore⟩ := h
    have hr1 : ∃ f, parse_expression_list_loop f end_ ((acc ++ [e]) ++ es) p1 = .ok r := by
      rw [List.append_assoc]
      exact hr
    obtain ⟨f4, a4⟩ := ih (acc ++ [e]) q3 p1 hmore hr1
    refine ⟨f1 + f2 + f3 + f4 + 1, ?_⟩
    rw [parse_expression_list_loop]
    have hc : peek_token_is q .COMMA = true := by simp [peek_token_is, hcomma]
    simp only [hc, if_true, bind, Except.bind,
      settles_ok (next_token_settles f1 (f1 + f2 + f3 + f4) (by omega) q) a1,
      settles_ok (next_token_settles f2 (f1 + f2 + f3 + f4) (by omega) q1) a2,
      settles_ok (parse_expression_settles f3 (f1 + f2 + f3 + f4) (by omega) _ q2) a3]
    exact settles_ok (parse_expression_list_loop_settles f4 _ (by omega) _ _ q3) a4

theorem list_loop_end_pass (end_ : TokenType) (acc : List (Option Expression))
    (p1 p2 : Parser) (hcomma : p1.peek_token.type ≠ .COMMA) (hend : p1.peek_token.type = end_)
    (h : advances_to p1 p2) :
    ∃ f, parse_expression_list_loop f end_ acc p1 = .ok (acc, p2) := by
  obtain ⟨f, a⟩ := h
  refine ⟨f + 1, ?_⟩
  rw [parse_expression_list_loop]
  have hc : peek_token_is p1 .COMMA = false := by simp [peek_token_is, hcomma]
  simp only [hc, bind, Except.bind, expect_peek_pass f p1 p2 end_ hend a]
  rfl

theorem list_loop_end_fail (end_ : TokenType) (acc : List (Option Expression))
    (p1 : Parser) (hcomma : p1.peek_token.type ≠ .COMMA) (hend : p1.peek_token.type ≠ end_) :
    ∃ f, parse_expression_list_loop f end_ acc p1 = .ok ([none], peek_error p1 end_) := by
  refine ⟨1, ?_⟩
  rw [parse_expression_list_loop]
  have hc : peek_token_is p1 .COMMA = false := by simp [peek_token_is, hcomma]
  simp only [hc, bind, Except.bind, expect_peek_fail 0 p1 end_ hend]
  rfl

theorem expression_list_empty (end_ : TokenType) (p p1 : Parser)
    (hend : p.peek_token.type = end_) (h : advances_to p p1) :
    ∃ f, parse_expression_list f end_ p = .ok ([], p1) := by
  obtain ⟨f, a⟩ := h
  refine ⟨f + 1, ?_⟩
  rw [parse_expression_list]
  have hc : peek_token_is p end_ = true := by simp [peek_token_is, hend]
  simp only [hc, if_true, bind, Except.bind, a]
  rfl

theorem expression_list_of_arguments (end_ : TokenType) (p q : Parser)
    (e : Option Expression) (es : List (Option Expression))
    (r : List (Option Expression) × Parser)
    (hend : p.peek_token.type ≠ end_) (h : arguments_at p e es q)
    (hr : ∃ f, parse_expression_list_loop f end_ (e :: es) q = .ok r) :
    ∃ f, parse_expression_list f end_ p = .ok r := by
  obtain ⟨q1, q2, ⟨f1, a1⟩, ⟨f2, a2⟩, hmore⟩ := h
  obtain ⟨f3, a3⟩ := list_loop_of_more end_ r es [e] q2 q hmore hr
  refine ⟨f1 + f2 + f3 + 1, ?_⟩
  rw [parse_expression_list]
  have hc : peek_token_is p end_ = false := by simp [peek_token_is, hend]
  simp only [hc, bind, Except.bind,
    settles_ok (next_token_settles f1 (f1 + f2 + f3) (by omega) p) a1,
    settles_ok (parse_expression_settles f2 (f1 + f2 + f3) (by omega) _ q1) a2]
  exact settles_ok (parse_expression_list_loop_settles f3 _ (by omega) _ _ q2) a3

theorem call_of_list (fn : Option Expression) (p p1 : Parser)
    (args : List (Option Expression))
    (h : ∃ f, parse_expression_list f .RPAREN p = .ok (args, p1)) :
    ∃ f, parse_call_expression f fn p = .ok (some (.CallExpression fn args), p1) := by
  obtain ⟨f, a⟩ := h
  refine ⟨f + 1, ?_⟩
  rw [parse_call_expression]
  simp only [bind, Except.bind, a]
  rfl

/-- An identifier followed by `(`, in a context that binds less than a call. -/
theorem expression_at_call (prec : PrecedenceType) (p0 p p1 : Parser) (e : Option Expression)
    (hident : p0.current_token.type = .IDENT) (hlp : p0.peek_token.type = .LPAREN)
    (hprec : prec.toNat < PrecedenceType.CALL.toNat) (h0 : advances_to p0 p)
    (hcall : ∃ f, parse_call_expression f
      (some (.IdentifierLiteral p0.current_token.literal)) p = .ok (e, p1))
    (hstop : stops_before prec p1) :
    expression_at prec p0 e p1 := by
  obtain ⟨f1, a1⟩ := h0
  obtain ⟨f2, a2⟩ := hcall
  refine ⟨f1 + f2 + 3, ?_⟩
  rw [parse_expression, hident]
  simp only [prefix_parse_fns, parse_identifier]
  rw [parse_expression_loop]
  have hc : (!peek_token_is p0 .SEMICOLON &&
      decide (prec.toNat < (peek_precedence p0).toNat)) = true := by
    have h1 : peek_precedence p0 = .CALL := by
      simp [peek_precedence, hlp, precedence_map]
    simp [h1, hprec, peek_token_is, hlp]
  rw [hc, hlp]
  simp only [if_true, infix_parse_fns, bind, Except.bind,
    settles_ok (next_token_settles f1 (f1 + f2 + 1) (by omega) p0) a1,
    settles_ok (parse_call_expression_settles f2 (f1 + f2 + 1) (by omega) _ p) a2]
  exact parse_expression_loop_stop _ prec e p1 hstop

end Parser

/-- C15: at an identifier `f` followed by `(`, in a context that binds less than
a call, with `p` the state at the parenthesis. When the next token is `)`,
`parse_expression` returns the `CallExpression` of `f` with the empty argument
list and adds no diagnostic. When the arguments `e :: es` are read from `p`,
leaving `q` where no comma follows: if the next token is `)`, the result is the
`CallExpression` of `f` with exactly the arguments `e :: es` in this order, and
the call adds no diagnostic; if it is not, the result is a `CallExpression` of
`f` whose argument list is the single absent entry, and the diagnostic "expected
next token to be RPAREN, got ... instead" is appended. In each case the result
holds for every fuel from some `N` on. -/
theorem C15_call_expression (prec : PrecedenceType) (p0 p : Parser)
    (hident : p0.current_token.type = .IDENT) (hlp : p0.peek_token.type = .LPAREN)
    (hprec : prec.toNat < PrecedenceType.CALL.toNat) (h0 : Parser.advances_to p0 p) :
    (∀ p1, p.peek_token.type = .RPAREN → Parser.advances_to p p1 →
      Parser.stops_before prec p1 →
      (∃ N, ∀ fuel, N ≤ fuel → Parser.parse_expression fuel prec p0 =
        .ok (some (.CallExpression (some (.IdentifierLiteral p0.current_token.literal)) []),
          p1)) ∧
      p1.errors = p0.errors) ∧
    (∀ e es q p1, p.peek_token.type ≠ .RPAREN → Parser.arguments_at p e es q →
      q.peek_token.type = .RPAREN → Parser.advances_to q p1 → Parser.stops_before prec p1 →
      (∃ N, ∀ fuel, N ≤ fuel → Parser.parse_expression fuel prec p0 =
        .ok (some (.CallExpression (some (.IdentifierLiteral p0.current_token.literal))
          (e :: es)), p1)) ∧
      p1.errors = q.errors) ∧
    (∀ e es q, p.peek_token.type ≠ .RPAREN → Parser.arguments_at p e es q →
      q.peek_token.type ≠ .COMMA → q.peek_token.type ≠ .RPAREN →
      Parser.stops_before prec q →
      (∃ N, ∀ fuel, N ≤ fuel → Parser.parse_expression fuel prec p0 =
        .ok (some (.CallExpression (some (.IdentifierLiteral p0.current_token.literal))
          [none]), Parser.peek_error q .RPAREN)) ∧
      (Parser.peek_error q .RPAREN).errors = q.errors ++
        ["expected next token to be RPAREN, got " ++ token_type_map q.peek_token.type ++
          " instead"]) := by
  refine ⟨?_, ?_, ?_⟩
  · intro p1 hr h1 hstop
    refine ⟨Parser.expression_at_all _ _ _ _ (Parser.expression_at_call prec p0 p p1 _ hident
      hlp hprec h0 (Parser.call_of_list _ p p1 []
        (Parser.expression_list_empty .RPAREN p p1 hr h1)) hstop), ?_⟩
    rw [Parser.advances_to_errors p p1 h1, Parser.advances_to_errors p0 p h0]
  · intro e es q p1 hnr hargs hr h1 hstop
    have hcomma : q.peek_token.type ≠ .COMMA := by rw [hr]; decide
    refine ⟨Parser.expression_at_all _ _ _ _ (Parser.expression_at_call prec p0 p p1 _ hident
      hlp hprec h0 (Parser.call_of_list _ p p1 (e :: es)
        (Parser.expression_list_of_arguments .RPAREN p q e es _ hnr hargs
          (Parser.list_loop_end_pass .RPAREN (e :: es) q p1 hcomma hr h1))) hstop), ?_⟩
    exact Parser.advances_to_errors q p1 h1
  · intro e es q hnr hargs hcomma hr hstop
    refine ⟨Parser.expression_at_all _ _ _ _ (Parser.expression_at_call prec p0 p
      (Parser.peek_error q .RPAREN) _ hident
      hlp hprec h0 (Parser.call_of_list _ p _ [none]
        (Parser.expression_list_of_arguments .RPAREN p q e es _ hnr hargs
          (Parser.list_loop_end_fail .RPAREN (e :: es) q hcomma hr))) hstop), ?_⟩
    exact Parser.peek_error_rparen q

/-- C15 (witness): the parser on `f(a, b)`, at the identifier `f`. -/
theorem C15_call_expression_witness :
    Parser.new 10 (Lexer.new "f(a, b)".toList) =
      .ok ⟨Lexer.state_at "f(a, b)".toList 2 1, [], ⟨.IDENT, "f".toList, 1, 1⟩,
        ⟨.LPAREN, "(".toList, 1, 1⟩⟩ ∧
    (∃ N, ∀ fuel, N ≤ fuel →
      Parser.parse_expression fuel .LOWEST
          ⟨Lexer.state_at "f(a, b)".toList 2 1, [], ⟨.IDENT, "f".toList, 1, 1⟩,
            ⟨.LPAREN, "(".toList, 1, 1⟩⟩ =
        .ok (some (.CallExpression (some (.IdentifierLiteral ['f']))
            [some (.IdentifierLiteral ['a']), some (.IdentifierLiteral ['b'])]),
          ⟨Lexer.state_at "f(a, b)".toList 8 1, [], ⟨.RPAREN, ")".toList, 1, 6⟩,
            ⟨.EOF_, "".toList, 1, 7⟩⟩)) := by
  have h := ((C15_call_expression .LOWEST
    ⟨Lexer.state_at "f(a, b)".toList 2 1, [], ⟨.IDENT, "f".toList, 1, 1⟩,
      ⟨.LPAREN, "(".toList, 1, 1⟩⟩
    ⟨Lexer.state_at "f(a, b)".toList 3 1, [], ⟨.LPAREN, "(".toList, 1, 1⟩,
      ⟨.IDENT, "a".toList, 1, 3⟩⟩
    rfl rfl (by decide) ⟨10, by decide!⟩).2.1
    (some (.IdentifierLiteral ['a'])) [some (.IdentifierLiteral ['b'])]
    ⟨Lexer.state_at "f(a, b)".toList 7 1, [], ⟨.IDENT, "b".toList, 1, 6⟩,
      ⟨.RPAREN, ")".toList, 1, 6⟩⟩
    ⟨Lexer.state_at "f(a, b)".toList 8 1, [], ⟨.RPAREN, ")".toList, 1, 6⟩,
      ⟨.EOF_, "".toList, 1, 7⟩⟩
    (by decide)
    ⟨⟨Lexer.state_at "f(a, b)".toList 4 1, [], ⟨.IDENT, "a".toList, 1, 3⟩,
        ⟨.COMMA, ",".toList, 1, 3⟩⟩,
      ⟨Lexer.state_at "f(a, b)".toList 4 1, [], ⟨.IDENT, "a".toList, 1, 3⟩,
        ⟨.COMMA, ",".toList, 1, 3⟩⟩,
      ⟨10, by decide!⟩, ⟨10, by decide!⟩, rfl,
      ⟨Lexer.state_at "f(a, b)".toList 6 1, [], ⟨.COMMA, ",".toList, 1, 3⟩,
        ⟨.IDENT, "b".toList, 1, 6⟩⟩,
      ⟨Lexer.state_at "f(a, b)".toList 7 1, [], ⟨.IDENT, "b".toList, 1, 6⟩,
        ⟨.RPAREN, ")".toList, 1, 6⟩⟩,
      ⟨Lexer.state_at "f(a, b)".toList 7 1, [], ⟨.IDENT, "b".toList, 1, 6⟩,
        ⟨.RPAREN, ")".toList, 1, 6⟩⟩,
      ⟨10, by decide!⟩, ⟨10, by decide!⟩, ⟨10, by decide!⟩, rfl⟩
    rfl ⟨10, by decide!⟩ (Or.inr (by decide))).1
  exact ⟨by decide!, h⟩

/-- C15 (on source text): no argument, three arguments of which one is a call,
a call as an operand, and argument lists that no `)` ends. -/
theorem C15_examples :
    parse_source 20 "f()".toList =
      .ok (⟨[.ExpressionStatement (some (.CallExpression (some (.IdentifierLiteral ['f']))
        []))]⟩, []) ∧
    parse_source 20 "f(a, b + 1, g(c))".toList =
      .ok (⟨[.ExpressionStatement (some (.CallExpression (some (.IdentifierLiteral ['f']))
        [some (.IdentifierLiteral ['a']),
         some (.InfixExpression (some (.IdentifierLiteral ['b'])) ['+']
           (some (.IntegerLiteral 1))),
         some (.CallExpression (some (.IdentifierLiteral ['g']))
           [some (.IdentifierLiteral ['c'])])]))]⟩, []) ∧
    parse_source 20 "f(a, b) + 1".toList =
      .ok (⟨[.ExpressionStatement (some (.InfixExpression
        (some (.CallExpression (some (.IdentifierLiteral ['f']))
          [some (.IdentifierLiteral ['a']), some (.IdentifierLiteral ['b'])]))
        ['+'] (some (.IntegerLiteral 1))))]⟩, []) ∧
    parse_source 20 "f(a, b".toList =
      .ok (⟨[.ExpressionStatement (some (.CallExpression (some (.IdentifierLiteral ['f']))
        [none]))]⟩, ["expected next token to be RPAREN, got EOF instead"]) ∧
    parse_source 20 "f(a; b)".toList =
      .ok (⟨[.ExpressionStatement (some (.CallExpression (some (.IdentifierLiteral ['f']))
          [none])),
        .ExpressionStatement (some (.IdentifierLiteral ['b'])),
        .ExpressionStatement none]⟩,
        ["expected next token to be RPAREN, got SEMICOLON instead",
         "no prefix parse function for RPAREN found"]) := by
  decide!


/-! ## Function statements -/

theorem more_parameters_eq_some (ts : List Token) (ps : List FunctionParameter)
    (h : more_parameters ts = some ps) :
    (ts = [] ∧ ps = []) ∨
    ∃ t1 t2 t3 t4 ts1 ps1, ts = t1 :: t2 :: t3 :: t4 :: ts1 ∧
      t1.type = .COMMA ∧ t2.type = .IDENT ∧ t3.type = .COLON ∧ t4.type = .TYPE ∧
      more_parameters ts1 = some ps1 ∧
      ps = { name := t2.literal, value_type := t4.literal } :: ps1 := by
  rcases ts with _ | ⟨t1, _ | ⟨t2, _ | ⟨t3, _ | ⟨t4, ts1⟩⟩⟩⟩
  · left
    simp only [more_parameters, Option.some.injEq] at h
    exact ⟨rfl, h.symm⟩
  · simp [more_parameters] at h
  · simp [more_parameters] at h
  · simp [more_parameters] at h
  · right
    rw [more_parameters] at h
    split at h
    · next hc =>
      cases hm : more_parameters ts1 with
      | none => rw [hm] at h; exact Option.noConfusion h
      | some ps1 =>
        rw [hm] at h
        simp only [Option.some.injEq] at h
        exact ⟨t1, t2, t3, t4, ts1, ps1, rfl, hc.1, hc.2.1, hc.2.2.1, hc.2.2.2, hm, h.symm⟩
    · exact Option.noConfusion h

theorem parameter_list_eq_some (ts : List Token) (ps : List FunctionParameter)
    (h : parameter_list ts = some ps) :
    (ts = [] ∧ ps = []) ∨
    ∃ t2 t3 t4 ts1 ps1, ts = t2 :: t3 :: t4 :: ts1 ∧
      t2.type = .IDENT ∧ t3.type = .COLON ∧ t4.type = .TYPE ∧
      more_parameters ts1 = some ps1 ∧
      ps = { name := t2.literal, value_type := t4.literal } :: ps1 := by
  rcases ts with _ | ⟨t2, _ | ⟨t3, _ | ⟨t4, ts1⟩⟩⟩
  · left
    simp only [parameter_list, Option.some.injEq] at h
    exact ⟨rfl, h.symm⟩
  · simp [parameter_list] at h
  · simp [parameter_list] at h
  · right
    rw [parameter_list] at h
    split at h
    · next hc =>
      cases hm : more_parameters ts1 with
      | none => rw [hm] at h; exact Option.noConfusion h
      | some ps1 =>
        rw [hm] at h
        simp only [Option.some.injEq] at h
        exact ⟨t2, t3, t4, ts1, ps1, rfl, hc.1, hc.2.1, hc.2.2, hm, h.symm⟩
    · exact Option.noConfusion h

namespace Parser

/-- The loop of `parse_function_parameters` goes over the parameters after the
first, up to the closing parenthesis. -/
theorem parameters_loop_of_reads (trparen : Token) (hrp : trparen.type = .RPAREN) :
    ∀ (ps : List FunctionParameter) (ts : List Token) (acc : List (Option FunctionParameter))
      (q p3 : Parser), more_parameters ts = some ps → reads q (ts ++ [trparen]) p3 →
      ∃ f, parse_function_parameters_loop f q acc = .ok (acc ++ ps.map some, p3) := by
  intro ps
  induction ps with
  | nil =>
    intro ts acc q p3 hm hreads
    rcases more_parameters_eq_some ts [] hm with ⟨rfl, -⟩ | ⟨_, _, _, _, _, _, _, _, _, _, _, _, h⟩
    · obtain ⟨hpeek, p2, ⟨f, a⟩, hlast⟩ := hreads
      have hp : p3 = p2 := hlast
      refine ⟨f + 1, ?_⟩
      rw [parse_function_parameters_loop]
      have hc : peek_token_is q .COMMA = false := by simp [peek_token_is, hpeek, hrp]
      simp only [hc, bind, Except.bind,
        expect_peek_pass f q p2 .RPAREN (by rw [hpeek, hrp]) a, hp]
      simp
      rfl
    · exact List.noConfusion h
  | cons x ps ih =>
    intro ts acc q p3 hm hreads
    rcases more_parameters_eq_some ts (x :: ps) hm with
      ⟨-, h⟩ | ⟨t1, t2, t3, t4, ts1, ps1, rfl, h1, _, h3, h4, hm1, hx⟩
    · exact List.noConfusion h
    · injection hx with hx hps
      subst hps
      obtain ⟨k1, q1, b1, k2, q2, b2, k3, q3, b3, k4, q4, b4, hrest⟩ := hreads
      obtain ⟨f1, a1⟩ := b1
      obtain ⟨f2, a2⟩ := b2
      obtain ⟨f3, a3⟩ := b3
      obtain ⟨f4, a4⟩ := b4
      have c2 : q2.current_token = t2 := by
        rw [advances_to_current q1 q2 ⟨f2, a2⟩, k2]
      have c4 : q4.current_token = t4 := by
        rw [advances_to_current q3 q4 ⟨f4, a4⟩, k4]
      obtain ⟨f5, a5⟩ := ih ts1 (acc ++ [some x]) q4 p3 hm1 hrest
      refine ⟨f1 + f2 + f3 + f4 + f5 + 1, ?_⟩
      rw [parse_function_parameters_loop]
      have hc : peek_token_is q .COMMA = true := by simp [peek_token_is, k1, h1]
      simp only [hc, if_true, bind, Except.bind,
        settles_ok (next_token_settles f1 (f1 + f2 + f3 + f4 + f5) (by omega) q) a1,
        settles_ok (next_token_settles f2 (f1 + f2 + f3 + f4 + f5) (by omega) q1) a2,
        expect_peek_pass (f1 + f2 + f3 + f4 + f5) q2 q3 .COLON (by rw [k3, h3])
          (settles_ok (next_token_settles f3 (f1 + f2 + f3 + f4 + f5) (by omega) q2) a3),
        expect_peek_pass (f1 + f2 + f3 + f4 + f5) q3 q4 .TYPE (by rw [k4, h4])
          (settles_ok (next_token_settles f4 (f1 + f2 + f3 + f4 + f5) (by omega) q3) a4),
        c2, c4, ← hx]
      have a6 := settles_ok
        (parse_function_parameters_loop_settles f5 (f1 + f2 + f3 + f4 + f5) (by omega) q4
          (acc ++ [some x])) a5
      simp only [List.map_cons, List.append_assoc, List.singleton_append] at a6 ⊢
      exact a6

theorem parameters_of_reads (trparen : Token) (hrp : trparen.type = .RPAREN)
    (ps : List FunctionParameter) (ts : List Token) (p p3 : Parser)
    (hm : parameter_list ts = some ps) (hreads : reads p (ts ++ [trparen]) p3) :
    ∃ f, parse_function_parameters f p = .ok (ps.map some, p3) := by
  rcases parameter_list_eq_some ts ps hm with
    ⟨rfl, rfl⟩ | ⟨t2, t3, t4, ts1, ps1, rfl, h2, h3, h4, hm1, rfl⟩
  · obtain ⟨hpeek, p2, ⟨f, a⟩, hlast⟩ := hreads
    have hp : p3 = p2 := hlast
    refine ⟨f, ?_⟩
    unfold parse_function_parameters
    have hc : peek_token_is p .RPAREN = true := by simp [peek_token_is, hpeek, hrp]
    simp only [hc, if_true, bind, Except.bind, a, hp]
    rfl
  · obtain ⟨k2, q2, b2, k3, q3, b3, k4, q4, b4, hrest⟩ := hreads
    obtain ⟨f2, a2⟩ := b2
    obtain ⟨f3, a3⟩ := b3
    obtain ⟨f4, a4⟩ := b4
    have c2 : q2.current_token = t2 := by
      rw [advances_to_current p q2 ⟨f2, a2⟩, k2]
    have c4 : q4.current_token = t4 := by
      rw [advances_to_current q3 q4 ⟨f4, a4⟩, k4]
    obtain ⟨f5, a5⟩ := parameters_loop_of_reads trparen hrp ps1 ts1
      [some { name := t2.literal, value_type := t4.literal }] q4 p3 hm1 hrest
    refine ⟨f2 + f3 + f4 + f5, ?_⟩
    unfold parse_function_parameters
    have hc : peek_token_is p .RPAREN = false := by simp [peek_token_is, k2, h2]
    simp only [hc, bind, Except.bind,
      settles_ok (next_token_settles f2 (f2 + f3 + f4 + f5) (by omega) p) a2,
      expect_peek_pass (f2 + f3 + f4 + f5) q2 q3 .COLON (by rw [k3, h3])
        (settles_ok (next_token_settles f3 (f2 + f3 + f4 + f5) (by omega) q2) a3),
      expect_peek_pass (f2 + f3 + f4 + f5) q3 q4 .TYPE (by rw [k4, h4])
        (settles_ok (next_token_settles f4 (f2 + f3 + f4 + f5) (by omega) q3) a4),
      c2, c4]
    have a6 := settles_ok
      (parse_function_parameters_loop_settles f5 (f2 + f3 + f4 + f5) (by omega) q4 _) a5
    simp only [List.map_cons, List.singleton_append] at a6 ⊢
    exact a6

end Parser

/-- C13: at a `def` token followed by the tokens of
`f ( p1 : t1 , ... , pn : tn ) -> t {` (the name and the parameter names `IDENT`
tokens, the types `TYPE` tokens, `n` zero or more), when the block that starts
at the brace parses to the statements `body`: `parse_statement` returns, for
every fuel from some `N` on, the `FunctionStatement` whose name is `f`, whose
parameters are exactly the `(pi, ti)` in source order, whose return type is `t`
and whose body is the block of `body`; and the header adds no diagnostic. -/
theorem C13_function_statement (p p6 p7 : Parser)
    (tname tlparen trparen tarrow ttype tlbrace : Token) (pts : List Token)
    (params : List FunctionParameter) (body : List Statement)
    (hdef : p.current_token.type = .DEF)
    (hreads : Parser.reads p
      (tname :: tlparen :: (pts ++ [trparen] ++ [tarrow, ttype, tlbrace])) p6)
    (hname : tname.type = .IDENT) (hlp : tlparen.type = .LPAREN)
    (hparams : parameter_list pts = some params)
    (hrp : trparen.type = .RPAREN) (harrow : tarrow.type = .ARROW)
    (htype : ttype.type = .TYPE) (hlb : tlbrace.type = .LBRACE)
    (hbody : Parser.block_at p6 body p7) :
    (∃ N, ∀ fuel, N ≤ fuel →
      Parser.parse_statement fuel p =
        .ok (some (.FunctionStatement (params.map some) (some (.BlockStatement body))
          (some (.IdentifierLiteral tname.literal)) ttype.literal), p7)) ∧
    p6.errors = p.errors := by
  refine ⟨?_, Parser.reads_errors _ p p6 hreads⟩
  obtain ⟨k1, p1, b1, k2, p2, b2, hrest⟩ := hreads
  obtain ⟨p3, hps, k4, p4, b4, k5, p5, b5, k6, p6a, b6, hlast⟩ :=
    Parser.reads_append _ _ p2 p6 hrest
  have hp6 : p6 = p6a := hlast
  subst hp6
  obtain ⟨f1, a1⟩ := b1
  obtain ⟨f2, a2⟩ := b2
  obtain ⟨f3, a3⟩ := Parser.parameters_of_reads trparen hrp params pts p2 p3 hparams hps
  obtain ⟨f4, a4⟩ := b4
  obtain ⟨f5, a5⟩ := b5
  obtain ⟨f6, a6⟩ := b6
  obtain ⟨f7, a7⟩ := hbody
  have c1 : p1.current_token = tname := by
    rw [Parser.advances_to_current p p1 ⟨f1, a1⟩, k1]
  have c5 : p5.current_token = ttype := by
    rw [Parser.advances_to_current p4 p5 ⟨f5, a5⟩, k5]
  refine returns_of_settles (fun f => Parser.parse_statement f p)
    (fun f g hf => Parser.parse_statement_settles f g hf p) _
    ⟨f1 + f2 + f3 + f4 + f5 + f6 + f7 + 2, ?_⟩
  show Parser.parse_statement (f1 + f2 + f3 + f4 + f5 + f6 + f7 + 1 + 1) p = _
  rw [Parser.parse_statement_def _ p hdef, Parser.parse_function_statement]
  simp only [bind, Except.bind,
    Parser.expect_peek_pass (f1 + f2 + f3 + f4 + f5 + f6 + f7) p p1 .IDENT (by rw [k1, hname])
      (settles_ok (Parser.next_token_settles f1 _ (by omega) p) a1),
    Parser.expect_peek_pass (f1 + f2 + f3 + f4 + f5 + f6 + f7) p1 p2 .LPAREN (by rw [k2, hlp])
      (settles_ok (Parser.next_token_settles f2 _ (by omega) p1) a2),
    settles_ok (Parser.parse_function_parameters_settles f3
      (f1 + f2 + f3 + f4 + f5 + f6 + f7) (by omega) p2) a3,
    Parser.expect_peek_pass (f1 + f2 + f3 + f4 + f5 + f6 + f7) p3 p4 .ARROW
      (by rw [k4, harrow])
      (settles_ok (Parser.next_token_settles f4 _ (by omega) p3) a4),
    Parser.expect_peek_pass (f1 + f2 + f3 + f4 + f5 + f6 + f7) p4 p5 .TYPE (by rw [k5, htype])
      (settles_ok (Parser.next_token_settles f5 _ (by omega) p4) a5),
    Parser.expect_peek_pass (f1 + f2 + f3 + f4 + f5 + f6 + f7) p5 p6 .LBRACE (by rw [k6, hlb])
      (settles_ok (Parser.next_token_settles f6 _ (by omega) p5) a6),
    settles_ok (Parser.parse_block_statement_settles f7
      (f1 + f2 + f3 + f4 + f5 + f6 + f7) (by omega) p6) a7, c1, c5]
  rfl

/-- C13 (witness): the parser on `def add(a: int, b: int) -> int { return a + b; }`,
at the token `def`. -/
theorem C13_function_statement_witness :
    Parser.new 10
        (Lexer.new "def add(a: int, b: int) -> int \x7b return a + b; \x7d".toList) =
      .ok ⟨Lexer.state_at "def add(a: int, b: int) -> int \x7b return a + b; \x7d".toList 7 1,
        [], ⟨.DEF, "def".toList, 1, 3⟩, ⟨.IDENT, "add".toList, 1, 7⟩⟩ ∧
    ∃ N, ∀ fuel, N ≤ fuel →
      Parser.parse_statement fuel
          ⟨Lexer.state_at "def add(a: int, b: int) -> int \x7b return a + b; \x7d".toList 7 1,
            [], ⟨.DEF, "def".toList, 1, 3⟩, ⟨.IDENT, "add".toList, 1, 7⟩⟩ =
        .ok (some (.FunctionStatement
            [some ⟨"a".toList, "int".toList⟩, some ⟨"b".toList, "int".toList⟩]
            (some (.BlockStatement [.ReturnStatement (some (.InfixExpression
              (some (.IdentifierLiteral ['a'])) ['+'] (some (.IdentifierLiteral ['b']))))]))
            (some (.IdentifierLiteral "add".toList)) "int".toList),
          ⟨Lexer.state_at "def add(a: int, b: int) -> int \x7b return a + b; \x7d".toList 49 1,
            [], ⟨.RBRACE, "\x7d".toList, 1, 47⟩, ⟨.EOF_, "".toList, 1, 48⟩⟩) := by
  have h := (C13_function_statement
    ⟨Lexer.state_at "def add(a: int, b: int) -> int \x7b return a + b; \x7d".toList 7 1,
      [], ⟨.DEF, "def".toList, 1, 3⟩, ⟨.IDENT, "add".toList, 1, 7⟩⟩
    ⟨Lexer.state_at "def add(a: int, b: int) -> int \x7b return a + b; \x7d".toList 39 1,
      [], ⟨.LBRACE, "\x7b".toList, 1, 31⟩, ⟨.RETURN, "return".toList, 1, 39⟩⟩
    ⟨Lexer.state_at "def add(a: int, b: int) -> int \x7b return a + b; \x7d".toList 49 1,
      [], ⟨.RBRACE, "\x7d".toList, 1, 47⟩, ⟨.EOF_, "".toList, 1, 48⟩⟩
    ⟨.IDENT, "add".toList, 1, 7⟩ ⟨.LPAREN, "(".toList, 1, 7⟩ ⟨.RPAREN, ")".toList, 1, 22⟩
    ⟨.ARROW, "->".toList, 1, 25⟩ ⟨.TYPE, "int".toList, 1, 30⟩ ⟨.LBRACE, "\x7b".toList, 1, 31⟩
    [⟨.IDENT, "a".toList, 1, 9⟩, ⟨.COLON, ":".toList, 1, 9⟩, ⟨.TYPE, "int".toList, 1, 14⟩,
      ⟨.COMMA, ",".toList, 1, 14⟩, ⟨.IDENT, "b".toList, 1, 17⟩, ⟨.COLON, ":".toList, 1, 17⟩,
      ⟨.TYPE, "int".toList, 1, 22⟩]
    [⟨"a".toList, "int".toList⟩, ⟨"b".toList, "int".toList⟩]
    [.ReturnStatement (some (.InfixExpression
      (some (.IdentifierLiteral ['a'])) ['+'] (some (.IdentifierLiteral ['b']))))]
    rfl (Parser.reads_of_advance 10 13 _ _ _ (by decide!)) rfl rfl (by decide) rfl rfl rfl rfl
    ⟨12, by decide!⟩).1
  exact ⟨by decide!, h⟩

/-- C13 (on source text): the example of the claim, a function without
parameters and with an empty body, and a function followed by another statement. -/
theorem C13_examples :
    parse_source 40 "def add(a: int, b: int) -> int \x7b return a + b; \x7d".toList =
      .ok (⟨[.FunctionStatement
          [some ⟨"a".toList, "int".toList⟩, some ⟨"b".toList, "int".toList⟩]
          (some (.BlockStatement [.ReturnStatement (some (.InfixExpression
            (some (.IdentifierLiteral ['a'])) ['+'] (some (.IdentifierLiteral ['b']))))]))
          (some (.IdentifierLiteral "add".toList)) "int".toList]⟩, []) ∧
    parse_source 40 "def f() -> bool \x7b \x7d".toList =
      .ok (⟨[.FunctionStatement [] (some (.BlockStatement []))
          (some (.IdentifierLiteral ['f'])) "bool".toList]⟩, []) ∧
    parse_source 40 "def f(a: int) -> float \x7b a; return 1; \x7d g".toList =
      .ok (⟨[.FunctionStatement [some ⟨"a".toList, "int".toList⟩]
          (some (.BlockStatement [.ExpressionStatement (some (.IdentifierLiteral ['a'])),
            .ReturnStatement (some (.IntegerLiteral 1))]))
          (some (.IdentifierLiteral ['f'])) "float".toList,
        .ExpressionStatement (some (.IdentifierLiteral ['g']))]⟩, []) := by
  decide!


/-! ## The keyword tables -/

/-- C23: `lookup_ident` returns each of the eight keyword kinds for exactly one
text, the text of the keyword; it returns `TYPE` for exactly the three texts
`int`, `float`, `bool`; and it returns `IDENT` for exactly the texts that are
none of these eleven. The comparison is on the whole text, character by
character, and no other kind is ever returned. -/
theorem C23_lookup_ident (ident : List Char) :
    (lookup_ident ident = .LET ↔ ident = "let".toList) ∧
    (lookup_ident ident = .DEF ↔ ident = "def".toList) ∧
    (lookup_ident ident = .RETURN ↔ ident = "return".toList) ∧
    (lookup_ident ident = .IF ↔ ident = "if".toList) ∧
    (lookup_ident ident = .DO ↔ ident = "do".toList) ∧
    (lookup_ident ident = .ELSE ↔ ident = "else".toList) ∧
    (lookup_ident ident = .TRUE ↔ ident = "true".toList) ∧
    (lookup_ident ident = .FALSE ↔ ident = "false".toList) ∧
    (lookup_ident ident = .TYPE ↔
      ident = "int".toList ∨ ident = "float".toList ∨ ident = "bool".toList) ∧
    (lookup_ident ident = .IDENT ↔
      ident ∉ ["let".toList, "def".toList, "return".toList, "if".toList, "do".toList,
        "else".toList, "true".toList, "false".toList, "int".toList, "float".toList,
        "bool".toList]) ∧
    lookup_ident ident ∈
      [TokenType.LET, .DEF, .RETURN, .IF, .DO, .ELSE, .TRUE, .FALSE, .TYPE, .IDENT] := by
  by_cases h1 : ident = "let".toList
  · subst h1; decide
  by_cases h2 : ident = "def".toList
  · subst h2; decide
  by_cases h3 : ident = "return".toList
  · subst h3; decide
  by_cases h4 : ident = "if".toList
  · subst h4; decide
  by_cases h5 : ident = "do".toList
  · subst h5; decide
  by_cases h6 : ident = "else".toList
  · subst h6; decide
  by_cases h7 : ident = "true".toList
  · subst h7; decide
  by_cases h8 : ident = "false".toList
  · subst h8; decide
  have hk : KEYWORDS.lookup ident = none := by
    simp only [KEYWORDS, List.lookup]
    have e1 : (ident == "let".toList) = false := by simpa using h1
    have e2 : (ident == "def".toList) = false := by simpa using h2
    have e3 : (ident == "return".toList) = false := by simpa using h3
    have e4 : (ident == "if".toList) = false := by simpa using h4
    have e5 : (ident == "do".toList) = false := by simpa using h5
    have e6 : (ident == "else".toList) = false := by simpa using h6
    have e7 : (ident == "true".toList) = false := by simpa using h7
    have e8 : (ident == "false".toList) = false := by simpa using h8
    simp only [e1, e2, e3, e4, e5, e6, e7, e8]
  by_cases h9 : ident = "int".toList
  · subst h9; decide
  by_cases h10 : ident = "float".toList
  · subst h10; decide
  by_cases h11 : ident = "bool".toList
  · subst h11; decide
  have ht : ident ∉ TYPE_KEYWORDS := by
    simp only [TYPE_KEYWORDS, List.mem_cons, List.mem_singleton, List.not_mem_nil, or_false,
      not_or]
    exact ⟨h9, h10, h11⟩
  have hl : lookup_ident ident = .IDENT := by
    simp only [lookup_ident, hk, ht, if_false]
  rw [hl]
  simp only [List.mem_cons, List.mem_singleton, List.not_mem_nil, or_false, not_or, h1, h2, h3,
    h4, h5, h6, h7, h8, h9, h10, h11]
  simp

/-- C23 (examples): the keywords and type names, and texts that differ from one
of them by the case of a letter or by one more character. -/
theorem C23_examples :
    [lookup_ident "let".toList, lookup_ident "def".toList, lookup_ident "return".toList,
      lookup_ident "if".toList, lookup_ident "do".toList, lookup_ident "else".toList,
      lookup_ident "true".toList, lookup_ident "false".toList] =
      [.LET, .DEF, .RETURN, .IF, .DO, .ELSE, .TRUE, .FALSE] ∧
    [lookup_ident "int".toList, lookup_ident "float".toList, lookup_ident "bool".toList] =
      [.TYPE, .TYPE, .TYPE] ∧
    [lookup_ident "Let".toList, lookup_ident "LET".toList, lookup_ident "lets".toList,
      lookup_ident "le".toList, lookup_ident "Int".toList, lookup_ident "integer".toList,
      lookup_ident "True".toList, lookup_ident "x".toList, lookup_ident [],
      lookup_ident "string".toList] =
      [.IDENT, .IDENT, .IDENT, .IDENT, .IDENT, .IDENT, .IDENT, .IDENT, .IDENT, .IDENT] := by
  decide


/-! ## Tokens of one and of two characters -/

namespace Lexer

/-- A character whose `case` has a lookahead, followed by the second character
of the pair, is the two-character token, and both characters are consumed. -/
theorem next_token_switch_pair (f : Nat) (pre : List Char) (c c2 : Char) (rest : List Char)
    (n : Nat) (ty2 : TokenType) (lit2 : String) (ty1 : TokenType) (lit1 : String)
    (h : switch_table.lookup c = some (some (c2, ty2, lit2), ty1, lit1)) :
    next_token_switch f (at_split pre (c :: c2 :: rest) n) =
      .ok (⟨ty2, lit2.toList, n, pre.length + 1⟩, at_split (pre ++ [c, c2]) rest n) := by
  have hcur : (at_split pre (c :: c2 :: rest) n).current_char = c := by
    rw [at_split_current]; rfl
  have hpre : pre ++ [c, c2] = pre ++ [c] ++ [c2] := by simp
  simp only [next_token_switch, next_token_cases, hcur, h, emit2, peek_char_at_split,
    List.headD_cons, if_true, emit, read_char_at_split, create_token, at_split_pos,
    at_split_line, hpre, List.length_append, List.length_singleton]

theorem next_token_pair_here (fuel : Nat) (pre : List Char) (c c2 : Char) (rest : List Char)
    (n : Nat) (ty2 : TokenType) (lit2 : String) (ty1 : TokenType) (lit1 : String)
    (h : switch_table.lookup c = some (some (c2, ty2, lit2), ty1, lit1))
    (hsp : is_space c = false) (hf : 1 ≤ fuel) :
    next_token fuel (at_split pre (c :: c2 :: rest) n) =
      .ok (⟨ty2, lit2.toList, n, pre.length + 1⟩, at_split (pre ++ [c, c2]) rest n) := by
  obtain ⟨g, rfl⟩ : ∃ g, fuel = g + 1 := ⟨fuel - 1, by omega⟩
  rw [next_token_at_split_stop g pre (c :: c2 :: rest) n
    (show is_space ((c :: c2 :: rest).headD NUL) = false from hsp)]
  exact next_token_switch_pair (g + 1) pre c c2 rest n ty2 lit2 ty1 lit1 h

theorem next_token_first_only_here (fuel : Nat) (pre : List Char) (c : Char)
    (rest : List Char) (n : Nat) (c2 : Char) (ty2 : TokenType) (lit2 : String)
    (ty1 : TokenType) (lit1 : String)
    (h : switch_table.lookup c = some (some (c2, ty2, lit2), ty1, lit1))
    (hsp : is_space c = false) (hnext : rest.headD NUL ≠ c2) (hf : 1 ≤ fuel) :
    next_token fuel (at_split pre (c :: rest) n) =
      .ok (⟨ty1, lit1.toList, n, pre.length⟩, at_split (pre ++ [c]) rest n) := by
  obtain ⟨g, rfl⟩ : ∃ g, fuel = g + 1 := ⟨fuel - 1, by omega⟩
  rw [next_token_at_split_stop g pre (c :: rest) n
    (show is_space ((c :: rest).headD NUL) = false from hsp)]
  exact next_token_switch_first_only (g + 1) pre c rest n c2 ty2 lit2 ty1 lit1 h hnext

end Lexer

/-- C22: for each of the five pairs `->`, `<=`, `>=`, `==`, `!=` (first
character `c`, second `c2`, kind `ty2` of the pair, kind `ty1` of the first
character alone). A lexer that has read `pre` and is at `c` followed by `c2`
returns one token of kind `ty2` whose text is the two characters, and is then
after both characters. When the character after `c` is not `c2` (or `c` is the
last character of the source), it returns one token of kind `ty1` whose text is
`c`, and is then after that one character; `ty1` is `MINUS`, `LT`, `GT`, `EQ`
for `-`, `<`, `>`, `=` and `ILLEGAL` for `!`. -/
theorem C22_two_character_lookahead (fuel : Nat) (pre rest : List Char) (n : Nat)
    (c c2 : Char) (ty2 ty1 : TokenType) (hf : 1 ≤ fuel)
    (hpair : (c, c2, ty2, ty1) ∈
      [('-', '>', TokenType.ARROW, TokenType.MINUS), ('<', '=', .LT_EQ, .LT),
        ('>', '=', .GT_EQ, .GT), ('=', '=', .EQ_EQ, .EQ), ('!', '=', .NOT_EQ, .ILLEGAL)]) :
    Lexer.next_token fuel (Lexer.at_split pre (c :: c2 :: rest) n) =
      .ok (⟨ty2, [c, c2], n, pre.length + 1⟩, Lexer.at_split (pre ++ [c, c2]) rest n) ∧
    (rest.headD NUL ≠ c2 →
      Lexer.next_token fuel (Lexer.at_split pre (c :: rest) n) =
        .ok (⟨ty1, [c], n, pre.length⟩, Lexer.at_split (pre ++ [c]) rest n)) := by
  simp only [List.mem_cons, List.mem_singleton, List.not_mem_nil, or_false, Prod.mk.injEq]
    at hpair
  rcases hpair with ⟨rfl, rfl, rfl, rfl⟩ | ⟨rfl, rfl, rfl, rfl⟩ | ⟨rfl, rfl, rfl, rfl⟩ |
    ⟨rfl, rfl, rfl, rfl⟩ | ⟨rfl, rfl, rfl, rfl⟩
  · exact ⟨Lexer.next_token_pair_here fuel pre '-' '>' rest n .ARROW "->" .MINUS "-"
        (by decide) (by decide) hf,
      fun h => Lexer.next_token_first_only_here fuel pre '-' rest n '>' .ARROW "->" .MINUS "-"
        (by decide) (by decide) h hf⟩
  · exact ⟨Lexer.next_token_pair_here fuel pre '<' '=' rest n .LT_EQ "<=" .LT "<"
        (by decide) (by decide) hf,
      fun h => Lexer.next_token_first_only_here fuel pre '<' rest n '=' .LT_EQ "<=" .LT "<"
        (by decide) (by decide) h hf⟩
  · exact ⟨Lexer.next_token_pair_here fuel pre '>' '=' rest n .GT_EQ ">=" .GT ">"
        (by decide) (by decide) hf,
      fun h => Lexer.next_token_first_only_here fuel pre '>' rest n '=' .GT_EQ ">=" .GT ">"
        (by decide) (by decide) h hf⟩
  · exact ⟨Lexer.next_token_pair_here fuel pre '=' '=' rest n .EQ_EQ "==" .EQ "="
        (by decide) (by decide) hf,
      fun h => Lexer.next_token_first_only_here fuel pre '=' rest n '=' .EQ_EQ "==" .EQ "="
        (by decide) (by decide) h hf⟩
  · exact ⟨Lexer.next_token_pair_here fuel pre '!' '=' rest n .NOT_EQ "!=" .ILLEGAL "!"
        (by decide) (by decide) hf,
      fun h => Lexer.next_token_first_only_here fuel pre '!' rest n '=' .NOT_EQ "!=" .ILLEGAL
        "!" (by decide) (by decide) h hf⟩

/-- C22 (witness): in the source `a != b`, after `a `, the pair `!=`; and in
`a ! b`, the character `!` alone. -/
theorem C22_two_character_lookahead_witness :
    Lexer.next_token 1 (Lexer.at_split "a ".toList ('!' :: '=' :: " b".toList) 1) =
      .ok (⟨.NOT_EQ, ['!', '='], 1, 3⟩, Lexer.at_split ("a ".toList ++ ['!', '=']) " b".toList 1) ∧
    Lexer.next_token 1 (Lexer.at_split "a ".toList ('!' :: " b".toList) 1) =
      .ok (⟨.ILLEGAL, ['!'], 1, 2⟩, Lexer.at_split ("a ".toList ++ ['!']) " b".toList 1) :=
  ⟨(C22_two_character_lookahead 1 "a ".toList " b".toList 1 '!' '=' .NOT_EQ .ILLEGAL
      (by decide) (by decide)).1,
   (C22_two_character_lookahead 1 "a ".toList " b".toList 1 '!' '=' .NOT_EQ .ILLEGAL
      (by decide) (by decide)).2 (by decide)⟩

/-- C22 (on source text): every pair and every first character alone, and pairs
followed by one more `=`. -/
theorem C22_examples :
    Lexer.tokens 20 16 (Lexer.new "a -> b <= c >= d == e != f - < > = !".toList) =
      .ok [⟨.IDENT, ['a'], 1, 1⟩, ⟨.ARROW, ['-', '>'], 1, 3⟩, ⟨.IDENT, ['b'], 1, 6⟩,
        ⟨.LT_EQ, ['<', '='], 1, 8⟩, ⟨.IDENT, ['c'], 1, 11⟩, ⟨.GT_EQ, ['>', '='], 1, 13⟩,
        ⟨.IDENT, ['d'], 1, 16⟩, ⟨.EQ_EQ, ['=', '='], 1, 18⟩, ⟨.IDENT, ['e'], 1, 21⟩,
        ⟨.NOT_EQ, ['!', '='], 1, 23⟩, ⟨.IDENT, ['f'], 1, 26⟩, ⟨.MINUS, ['-'], 1, 27⟩,
        ⟨.LT, ['<'], 1, 29⟩, ⟨.GT, ['>'], 1, 31⟩, ⟨.EQ, ['='], 1, 33⟩,
        ⟨.ILLEGAL, ['!'], 1, 35⟩] ∧
    Lexer.tokens 20 6 (Lexer.new "->= <== !== =>".toList) =
      .ok [⟨.ARROW, ['-', '>'], 1, 1⟩, ⟨.EQ, ['='], 1, 2⟩, ⟨.LT_EQ, ['<', '='], 1, 5⟩,
        ⟨.EQ, ['='], 1, 6⟩, ⟨.NOT_EQ, ['!', '='], 1, 9⟩, ⟨.EQ, ['='], 1, 10⟩] := by
  decide!


/-! ## Identifiers -/

namespace Lexer

theorem read_number_finish_type (l : Lexer) (dc : Nat) (out : List Char) :
    (read_number_finish l dc out).1.type = .INT ∨
      (read_number_finish l dc out).1.type = .FLOAT := by
  unfold read_number_finish
  split
  · left; rfl
  · right; rfl

/-- The token of `read_number` is an `INT`, a `FLOAT` or an `ILLEGAL` token. -/
theorem read_number_loop_type : ∀ (f : Nat) (l : Lexer) (sp dc : Nat) (out : List Char)
    (r : Token × Lexer), read_number_loop f l sp dc out = .ok r →
      r.1.type = .INT ∨ r.1.type = .FLOAT ∨ r.1.type = .ILLEGAL := by
  intro f
  induction f with
  | zero => intro l sp dc out r h; simp [read_number_loop] at h
  | succ k ih =>
    intro l sp dc out r h
    rw [read_number_loop] at h
    by_cases hc : (l.current_char.isDigit || l.current_char == '.') = true
    · rw [if_pos hc] at h
      dsimp only at h
      by_cases hd : (if l.current_char = '.' then dc + 1 else dc) > 1
      · rw [if_pos hd] at h
        cases hq : read_invalid_number k l (substr l.source sp (l.pos - sp)) with
        | error e => rw [hq] at h; simp at h
        | ok v =>
          rw [hq] at h
          injection h with h
          rw [← h]
          right; right; rfl
      · rw [if_neg hd] at h
        by_cases hn : (read_char l).current_char = NUL
        · rw [if_pos hn] at h
          injection h with h
          rw [← h]
          rcases read_number_finish_type (read_char l)
            (if l.current_char = '.' then dc + 1 else dc) (out ++ [l.current_char]) with h1 | h1
          · exact Or.inl h1
          · exact Or.inr (Or.inl h1)
        · rw [if_neg hn] at h
          exact ih _ _ _ _ _ h
    · rw [if_neg hc] at h
      injection h with h
      rw [← h]
      rcases read_number_finish_type l dc out with h1 | h1
      · exact Or.inl h1
      · exact Or.inr (Or.inl h1)

theorem lookup_ident_kinds (a : List Char) :
    lookup_ident a ≠ .INT ∧ lookup_ident a ≠ .FLOAT ∧ lookup_ident a ≠ .ILLEGAL := by
  unfold lookup_ident
  split
  · next t ht =>
    have hm := mem_of_lookup_eq_some a t KEYWORDS ht
    have hall : ∀ e ∈ KEYWORDS, e.2 ≠ .INT ∧ e.2 ≠ .FLOAT ∧ e.2 ≠ .ILLEGAL := by decide
    exact hall _ hm
  · split <;> exact ⟨by decide, by decide, by decide⟩

/-- An underscore at the start of a run is an `ILLEGAL` token of its own. -/
theorem next_token_underscore (fuel : Nat) (pre rest : List Char) (n : Nat) (hf : 1 ≤ fuel) :
    next_token fuel (at_split pre ('_' :: rest) n) =
      .ok (⟨.ILLEGAL, ['_'], n, pre.length⟩, at_split (pre ++ ['_']) rest n) := by
  obtain ⟨g, rfl⟩ : ∃ g, fuel = g + 1 := ⟨fuel - 1, by omega⟩
  have hcur : (at_split pre ('_' :: rest) n).current_char = '_' := by
    rw [at_split_current]; rfl
  rw [next_token_at_split_stop g pre ('_' :: rest) n
    (show is_space '_' = false by decide)]
  unfold next_token_switch
  rw [next_token_cases_eq_none _ (by rw [hcur]; decide)]
  simp only [next_token_default, hcur, create_token, at_split_pos, at_split_line,
    read_char_at_split]
  rfl

end Lexer

/-- C24: a lexer that has read `pre` and is at a letter `c`, followed by the
characters `w`, each a letter, a digit or an underscore, and then by a character
that is none of these (or by the end of the source): `next_token` returns one
token whose text is `c :: w`, the whole run, and whose kind is
`lookup_ident (c :: w)`, and leaves the lexer at the first character after the
run. The characters of a run are the letters, the digits and the underscore. At
an underscore the token returned is an `ILLEGAL` token whose text is the
underscore alone; at a digit the token returned, if any, is an `INT`, a `FLOAT`
or an `ILLEGAL` token, which `lookup_ident` never gives. -/
theorem C24_identifier_rule :
    (∀ (fuel : Nat) (pre : List Char) (c : Char) (w rest : List Char) (n : Nat),
      c.isAlpha = true → (∀ d ∈ w, Lexer.is_ident_char d = true) →
      Lexer.is_ident_char (rest.headD NUL) = false → w.length + 2 ≤ fuel →
      Lexer.next_token fuel (Lexer.at_split pre ((c :: w) ++ rest) n) =
        .ok (⟨lookup_ident (c :: w), c :: w, n, (pre ++ (c :: w)).length⟩,
          Lexer.at_split (pre ++ (c :: w)) rest n)) ∧
    (∀ x : Char, Lexer.is_ident_char x = true ↔
      (x.isAlpha = true ∨ x.isDigit = true ∨ x = '_')) ∧
    (∀ (fuel : Nat) (pre rest : List Char) (n : Nat), 1 ≤ fuel →
      Lexer.next_token fuel (Lexer.at_split pre ('_' :: rest) n) =
        .ok (⟨.ILLEGAL, ['_'], n, pre.length⟩, Lexer.at_split (pre ++ ['_']) rest n)) ∧
    (∀ (fuel : Nat) (l : Lexer) (t : Token) (l1 : Lexer), l.current_char.isDigit = true →
      Lexer.next_token fuel l = .ok (t, l1) →
      (t.type = .INT ∨ t.type = .FLOAT ∨ t.type = .ILLEGAL) ∧
        ∀ text, t.type ≠ lookup_ident text) := by
  refine ⟨?_, ?_, ?_, ?_⟩
  · intro fuel pre c w rest n hc hw hrest hf
    exact Lexer.next_token_ident_here fuel pre c w rest n hc hw hrest hf
  · intro x
    simp only [Lexer.is_ident_char, Char.isAlphanum, Bool.or_eq_true, beq_iff_eq]
    tauto
  · intro fuel pre rest n hf
    exact Lexer.next_token_underscore fuel pre rest n hf
  · intro fuel l t l1 hd h
    cases fuel with
    | zero => exact Except.noConfusion h
    | succ g =>
      rw [Lexer.next_token, Lexer.skip_whitespace_stop g l (Lexer.not_space_of_isDigit _ hd)] at h
      dsimp only at h
      rw [Lexer.next_token_switch_of_isDigit _ _ hd] at h
      have ht := Lexer.read_number_loop_type _ _ _ _ _ _ h
      refine ⟨ht, fun text he => ?_⟩
      obtain ⟨h1, h2, h3⟩ := Lexer.lookup_ident_kinds text
      rcases ht with ht | ht | ht
      · exact h1 (he ▸ ht)
      · exact h2 (he ▸ ht)
      · exact h3 (he ▸ ht)

/-- C24 (witness): in the source `let x_1 = 5`, after `let `, the run `x_1`. -/
theorem C24_identifier_rule_witness :
    Lexer.next_token 4 (Lexer.at_split "let ".toList (('x' :: "_1".toList) ++ " = 5".toList) 1) =
      .ok (⟨.IDENT, "x_1".toList, 1, 7⟩,
        Lexer.at_split ("let ".toList ++ ('x' :: "_1".toList)) " = 5".toList 1) :=
  C24_identifier_rule.1 4 "let ".toList 'x' "_1".toList " = 5".toList 1
    (by decide) (by decide) (by decide) (by decide)

/-- C24 (on source text): runs that start with an underscore or a digit, runs
with digits and underscores inside, a keyword, a type name and a type name with
one more character. -/
theorem C24_examples :
    Lexer.tokens 20 8 (Lexer.new "_abc 1abc a_1 x1y_ _ 9".toList) =
      .ok [⟨.ILLEGAL, ['_'], 1, 0⟩, ⟨.IDENT, "abc".toList, 1, 4⟩, ⟨.INT, ['1'], 1, 6⟩,
        ⟨.IDENT, "abc".toList, 1, 9⟩, ⟨.IDENT, "a_1".toList, 1, 13⟩,
        ⟨.IDENT, "x1y_".toList, 1, 18⟩, ⟨.ILLEGAL, ['_'], 1, 19⟩, ⟨.INT, ['9'], 1, 22⟩] ∧
    Lexer.tokens 20 5 (Lexer.new "abc\ndef int1 int".toList) =
      .ok [⟨.IDENT, "abc".toList, 1, 3⟩, ⟨.DEF, "def".toList, 2, 7⟩,
        ⟨.IDENT, "int1".toList, 2, 12⟩, ⟨.TYPE, "int".toList, 2, 16⟩,
        ⟨.EOF_, [], 2, 16⟩] := by
  decide!


/-! ## Numbers -/

namespace Lexer

/-- The outer loop of `read_number` over a run of digits that a character which
is neither a digit nor `.` follows. -/
theorem read_number_loop_run : ∀ (d : List Char) (f : Nat) (pre rest : List Char)
    (n sp dc : Nat) (out : List Char),
    (∀ c ∈ d, c.isDigit = true) → is_number_char (rest.headD NUL) = false → dc ≤ 1 →
    d.length + 1 ≤ f →
    read_number_loop f (at_split pre (d ++ rest) n) sp dc out =
      .ok (read_number_finish (at_split (pre ++ d) rest n) dc (out ++ d)) := by
  intro d
  induction d with
  | nil =>
    intro f pre rest n sp dc out _ hrest _ hf
    obtain ⟨g, rfl⟩ : ∃ g, f = g + 1 := ⟨f - 1, by simp at hf; omega⟩
    rw [read_number_loop]
    simp only [List.nil_append, List.append_nil, at_split_current]
    have : ((rest.headD NUL).isDigit || rest.headD NUL == '.') = false := hrest
    rw [this]
    rfl
  | cons c d ih =>
    intro f pre rest n sp dc out hd hrest hdc hf
    obtain ⟨g, rfl⟩ : ∃ g, f = g + 1 := ⟨f - 1, by simp at hf; omega⟩
    have hc : c.isDigit = true := hd c (List.mem_cons_self _ _)
    have hnd : ¬ c = '.' := by
      intro h0; rw [h0] at hc; exact absurd hc (by decide)
    have hrec := ih g (pre ++ [c]) rest n sp dc (out ++ [c])
      (fun x hx => hd x (List.mem_cons_of_mem _ hx)) hrest hdc (by simp at hf; omega)
    rw [read_number_loop]
    simp only [List.cons_append, at_split_current, List.headD_cons, hc, Bool.true_or, if_true,
      hnd, if_false, read_char_at_split]
    rw [if_neg (by omega)]
    have e1 : pre ++ c :: d = pre ++ [c] ++ d := by simp
    have e2 : out ++ c :: d = out ++ [c] ++ d := by simp
    rw [e1, e2]
    split
    · next hn =>
      cases d with
      | nil =>
        simp only [List.nil_append, List.append_nil] at hn ⊢
      | cons c2 d2 =>
        exfalso
        simp only [List.cons_append, List.headD_cons] at hn
        have h2 : c2.isDigit = true := hd c2 (by simp)
        rw [hn] at h2
        exact absurd h2 (by decide)
    · exact hrec

theorem number_char_head (d : List Char) (c : Char) (rest : List Char)
    (hd : ∀ x ∈ d, x.isDigit = true) (hc : is_number_char c = true) :
    is_number_char ((d ++ c :: rest).headD NUL) = true := by
  cases d with
  | nil => exact hc
  | cons y ys =>
    have hy : y.isDigit = true := hd y (by simp)
    simp [is_number_char, hy]

/-- Digits, one `.`, digits, and then a character that is neither: a `FLOAT`. -/
theorem read_number_loop_float : ∀ (d1 : List Char) (f : Nat) (pre d2 rest : List Char)
    (n sp : Nat) (out : List Char), (∀ x ∈ d1, x.isDigit = true) →
    (∀ x ∈ d2, x.isDigit = true) → is_number_char (rest.headD NUL) = false →
    d1.length + d2.length + 2 ≤ f →
    read_number_loop f (at_split pre (d1 ++ '.' :: (d2 ++ rest)) n) sp 0 out =
      .ok (⟨.FLOAT, out ++ (d1 ++ '.' :: d2), n, (pre ++ (d1 ++ '.' :: d2)).length⟩,
        at_split (pre ++ (d1 ++ '.' :: d2)) rest n) := by
  intro d1
  induction d1 with
  | nil =>
    intro f pre d2 rest n sp out _ hd2 hrest hf
    obtain ⟨g, rfl⟩ : ∃ g, f = g + 1 := ⟨f - 1, by simp at hf; omega⟩
    rw [List.nil_append, read_number_loop, at_split_current]
    simp only [List.headD_cons, List.nil_append]
    rw [if_pos (by decide)]
    simp only [if_true]
    rw [if_neg (by omega), read_char_at_split, at_split_current]
    split
    · next hn =>
      cases d2 with
      | nil =>
        simp only [List.nil_append]
        rfl
      | cons c2 d3 =>
        exfalso
        simp only [List.cons_append, List.headD_cons] at hn
        have h2 : c2.isDigit = true := hd2 c2 (by simp)
        rw [hn] at h2
        exact absurd h2 (by decide)
    · have h := read_number_loop_run d2 g (pre ++ ['.']) rest n sp 1 (out ++ ['.']) hd2 hrest
        (le_refl _) (by simp at hf; omega)
      rw [h]
      simp [read_number_finish, create_token, at_split_line, at_split_pos]
  | cons x xs ih =>
    intro f pre d2 rest n sp out hd hd2 hrest hf
    obtain ⟨g, rfl⟩ : ∃ g, f = g + 1 := ⟨f - 1, by simp at hf; omega⟩
    have hx : x.isDigit = true := hd x (List.mem_cons_self _ _)
    have hnd : ¬ x = '.' := by
      intro h0; rw [h0] at hx; exact absurd hx (by decide)
    have hnext := number_char_head xs '.' (d2 ++ rest)
      (fun y hy => hd y (List.mem_cons_of_mem _ hy)) (by decide)
    rw [List.cons_append, read_number_loop_at_split_step g pre x _ n sp 0 out
      (by simp [is_number_char, hx]) (by rw [if_neg hnd]; omega)
      (ne_nul_of_number_char _ hnext), if_neg hnd]
    rw [ih g (pre ++ [x]) d2 rest n sp (out ++ [x])
      (fun y hy => hd y (List.mem_cons_of_mem _ hy)) hd2 hrest (by simp at hf ⊢; omega)]
    simp

/-- The inner loop of `read_number` stops at the first blank. -/
theorem read_invalid_number_until_blank : ∀ (tail : List Char) (f : Nat) (pre : List Char)
    (ws : Char) (rest : List Char) (n : Nat) (acc : List Char),
    (∀ x ∈ tail, is_space x = false) → is_space ws = true → tail.length + 1 ≤ f →
    read_invalid_number f (at_split pre (tail ++ ws :: rest) n) acc =
      .ok (acc ++ tail, at_split (pre ++ tail) (ws :: rest) n) := by
  intro tail
  induction tail with
  | nil =>
    intro f pre ws rest n acc _ hws hf
    obtain ⟨g, rfl⟩ : ∃ g, f = g + 1 := ⟨f - 1, by simp at hf; omega⟩
    have h4 : ¬ (ws ≠ ' ' ∧ ws ≠ '\t' ∧ ws ≠ '\n' ∧ ws ≠ '\r') := by
      intro h
      have : is_space ws = false := (is_space_eq_false _).2 h
      rw [this] at hws
      exact Bool.noConfusion hws
    rw [List.nil_append, read_invalid_number, at_split_current]
    simp only [List.headD_cons]
    rw [if_neg h4]
    simp
  | cons x xs ih =>
    intro f pre ws rest n acc h hws hf
    obtain ⟨g, rfl⟩ : ∃ g, f = g + 1 := ⟨f - 1, by simp at hf; omega⟩
    have hx : is_space x = false := h x (List.mem_cons_self _ _)
    have h4 := (is_space_eq_false x).1 hx
    rw [List.cons_append, read_invalid_number, at_split_current]
    simp only [List.headD_cons]
    rw [if_pos h4, read_char_at_split,
      ih g (pre ++ [x]) ws rest n _ (fun y hy => h y (List.mem_cons_of_mem _ hy)) hws
        (by simp at hf; omega)]
    simp

/-- After the first `.`: digits, a second `.`, and then text up to a blank. -/
theorem read_number_loop_illegal_after_dot : ∀ (d2 : List Char) (f : Nat)
    (pre0 mid tail : List Char) (ws : Char) (rest : List Char) (n : Nat) (out : List Char),
    (∀ x ∈ d2, x.isDigit = true) → (∀ x ∈ tail, is_space x = false) → is_space ws = true →
    d2.length + tail.length + 3 ≤ f →
    read_number_loop f (at_split (pre0 ++ mid) (d2 ++ '.' :: (tail ++ ws :: rest)) n)
        pre0.length 1 out =
      .ok (⟨.ILLEGAL, mid ++ (d2 ++ '.' :: tail), n,
          (pre0 ++ (mid ++ (d2 ++ '.' :: tail))).length⟩,
        at_split (pre0 ++ (mid ++ (d2 ++ '.' :: tail))) (ws :: rest) n) := by
  intro d2
  induction d2 with
  | nil =>
    intro f pre0 mid tail ws rest n out _ htail hws hf
    obtain ⟨g, rfl⟩ : ∃ g, f = g + 1 := ⟨f - 1, by simp at hf; omega⟩
    have hsub : substr (at_split (pre0 ++ mid) ('.' :: (tail ++ ws :: rest)) n).source
        pre0.length ((at_split (pre0 ++ mid) ('.' :: (tail ++ ws :: rest)) n).pos -
          pre0.length) = mid := by
      rw [at_split_source, at_split_pos, List.append_assoc]
      exact substr_at_split pre0 mid _
    have hinv := read_invalid_number_until_blank ('.' :: tail) g (pre0 ++ mid) ws rest n mid
      (by
        intro y hy
        rcases List.mem_cons.1 hy with h | h
        · rw [h]; decide
        · exact htail y h) hws (by simp at hf ⊢; omega)
    rw [List.nil_append, read_number_loop, at_split_current]
    simp only [List.headD_cons]
    rw [if_pos (by decide)]
    simp only [if_true]
    rw [if_pos (by omega), hsub]
    rw [List.cons_append] at hinv
    rw [hinv]
    simp [create_token, at_split_line, at_split_pos]
  | cons x xs ih =>
    intro f pre0 mid tail ws rest n out hd htail hws hf
    obtain ⟨g, rfl⟩ : ∃ g, f = g + 1 := ⟨f - 1, by simp at hf; omega⟩
    have hx : x.isDigit = true := hd x (List.mem_cons_self _ _)
    have hnd : ¬ x = '.' := by
      intro h0; rw [h0] at hx; exact absurd hx (by decide)
    have hnext := number_char_head xs '.' (tail ++ ws :: rest)
      (fun y hy => hd y (List.mem_cons_of_mem _ hy)) (by decide)
    rw [List.cons_append, read_number_loop_at_split_step g (pre0 ++ mid) x _ n pre0.length 1 out
      (by simp [is_number_char, hx]) (by rw [if_neg hnd]; omega)
      (ne_nul_of_number_char _ hnext), if_neg hnd, List.append_assoc]
    rw [ih g pre0 (mid ++ [x]) tail ws rest n (out ++ [x])
      (fun y hy => hd y (List.mem_cons_of_mem _ hy)) htail hws (by simp at hf ⊢; omega)]
    simp

/-- Digits, a `.`, digits, a second `.`, and then text up to a blank: an
`ILLEGAL` token whose text goes from the first digit to the blank. -/
theorem read_number_loop_illegal : ∀ (d1 : List Char) (f : Nat)
    (pre0 mid d2 tail : List Char) (ws : Char) (rest : List Char) (n : Nat) (out : List Char),
    (∀ x ∈ d1, x.isDigit = true) → (∀ x ∈ d2, x.isDigit = true) →
    (∀ x ∈ tail, is_space x = false) → is_space ws = true →
    d1.length + d2.length + tail.length + 4 ≤ f →
    read_number_loop f
        (at_split (pre0 ++ mid) (d1 ++ '.' :: (d2 ++ '.' :: (tail ++ ws :: rest))) n)
        pre0.length 0 out =
      .ok (⟨.ILLEGAL, mid ++ (d1 ++ '.' :: (d2 ++ '.' :: tail)), n,
          (pre0 ++ (mid ++ (d1 ++ '.' :: (d2 ++ '.' :: tail)))).length⟩,
        at_split (pre0 ++ (mid ++ (d1 ++ '.' :: (d2 ++ '.' :: tail)))) (ws :: rest) n) := by
  intro d1
  induction d1 with
  | nil =>
    intro f pre0 mid d2 tail ws rest n out _ hd2 htail hws hf
    obtain ⟨g, rfl⟩ : ∃ g, f = g + 1 := ⟨f - 1, by simp at hf; omega⟩
    have hnext := number_char_head d2 '.' (tail ++ ws :: rest) hd2 (by decide)
    rw [List.nil_append, read_number_loop_at_split_step g (pre0 ++ mid) '.' _ n pre0.length 0
      out (by decide) (by decide) (ne_nul_of_number_char _ hnext), List.append_assoc]
    simp only [if_true]
    rw [read_number_loop_illegal_after_dot d2 g pre0 (mid ++ ['.']) tail ws rest n _ hd2 htail
      hws (by simp at hf ⊢; omega)]
    simp
  | cons x xs ih =>
    intro f pre0 mid d2 tail ws rest n out hd hd2 htail hws hf
    obtain ⟨g, rfl⟩ : ∃ g, f = g + 1 := ⟨f - 1, by simp at hf; omega⟩
    have hx : x.isDigit = true := hd x (List.mem_cons_self _ _)
    have hnd : ¬ x = '.' := by
      intro h0; rw [h0] at hx; exact absurd hx (by decide)
    have hnext := number_char_head xs '.' (d2 ++ '.' :: (tail ++ ws :: rest))
      (fun y hy => hd y (List.mem_cons_of_mem _ hy)) (by decide)
    rw [List.cons_append, read_number_loop_at_split_step g (pre0 ++ mid) x _ n pre0.length 0 out
      (by simp [is_number_char, hx]) (by rw [if_neg hnd]; omega)
      (ne_nul_of_number_char _ hnext), if_neg hnd, List.append_assoc]
    rw [ih g pre0 (mid ++ [x]) d2 tail ws rest n (out ++ [x])
      (fun y hy => hd y (List.mem_cons_of_mem _ hy)) hd2 htail hws (by simp at hf ⊢; omega)]
    simp

theorem digits_of_decimal_literal (d : List Char) (h : is_decimal_literal d = true) :
    (∀ x ∈ d, x.isDigit = true) ∧ (d.headD NUL).isDigit = true := by
  cases d with
  | nil => simp [is_decimal_literal] at h
  | cons c w =>
    simp only [is_decimal_literal, Bool.and_eq_true, List.all_eq_true] at h
    refine ⟨fun x hx => ?_, h.1⟩
    rcases List.mem_cons.1 hx with h1 | h1
    · rw [h1]; exact h.1
    · exact h.2 x h1

/-- At a digit `next_token` is `read_number`. -/
theorem next_token_at_digit (f : Nat) (pre rest : List Char) (n : Nat)
    (h : (rest.headD NUL).isDigit = true) :
    next_token (f + 1) (at_split pre rest n) =
      read_number_loop (f + 1) (at_split pre rest n) pre.length 0 [] := by
  rw [next_token_at_split_stop f pre rest n (not_space_of_isDigit _ h),
    next_token_switch_of_isDigit _ _ (by rw [at_split_current]; exact h), at_split_pos]

end Lexer

/-- C21: a lexer that has read `pre` and is at the first digit of a run. When
the run is the digits `d` and the next character is neither a digit nor `.`,
`next_token` returns the `INT` token with text `d`. When the run is digits `d1`,
one `.` and digits `d2` (none allowed), it returns the `FLOAT` token with text
`d1.d2`. In both cases the lexer is then at the first character after the run.
When a second `.` follows `d1.d2`, and the text `tail` after it has no blank and
a blank follows it, it returns the `ILLEGAL` token whose text is `d1.d2.tail`,
everything from the first digit up to that blank, and the lexer is then at the
blank. -/
theorem C21_number_rule :
    (∀ (fuel : Nat) (pre d rest : List Char) (n : Nat),
      is_decimal_literal d = true → Lexer.is_number_char (rest.headD NUL) = false →
      d.length + 1 ≤ fuel →
      Lexer.next_token fuel (Lexer.at_split pre (d ++ rest) n) =
        .ok (⟨.INT, d, n, (pre ++ d).length⟩, Lexer.at_split (pre ++ d) rest n)) ∧
    (∀ (fuel : Nat) (pre d1 d2 rest : List Char) (n : Nat),
      is_decimal_literal d1 = true → (∀ x ∈ d2, x.isDigit = true) →
      Lexer.is_number_char (rest.headD NUL) = false → d1.length + d2.length + 2 ≤ fuel →
      Lexer.next_token fuel (Lexer.at_split pre (d1 ++ '.' :: (d2 ++ rest)) n) =
        .ok (⟨.FLOAT, d1 ++ '.' :: d2, n, (pre ++ (d1 ++ '.' :: d2)).length⟩,
          Lexer.at_split (pre ++ (d1 ++ '.' :: d2)) rest n)) ∧
    (∀ (fuel : Nat) (pre d1 d2 tail : List Char) (ws : Char) (rest : List Char) (n : Nat),
      is_decimal_literal d1 = true → (∀ x ∈ d2, x.isDigit = true) →
      (∀ x ∈ tail, Lexer.is_space x = false) → Lexer.is_space ws = true →
      d1.length + d2.length + tail.length + 4 ≤ fuel →
      Lexer.next_token fuel
          (Lexer.at_split pre (d1 ++ '.' :: (d2 ++ '.' :: (tail ++ ws :: rest))) n) =
        .ok (⟨.ILLEGAL, d1 ++ '.' :: (d2 ++ '.' :: tail), n,
            (pre ++ (d1 ++ '.' :: (d2 ++ '.' :: tail))).length⟩,
          Lexer.at_split (pre ++ (d1 ++ '.' :: (d2 ++ '.' :: tail))) (ws :: rest) n)) := by
  refine ⟨?_, ?_, ?_⟩
  · intro fuel pre d rest n hd hrest hf
    obtain ⟨hall, hhead⟩ := Lexer.digits_of_decimal_literal d hd
    obtain ⟨g, rfl⟩ : ∃ g, fuel = g + 1 := ⟨fuel - 1, by omega⟩
    have hh : ((d ++ rest).headD NUL).isDigit = true := by
      cases d with
      | nil => simp [is_decimal_literal] at hd
      | cons c w => exact hhead
    rw [Lexer.next_token_at_digit g pre _ n hh,
      Lexer.read_number_loop_run d (g + 1) pre rest n pre.length 0 [] hall hrest (by omega) hf]
    simp [Lexer.read_number_finish, Lexer.create_token, Lexer.at_split_line,
      Lexer.at_split_pos]
  · intro fuel pre d1 d2 rest n hd1 hd2 hrest hf
    obtain ⟨hall, hhead⟩ := Lexer.digits_of_decimal_literal d1 hd1
    obtain ⟨g, rfl⟩ : ∃ g, fuel = g + 1 := ⟨fuel - 1, by omega⟩
    have hh : ((d1 ++ '.' :: (d2 ++ rest)).headD NUL).isDigit = true := by
      cases d1 with
      | nil => simp [is_decimal_literal] at hd1
      | cons c w => exact hhead
    rw [Lexer.next_token_at_digit g pre _ n hh,
      Lexer.read_number_loop_float d1 (g + 1) pre d2 rest n pre.length [] hall hd2 hrest hf]
    simp
  · intro fuel pre d1 d2 tail ws rest n hd1 hd2 htail hws hf
    obtain ⟨hall, hhead⟩ := Lexer.digits_of_decimal_literal d1 hd1
    obtain ⟨g, rfl⟩ : ∃ g, fuel = g + 1 := ⟨fuel - 1, by omega⟩
    have hh : ((d1 ++ '.' :: (d2 ++ '.' :: (tail ++ ws :: rest))).headD NUL).isDigit = true := by
      cases d1 with
      | nil => simp [is_decimal_literal] at hd1
      | cons c w => exact hhead
    have h := Lexer.read_number_loop_illegal d1 (g + 1) pre [] d2 tail ws rest n [] hall hd2
      htail hws hf
    simp only [List.append_nil, List.nil_append] at h
    rw [Lexer.next_token_at_digit g pre _ n hh, h]

/-- C21 (witness): in the source `x = 1.2.3 y`, after `x = `, the run `1.2.3`
followed by a space; and in `x = 1.25;`, the run `1.25`. -/
theorem C21_number_rule_witness :
    Lexer.next_token 8
        (Lexer.at_split "x = ".toList
          ("1".toList ++ '.' :: ("2".toList ++ '.' :: ("3".toList ++ ' ' :: "y".toList))) 1) =
      .ok (⟨.ILLEGAL, "1.2.3".toList, 1, 9⟩,
        Lexer.at_split ("x = ".toList ++ "1.2.3".toList) " y".toList 1) ∧
    Lexer.next_token 8
        (Lexer.at_split "x = ".toList ("1".toList ++ '.' :: ("25".toList ++ ";".toList)) 1) =
      .ok (⟨.FLOAT, "1.25".toList, 1, 8⟩,
        Lexer.at_split ("x = ".toList ++ "1.25".toList) ";".toList 1) :=
  ⟨C21_number_rule.2.2 8 "x = ".toList "1".toList "2".toList "3".toList ' ' "y".toList 1
      (by decide) (by decide) (by decide) (by decide) (by decide),
   C21_number_rule.2.1 8 "x = ".toList "1".toList "25".toList ";".toList 1
      (by decide) (by decide) (by decide) (by decide)⟩

/-- C21 (on source text): integers, floats, a `.` at the end of a run, runs with
a second `.` that a blank follows, and a run with a second `.` followed by
other characters up to a tab. -/
theorem C21_examples :
    Lexer.tokens 20 7 (Lexer.new "12 3.5 7. 1.2.3 x 1..2 y".toList) =
      .ok [⟨.INT, "12".toList, 1, 2⟩, ⟨.FLOAT, "3.5".toList, 1, 6⟩,
        ⟨.FLOAT, "7.".toList, 1, 9⟩, ⟨.ILLEGAL, "1.2.3".toList, 1, 15⟩,
        ⟨.IDENT, ['x'], 1, 17⟩, ⟨.ILLEGAL, "1..2".toList, 1, 22⟩, ⟨.IDENT, ['y'], 1, 24⟩] ∧
    Lexer.tokens 20 9 (Lexer.new "1.2.3ab+c\t4 .5 1a 1.a".toList) =
      .ok [⟨.ILLEGAL, "1.2.3ab+c".toList, 1, 9⟩, ⟨.INT, ['4'], 1, 11⟩,
        ⟨.ILLEGAL, ['.'], 1, 12⟩, ⟨.INT, ['5'], 1, 14⟩, ⟨.INT, ['1'], 1, 16⟩,
        ⟨.IDENT, ['a'], 1, 17⟩, ⟨.FLOAT, "1.".toList, 1, 20⟩, ⟨.IDENT, ['a'], 1, 21⟩,
        ⟨.EOF_, [], 1, 21⟩] := by
  decide!


/-! ## Scopes -/

namespace Environment

theorem lookup_insert_self (name : List Char) (entry : Option Value × Option Ty) :
    ∀ (r : List (List Char × Option Value × Option Ty)),
      (insert name entry r).lookup name = some entry
  | [] => by simp [insert, List.lookup]
  | (k, v) :: rest => by
    rw [insert]
    by_cases hk : k = name
    · rw [if_pos hk, List.lookup_cons]
      simp [hk]
    · rw [if_neg hk, List.lookup_cons]
      have : (name == k) = false := by simpa using fun h => hk h.symm
      rw [this]
      exact lookup_insert_self name entry rest

theorem lookup_insert_other (name other : List Char) (entry : Option Value × Option Ty)
    (h : other ≠ name) :
    ∀ (r : List (List Char × Option Value × Option Ty)),
      (insert name entry r).lookup other = r.lookup other
  | [] => by
    have : (other == name) = false := by simpa using h
    simp [insert, List.lookup, this]
  | (k, v) :: rest => by
    rw [insert]
    by_cases hk : k = name
    · rw [if_pos hk, List.lookup_cons, List.lookup_cons]
      have : (other == k) = false := by rw [hk]; simpa using h
      rw [this]
    · rw [if_neg hk, List.lookup_cons, List.lookup_cons]
      cases (other == k)
      · exact lookup_insert_other name other entry h rest
      · rfl

theorem insert_insert (name : List Char) (e1 e2 : Option Value × Option Ty) :
    ∀ (r : List (List Char × Option Value × Option Ty)),
      insert name e2 (insert name e1 r) = insert name e2 r
  | [] => by simp [insert]
  | (k, v) :: rest => by
    by_cases hk : k = name
    · simp [insert, hk]
    · simp only [insert, if_neg hk]
      rw [insert_insert name e1 e2 rest]

theorem insert_length_of_bound (name : List Char) (entry : Option Value × Option Ty) :
    ∀ (r : List (List Char × Option Value × Option Ty)), (r.lookup name).isSome = true →
      (insert name entry r).length = r.length
  | [], h => by simp at h
  | (k, v) :: rest, h => by
    rw [insert]
    by_cases hk : k = name
    · rw [if_pos hk]
      rfl
    · rw [if_neg hk]
      rw [List.lookup_cons] at h
      have : (name == k) = false := by simpa using fun h => hk h.symm
      rw [this] at h
      simp only [List.length_cons, insert_length_of_bound name entry rest h]

theorem lookup_define_self (env : Environment) (name : List Char) (v : Option Value)
    (t : Option Ty) : (env.define name v t).lookup name = (v, t) := by
  cases env with
  | mk r p n =>
    cases p <;> simp only [define, lookup, resolve, lookup_insert_self]

theorem lookup_define_other (env : Environment) (name other : List Char) (v : Option Value)
    (t : Option Ty) (h : other ≠ name) :
    (env.define name v t).lookup other = env.lookup other := by
  cases env with
  | mk r p n =>
    cases p <;> simp only [define, lookup, resolve, lookup_insert_other name other (v, t) h]

theorem define_define (env : Environment) (name : List Char) (v1 v2 : Option Value)
    (t1 t2 : Option Ty) :
    (env.define name v1 t1).define name v2 t2 = env.define name v2 t2 := by
  cases env with
  | mk r p n =>
    simp only [define, insert_insert]

end Environment

/-- C25: for every scope `e`, name `n`, handle `v` and type `t`. The call
`define(n, v, t)` returns `v`, and `lookup(n)` on the scope after it returns
`(v, t)`. After a definition of `n` as `(v1, t1)` and then one as `(v, t)`,
`lookup(n)` returns `(v, t)`; the scope is the one a single definition of `n` as
`(v, t)` gives, and the second definition adds no binding to the records. -/
theorem C25_define_then_lookup (e : Environment) (n : List Char) (v : Option Value)
    (t : Option Ty) :
    (e.define_call n v t).1 = v ∧
    (e.define_call n v t).2.lookup n = (v, t) ∧
    (∀ v1 t1, ((e.define n v1 t1).define n v t).lookup n = (v, t)) ∧
    (∀ v1 t1, (e.define n v1 t1).define n v t = e.define n v t) ∧
    (∀ v1 t1, ((e.define n v1 t1).define n v t).records.length =
      (e.define n v1 t1).records.length) := by
  refine ⟨rfl, Environment.lookup_define_self e n v t,
    fun v1 t1 => Environment.lookup_define_self _ n v t,
    fun v1 t1 => Environment.define_define e n v1 v t1 t, fun v1 t1 => ?_⟩
  cases e with
  | mk r p nm =>
    simp only [Environment.define, Environment.records]
    exact Environment.insert_length_of_bound n (v, t) _
      (by rw [Environment.lookup_insert_self]; rfl)

/-- C25 (examples): in the scope of a fresh `Compiler`, which binds `true` and
`false`: a definition of `x`, a second definition of `x`, and a definition of
the name `true`, which is already bound. -/
theorem C25_examples :
    (Compiler.new.env.define "x".toList (some (.Instruction 0)) (some .int32)).lookup
        "x".toList = (some (.Instruction 0), some .int32) ∧
    ((Compiler.new.env.define "x".toList (some (.Instruction 0)) (some .int32)).define
        "x".toList (some (.Instruction 7)) (some .float32)).lookup "x".toList =
      (some (.Instruction 7), some .float32) ∧
    ((Compiler.new.env.define "x".toList (some (.Instruction 0)) (some .int32)).define
        "x".toList (some (.Instruction 7)) (some .float32)).records =
      [("true".toList, some (.GlobalVariable "true".toList), some .int1),
       ("false".toList, some (.GlobalVariable "false".toList), some .int1),
       ("x".toList, some (.Instruction 7), some .float32)] ∧
    (Compiler.new.env.define "true".toList (some (.Instruction 3)) (some .int32)).records =
      [("true".toList, some (.Instruction 3), some .int32),
       ("false".toList, some (.GlobalVariable "false".toList), some .int1)] := by
  decide

/-- C26: `lookup(n)` on a scope returns the binding of `n` in the records of the
scope itself when there is one, whatever its ancestors bind; when there is none
and the scope has a parent, it returns what `lookup(n)` returns on the parent;
when there is none and the scope has no parent, it returns the pair of null
handles. A definition in a scope leaves its parent as it is, and so what
`lookup` returns on the parent. -/
theorem C26_lookup_innermost_first (e : Environment) (n : List Char) :
    (∀ entry, e.records.lookup n = some entry → e.lookup n = entry) ∧
    (∀ parent, e.records.lookup n = none → e.parent = some parent →
      e.lookup n = parent.lookup n) ∧
    (e.records.lookup n = none → e.parent = none → e.lookup n = (none, none)) ∧
    (∀ m v t, (e.define m v t).parent = e.parent) ∧
    (∀ m v t parent, e.parent = some parent →
      (e.define m v t).parent = some parent ∧
        ∀ k, k ≠ m → (e.define m v t).lookup k = e.lookup k) := by
  cases e with
  | mk r p nm =>
    refine ⟨?_, ?_, ?_, ?_, ?_⟩
    · intro entry h
      simp only [Environment.records] at h
      cases p <;> simp only [Environment.lookup, Environment.resolve, h]
    · intro parent h hp
      simp only [Environment.records] at h
      simp only [Environment.parent] at hp
      subst hp
      simp only [Environment.lookup, Environment.resolve, h]
    · intro h hp
      simp only [Environment.records] at h
      simp only [Environment.parent] at hp
      subst hp
      simp only [Environment.lookup, Environment.resolve, h]
    · intro m v t
      rfl
    · intro m v t parent hp
      exact ⟨hp, fun k hk => Environment.lookup_define_other _ m k v t hk⟩

/-- C26 (examples): a root scope that binds `x` and `y`, and a child scope of it
that binds `x`. On the child, `x` is the binding of the child, `y` is the
binding of the root, and `z` is not found; after a definition of `z` in the
child, `z` is still not found on its parent. -/
theorem C26_examples :
    (Environment.mk [("x".toList, some (.Instruction 2), some .float32)]
        (some (Environment.mk [("x".toList, some (.Instruction 0), some .int32),
          ("y".toList, some (.Instruction 1), some .int1)] none [])) []).lookup "x".toList =
      (some (.Instruction 2), some .float32) ∧
    (Environment.mk [("x".toList, some (.Instruction 2), some .float32)]
        (some (Environment.mk [("x".toList, some (.Instruction 0), some .int32),
          ("y".toList, some (.Instruction 1), some .int1)] none [])) []).lookup "y".toList =
      (some (.Instruction 1), some .int1) ∧
    (Environment.mk [("x".toList, some (.Instruction 2), some .float32)]
        (some (Environment.mk [("x".toList, some (.Instruction 0), some .int32),
          ("y".toList, some (.Instruction 1), some .int1)] none [])) []).lookup "z".toList =
      (none, none) ∧
    ((Environment.mk [("x".toList, some (.Instruction 2), some .float32)]
        (some (Environment.mk [("x".toList, some (.Instruction 0), some .int32),
          ("y".toList, some (.Instruction 1), some .int1)] none [])) []).define "z".toList
        (some (.Instruction 3)) (some .int32)).parent =
      some (Environment.mk [("x".toList, some (.Instruction 0), some .int32),
          ("y".toList, some (.Instruction 1), some .int1)] none []) ∧
    (Environment.mk [("x".toList, some (.Instruction 0), some .int32),
        ("y".toList, some (.Instruction 1), some .int1)] none []).lookup "z".toList =
      (none, none) := by
  decide

/-- C26 (witness): a child scope that binds `x`, under a root scope that binds
`x` and `y`: `lookup` of `y` on the child is `lookup` of `y` on the root, and
`lookup` of `x` on the child is the binding of the child. -/
theorem C26_lookup_innermost_first_witness :
    (Environment.mk [("x".toList, some (.Instruction 2), some .float32)]
        (some (Environment.mk [("x".toList, some (.Instruction 0), some .int32),
          ("y".toList, some (.Instruction 1), some .int1)] none [])) []).lookup "y".toList =
      (Environment.mk [("x".toList, some (.Instruction 0), some .int32),
          ("y".toList, some (.Instruction 1), some .int1)] none []).lookup "y".toList ∧
    (Environment.mk [("x".toList, some (.Instruction 2), some .float32)]
        (some (Environment.mk [("x".toList, some (.Instruction 0), some .int32),
          ("y".toList, some (.Instruction 1), some .int1)] none [])) []).lookup "x".toList =
      (some (.Instruction 2), some .float32) :=
  ⟨(C26_lookup_innermost_first
      (Environment.mk [("x".toList, some (.Instruction 2), some .float32)]
        (some (Environment.mk [("x".toList, some (.Instruction 0), some .int32),
          ("y".toList, some (.Instruction 1), some .int1)] none [])) []) "y".toList).2.1
      (Environment.mk [("x".toList, some (.Instruction 0), some .int32),
          ("y".toList, some (.Instruction 1), some .int1)] none []) (by decide) rfl,
   (C26_lookup_innermost_first
      (Environment.mk [("x".toList, some (.Instruction 2), some .float32)]
        (some (Environment.mk [("x".toList, some (.Instruction 0), some .int32),
          ("y".toList, some (.Instruction 1), some .int1)] none [])) []) "x".toList).1
      (some (.Instruction 2), some .float32) (by decide)⟩


/-! ## Code generation: `let` -/

namespace Compiler

theorem allocas_request (c : Compiler) (r : Request) (h : r.is_alloca = false) :
    (request c r).2.allocas = c.allocas := by
  simp [request, allocas, List.filter_append, h]

theorem allocas_infix_result (op : List Char) (lv rv : Option Value) (lt rt : Option Ty)
    (c : Compiler) : (infix_result op lv lt rv rt c).2.allocas = c.allocas := by
  unfold infix_result
  cases hsel : select_request op lt rt with
  | none => rfl
  | some p =>
    obtain ⟨r, t⟩ := p
    cases r with
    | inl bin => exact allocas_request c _ rfl
    | inr pred => exact allocas_request c _ rfl

mutual

/-- Resolving an expression requests no allocation. -/
theorem resolve_node_allocas :
    ∀ (e : Expression) (c c1 : Compiler) (r : Option Value × Option Ty),
      resolve_node e c = .ok (r, c1) → c1.allocas = c.allocas
  | .IntegerLiteral _, c, c1, r, h => by
    simp only [resolve_node, Except.ok.injEq, Prod.mk.injEq] at h
    rw [← h.2]
  | .FloatLiteral _, c, c1, r, h => by
    simp only [resolve_node, Except.ok.injEq, Prod.mk.injEq] at h
    rw [← h.2]
  | .BooleanLiteral _, c, c1, r, h => by
    simp only [resolve_node, Except.ok.injEq, Prod.mk.injEq] at h
    rw [← h.2]
  | .IdentifierLiteral name, c, c1, r, h => by
    rw [resolve_node] at h
    rcases hl : c.env.lookup name with ⟨v, t⟩
    rw [hl] at h
    cases v with
    | none =>
      simp only [Except.ok.injEq, Prod.mk.injEq] at h
      rw [← h.2]
    | some value =>
      simp only [Except.ok.injEq, Prod.mk.injEq] at h
      rw [← h.2]; exact allocas_request c _ rfl
  | .InfixExpression none _ _, c, c1, r, h => by
    simp only [resolve_node, Except.ok.injEq, Prod.mk.injEq] at h
    rw [← h.2]
  | .InfixExpression (some _) _ none, c, c1, r, h => by
    simp only [resolve_node, Except.ok.injEq, Prod.mk.injEq] at h
    rw [← h.2]
  | .InfixExpression (some l) op (some rr), c, c1, r, h => by
    rw [resolve_node] at h
    simp only [Parser.bind_eq_ok] at h
    obtain ⟨⟨⟨lv, lt⟩, c2⟩, hl, h⟩ := h
    obtain ⟨⟨⟨rv, rt⟩, c3⟩, hr, h⟩ := h
    simp only [pure, Except.pure, Except.ok.injEq] at h
    have h1 := resolve_node_allocas l c c2 _ hl
    have h2 := resolve_node_allocas rr c2 c3 _ hr
    have h3 := allocas_infix_result op lv rv lt rt c3
    rw [h] at h3
    rw [h3, h2, h1]
  | .CallExpression function arguments, c, c1, r, h => by
    simp only [resolve_node, Parser.bind_eq_ok] at h
    obtain ⟨func_name, _, h⟩ := h
    obtain ⟨⟨values, c2⟩, ha, h⟩ := h
    have h1 := resolve_nodes_allocas arguments c c2 values ha
    rcases hl : c2.env.lookup func_name with ⟨v, t⟩
    rw [hl] at h
    cases v with
    | none => simp at h
    | some value =>
      cases value with
      | Function id =>
        simp only [pure, Except.pure, Except.ok.injEq, Prod.mk.injEq] at h
        rw [← h.2, allocas_request c2 (.Call id values) rfl, h1]
      | ConstantInt _ _ => simp at h
      | ConstantFP _ => simp at h
      | GlobalVariable _ => simp at h
      | Argument _ _ => simp at h
      | Instruction _ => simp at h

theorem resolve_nodes_allocas :
    ∀ (args : List (Option Expression)) (c c1 : Compiler) (values : List (Option Value)),
      resolve_nodes args c = .ok (values, c1) → c1.allocas = c.allocas
  | [], c, c1, values, h => by
    simp only [resolve_nodes, Except.ok.injEq, Prod.mk.injEq] at h
    rw [← h.2]
  | none :: rest, c, c1, values, h => by
    rw [resolve_nodes] at h
    simp only [Parser.bind_eq_ok] at h
    obtain ⟨⟨vs, c2⟩, hr, h⟩ := h
    simp only [pure, Except.pure, Except.ok.injEq, Prod.mk.injEq] at h
    rw [← h.2]
    exact resolve_nodes_allocas rest c c2 vs hr
  | some e :: rest, c, c1, values, h => by
    rw [resolve_nodes] at h
    simp only [Parser.bind_eq_ok] at h
    obtain ⟨⟨⟨v, t⟩, c2⟩, he, h⟩ := h
    obtain ⟨⟨vs, c3⟩, hr, h⟩ := h
    simp only [pure, Except.pure, Except.ok.injEq, Prod.mk.injEq] at h
    rw [← h.2, resolve_nodes_allocas rest c2 c3 vs hr, resolve_node_allocas e c c2 _ he]

end

end Compiler

/-- C27: for every let statement `let x: T = E;`, compiled in a state where no
binding has a null handle (every state reached from a fresh `Compiler` is such a
state) and where `E` resolves to a value `val` of type `type`, leaving the state
`c1`. When `x` is not bound in the scope chain, `compile` returns the state `c1`
with two more requests, an allocation named `x` and then a store of `val` into
the slot the allocation gives, and with `x` bound to that slot in the current
scope: over the whole statement one allocation and one store are requested. When
`x` is bound, to `location`, `compile` returns `c1` with one more request, a
store of `val` into `location`: over the whole statement no allocation and one
store are requested, and the scope is the one before the statement. -/
theorem C27_let_statement
    (x T : List Char) (E : Expression) (c c1 : Compiler) (val : Value) (type : Option Ty)
    (henv : c.env.handles_present = true)
    (hE : Compiler.resolve_value (some E) c = .ok ((some val, type), c1)) :
    (c.env.bound x = false →
      ∃ c2, Compiler.compile_node (.LetStatement (some (.IdentifierLiteral x)) (some E) T) c =
          .ok c2 ∧
        c2.requests = c1.requests ++
          [(c.insert_block, .Alloca type x),
           (c.insert_block, .Store (some val) (some (.Instruction c1.requests.length)))] ∧
        c2.allocas = c.allocas ++ [(c.insert_block, .Alloca type x)] ∧
        c2.stores = c.stores ++
          [(c.insert_block, .Store (some val) (some (.Instruction c1.requests.length)))] ∧
        c2.env = c.env.define x (some (.Instruction c1.requests.length)) type ∧
        c2.env.lookup x = (some (.Instruction c1.requests.length), type)) ∧
    (c.env.bound x = true →
      ∃ c2 location t, c.env.lookup x = (some location, t) ∧
        Compiler.compile_node (.LetStatement (some (.IdentifierLiteral x)) (some E) T) c =
          .ok c2 ∧
        c2.requests = c1.requests ++ [(c.insert_block, .Store (some val) (some location))] ∧
        c2.allocas = c.allocas ∧
        c2.stores = c.stores ++ [(c.insert_block, .Store (some val) (some location))] ∧
        c2.env = c.env) := by
  have ho := Compiler.resolve_value_only_requests (some E) c c1 _ hE
  have hs := Compiler.only_requests_stores c c1 ho
  have ha : c1.allocas = c.allocas := Compiler.resolve_node_allocas E c c1 _ hE
  obtain ⟨added, hc1, _⟩ := ho
  have henv1 : c1.env = c.env := by rw [hc1]
  have hcur1 : c1.insert_block = c.insert_block := by rw [hc1]
  have hb := Environment.lookup_of_bound c.env x henv
  simp only [Compiler.stores] at hs
  simp only [Compiler.allocas] at ha
  refine ⟨fun hbound => ?_, fun hbound => ?_⟩
  · have hl := hb.1 hbound
    have hcomp : Compiler.compile_node
        (.LetStatement (some (.IdentifierLiteral x)) (some E) T) c =
        .ok { (Compiler.request (Compiler.request c1 (.Alloca type x)).2
            (.Store (some val) (some (Compiler.request c1 (.Alloca type x)).1))).2 with
          env := c1.env.define x (some (Compiler.request c1 (.Alloca type x)).1) type } := by
      rw [Compiler.compile_node, Compiler.visit_let_statement]
      simp only [Option.isSome_some, and_self, if_true, Compiler.identifier_value, hE, bind,
        Except.bind]
      rw [if_pos (by rw [henv1]; exact hl)]
      rfl
    refine ⟨_, hcomp, ?_, ?_, ?_, ?_, ?_⟩
    · simp [Compiler.request, hcur1]
    · simp only [Compiler.request, Compiler.allocas, List.filter_append, ha, hcur1]
      simp [Request.is_alloca]
    · simp only [Compiler.request, Compiler.stores, List.filter_append, hs, hcur1]
      simp [Request.is_store]
    · simp [Compiler.request, henv1]
    · simp only [Compiler.request, henv1]
      exact Environment.lookup_define_self _ _ _ _
  · obtain ⟨v, t, hl⟩ := hb.2 hbound
    have hcomp : Compiler.compile_node
        (.LetStatement (some (.IdentifierLiteral x)) (some E) T) c =
        .ok (Compiler.request c1 (.Store (some val) (some v))).2 := by
      rw [Compiler.compile_node, Compiler.visit_let_statement]
      have hl1 : c1.env.lookup x = (some v, t) := by rw [henv1]; exact hl
      simp only [Option.isSome_some, and_self, if_true, Compiler.identifier_value, hE, bind,
        Except.bind]
      rw [if_neg (by rw [hl1]; simp)]
      simp only [hl1]
      rfl
    refine ⟨_, v, t, hl, hcomp, ?_, ?_, ?_, ?_⟩
    · simp [Compiler.request, hcur1]
    · simp only [Compiler.request, Compiler.allocas, List.filter_append, ha, hcur1]
      simp [Request.is_alloca]
    · simp only [Compiler.request, Compiler.stores, List.filter_append, hs, hcur1]
      simp [Request.is_store]
    · simp [Compiler.request, henv1]

/-- C27 (witness): `let x: int = 5;` in a fresh `Compiler`, where `x` is not
bound. -/
theorem C27_let_statement_witness :
    Compiler.new.env.handles_present = true ∧
    Compiler.resolve_value (some (.IntegerLiteral 5)) Compiler.new =
      .ok ((some (.ConstantInt 32 5), some .int32), Compiler.new) ∧
    Compiler.new.env.bound ['x'] = false ∧
    ∃ c2, Compiler.compile_node (.LetStatement (some (.IdentifierLiteral ['x']))
        (some (.IntegerLiteral 5)) "int".toList) Compiler.new = .ok c2 ∧
      c2.requests = Compiler.new.requests ++
        [(Compiler.new.insert_block, .Alloca (some .int32) ['x']),
         (Compiler.new.insert_block, .Store (some (.ConstantInt 32 5))
           (some (.Instruction Compiler.new.requests.length)))] ∧
      c2.allocas = Compiler.new.allocas ++
        [(Compiler.new.insert_block, .Alloca (some .int32) ['x'])] ∧
      c2.stores = Compiler.new.stores ++
        [(Compiler.new.insert_block, .Store (some (.ConstantInt 32 5))
           (some (.Instruction Compiler.new.requests.length)))] ∧
      c2.env = Compiler.new.env.define ['x']
        (some (.Instruction Compiler.new.requests.length)) (some .int32) ∧
      c2.env.lookup ['x'] = (some (.Instruction Compiler.new.requests.length), some .int32) :=
  ⟨by decide, rfl, by decide,
   (C27_let_statement ['x'] "int".toList (.IntegerLiteral 5) Compiler.new Compiler.new
     (.ConstantInt 32 5) (some .int32) (by decide) rfl).1 (by decide)⟩

/-- C27 (on source text): the requests and the bindings after
`let x: int = 5; let x: int = 6; let y: int = x;`. The first statement allocates
a slot for `x` and stores into it, the second only stores into that slot, the
third loads `x`, allocates a slot for `y` and stores the loaded value into it. -/
theorem C27_examples :
    (parse_source 40 "let x: int = 5; let x: int = 6; let y: int = x;".toList).bind
        (fun r => (Compiler.compile r.1 Compiler.new).map
          (fun c => (c.errors, c.requests))) =
      .ok ([],
        [(none, .Alloca (some .int32) ['x']),
         (none, .Store (some (.ConstantInt 32 5)) (some (.Instruction 0))),
         (none, .Store (some (.ConstantInt 32 6)) (some (.Instruction 0))),
         (none, .Load (some .int32) (some (.Instruction 0))),
         (none, .Alloca (some .int32) ['y']),
         (none, .Store (some (.Instruction 3)) (some (.Instruction 4)))]) ∧
    (parse_source 40 "let x: int = 5; let x: int = 6; let y: int = x;".toList).bind
        (fun r => (Compiler.compile r.1 Compiler.new).map (fun c => c.env.records)) =
      .ok [("true".toList, some (.GlobalVariable "true".toList), some .int1),
         ("false".toList, some (.GlobalVariable "false".toList), some .int1),
         (['x'], some (.Instruction 0), some .int32),
         (['y'], some (.Instruction 4), some .int32)] := by
  decide!


/-! ## Code generation: functions -/

namespace Compiler

/-- The method `visit_function_statement`: the body is compiled in the state
`function_body_state`, and then the scope and the cursor are set back. -/
theorem compile_node_function (params : List (Option FunctionParameter))
    (body : Option Statement) (f t : List Char) (c : Compiler)
    (fields : List (List Char × Option Ty)) (hfields : param_fields params = .ok fields) :
    compile_node (.FunctionStatement params body (some (.IdentifierLiteral f)) t) c =
      (compile_opt body (function_body_state f fields (type_map t) c)).bind
        (fun c5 => .ok { c5 with
          env := c.env.define f (some (.Function c.functions.length)) (type_map t),
          insert_block := c.insert_block }) := by
  rw [compile_node]
  simp only [identifier_value, hfields, bind, Except.bind, function_body_state, create_block,
    pure, Except.pure]

theorem param_fields_map_some (params : List FunctionParameter) :
    param_fields (params.map some) = .ok (fields_of params) := by
  induction params with
  | nil => rfl
  | cons p ps ih =>
    simp only [List.map_cons, param_fields, ih, bind, Except.bind, pure, Except.pure, fields_of]

/-- What compiling a function statement that returns leaves: the scope before
with the function defined in it, the cursor before, and more requests, each made
with the cursor in a block created for the function. -/
theorem compile_node_function_frame (params : List (Option FunctionParameter))
    (body : Option Statement) (name : Option Expression) (t : List Char) (c c' : Compiler)
    (h : compile_node (.FunctionStatement params body name t) c = .ok c') :
    (∃ f, name = some (.IdentifierLiteral f) ∧
      c'.env = c.env.define f (some (.Function c.functions.length)) (type_map t)) ∧
    c'.insert_block = c.insert_block ∧
    ∃ added, c'.requests = c.requests ++ added ∧
      ∀ r ∈ added, ∃ k, r.1 = some k ∧ c.blocks.length ≤ k := by
  rw [compile_node] at h
  simp only [Parser.bind_eq_ok] at h
  obtain ⟨func_name, hname, fields, _, h⟩ := h
  simp only [create_block] at h
  obtain ⟨a, hbody, h⟩ := h
  simp only [pure, Except.pure, Except.ok.injEq] at h
  have hf : name = some (.IdentifierLiteral func_name) := by
    cases name with
    | none => simp [identifier_value] at hname
    | some e =>
      cases e <;> simp [identifier_value] at hname
      rw [hname]
  have h4 := (advances_store_params c.functions.length fields 0 _ _
    (advances_refl { c with
        insert_block := some c.blocks.length,
        functions := c.functions ++ [⟨func_name, type_map t, fields.map Prod.snd⟩],
        blocks := c.blocks ++ [⟨func_name ++ "_entry".toList, some c.functions.length⟩] })).1
  have h5 := (compile_opt_keeps body _ a hbody).1
  have h6 := advances_trans _ _ a (advances_of_fields _ _ _ h4 rfl rfl rfl) h5
  obtain ⟨_, _, added, e, r⟩ := h6
  rw [← h]
  refine ⟨⟨func_name, hf, rfl⟩, rfl, added, e, ?_⟩
  intro x hx
  rcases r x hx with hcur | ⟨k, hk, h1, _⟩
  · exact ⟨c.blocks.length, hcur, le_refl _⟩
  · refine ⟨k, hk, ?_⟩
    simp only [List.length_append, List.length_singleton] at h1
    omega

end Compiler

/-- C28: whenever `visit_function_statement` returns, for any parameters and any
body. The insertion cursor is the cursor before the call; the scope is the scope
before the call, in which the function has been defined; every request made
during the call was made with the cursor in a block created during the call, so
that the requests made so far in the block of the cursor, in every other block
that existed before the call, and with no block at all, are those made before
the call: the position of the cursor in its block is the one before the call. -/
theorem C28_function_restores_context (params : List (Option FunctionParameter))
    (body : Option Statement) (name : Option Expression) (t : List Char) (c c' : Compiler)
    (h : Compiler.compile_node (.FunctionStatement params body name t) c = .ok c') :
    c'.insert_block = c.insert_block ∧
    (∃ f, name = some (.IdentifierLiteral f) ∧
      c'.env = c.env.define f (some (.Function c.functions.length)) (Compiler.type_map t)) ∧
    (∃ added, c'.requests = c.requests ++ added ∧
      ∀ r ∈ added, ∃ k, r.1 = some k ∧ c.blocks.length ≤ k) ∧
    (∀ k, k < c.blocks.length → c'.requests_in k = c.requests_in k) ∧
    c'.requests.filter (fun r => r.1 = none) = c.requests.filter (fun r => r.1 = none) := by
  obtain ⟨henv, hcur, added, e, r⟩ :=
    Compiler.compile_node_function_frame params body name t c c' h
  refine ⟨hcur, henv, ⟨added, e, r⟩, ?_, ?_⟩
  · intro k hk
    rw [Compiler.requests_in, Compiler.requests_in, e, List.filter_append]
    have : added.filter (fun r => r.1 = some k) = [] := by
      rw [List.filter_eq_nil_iff]
      intro x hx hxk
      simp only [decide_eq_true_eq] at hxk
      obtain ⟨j, hj, hle⟩ := r x hx
      rw [hj] at hxk
      simp only [Option.some.injEq] at hxk
      omega
    rw [this, List.append_nil]
  · rw [e, List.filter_append]
    have : added.filter (fun r => r.1 = none) = [] := by
      rw [List.filter_eq_nil_iff]
      intro x hx hxk
      simp only [decide_eq_true_eq] at hxk
      obtain ⟨j, hj, _⟩ := r x hx
      rw [hj] at hxk
      exact Option.noConfusion hxk
    rw [this, List.append_nil]

/-- C29: whenever the compilation of `def f(...) -> t { BODY }` returns, for any
parameters and any body: the scope is the scope before the statement in which
`f` has been defined as the new function with the return type `t`. So `lookup`
of `f` gives the new function and `t`; `lookup` of every other name, a
parameter or a name of a let statement of the body among them, gives what it
gave before the statement; the records are those before with the one binding of
`f` set; and the parent is the one before. -/
theorem C29_function_scope_is_discarded (params : List (Option FunctionParameter))
    (body : Option Statement) (f t : List Char) (c c' : Compiler)
    (h : Compiler.compile_node
      (.FunctionStatement params body (some (.IdentifierLiteral f)) t) c = .ok c') :
    c'.env = c.env.define f (some (.Function c.functions.length)) (Compiler.type_map t) ∧
    c'.env.lookup f = (some (.Function c.functions.length), Compiler.type_map t) ∧
    (∀ m, m ≠ f → c'.env.lookup m = c.env.lookup m) ∧
    c'.env.records =
      Environment.insert f (some (.Function c.functions.length), Compiler.type_map t)
        c.env.records ∧
    (∀ m, m ≠ f → c'.env.records.lookup m = c.env.records.lookup m) ∧
    c'.env.parent = c.env.parent := by
  obtain ⟨⟨g, hg, henv⟩, _, _⟩ :=
    Compiler.compile_node_function_frame params body _ t c c' h
  simp only [Option.some.injEq, Expression.IdentifierLiteral.injEq] at hg
  subst hg
  rw [henv]
  refine ⟨rfl, Environment.lookup_define_self _ _ _ _,
    fun m hm => Environment.lookup_define_other _ _ m _ _ hm, ?_, ?_, ?_⟩
  · cases c.env with
    | mk r p n => rfl
  · intro m hm
    cases c.env with
    | mk r p n =>
      simp only [Environment.define, Environment.records]
      exact Environment.lookup_insert_other _ m _ hm r
  · cases c.env with
    | mk r p n => rfl


/-- C28 (witness): inside the body of a function `f`, with the cursor in the
entry block of `f` (block 0), the statement
`def g() -> int { if 1 < 2 do { return 1; } def h() -> int { return 2; } }`.
It returns; the cursor is again in block 0, no request was made in block 0, and
the six requests were made in the blocks 1, 2, 3 and 5. -/
theorem C28_function_restores_context_witness :
    ∃ c', Compiler.compile_node
        (.FunctionStatement []
          (some (.BlockStatement
            [.IfStatement
              (some (.InfixExpression (some (.IntegerLiteral 1)) "<".toList
                (some (.IntegerLiteral 2))))
              (some (.BlockStatement [.ReturnStatement (some (.IntegerLiteral 1))])) none,
             .FunctionStatement []
              (some (.BlockStatement [.ReturnStatement (some (.IntegerLiteral 2))]))
              (some (.IdentifierLiteral "h".toList)) "int".toList]))
          (some (.IdentifierLiteral "g".toList)) "int".toList)
        (Compiler.function_body_state "f".toList [] (some .int32) Compiler.new) = .ok c' ∧
      c'.insert_block =
        (Compiler.function_body_state "f".toList [] (some .int32) Compiler.new).insert_block ∧
      (Compiler.function_body_state "f".toList [] (some .int32) Compiler.new).insert_block =
        some 0 ∧
      c'.requests_in 0 =
        (Compiler.function_body_state "f".toList [] (some .int32) Compiler.new).requests_in 0 ∧
      c'.requests.map Prod.fst = [some 1, some 1, some 2, some 2, some 3, some 5] := by
  have hc : Compiler.compile_node
      (.FunctionStatement []
        (some (.BlockStatement
          [.IfStatement
            (some (.InfixExpression (some (.IntegerLiteral 1)) "<".toList
              (some (.IntegerLiteral 2))))
            (some (.BlockStatement [.ReturnStatement (some (.IntegerLiteral 1))])) none,
           .FunctionStatement []
            (some (.BlockStatement [.ReturnStatement (some (.IntegerLiteral 2))]))
            (some (.IdentifierLiteral "h".toList)) "int".toList]))
        (some (.IdentifierLiteral "g".toList)) "int".toList)
      (Compiler.function_body_state "f".toList [] (some .int32) Compiler.new) =
      .ok { env := Environment.mk
              [("true".toList, some (.GlobalVariable "true".toList), some .int1),
               ("false".toList, some (.GlobalVariable "false".toList), some .int1),
               ("f".toList, some (.Function 0), some .int32),
               ("g".toList, some (.Function 1), some .int32)] none [],
            errors := [],
            requests :=
              [(some 1, .Cmp .ICMP_SLT (some (.ConstantInt 32 1)) (some (.ConstantInt 32 2))),
               (some 1, .CondBr (some (.Instruction 0)) 2 3),
               (some 2, .Ret (some (.ConstantInt 32 1))),
               (some 2, .Br 4),
               (some 3, .Br 4),
               (some 5, .Ret (some (.ConstantInt 32 2)))],
            insert_block := some 0,
            functions :=
              [{ name := "f".toList, return_type := some .int32, param_types := [] },
               { name := "g".toList, return_type := some .int32, param_types := [] },
               { name := "h".toList, return_type := some .int32, param_types := [] }],
            blocks :=
              [{ name := "f_entry".toList, parent := some 0 },
               { name := "g_entry".toList, parent := some 1 },
               { name := "then".toList, parent := some 1 },
               { name := "else".toList, parent := some 1 },
               { name := "ifcont".toList, parent := some 1 },
               { name := "h_entry".toList, parent := some 2 }],
            globals :=
              [("true".toList, some .int1, .ConstantInt 1 1),
               ("false".toList, some .int1, .ConstantInt 1 0)] } := by
    decide!
  have h := C28_function_restores_context _ _ _ _ _ _ hc
  exact ⟨_, hc, h.1, by decide, h.2.2.2.1 0 (by decide), by decide⟩

/-- C28 (on source text): a function whose body has an `if` and a nested
function, between two let statements at the top level. The requests of the two
let statements are made with the same cursor (none: the top level has no
insertion point), and the cursor after the program is that cursor. -/
theorem C28_examples :
    (parse_source 120 ("let x: int = 1; def g(b: int) -> int \x7b if b < 1 do \x7b return 1; \x7d " ++
        "def h() -> int \x7b return 2; \x7d return b; \x7d let y: int = 2;").toList).bind
        (fun r => (Compiler.compile r.1 Compiler.new).map
          (fun c => (c.insert_block, c.requests.map Prod.fst))) =
      .ok (none, [none, none, some 0, some 0, some 0, some 0, some 0, some 1, some 1, some 2,
        some 4, some 3, some 3, none, none]) := by
  decide!

/-- C29 (witness): `def f(a: int) -> int { let b: int = a; return b; }` in a
fresh `Compiler`. After it the scope binds `true`, `false` and `f`; the
parameter `a` and the name `b` of the let statement of the body are not bound. -/
theorem C29_function_scope_is_discarded_witness :
    ∃ c', Compiler.compile_node
        (.FunctionStatement [some { name := "a".toList, value_type := "int".toList }]
          (some (.BlockStatement
            [.LetStatement (some (.IdentifierLiteral "b".toList))
              (some (.IdentifierLiteral "a".toList)) "int".toList,
             .ReturnStatement (some (.IdentifierLiteral "b".toList))]))
          (some (.IdentifierLiteral "f".toList)) "int".toList) Compiler.new = .ok c' ∧
      c'.env = Compiler.new.env.define "f".toList (some (.Function 0)) (some .int32) ∧
      c'.env.lookup "f".toList = (some (.Function 0), some .int32) ∧
      c'.env.lookup "a".toList = (none, none) ∧
      c'.env.lookup "b".toList = (none, none) ∧
      c'.env.lookup "true".toList = (some (.GlobalVariable "true".toList), some .int1) := by
  have hc : Compiler.compile_node
      (.FunctionStatement [some { name := "a".toList, value_type := "int".toList }]
        (some (.BlockStatement
          [.LetStatement (some (.IdentifierLiteral "b".toList))
            (some (.IdentifierLiteral "a".toList)) "int".toList,
           .ReturnStatement (some (.IdentifierLiteral "b".toList))]))
        (some (.IdentifierLiteral "f".toList)) "int".toList) Compiler.new =
      .ok { env := Environment.mk
              [("true".toList, some (.GlobalVariable "true".toList), some .int1),
               ("false".toList, some (.GlobalVariable "false".toList), some .int1),
               ("f".toList, some (.Function 0), some .int32)] none [],
            errors := [],
            requests :=
              [(some 0, .Alloca (some .int32) "a".toList),
               (some 0, .Store (some (.Argument 0 0)) (some (.Instruction 0))),
               (some 0, .Load (some .int32) (some (.Instruction 0))),
               (some 0, .Alloca (some .int32) "b".toList),
               (some 0, .Store (some (.Instruction 2)) (some (.Instruction 3))),
               (some 0, .Load (some .int32) (some (.Instruction 3))),
               (some 0, .Ret (some (.Instruction 5)))],
            insert_block := none,
            functions :=
              [{ name := "f".toList, return_type := some .int32,
                 param_types := [some .int32] }],
            blocks := [{ name := "f_entry".toList, parent := some 0 }],
            globals :=
              [("true".toList, some .int1, .ConstantInt 1 1),
               ("false".toList, some .int1, .ConstantInt 1 0)] } := by
    decide!
  have h := C29_function_scope_is_discarded _ _ _ _ _ _ hc
  exact ⟨_, hc, h.1, h.2.1, (h.2.2.1 "a".toList (by decide)).trans (by decide),
    (h.2.2.1 "b".toList (by decide)).trans (by decide),
    (h.2.2.1 "true".toList (by decide)).trans (by decide)⟩

/-- C29 (on source text): the bindings after a function with a parameter and a
let statement, and after a second definition of the same name, which sets the
binding of `f` anew. -/
theorem C29_examples :
    (parse_source 80 "def f(a: int) -> int \x7b let b: int = a; return b; \x7d".toList).bind
        (fun r => (Compiler.compile r.1 Compiler.new).map (fun c => c.env.records)) =
      .ok [("true".toList, some (.GlobalVariable "true".toList), some .int1),
           ("false".toList, some (.GlobalVariable "false".toList), some .int1),
           ("f".toList, some (.Function 0), some .int32)] ∧
    (parse_source 80 ("let a: int = 1; def f(a: float) -> int \x7b let a: float = 2.5; return 1; \x7d " ++
        "def f() -> bool \x7b return true; \x7d").toList).bind
        (fun r => (Compiler.compile r.1 Compiler.new).map (fun c => c.env.records)) =
      .ok [("true".toList, some (.GlobalVariable "true".toList), some .int1),
           ("false".toList, some (.GlobalVariable "false".toList), some .int1),
           ("a".toList, some (.Instruction 0), some .int32),
           ("f".toList, some (.Function 1), some .int1)] := by
  exact ⟨by decide!, by decide!⟩


/-! ## Code generation: the scope of a function body -/

namespace Compiler

theorem store_params_cons (func i : Nat) (n : List Char) (t : Option Ty)
    (fields : List (List Char × Option Ty)) (c : Compiler) :
    store_params func i ((n, t) :: fields) c =
      (some (.Instruction c.requests.length) ::
          (store_params func (i + 1) fields { c with requests := c.requests ++
            [(c.insert_block, .Alloca t n),
             (c.insert_block, .Store (some (.Argument func i))
               (some (.Instruction c.requests.length)))] }).1,
        (store_params func (i + 1) fields { c with requests := c.requests ++
            [(c.insert_block, .Alloca t n),
             (c.insert_block, .Store (some (.Argument func i))
               (some (.Instruction c.requests.length)))] }).2) := by
  rw [store_params]
  simp only [request, List.append_assoc, List.singleton_append]

/-- The loop over the parameters only makes requests, two for each parameter. -/
theorem store_params_requests (func : Nat) :
    ∀ (fields : List (List Char × Option Ty)) (i : Nat) (c : Compiler),
      ∃ added, (store_params func i fields c).2 = { c with requests := c.requests ++ added } ∧
        added.length = 2 * fields.length
  | [], i, c => ⟨[], by simp [store_params], rfl⟩
  | (n, t) :: rest, i, c => by
    rw [store_params_cons]
    obtain ⟨added, h, hl⟩ := store_params_requests func rest (i + 1)
      { c with requests := c.requests ++
        [(c.insert_block, .Alloca t n),
         (c.insert_block, .Store (some (.Argument func i))
           (some (.Instruction c.requests.length)))] }
    refine ⟨[(c.insert_block, .Alloca t n),
      (c.insert_block, .Store (some (.Argument func i))
        (some (.Instruction c.requests.length)))] ++ added, ?_, ?_⟩
    · rw [h]
      simp
    · simp only [List.length_append, List.length_cons, List.length_nil, hl]
      omega

/-- The slot of the parameter of index `j` is the result of the allocation that
is the request of index `2 * j` of the loop. -/
theorem store_params_slot (func : Nat) :
    ∀ (fields : List (List Char × Option Ty)) (i : Nat) (c : Compiler) (j : Nat)
      (n : List Char) (t : Option Ty), fields[j]? = some (n, t) →
      (store_params func i fields c).1[j]? =
        some (some (.Instruction (c.requests.length + 2 * j))) ∧
      (store_params func i fields c).2.requests[c.requests.length + 2 * j]? =
        some (c.insert_block, .Alloca t n)
  | [], i, c, j, n, t, h => by simp at h
  | (n0, t0) :: rest, i, c, 0, n, t, h => by
    simp only [List.getElem?_cons_zero, Option.some.injEq, Prod.mk.injEq] at h
    obtain ⟨rfl, rfl⟩ := h
    rw [store_params_cons]
    obtain ⟨added, hs, _⟩ := store_params_requests func rest (i + 1)
      { c with requests := c.requests ++
        [(c.insert_block, .Alloca t0 n0),
         (c.insert_block, .Store (some (.Argument func i))
           (some (.Instruction c.requests.length)))] }
    refine ⟨by simp, ?_⟩
    rw [hs]
    simp only [Nat.mul_zero, Nat.add_zero, List.append_assoc]
    rw [List.getElem?_append_right (le_refl _)]
    simp
  | (n0, t0) :: rest, i, c, j + 1, n, t, h => by
    simp only [List.getElem?_cons_succ] at h
    rw [store_params_cons]
    have ih := store_params_slot func rest (i + 1)
      { c with requests := c.requests ++
        [(c.insert_block, .Alloca t0 n0),
         (c.insert_block, .Store (some (.Argument func i))
           (some (.Instruction c.requests.length)))] } j n t h
    simp only [List.length_append, List.length_cons, List.length_nil] at ih
    have e : c.requests.length + (0 + 1 + 1) + 2 * j = c.requests.length + 2 * (j + 1) := by
      omega
    rw [e] at ih
    exact ⟨by simpa using ih.1, ih.2⟩

theorem lookup_define_params_other (m : List Char) :
    ∀ (fields : List (List Char × Option Ty)) (ptrs : List (Option Value))
      (env : Environment), (∀ x ∈ fields, x.1 ≠ m) →
      (define_params fields ptrs env).lookup m = env.lookup m
  | [], ptrs, env, _ => by simp [define_params]
  | (n, t) :: rest, [], env, _ => by simp [define_params]
  | (n, t) :: rest, ptr :: ptrs, env, h => by
    rw [define_params, lookup_define_params_other m rest ptrs _
      (fun x hx => h x (List.mem_cons_of_mem _ hx))]
    exact Environment.lookup_define_other _ _ _ _ _
      (fun e => h (n, t) (List.mem_cons_self _ _) e.symm)

/-- A parameter whose name no later parameter has is bound to its slot. -/
theorem lookup_define_params_at :
    ∀ (fields : List (List Char × Option Ty)) (ptrs : List (Option Value))
      (env : Environment) (j : Nat) (n : List Char) (t : Option Ty) (v : Option Value),
      fields[j]? = some (n, t) → ptrs[j]? = some v →
      (∀ x ∈ fields.drop (j + 1), x.1 ≠ n) →
      (define_params fields ptrs env).lookup n = (v, t)
  | [], _, _, j, n, t, v, h, _, _ => by simp at h
  | _ :: _, [], _, j, n, t, v, _, h, _ => by simp at h
  | (n0, t0) :: rest, ptr :: ptrs, env, 0, n, t, v, h, hp, hlater => by
    simp only [List.getElem?_cons_zero, Option.some.injEq, Prod.mk.injEq] at h hp
    obtain ⟨rfl, rfl⟩ := h
    subst hp
    simp only [Nat.zero_add, List.drop_succ_cons, List.drop_zero] at hlater
    rw [define_params, lookup_define_params_other n0 rest ptrs _ hlater]
    exact Environment.lookup_define_self _ _ _ _
  | (n0, t0) :: rest, ptr :: ptrs, env, j + 1, n, t, v, h, hp, hlater => by
    simp only [List.getElem?_cons_succ] at h hp
    simp only [List.drop_succ_cons] at hlater
    rw [define_params]
    exact lookup_define_params_at rest ptrs _ j n t v h hp hlater

theorem function_body_state_eq (f : List Char) (fields : List (List Char × Option Ty))
    (rt : Option Ty) (c : Compiler) :
    function_body_state f fields rt c =
      { (store_params c.functions.length 0 fields { c with
            functions := c.functions ++ [⟨f, rt, fields.map Prod.snd⟩],
            blocks := c.blocks ++ [⟨f ++ "_entry".toList, some c.functions.length⟩],
            insert_block := some c.blocks.length }).2 with
        env := (define_params fields
          (store_params c.functions.length 0 fields { c with
            functions := c.functions ++ [⟨f, rt, fields.map Prod.snd⟩],
            blocks := c.blocks ++ [⟨f ++ "_entry".toList, some c.functions.length⟩],
            insert_block := some c.blocks.length }).1 c.env).define f
          (some (.Function c.functions.length)) rt } := by
  simp only [function_body_state, create_block]

/-- A call of a name bound to a function, once the arguments are resolved. -/
theorem resolve_node_call (f : List Char) (args : List (Option Expression))
    (c c1 : Compiler) (values : List (Option Value)) (id : Nat) (rt : Option Ty)
    (hargs : resolve_nodes args c = .ok (values, c1))
    (hf : c.env.lookup f = (some (.Function id), rt)) :
    resolve_node (.CallExpression (some (.IdentifierLiteral f)) args) c =
      .ok ((some (.Instruction c1.requests.length), rt),
        { c1 with requests := c1.requests ++ [(c1.insert_block, .Call id values)] }) := by
  obtain ⟨added, hc1, _⟩ := resolve_nodes_only_requests args c c1 values hargs
  have henv : c1.env = c.env := by rw [hc1]
  rw [resolve_node]
  simp only [identifier_value, bind, Except.bind, hargs, henv, hf, request, pure, Except.pure]

end Compiler

/-- C30 (as stated, refuted): in `def f(f: int) -> int { return f; }` the scope
of the body binds `f` to the function, not to the slot of the parameter `f`
(the result of the request of index 0), and `return f` loads from the function;
in `def g(a: int, a: float) -> int { return a; }` the first parameter is not
bound to its slot either: `a` is bound to the slot of the second parameter. -/
theorem C30_counterexample_parameter_shadowed :
    (Compiler.function_body_state "f".toList
        (Compiler.fields_of [{ name := "f".toList, value_type := "int".toList }])
        (some .int32) Compiler.new).requests =
      [(some 0, .Alloca (some .int32) "f".toList),
       (some 0, .Store (some (.Argument 0 0)) (some (.Instruction 0)))] ∧
    (Compiler.function_body_state "f".toList
        (Compiler.fields_of [{ name := "f".toList, value_type := "int".toList }])
        (some .int32) Compiler.new).env.lookup "f".toList =
      (some (.Function 0), some .int32) ∧
    (parse_source 60 "def f(f: int) -> int \x7b return f; \x7d".toList).bind
        (fun r => (Compiler.compile r.1 Compiler.new).map (fun c => c.requests)) =
      .ok [(some 0, .Alloca (some .int32) "f".toList),
        (some 0, .Store (some (.Argument 0 0)) (some (.Instruction 0))),
        (some 0, .Load (some .int32) (some (.Function 0))),
        (some 0, .Ret (some (.Instruction 2)))] ∧
    (Compiler.function_body_state "g".toList
        (Compiler.fields_of [{ name := "a".toList, value_type := "int".toList },
          { name := "a".toList, value_type := "float".toList }])
        (some .int32) Compiler.new).env.lookup "a".toList =
      (some (.Instruction 2), some .float32) := by
  exact ⟨by decide!, by decide!, by decide!, by decide!⟩

/-- C30: the body of `def f(p1: t1, .., pn: tn) -> t { BODY }` is compiled in the
state `cb`, after which the scope and the cursor are set back. In `cb`, the
function created for the statement is the last one of the module; `f` is bound
to that function and the type of `t`; every parameter whose name is not `f` and
is not the name of a later parameter is bound to its own slot, the result of an
allocation of its type requested in the entry block of the function during this
call, and to its type; every name that is neither `f` nor the name of a
parameter has the binding it had before the statement; and a call of `f`, once
its arguments are resolved, is a call of that function. -/
theorem C30_function_body_scope (params : List FunctionParameter) (body : Option Statement)
    (f t : List Char) (c cb : Compiler)
    (hcb : cb = Compiler.function_body_state f (Compiler.fields_of params)
      (Compiler.type_map t) c) :
    Compiler.compile_node
        (.FunctionStatement (params.map some) body (some (.IdentifierLiteral f)) t) c =
      (Compiler.compile_opt body cb).bind
        (fun c5 => .ok { c5 with
          env := c.env.define f (some (.Function c.functions.length)) (Compiler.type_map t),
          insert_block := c.insert_block }) ∧
    cb.functions = c.functions ++
      [⟨f, Compiler.type_map t, params.map (fun p => Compiler.type_map p.value_type)⟩] ∧
    cb.insert_block = some c.blocks.length ∧
    cb.env.lookup f = (some (.Function c.functions.length), Compiler.type_map t) ∧
    (∀ i p, params[i]? = some p → p.name ≠ f →
      (∀ q ∈ params.drop (i + 1), q.name ≠ p.name) →
      cb.env.lookup p.name =
        (some (.Instruction (c.requests.length + 2 * i)), Compiler.type_map p.value_type) ∧
      cb.requests[c.requests.length + 2 * i]? =
        some (some c.blocks.length, .Alloca (Compiler.type_map p.value_type) p.name)) ∧
    (∀ m, m ≠ f → (∀ q ∈ params, q.name ≠ m) → cb.env.lookup m = c.env.lookup m) ∧
    (∀ args values c1, Compiler.resolve_nodes args cb = .ok (values, c1) →
      Compiler.resolve_node (.CallExpression (some (.IdentifierLiteral f)) args) cb =
        .ok ((some (.Instruction c1.requests.length), Compiler.type_map t),
          { c1 with requests := c1.requests ++
            [(c1.insert_block, .Call c.functions.length values)] })) := by
  obtain ⟨added, hs, _⟩ := Compiler.store_params_requests c.functions.length
    (Compiler.fields_of params) 0 { c with
      functions := c.functions ++
        [⟨f, Compiler.type_map t, (Compiler.fields_of params).map Prod.snd⟩],
      blocks := c.blocks ++ [⟨f ++ "_entry".toList, some c.functions.length⟩],
      insert_block := some c.blocks.length }
  have hlf : cb.env.lookup f = (some (.Function c.functions.length), Compiler.type_map t) := by
    rw [hcb, Compiler.function_body_state_eq]
    exact Environment.lookup_define_self _ _ _ _
  refine ⟨?_, ?_, ?_, hlf, ?_, ?_, ?_⟩
  · rw [hcb]
    exact Compiler.compile_node_function (params.map some) body f t c _
      (Compiler.param_fields_map_some params)
  · rw [hcb, Compiler.function_body_state_eq, hs]
    simp [Compiler.fields_of]
  · rw [hcb, Compiler.function_body_state_eq, hs]
  · intro i p hp hpf hlater
    have hfield : (Compiler.fields_of params)[i]? =
        some (p.name, Compiler.type_map p.value_type) := by
      simp [Compiler.fields_of, hp]
    have hslot := Compiler.store_params_slot c.functions.length (Compiler.fields_of params) 0
      { c with
        functions := c.functions ++
          [⟨f, Compiler.type_map t, (Compiler.fields_of params).map Prod.snd⟩],
        blocks := c.blocks ++ [⟨f ++ "_entry".toList, some c.functions.length⟩],
        insert_block := some c.blocks.length } i _ _ hfield
    have hl : ∀ x ∈ (Compiler.fields_of params).drop (i + 1), x.1 ≠ p.name := by
      intro x hx
      simp only [Compiler.fields_of, ← List.map_drop, List.mem_map] at hx
      obtain ⟨q, hq, rfl⟩ := hx
      exact hlater q hq
    constructor
    · rw [hcb, Compiler.function_body_state_eq]
      show Environment.lookup (Environment.define _ _ _ _) p.name = _
      rw [Environment.lookup_define_other _ _ _ _ _ hpf]
      exact Compiler.lookup_define_params_at _ _ _ i _ _ _ hfield hslot.1 hl
    · rw [hcb, Compiler.function_body_state_eq]
      exact hslot.2
  · intro m hm hq
    rw [hcb, Compiler.function_body_state_eq]
    show Environment.lookup (Environment.define _ _ _ _) m = _
    rw [Environment.lookup_define_other _ _ _ _ _ hm]
    refine Compiler.lookup_define_params_other m _ _ _ ?_
    intro x hx
    simp only [Compiler.fields_of, List.mem_map] at hx
    obtain ⟨q, hq1, rfl⟩ := hx
    exact hq q hq1
  · intro args values c1 hargs
    exact Compiler.resolve_node_call f args cb c1 values _ _ hargs hlf

/-- C30 (witness): `def f(a: int, b: float) -> int { .. }` in a fresh `Compiler`.
In the state the body is compiled in, `a` is bound to the slot of the request 0
and `b` to the slot of the request 2, with their types, `f` to the function, and
`true` to what it was bound to; a call `f()` is a call of the function 0. -/
theorem C30_function_body_scope_witness :
    (Compiler.function_body_state "f".toList
      (Compiler.fields_of [{ name := "a".toList, value_type := "int".toList },
        { name := "b".toList, value_type := "float".toList }])
      (Compiler.type_map "int".toList) Compiler.new).env.lookup "a".toList =
      (some (.Instruction (Compiler.new.requests.length + 2 * 0)),
        Compiler.type_map "int".toList) ∧
    (Compiler.function_body_state "f".toList
      (Compiler.fields_of [{ name := "a".toList, value_type := "int".toList },
        { name := "b".toList, value_type := "float".toList }])
      (Compiler.type_map "int".toList) Compiler.new).env.lookup "b".toList =
      (some (.Instruction (Compiler.new.requests.length + 2 * 1)),
        Compiler.type_map "float".toList) ∧
    (Compiler.function_body_state "f".toList
      (Compiler.fields_of [{ name := "a".toList, value_type := "int".toList },
        { name := "b".toList, value_type := "float".toList }])
      (Compiler.type_map "int".toList) Compiler.new).env.lookup "f".toList =
      (some (.Function Compiler.new.functions.length), Compiler.type_map "int".toList) ∧
    (Compiler.function_body_state "f".toList
      (Compiler.fields_of [{ name := "a".toList, value_type := "int".toList },
        { name := "b".toList, value_type := "float".toList }])
      (Compiler.type_map "int".toList) Compiler.new).env.lookup "true".toList =
      Compiler.new.env.lookup "true".toList := by
  have h := C30_function_body_scope
    [{ name := "a".toList, value_type := "int".toList },
      { name := "b".toList, value_type := "float".toList }] none "f".toList "int".toList
    Compiler.new _ rfl
  exact ⟨(h.2.2.2.2.1 0 { name := "a".toList, value_type := "int".toList } rfl (by decide)
      (by decide)).1,
    (h.2.2.2.2.1 1 { name := "b".toList, value_type := "float".toList } rfl (by decide)
      (by decide)).1,
    h.2.2.2.1, h.2.2.2.2.2.1 "true".toList (by decide) (by decide)⟩

/-- C30 (on source text): a function that calls itself with its parameter: the
call is a call of the function being defined, on the value loaded from the slot
of the parameter. -/
theorem C30_examples :
    (parse_source 60 "def f(a: int) -> int \x7b return f(a); \x7d".toList).bind
        (fun r => (Compiler.compile r.1 Compiler.new).map
          (fun c => (c.requests, c.functions))) =
      .ok ([(some 0, .Alloca (some .int32) "a".toList),
          (some 0, .Store (some (.Argument 0 0)) (some (.Instruction 0))),
          (some 0, .Load (some .int32) (some (.Instruction 0))),
          (some 0, .Call 0 [some (.Instruction 2)]),
          (some 0, .Ret (some (.Instruction 3)))],
        [{ name := "f".toList, return_type := some .int32, param_types := [some .int32] }]) := by
  decide!


/-! ## Code generation: comparisons, unsupported operands, identifiers -/

/-- C31: for every infix expression whose operands both resolve to the type
`type_map["int"]`, or both to `type_map["float"]`, and whose operator is one of
`< > <= >= == !=`, `resolve_value` requests one comparison on the two operand
values, the signed-integer one of the operator for `int` and the ordered-float one
for `float`, and returns its handle, which is not null, with the 1-bit type. -/
theorem C31_comparison_gives_boolean
    (left right : Expression) (op : List Char) (c c1 c2 : Compiler)
    (left_value right_value : Option Value) (type : Option Ty)
    (htype : type = Compiler.type_map "int".toList ∨ type = Compiler.type_map "float".toList)
    (hop : op ∈ ["<".toList, ">".toList, "<=".toList, ">=".toList, "==".toList, "!=".toList])
    (hl : Compiler.resolve_value (some left) c = .ok ((left_value, type), c1))
    (hr : Compiler.resolve_value (some right) c1 = .ok ((right_value, type), c2)) :
    ∃ pred,
      (op, type, pred) ∈
        [("<".toList, some Ty.int32, Predicate.ICMP_SLT), (">".toList, some .int32, .ICMP_SGT),
         ("<=".toList, some .int32, .ICMP_SLE), (">=".toList, some .int32, .ICMP_SGE),
         ("==".toList, some .int32, .ICMP_EQ), ("!=".toList, some .int32, .ICMP_NE),
         ("<".toList, some .float32, .FCMP_OLT), (">".toList, some .float32, .FCMP_OGT),
         ("<=".toList, some .float32, .FCMP_OLE), (">=".toList, some .float32, .FCMP_OGE),
         ("==".toList, some .float32, .FCMP_OEQ), ("!=".toList, some .float32, .FCMP_ONE)] ∧
      Compiler.resolve_value (some (.InfixExpression (some left) op (some right))) c =
        .ok ((some (.Instruction c2.requests.length), some .int1),
          { c2 with requests := c2.requests ++
              [(c2.insert_block, .Cmp pred left_value right_value)] }) := by
  rw [Compiler.resolve_value_some] at hl hr ⊢
  rw [Compiler.resolve_node_of_operands left right op c c1 c2 _ _ _ _ hl hr]
  simp only [List.mem_cons, List.mem_singleton, List.not_mem_nil, or_false] at hop
  rcases htype with rfl | rfl <;> rcases hop with rfl | rfl | rfl | rfl | rfl | rfl
  · exact ⟨.ICMP_SLT, by decide, rfl⟩
  · exact ⟨.ICMP_SGT, by decide, rfl⟩
  · exact ⟨.ICMP_SLE, by decide, rfl⟩
  · exact ⟨.ICMP_SGE, by decide, rfl⟩
  · exact ⟨.ICMP_EQ, by decide, rfl⟩
  · exact ⟨.ICMP_NE, by decide, rfl⟩
  · exact ⟨.FCMP_OLT, by decide, rfl⟩
  · exact ⟨.FCMP_OGT, by decide, rfl⟩
  · exact ⟨.FCMP_OLE, by decide, rfl⟩
  · exact ⟨.FCMP_OGE, by decide, rfl⟩
  · exact ⟨.FCMP_OEQ, by decide, rfl⟩
  · exact ⟨.FCMP_ONE, by decide, rfl⟩

/-- C31 (witness): `1 <= 2`, resolved by a fresh `Compiler`. -/
theorem C31_comparison_gives_boolean_witness :
    Compiler.resolve_value (some (.IntegerLiteral 1)) Compiler.new =
      .ok ((some (.ConstantInt 32 1), Compiler.type_map "int".toList), Compiler.new) ∧
    Compiler.resolve_value (some (.IntegerLiteral 2)) Compiler.new =
      .ok ((some (.ConstantInt 32 2), Compiler.type_map "int".toList), Compiler.new) ∧
    ∃ pred,
      ("<=".toList, Compiler.type_map "int".toList, pred) ∈
        [("<".toList, some Ty.int32, Predicate.ICMP_SLT), (">".toList, some .int32, .ICMP_SGT),
         ("<=".toList, some .int32, .ICMP_SLE), (">=".toList, some .int32, .ICMP_SGE),
         ("==".toList, some .int32, .ICMP_EQ), ("!=".toList, some .int32, .ICMP_NE),
         ("<".toList, some .float32, .FCMP_OLT), (">".toList, some .float32, .FCMP_OGT),
         ("<=".toList, some .float32, .FCMP_OLE), (">=".toList, some .float32, .FCMP_OGE),
         ("==".toList, some .float32, .FCMP_OEQ), ("!=".toList, some .float32, .FCMP_ONE)] ∧
      Compiler.resolve_value (some (.InfixExpression (some (.IntegerLiteral 1)) "<=".toList
          (some (.IntegerLiteral 2)))) Compiler.new =
        .ok ((some (.Instruction Compiler.new.requests.length), some .int1),
          { Compiler.new with requests := Compiler.new.requests ++
              [(Compiler.new.insert_block,
                .Cmp pred (some (.ConstantInt 32 1)) (some (.ConstantInt 32 2)))] }) :=
  ⟨rfl, rfl,
   C31_comparison_gives_boolean (.IntegerLiteral 1) (.IntegerLiteral 2) "<=".toList
     Compiler.new Compiler.new Compiler.new (some (.ConstantInt 32 1)) (some (.ConstantInt 32 2))
     (Compiler.type_map "int".toList) (Or.inl rfl) (by decide) rfl rfl⟩

/-- C31 (on source text): `return 1.5 >= 2.5;` requests the ordered-float
comparison, `return 1 != 2;` the integer one, and `let b: bool = 1 <= 2;` binds
`b` with the 1-bit type of the comparison. -/
theorem C31_examples :
    (parse_source 20 "return 1.5 >= 2.5;".toList).bind
        (fun r => (Compiler.compile r.1 Compiler.new).map (fun c => (c.errors, c.requests))) =
      .ok ([], [(none, .Cmp .FCMP_OGE (some (.ConstantFP ⟨3, -1⟩))
                  (some (.ConstantFP ⟨5, -1⟩))),
                (none, .Ret (some (.Instruction 0)))]) ∧
    (parse_source 20 "return 1 != 2;".toList).bind
        (fun r => (Compiler.compile r.1 Compiler.new).map (fun c => (c.errors, c.requests))) =
      .ok ([], [(none, .Cmp .ICMP_NE (some (.ConstantInt 32 1)) (some (.ConstantInt 32 2))),
                (none, .Ret (some (.Instruction 0)))]) ∧
    (parse_source 20 "let b: bool = 1 <= 2;".toList).bind
        (fun r => (Compiler.compile r.1 Compiler.new).map
          (fun c => (c.requests, c.env.lookup "b".toList))) =
      .ok ([(none, .Cmp .ICMP_SLE (some (.ConstantInt 32 1)) (some (.ConstantInt 32 2))),
            (none, .Alloca (some .int1) "b".toList),
            (none, .Store (some (.Instruction 0)) (some (.Instruction 1)))],
           (some (.Instruction 1), some .int1)) := by
  exact ⟨by decide!, by decide!, by decide!⟩

/-- C32: for every infix expression whose operands resolve, the left one with the
type `left_type` and the right one with the type `right_type`, leaving the state
`c2`: when the two types are not both `type_map["int"]` and not both
`type_map["float"]`, or when the operator is `^`, `resolve_value` returns a null
value and a null type and leaves the state `c2`, so no request is made for the
expression itself; and the diagnostics are those before the expression. -/
theorem C32_unsupported_infix_is_silent
    (left right : Expression) (op : List Char) (c c1 c2 : Compiler)
    (left_value right_value : Option Value) (left_type right_type : Option Ty)
    (hl : Compiler.resolve_value (some left) c = .ok ((left_value, left_type), c1))
    (hr : Compiler.resolve_value (some right) c1 = .ok ((right_value, right_type), c2))
    (hcase : (¬ (left_type = Compiler.type_map "int".toList ∧
          right_type = Compiler.type_map "int".toList) ∧
        ¬ (left_type = Compiler.type_map "float".toList ∧
          right_type = Compiler.type_map "float".toList)) ∨ op = "^".toList) :
    Compiler.resolve_value (some (.InfixExpression (some left) op (some right))) c =
      .ok ((none, none), c2) ∧
    c2.errors = c.errors := by
  have h1 := Compiler.resolve_value_only_requests (some left) c c1 _ hl
  have h2 := Compiler.resolve_value_only_requests (some right) c1 c2 _ hr
  obtain ⟨a1, e1, _⟩ := h1
  obtain ⟨a2, e2, _⟩ := h2
  refine ⟨?_, by rw [e2, e1]⟩
  rw [Compiler.resolve_value_some] at hl hr ⊢
  rw [Compiler.resolve_node_of_operands left right op c c1 c2 _ _ _ _ hl hr]
  rcases hcase with ⟨hi, hf⟩ | rfl
  · simp only [Compiler.infix_result, Compiler.select_request, if_neg hi, if_neg hf]
  · simp only [Compiler.infix_result, Compiler.select_request]
    by_cases hi : left_type = Compiler.type_map "int".toList ∧
        right_type = Compiler.type_map "int".toList
    · rw [if_pos hi]; rfl
    · rw [if_neg hi]
      by_cases hf : left_type = Compiler.type_map "float".toList ∧
          right_type = Compiler.type_map "float".toList
      · rw [if_pos hf]; rfl
      · rw [if_neg hf]

/-- C32 (witness): `1 + 2.5`, an `int` against a `float`, in a fresh `Compiler`. -/
theorem C32_unsupported_infix_is_silent_witness :
    Compiler.resolve_value (some (.IntegerLiteral 1)) Compiler.new =
      .ok ((some (.ConstantInt 32 1), some .int32), Compiler.new) ∧
    Compiler.resolve_value (some (.FloatLiteral ⟨5, -1⟩)) Compiler.new =
      .ok ((some (.ConstantFP ⟨5, -1⟩), some .float32), Compiler.new) ∧
    Compiler.resolve_value (some (.InfixExpression (some (.IntegerLiteral 1)) "+".toList
        (some (.FloatLiteral ⟨5, -1⟩)))) Compiler.new = .ok ((none, none), Compiler.new) ∧
    Compiler.new.errors = Compiler.new.errors :=
  ⟨rfl, rfl,
   C32_unsupported_infix_is_silent (.IntegerLiteral 1) (.FloatLiteral ⟨5, -1⟩) "+".toList
     Compiler.new Compiler.new Compiler.new (some (.ConstantInt 32 1))
     (some (.ConstantFP ⟨5, -1⟩)) (some .int32) (some .float32) rfl rfl
     (Or.inl ⟨by decide, by decide⟩)⟩

/-- C32 (on source text): an `int` against a `float`, the operator `^` on two
`int`, and two booleans: each time the `return` is given a null value, no other
request is made, and no diagnostic is recorded. -/
theorem C32_examples :
    (parse_source 20 "return 1 < 2.5;".toList).bind
        (fun r => (Compiler.compile r.1 Compiler.new).map (fun c => (c.errors, c.requests))) =
      .ok ([], [(none, .Ret none)]) ∧
    (parse_source 20 "return 2 ^ 3;".toList).bind
        (fun r => (Compiler.compile r.1 Compiler.new).map (fun c => (c.errors, c.requests))) =
      .ok ([], [(none, .Ret none)]) ∧
    (parse_source 20 "return true == false;".toList).bind
        (fun r => (Compiler.compile r.1 Compiler.new).map (fun c => (c.errors, c.requests))) =
      .ok ([], [(none, .Ret none)]) := by
  exact ⟨by decide!, by decide!, by decide!⟩

/-- C33 (as stated, refuted by the code for the unbound case): for every
identifier expression `x`, resolved in a state where no binding has a null handle
(every state reached from a fresh `Compiler` is such a state). When `x` is bound
in the scope chain, to `location` with the type `t`, `resolve_value` requests
exactly one load, of type `t` through `location`, and returns its handle with
`t`. When `x` is not bound, `resolve_value` returns a null value and a null type
and leaves the state as it was: no request is made, and nothing is appended to
`errors`, the list of diagnostics of the code generator. -/
theorem C33_unbound_identifier_is_not_recorded (x : List Char) (c : Compiler)
    (henv : c.env.handles_present = true) :
    (c.env.bound x = true →
      ∃ location t, c.env.lookup x = (some location, t) ∧
        Compiler.resolve_value (some (.IdentifierLiteral x)) c =
          .ok ((some (.Instruction c.requests.length), t),
            { c with requests := c.requests ++ [(c.insert_block, .Load t (some location))] })) ∧
    (c.env.bound x = false →
      Compiler.resolve_value (some (.IdentifierLiteral x)) c = .ok ((none, none), c)) ∧
    (∀ r c1, Compiler.resolve_value (some (.IdentifierLiteral x)) c = .ok (r, c1) →
      c1.errors = c.errors) := by
  have hb := Environment.lookup_of_bound c.env x henv
  refine ⟨fun h => ?_, fun h => ?_, fun r c1 h => ?_⟩
  · obtain ⟨v, t, hl⟩ := hb.2 h
    refine ⟨v, t, hl, ?_⟩
    rw [Compiler.resolve_value_some, Compiler.resolve_node]
    simp only [hl, Compiler.request]
  · have hl := hb.1 h
    rw [Compiler.resolve_value_some, Compiler.resolve_node]
    simp only [hl]
  · obtain ⟨a, e, _⟩ := Compiler.resolve_value_only_requests _ c c1 r h
    rw [e]

/-- C33 (failing input): the identifier `y`, which is not bound, resolved by a
fresh `Compiler`: the state is the one before, with an empty list of diagnostics;
and `true`, which is bound, is loaded. -/
theorem C33_unbound_identifier_is_not_recorded_witness :
    Compiler.new.env.handles_present = true ∧
    Compiler.new.env.bound "y".toList = false ∧
    Compiler.resolve_value (some (.IdentifierLiteral "y".toList)) Compiler.new =
      .ok ((none, none), Compiler.new) ∧
    Compiler.new.errors = [] ∧
    ∃ location t, Compiler.new.env.lookup "true".toList = (some location, t) ∧
      Compiler.resolve_value (some (.IdentifierLiteral "true".toList)) Compiler.new =
        .ok ((some (.Instruction Compiler.new.requests.length), t),
          { Compiler.new with requests := Compiler.new.requests ++
              [(Compiler.new.insert_block, .Load t (some location))] }) :=
  ⟨by decide, by decide,
   (C33_unbound_identifier_is_not_recorded "y".toList Compiler.new (by decide)).2.1 (by decide),
   by decide,
   (C33_unbound_identifier_is_not_recorded "true".toList Compiler.new (by decide)).1
     (by decide)⟩

/-- C33 (on source text): `return y;` with `y` never declared gives no diagnostic
and a `return` of a null value, where the assignment `y = 1;` does give one; and
in `let a: int = 1; return a;` the identifier is loaded through its slot. -/
theorem C33_examples :
    (parse_source 20 "return y;".toList).bind
        (fun r => (Compiler.compile r.1 Compiler.new).map (fun c => (c.errors, c.requests))) =
      .ok ([], [(none, .Ret none)]) ∧
    (parse_source 20 "y = 1;".toList).bind
        (fun r => (Compiler.compile r.1 Compiler.new).map (fun c => (c.errors, c.requests))) =
      .ok (["COMPILE ERROR: Identifier y has not been defined before its re-assigned"], []) ∧
    (parse_source 30 "let a: int = 1; return a;".toList).bind
        (fun r => (Compiler.compile r.1 Compiler.new).map (fun c => (c.errors, c.requests))) =
      .ok ([], [(none, .Alloca (some .int32) "a".toList),
        (none, .Store (some (.ConstantInt 32 1)) (some (.Instruction 0))),
        (none, .Load (some .int32) (some (.Instruction 0))),
        (none, .Ret (some (.Instruction 2)))]) := by
  exact ⟨by decide!, by decide!, by decide!⟩

/-- C39: `compile` gives the same result on two let statements that differ only
in their declared type, whatever the name, the value and the state. For a name `x`
that is not bound in the scope chain and a value `E` that resolves to `val` with
the type `type`, leaving the state `c1`, the statement requests an allocation of
type `type` and a store of `val` into it, and binds `x` to that slot with the
type `type`, the resolved type of `E`. -/
theorem C39_declared_type_is_ignored
    (x T1 T2 : List Char) (E : Expression) (c c1 : Compiler) (val : Option Value)
    (type : Option Ty)
    (henv : c.env.handles_present = true) (hx : c.env.bound x = false)
    (hE : Compiler.resolve_value (some E) c = .ok ((val, type), c1)) :
    (∀ name value, Compiler.compile_node (.LetStatement name value T1) c =
      Compiler.compile_node (.LetStatement name value T2) c) ∧
    ∃ c2, Compiler.compile_node (.LetStatement (some (.IdentifierLiteral x)) (some E) T1) c =
        .ok c2 ∧
      Compiler.compile_node (.LetStatement (some (.IdentifierLiteral x)) (some E) T2) c =
        .ok c2 ∧
      c2.requests = c1.requests ++
        [(c.insert_block, .Alloca type x),
         (c.insert_block, .Store val (some (.Instruction c1.requests.length)))] ∧
      c2.env.lookup x = (some (.Instruction c1.requests.length), type) := by
  have hsame : ∀ name value, Compiler.compile_node (.LetStatement name value T1) c =
      Compiler.compile_node (.LetStatement name value T2) c := by
    intro name value
    rw [Compiler.compile_node, Compiler.compile_node]
  obtain ⟨added, hc1, _⟩ := Compiler.resolve_value_only_requests (some E) c c1 _ hE
  have henv1 : c1.env = c.env := by rw [hc1]
  have hcur1 : c1.insert_block = c.insert_block := by rw [hc1]
  have hl := (Environment.lookup_of_bound c.env x henv).1 hx
  have hcomp : Compiler.compile_node
      (.LetStatement (some (.IdentifierLiteral x)) (some E) T1) c =
      .ok { (Compiler.request (Compiler.request c1 (.Alloca type x)).2
          (.Store val (some (Compiler.request c1 (.Alloca type x)).1))).2 with
        env := c1.env.define x (some (Compiler.request c1 (.Alloca type x)).1) type } := by
    rw [Compiler.compile_node, Compiler.visit_let_statement]
    simp only [Option.isSome_some, and_self, if_true, Compiler.identifier_value, hE, bind,
      Except.bind]
    rw [if_pos (by rw [henv1]; exact hl)]
    rfl
  refine ⟨hsame, _, hcomp, ?_, ?_, ?_⟩
  · rw [← hsame]; exact hcomp
  · simp [Compiler.request, hcur1]
  · simp only [Compiler.request, henv1]
    exact Environment.lookup_define_self _ _ _ _

/-- C39 (witness): `let x: float = 5;` and `let x: int = 5;` in a fresh
`Compiler`: `x` is bound with the type `int` of the value. -/
theorem C39_declared_type_is_ignored_witness :
    Compiler.new.env.handles_present = true ∧
    Compiler.new.env.bound "x".toList = false ∧
    Compiler.resolve_value (some (.IntegerLiteral 5)) Compiler.new =
      .ok ((some (.ConstantInt 32 5), some .int32), Compiler.new) ∧
    ∃ c2, Compiler.compile_node (.LetStatement (some (.IdentifierLiteral "x".toList))
        (some (.IntegerLiteral 5)) "float".toList) Compiler.new = .ok c2 ∧
      Compiler.compile_node (.LetStatement (some (.IdentifierLiteral "x".toList))
        (some (.IntegerLiteral 5)) "int".toList) Compiler.new = .ok c2 ∧
      c2.requests = Compiler.new.requests ++
        [(Compiler.new.insert_block, .Alloca (some .int32) "x".toList),
         (Compiler.new.insert_block, .Store (some (.ConstantInt 32 5))
           (some (.Instruction Compiler.new.requests.length)))] ∧
      c2.env.lookup "x".toList =
        (some (.Instruction Compiler.new.requests.length), some .int32) :=
  ⟨by decide, by decide, rfl,
   (C39_declared_type_is_ignored "x".toList "float".toList "int".toList (.IntegerLiteral 5)
     Compiler.new Compiler.new (some (.ConstantInt 32 5)) (some .int32) (by decide) (by decide)
     rfl).2⟩

/-- C39 (on source text): the parser does record the declared type `float` of
`let x: float = 5;`, and the code generator allocates `x` with the type `int`,
as it does for `let x: int = 5;`. -/
theorem C39_examples :
    parse_source 30 "let x: float = 5;".toList =
      .ok (⟨[.LetStatement (some (.IdentifierLiteral "x".toList)) (some (.IntegerLiteral 5))
        "float".toList]⟩, []) ∧
    (parse_source 30 "let x: float = 5;".toList).bind
        (fun r => (Compiler.compile r.1 Compiler.new).map
          (fun c => (c.requests, c.env.lookup "x".toList))) =
      .ok ([(none, .Alloca (some .int32) "x".toList),
            (none, .Store (some (.ConstantInt 32 5)) (some (.Instruction 0)))],
           (some (.Instruction 0), some .int32)) ∧
    (parse_source 30 "let x: int = 5;".toList).bind
        (fun r => (Compiler.compile r.1 Compiler.new).map
          (fun c => (c.requests, c.env.lookup "x".toList))) =
      .ok ([(none, .Alloca (some .int32) "x".toList),
            (none, .Store (some (.ConstantInt 32 5)) (some (.Instruction 0)))],
           (some (.Instruction 0), some .int32)) := by
  exact ⟨by decide!, by decide!, by decide!⟩


/-! ## The parser: trees without a null pointer, and the end of a `let` -/

/-- C37: for every source text on which `parse_program` returns without having
recorded a diagnostic, no pointer of the returned program is null, the
`alternative` of an `IfStatement` apart: no expression child of a statement or of
an expression is absent, no name, body or block is absent, and no parameter list
and no argument list has an absent element. -/
theorem C37_no_diagnostic_certifies_tree (fuel : Nat) (source : List Char)
    (program : Program) (h : parse_source fuel source = .ok (program, [])) :
    Program.complete program = true ∧ Program.fully_formed program = true :=
  ⟨Parser.parse_lexer_complete fuel (Lexer.new source) program h,
   Statement.all_of_complete_list _
     (Parser.parse_lexer_complete fuel (Lexer.new source) program h)⟩

/-- C37 (witness): a function with two parameters, an `if` without `else` and a
call with two arguments, parsed without a diagnostic: the `alternative` is the
only null pointer of the tree. -/
theorem C37_no_diagnostic_certifies_tree_witness :
    parse_source 60
        "def f(a: int, b: int) -> int { if a < b do { return f(b, a + 1); } }".toList =
      .ok (⟨[.FunctionStatement
        [some { name := "a".toList, value_type := "int".toList },
         some { name := "b".toList, value_type := "int".toList }]
        (some (.BlockStatement
          [.IfStatement
            (some (.InfixExpression (some (.IdentifierLiteral "a".toList)) "<".toList
              (some (.IdentifierLiteral "b".toList))))
            (some (.BlockStatement
              [.ReturnStatement (some (.CallExpression (some (.IdentifierLiteral "f".toList))
                [some (.IdentifierLiteral "b".toList),
                 some (.InfixExpression (some (.IdentifierLiteral "a".toList)) "+".toList
                   (some (.IntegerLiteral 1)))]))]))
            none]))
        (some (.IdentifierLiteral "f".toList)) "int".toList]⟩, []) ∧
    Program.complete ⟨[.FunctionStatement
        [some { name := "a".toList, value_type := "int".toList },
         some { name := "b".toList, value_type := "int".toList }]
        (some (.BlockStatement
          [.IfStatement
            (some (.InfixExpression (some (.IdentifierLiteral "a".toList)) "<".toList
              (some (.IdentifierLiteral "b".toList))))
            (some (.BlockStatement
              [.ReturnStatement (some (.CallExpression (some (.IdentifierLiteral "f".toList))
                [some (.IdentifierLiteral "b".toList),
                 some (.InfixExpression (some (.IdentifierLiteral "a".toList)) "+".toList
                   (some (.IntegerLiteral 1)))]))]))
            none]))
        (some (.IdentifierLiteral "f".toList)) "int".toList]⟩ = true :=
  ⟨by decide!,
   (C37_no_diagnostic_certifies_tree 60
     "def f(a: int, b: int) -> int { if a < b do { return f(b, a + 1); } }".toList _
     (by decide!)).1⟩

/-- C37 (on source text): `f(1,;` is parsed with two diagnostics, and the
argument list of the call has an absent element. -/
theorem C37_examples :
    parse_source 20 "f(1,;".toList =
      .ok (⟨[.ExpressionStatement (some (.CallExpression (some (.IdentifierLiteral "f".toList))
        [none]))]⟩,
        ["no prefix parse function for SEMICOLON found",
         "expected next token to be RPAREN, got EOF instead"]) ∧
    Program.complete ⟨[.ExpressionStatement (some (.CallExpression
      (some (.IdentifierLiteral "f".toList)) [none]))]⟩ = false := by
  exact ⟨by decide!, by decide⟩

namespace Parser

/-- The loop at the end of `parse_let_statement` makes the tokens up to the next
`;` or end of input the current token, one after the other. -/
theorem skip_to_semicolon_of_reads : ∀ (ts : List Token) (p p1 : Parser), reads p ts p1 →
    (∀ t ∈ (p.current_token :: ts).dropLast, t.type ≠ .SEMICOLON ∧ t.type ≠ .EOF_) →
    (p1.current_token.type = .SEMICOLON ∨ p1.current_token.type = .EOF_) →
    ∃ fuel, skip_to_semicolon fuel p = .ok p1 := by
  intro ts
  induction ts with
  | nil =>
    intro p p1 h _ hstop
    rw [show p1 = p from h] at hstop ⊢
    exact ⟨1, skip_to_semicolon_stop 0 p hstop⟩
  | cons t ts ih =>
    intro p p1 h hgo hstop
    obtain ⟨_, p2, h2, h3⟩ := h
    have hcur := advances_to_current p p2 h2
    have hp : p.current_token.type ≠ .SEMICOLON ∧ p.current_token.type ≠ .EOF_ :=
      hgo p.current_token (by simp [List.dropLast])
    obtain ⟨f2, e2⟩ := ih p2 p1 h3 (by
      intro x hx
      refine hgo x ?_
      rw [List.dropLast_cons_of_ne_nil (by simp)]
      cases ts with
      | nil => simp [List.dropLast] at hx
      | cons u us =>
        rw [hcur] at hx
        rw [List.dropLast_cons_of_ne_nil (by simp)] at hx ⊢
        rename_i hpk
        rw [hpk] at hx
        exact List.mem_cons_of_mem _ hx) hstop
    obtain ⟨N, a⟩ := advances_to_all p p2 h2
    refine ⟨N + f2 + 1, ?_⟩
    rw [skip_to_semicolon_step _ _ hp.1 hp.2, a _ (by omega)]
    exact settles_ok (skip_to_semicolon_settles f2 (N + f2) (by omega) p2) e2

end Parser

/-- C40: at a `let` token followed by an identifier, `:`, a type name and `=`,
when the expression after the `=` parses to `E`, leaving the state `p6`, and the
tokens from there up to the first `;` or end-of-input token are `skipped`, that
token being the current token of `p7`: `parse_statement` returns the
`LetStatement` of the name, `E` and the type, in the state `p7`, and the
diagnostics of `p7` are those of `p6`. Whatever the skipped tokens are, no
semicolon is asked for and nothing is recorded for them. -/
theorem C40_missing_semicolon_is_not_diagnosed (p p5 p6 p7 : Parser)
    (tx tc tt te tv : Token) (E : Option Expression) (skipped : List Token)
    (hlet : p.current_token.type = .LET)
    (hhead : Parser.reads p [tx, tc, tt, te, tv] p5)
    (hx : tx.type = .IDENT) (hc : tc.type = .COLON) (ht : tt.type = .TYPE) (he : te.type = .EQ)
    (hE : Parser.expression_at .LOWEST p5 E p6)
    (hskip : Parser.reads p6 skipped p7)
    (hgo : ∀ t ∈ (p6.current_token :: skipped).dropLast,
      t.type ≠ .SEMICOLON ∧ t.type ≠ .EOF_)
    (hstop : p7.current_token.type = .SEMICOLON ∨ p7.current_token.type = .EOF_) :
    (∃ N, ∀ fuel, N ≤ fuel →
      Parser.parse_statement fuel p =
        .ok (some (.LetStatement (some (.IdentifierLiteral tx.literal)) E tt.literal), p7)) ∧
    p7.errors = p6.errors := by
  refine ⟨?_, Parser.reads_errors skipped p6 p7 hskip⟩
  obtain ⟨k1, p1, a1, k2, p2, a2, k3, p3, a3, k4, p4, a4, k5, q5, a5, e5⟩ := hhead
  rw [show p5 = q5 from e5] at hE
  have c1 := Parser.advances_to_current p p1 a1
  have c3 := Parser.advances_to_current p2 p3 a3
  obtain ⟨N1, b1⟩ := Parser.advances_to_all p p1 a1
  obtain ⟨N2, b2⟩ := Parser.advances_to_all p1 p2 a2
  obtain ⟨N3, b3⟩ := Parser.advances_to_all p2 p3 a3
  obtain ⟨N4, b4⟩ := Parser.advances_to_all p3 p4 a4
  obtain ⟨N5, b5⟩ := Parser.advances_to_all p4 q5 a5
  obtain ⟨N6, b6⟩ := Parser.expression_at_all _ q5 E p6 hE
  obtain ⟨N7, b7⟩ := returns_of_settles (fun f => Parser.skip_to_semicolon f p6)
    (fun f f1 hf => Parser.skip_to_semicolon_settles f f1 hf p6) p7
    (Parser.skip_to_semicolon_of_reads skipped p6 p7 hskip hgo hstop)
  refine ⟨N1 + N2 + N3 + N4 + N5 + N6 + N7 + 1, fun fuel hf => ?_⟩
  obtain ⟨f, rfl⟩ : ∃ f, fuel = f + 1 := ⟨fuel - 1, by omega⟩
  rw [Parser.parse_statement_let f p hlet]
  unfold Parser.parse_let_statement
  simp only [bind, Except.bind, pure, Except.pure,
    Parser.expect_peek_pass f p p1 .IDENT (by rw [k1, hx]) (b1 f (by omega)),
    Parser.expect_peek_pass f p1 p2 .COLON (by rw [k2, hc]) (b2 f (by omega)),
    Parser.expect_peek_pass f p2 p3 .TYPE (by rw [k3, ht]) (b3 f (by omega)),
    Parser.expect_peek_pass f p3 p4 .EQ (by rw [k4, he]) (b4 f (by omega)),
    b5 f (by omega), b6 f (by omega), b7 f (by omega),
    Bool.not_true, Bool.false_eq_true, if_false, c1, c3, k1, k3]

/-- C40 (witness): the parser on `let x: int = 1 let y: int = 2;`, at the first
`let`: the seven tokens `let y : int = 2 ;` are skipped. -/
theorem C40_missing_semicolon_is_not_diagnosed_witness :
    Parser.new 10 (Lexer.new "let x: int = 1 let y: int = 2;".toList) =
      .ok ⟨Lexer.state_at "let x: int = 1 let y: int = 2;".toList 5 1, [],
        ⟨.LET, "let".toList, 1, 3⟩, ⟨.IDENT, "x".toList, 1, 5⟩⟩ ∧
    (∃ N, ∀ fuel, N ≤ fuel →
      Parser.parse_statement fuel
          ⟨Lexer.state_at "let x: int = 1 let y: int = 2;".toList 5 1, [],
            ⟨.LET, "let".toList, 1, 3⟩, ⟨.IDENT, "x".toList, 1, 5⟩⟩ =
        .ok (some (.LetStatement (some (.IdentifierLiteral "x".toList))
            (some (.IntegerLiteral 1)) "int".toList),
          ⟨Lexer.state_at "let x: int = 1 let y: int = 2;".toList 31 1, [],
            ⟨.SEMICOLON, ";".toList, 1, 29⟩, ⟨.EOF_, [], 1, 30⟩⟩)) := by
  have h := C40_missing_semicolon_is_not_diagnosed
    ⟨Lexer.state_at "let x: int = 1 let y: int = 2;".toList 5 1, [],
      ⟨.LET, "let".toList, 1, 3⟩, ⟨.IDENT, "x".toList, 1, 5⟩⟩
    ⟨Lexer.state_at "let x: int = 1 let y: int = 2;".toList 18 1, [],
      ⟨.INT, "1".toList, 1, 14⟩, ⟨.LET, "let".toList, 1, 18⟩⟩
    ⟨Lexer.state_at "let x: int = 1 let y: int = 2;".toList 18 1, [],
      ⟨.INT, "1".toList, 1, 14⟩, ⟨.LET, "let".toList, 1, 18⟩⟩
    ⟨Lexer.state_at "let x: int = 1 let y: int = 2;".toList 31 1, [],
      ⟨.SEMICOLON, ";".toList, 1, 29⟩, ⟨.EOF_, [], 1, 30⟩⟩
    ⟨.IDENT, "x".toList, 1, 5⟩ ⟨.COLON, ":".toList, 1, 5⟩ ⟨.TYPE, "int".toList, 1, 10⟩
    ⟨.EQ, "=".toList, 1, 11⟩ ⟨.INT, "1".toList, 1, 14⟩ (some (.IntegerLiteral 1))
    [⟨.LET, "let".toList, 1, 18⟩, ⟨.IDENT, "y".toList, 1, 20⟩, ⟨.COLON, ":".toList, 1, 20⟩,
     ⟨.TYPE, "int".toList, 1, 25⟩, ⟨.EQ, "=".toList, 1, 26⟩, ⟨.INT, "2".toList, 1, 29⟩,
     ⟨.SEMICOLON, ";".toList, 1, 29⟩]
    rfl (Parser.reads_of_advance 10 5 _ _ _ (by decide!)) rfl rfl rfl rfl ⟨10, by decide!⟩
    (Parser.reads_of_advance 10 7 _ _ _ (by decide!)) (by decide) (Or.inl rfl)
  exact ⟨by decide!, h.1⟩

/-- C40 (on source text): `let x: int = 1 let y: int = 2;` gives one statement,
the `LetStatement` for `x`, and no diagnostic; so does a let statement without a
`;` at the end of the input; and in `let x: int = 1 + 2 y = 3; z;` the
assignment is skipped. -/
theorem C40_examples :
    parse_source 40 "let x: int = 1 let y: int = 2;".toList =
      .ok (⟨[.LetStatement (some (.IdentifierLiteral "x".toList)) (some (.IntegerLiteral 1))
        "int".toList]⟩, []) ∧
    parse_source 40 "let x: int = 1".toList =
      .ok (⟨[.LetStatement (some (.IdentifierLiteral "x".toList)) (some (.IntegerLiteral 1))
        "int".toList]⟩, []) ∧
    parse_source 40 "let x: int = 1 + 2 y = 3; z;".toList =
      .ok (⟨[.LetStatement (some (.IdentifierLiteral "x".toList))
          (some (.InfixExpression (some (.IntegerLiteral 1)) "+".toList
            (some (.IntegerLiteral 2)))) "int".toList,
        .ExpressionStatement (some (.IdentifierLiteral "z".toList))]⟩, []) := by
  exact ⟨by decide!, by decide!, by decide!⟩


/-! ## The lexer: what a token is made of -/

namespace Lexer

theorem substr_step (s : List Char) (p q : Nat) (hp : p < s.length) (hq : p < q) :
    substr s p (q - p) = s.getD p NUL :: substr s (p + 1) (q - (p + 1)) := by
  unfold substr
  rw [List.drop_eq_getElem_cons hp, show q - p = (q - (p + 1)) + 1 by omega, List.take_succ_cons,
    List.getD_eq_getElem _ _ hp]

theorem substr_snoc (s : List Char) (sp p : Nat) (h : sp ≤ p) (hp : p < s.length) :
    substr s sp (p - sp) ++ [s.getD p NUL] = substr s sp (p + 1 - sp) := by
  unfold substr
  rw [show p + 1 - sp = (p - sp) + 1 by omega, List.take_succ, List.getElem?_drop,
    show sp + (p - sp) = p by omega, List.getElem?_eq_getElem hp, List.getD_eq_getElem _ _ hp]
  rfl

theorem substr_self (s : List Char) (p : Nat) : substr s p (p - p) = [] := by
  simp [substr]

theorem take_eq_take_append_substr (s : List Char) (p q : Nat) (h : p ≤ q) :
    s.take q = s.take p ++ substr s p (q - p) := by
  unfold substr
  rw [← List.take_add, show p + (q - p) = q by omega]

theorem substr_append (s : List Char) (p q r : Nat) (h1 : p ≤ q) (h2 : q ≤ r) :
    substr s p (r - p) = substr s p (q - p) ++ substr s q (r - q) := by
  unfold substr
  rw [show r - p = (q - p) + (r - q) by omega, List.take_add, List.drop_drop,
    show p + (q - p) = q by omega]

theorem not_space_nul : is_space NUL = false := by decide

theorem not_space_of_ident_char (c : Char) (h : is_ident_char c = true) : is_space c = false := by
  cases hs : is_space c with
  | false => rfl
  | true =>
    have hall : ∀ d ∈ [' ', '\t', '\n', '\r'], is_ident_char d = false := by decide
    rw [hall c ((is_space_eq_true c).1 hs)] at h
    exact Bool.noConfusion h

theorem not_space_of_number_char (c : Char) (h : is_number_char c = true) :
    is_space c = false := by
  cases hs : is_space c with
  | false => rfl
  | true =>
    have hall : ∀ d ∈ [' ', '\t', '\n', '\r'], is_number_char d = false := by decide
    rw [hall c ((is_space_eq_true c).1 hs)] at h
    exact Bool.noConfusion h

/-- The loop of `skip_whitespace` goes over blanks only, and counts the newlines
among them. -/
theorem skip_whitespace_lines (s : List Char) : ∀ (f p n : Nat) (l : Lexer),
    skip_whitespace f (state_at s p n) = .ok l →
      ∃ q, p ≤ q ∧ l = state_at s q (n + (substr s p (q - p)).count '\n') ∧
        (∀ c ∈ substr s p (q - p), is_space c = true) ∧ is_space (s.getD q NUL) = false := by
  intro f
  induction f with
  | zero => intro p n l h; simp [skip_whitespace] at h
  | succ k ih =>
    intro p n l h
    rw [skip_whitespace] at h
    have hcur : (state_at s p n).current_char = s.getD p NUL := rfl
    rw [hcur] at h
    by_cases hsp : is_space (s.getD p NUL) = true
    · rw [if_pos hsp] at h
      dsimp only at h
      have hlt : p < s.length := lt_length_of_getD_ne_nul s p (by
        intro e; rw [e] at hsp; exact absurd hsp (by decide))
      by_cases hnl : s.getD p NUL = '\n'
      · rw [if_pos hnl] at h
        have h' : skip_whitespace k (read_char (state_at s p (n + 1))) = .ok l := h
        rw [read_char_state_at] at h'
        obtain ⟨q, h1, h2, h3, h4⟩ := ih _ _ _ h'
        refine ⟨q, by omega, ?_, ?_, h4⟩
        · rw [h2, substr_step s p q hlt (by omega), hnl, List.count_cons_self]
          congr 1; omega
        · rw [substr_step s p q hlt (by omega)]
          intro c hc
          rcases List.mem_cons.1 hc with rfl | hc
          · exact hsp
          · exact h3 c hc
      · rw [if_neg hnl, read_char_state_at] at h
        obtain ⟨q, h1, h2, h3, h4⟩ := ih _ _ _ h
        refine ⟨q, by omega, ?_, ?_, h4⟩
        · rw [h2, substr_step s p q hlt (by omega),
            List.count_cons_of_ne (fun e => hnl e.symm)]
        · rw [substr_step s p q hlt (by omega)]
          intro c hc
          rcases List.mem_cons.1 hc with rfl | hc
          · exact hsp
          · exact h3 c hc
    · rw [if_neg hsp] at h
      injection h with h
      refine ⟨p, le_refl _, ?_, ?_, by simpa using hsp⟩
      · rw [substr_self]; exact h.symm
      · rw [substr_self]; intro c hc; cases hc

/-- The loop of `read_ident` goes over identifier characters only. -/
theorem read_ident_loop_chars (s : List Char) : ∀ (f p n : Nat) (l : Lexer),
    read_ident_loop f (state_at s p n) = .ok l →
      ∃ p', l = state_at s p' n ∧ p ≤ p' ∧
        ∀ c ∈ substr s p (p' - p), is_ident_char c = true := by
  intro f
  induction f with
  | zero => intro p n l h; simp [read_ident_loop] at h
  | succ k ih =>
    intro p n l h
    rw [read_ident_loop] at h
    have hcur : (state_at s p n).current_char = s.getD p NUL := rfl
    rw [hcur] at h
    by_cases hc : is_ident_char (s.getD p NUL) = true
    · have hc' := hc
      unfold is_ident_char at hc'
      rw [if_pos hc', read_char_state_at] at h
      obtain ⟨p', h1, h2, h3⟩ := ih _ _ _ h
      have hlt : p < s.length := lt_length_of_getD_ne_nul s p (by
        intro e; rw [e] at hc; exact absurd hc (by decide))
      refine ⟨p', h1, by omega, ?_⟩
      rw [substr_step s p p' hlt (by omega)]
      intro c hm
      rcases List.mem_cons.1 hm with rfl | hm
      · exact hc
      · exact h3 c hm
    · have hc' := hc
      unfold is_ident_char at hc'
      rw [if_neg hc'] at h
      injection h with h
      refine ⟨p, h.symm, le_refl _, ?_⟩
      rw [substr_self]; intro c hm; cases hm

/-- The inner loop of `read_number` appends the characters it goes over, none of
which is a blank. -/
theorem read_invalid_number_chars (s : List Char) : ∀ (f p n : Nat) (acc : List Char)
    (r : List Char × Lexer), read_invalid_number f (state_at s p n) acc = .ok r →
      ∃ p', r.2 = state_at s p' n ∧ p ≤ p' ∧ r.1 = acc ++ substr s p (p' - p) ∧
        ∀ c ∈ substr s p (p' - p), is_space c = false := by
  intro f
  induction f with
  | zero => intro p n acc r h; simp [read_invalid_number] at h
  | succ k ih =>
    intro p n acc r h
    rw [read_invalid_number] at h
    have hcur : (state_at s p n).current_char = s.getD p NUL := rfl
    rw [hcur] at h
    by_cases hc : s.getD p NUL ≠ ' ' ∧ s.getD p NUL ≠ '\t' ∧ s.getD p NUL ≠ '\n' ∧
        s.getD p NUL ≠ '\r'
    · rw [if_pos hc, read_char_state_at] at h
      obtain ⟨p', h1, h2, h3, h4⟩ := ih _ _ _ _ h
      have hsp : is_space (s.getD p NUL) = false := by
        simp only [is_space, Bool.or_eq_false_iff, beq_eq_false_iff_ne, ne_eq]
        exact ⟨⟨⟨hc.1, hc.2.1⟩, hc.2.2.1⟩, hc.2.2.2⟩
      by_cases hlt : p < s.length
      · refine ⟨p', h1, by omega, ?_, ?_⟩
        · rw [h3, substr_step s p p' hlt (by omega)]; simp
        · rw [substr_step s p p' hlt (by omega)]
          intro c hm
          rcases List.mem_cons.1 hm with rfl | hm
          · exact hsp
          · exact h4 c hm
      · exfalso
        -- past the end of the source the loop never stops
        have hnever : ∀ (g a : Nat) (acc1 : List Char), s.length ≤ a →
            read_invalid_number g (state_at s a n) acc1 = .error .out_of_fuel := by
          intro g
          induction g with
          | zero => intro a acc1 _; rfl
          | succ j ihj =>
            intro a acc1 ha
            rw [read_invalid_number]
            have hca : (state_at s a n).current_char = NUL := getD_nul_of_le s a ha
            rw [hca, if_pos (by decide), read_char_state_at]
            exact ihj _ _ (by omega)
        rw [hnever k (p + 1) _ (by omega)] at h
        exact Except.noConfusion h
    · rw [if_neg hc] at h
      injection h with h
      refine ⟨p, by rw [← h], le_refl _, ?_, ?_⟩
      · rw [substr_self, ← h]; simp
      · rw [substr_self]; intro c hm; cases hm

end Lexer

namespace Lexer

theorem read_number_finish_token (l : Lexer) (dc : Nat) (out : List Char) :
    (read_number_finish l dc out).2 = l ∧ (read_number_finish l dc out).1.type ≠ .EOF_ ∧
    (read_number_finish l dc out).1.literal = out ∧
    (read_number_finish l dc out).1.line_no = l.line_no := by
  unfold read_number_finish
  split <;> exact ⟨rfl, by simp [create_token], rfl, rfl⟩

/-- The text of a number token is the part of the source the loop of
`read_number` went over, and has no blank in it. -/
theorem read_number_loop_chars (s : List Char) : ∀ (f p n sp dc : Nat) (out : List Char)
    (r : Token × Lexer), sp ≤ p → out = substr s sp (p - sp) →
    (∀ c ∈ out, is_space c = false) →
    read_number_loop f (state_at s p n) sp dc out = .ok r →
      ∃ p', r.2 = state_at s p' n ∧ p ≤ p' ∧ r.1.literal = substr s sp (p' - sp) ∧
        r.1.line_no = n ∧ (∀ c ∈ r.1.literal, is_space c = false) ∧ r.1.type ≠ .EOF_ := by
  intro f
  induction f with
  | zero => intro p n sp dc out r _ _ _ h; simp [read_number_loop] at h
  | succ k ih =>
    intro p n sp dc out r hsp hout hchars h
    rw [read_number_loop] at h
    have hcur : (state_at s p n).current_char = s.getD p NUL := rfl
    rw [hcur] at h
    by_cases hc : ((s.getD p NUL).isDigit || s.getD p NUL == '.') = true
    · rw [if_pos hc] at h
      dsimp only at h
      have hlt : p < s.length := lt_length_of_getD_ne_nul s p (by
        intro e; rw [e] at hc; exact absurd hc (by decide))
      by_cases hd : (if s.getD p NUL = '.' then dc + 1 else dc) > 1
      · rw [if_pos hd] at h
        cases hq : read_invalid_number k (state_at s p n)
            (substr (state_at s p n).source sp ((state_at s p n).pos - sp)) with
        | error e => rw [hq] at h; simp at h
        | ok v =>
          rw [hq] at h
          injection h with h
          obtain ⟨p', h1, h2, h3, h4⟩ := read_invalid_number_chars s _ _ _ _ _ hq
          have hlit : v.1 = substr s sp (p' - sp) := by
            rw [h3, substr_append s sp p p' hsp h2]
            rfl
          rw [← h]
          refine ⟨p', h1, h2, hlit, by simp [create_token, h1, state_at], ?_,
            by simp [create_token]⟩
          show ∀ c ∈ v.1, is_space c = false
          rw [h3]
          intro c hm
          rcases List.mem_append.1 hm with hm | hm
          · exact hchars c (by rw [hout]; exact hm)
          · exact h4 c hm
      · rw [if_neg hd, read_char_state_at] at h
        have hout1 : out ++ [s.getD p NUL] = substr s sp (p + 1 - sp) := by
          rw [hout, substr_snoc s sp p hsp hlt]
        have hchars1 : ∀ c ∈ out ++ [s.getD p NUL], is_space c = false := by
          intro c hm
          rcases List.mem_append.1 hm with hm | hm
          · exact hchars c hm
          · rw [List.mem_singleton.1 hm]
            exact not_space_of_number_char _ hc
        by_cases hn : (state_at s (p + 1) n).current_char = NUL
        · rw [if_pos hn] at h
          injection h with h
          obtain ⟨f1, f2, f3, f4⟩ := read_number_finish_token (state_at s (p + 1) n)
            (if s.getD p NUL = '.' then dc + 1 else dc) (out ++ [s.getD p NUL])
          rw [← h]
          refine ⟨p + 1, f1, by omega, by rw [f3]; exact hout1, f4, ?_, f2⟩
          rw [f3]; exact hchars1
        · rw [if_neg hn] at h
          obtain ⟨p', h1, h2, h3, h4, h5, h6⟩ :=
            ih (p + 1) n sp _ (out ++ [s.getD p NUL]) r (by omega) hout1 hchars1 h
          exact ⟨p', h1, by omega, h3, h4, h5, h6⟩
    · rw [if_neg hc] at h
      injection h with h
      obtain ⟨f1, f2, f3, f4⟩ := read_number_finish_token (state_at s p n) dc out
      rw [← h]
      refine ⟨p, f1, le_refl _, by rw [f3]; exact hout, f4, ?_, f2⟩
      rw [f3]; exact hchars

theorem substr_one (s : List Char) (q : Nat) (hne : s.getD q NUL ≠ NUL) :
    substr s q (q + 1 - q) = [s.getD q NUL] := by
  rw [substr_step s q (q + 1) (lt_length_of_getD_ne_nul s q hne) (by omega), substr_self]

/-- What a `case` of the `switch` of `next_token` makes: the end-of-input token
at a character `'\0'`, and otherwise a token whose text is the one or two
characters the lexer goes over. -/
theorem next_token_cases_spec (s : List Char) (q n : Nat) (r : Token × Lexer)
    (h : next_token_cases (state_at s q n) = some r) :
    r.1.line_no = n ∧
    ((r.1.type = .EOF_ ∧ r.1.literal = [] ∧ s.getD q NUL = NUL ∧ r.2 = state_at s (q + 1) n) ∨
     (r.1.type ≠ .EOF_ ∧ ∃ p', q < p' ∧ r.2 = state_at s p' n ∧
        r.1.literal = substr s q (p' - q) ∧ ∀ c ∈ r.1.literal, is_space c = false)) := by
  unfold next_token_cases at h
  have hall : ∀ e ∈ switch_table,
      (e.2.1 = none →
        (e.1 = NUL ∧ e.2.2.1 = TokenType.EOF_ ∧ e.2.2.2.toList = []) ∨
        (e.1 ≠ NUL ∧ e.2.2.1 ≠ TokenType.EOF_ ∧ e.2.2.2.toList = [e.1] ∧
          is_space e.1 = false)) ∧
      (∀ x, e.2.1 = some x →
        e.1 ≠ NUL ∧ x.1 ≠ NUL ∧ x.2.1 ≠ TokenType.EOF_ ∧ x.2.2.toList = [e.1, x.1] ∧
        e.2.2.1 ≠ TokenType.EOF_ ∧ e.2.2.2.toList = [e.1] ∧ is_space e.1 = false ∧
        is_space x.1 = false) := by
    decide
  have hcur : (state_at s q n).current_char = s.getD q NUL := rfl
  have hone : s.getD q NUL ≠ NUL → substr s q (q + 1 - q) = [s.getD q NUL] := by
    intro hne
    rw [substr_step s q (q + 1) (lt_length_of_getD_ne_nul s q hne) (by omega), substr_self]
  cases hq : switch_table.lookup (state_at s q n).current_char with
  | none => rw [hq] at h; exact Option.noConfusion h
  | some e =>
    rw [hq] at h
    have hm := hall _ (mem_of_lookup_eq_some _ _ _ hq)
    rw [hcur] at hm
    obtain ⟨look, ty, lit⟩ := e
    cases look with
    | none =>
      unfold emit at h
      injection h with h
      rw [← h, read_char_state_at]
      refine ⟨rfl, ?_⟩
      rcases hm.1 rfl with ⟨m1, m2, m3⟩ | ⟨m1, m2, m3, m4⟩
      · exact Or.inl ⟨m2, m3, m1, rfl⟩
      · refine Or.inr ⟨m2, q + 1, by omega, rfl, ?_, ?_⟩
        · show lit.toList = _
          rw [hone m1]; exact m3
        · show ∀ c ∈ lit.toList, _
          dsimp only at m3
          rw [m3]
          intro c hc
          rw [List.mem_singleton.1 hc]; exact m4
    | some x =>
      obtain ⟨second, ty2, lit2⟩ := x
      obtain ⟨m1, m2, m3, m4, m5, m6, m7, m8⟩ := hm.2 _ rfl
      dsimp only at m1 m2 m3 m4 m5 m6 m7 m8
      dsimp only at h
      unfold emit2 at h
      by_cases hp : peek_char (state_at s q n) = second
      · rw [if_pos hp] at h
        unfold emit at h
        injection h with h
        rw [← h, read_char_state_at, read_char_state_at]
        rw [peek_char_state_at] at hp
        refine ⟨rfl, Or.inr ⟨m3, q + 2, by omega, rfl, ?_, ?_⟩⟩
        · show lit2.toList = _
          rw [m4, substr_step s q (q + 2) (lt_length_of_getD_ne_nul s q m1) (by omega),
            show q + 2 - (q + 1) = (q + 1) + 1 - (q + 1) by omega,
            substr_one s (q + 1) (by rw [hp]; exact m2), hp]
        · show ∀ c ∈ lit2.toList, _
          rw [m4]
          intro c hc
          simp only [List.mem_cons, List.mem_singleton, List.not_mem_nil, or_false] at hc
          rcases hc with rfl | rfl
          · exact m7
          · exact m8
      · rw [if_neg hp] at h
        unfold emit at h
        injection h with h
        rw [← h, read_char_state_at]
        refine ⟨rfl, Or.inr ⟨m5, q + 1, by omega, rfl, ?_, ?_⟩⟩
        · show lit.toList = _
          rw [hone m1]; exact m6
        · show ∀ c ∈ lit.toList, _
          rw [m6]
          intro c hc
          rw [List.mem_singleton.1 hc]; exact m7

end Lexer

namespace Lexer

theorem state_at_pos_eq (s : List Char) (p p' n n' : Nat)
    (h : state_at s p n = state_at s p' n') : p = p' := congrArg Lexer.pos h

/-- What the `default` label of the `switch` of `next_token` makes: a token that
is not the end-of-input token, whose text is the part of the source the lexer
goes over. -/
theorem next_token_default_spec (s : List Char) (f q n : Nat) (r : Token × Lexer)
    (hsp : is_space (s.getD q NUL) = false) (hnul : s.getD q NUL ≠ NUL)
    (h : next_token_default f (state_at s q n) = .ok r) :
    r.1.type ≠ .EOF_ ∧ r.1.line_no = n ∧
    ∃ p', q < p' ∧ r.2 = state_at s p' n ∧ r.1.literal = substr s q (p' - q) ∧
      ∀ c ∈ r.1.literal, is_space c = false := by
  obtain ⟨⟨p0, g1, g2⟩, g3⟩ := next_token_default_state s f q n r h
  refine ⟨g3, ?_⟩
  unfold next_token_default at h
  have hcur : (state_at s q n).current_char = s.getD q NUL := rfl
  rw [hcur] at h
  by_cases ha : (s.getD q NUL).isAlpha = true
  · rw [if_pos ha] at h
    unfold read_ident at h
    cases hq : read_ident_loop f (state_at s q n) with
    | error e => rw [hq] at h; simp at h
    | ok l1 =>
      rw [hq] at h
      injection h with h
      obtain ⟨p1, h1, h2, h3⟩ := read_ident_loop_chars s _ _ _ _ hq
      have hp : p0 = p1 := by
        rw [← h] at g1
        exact (state_at_pos_eq s p1 p0 n n (h1.symm.trans g1)).symm
      rw [← h]
      refine ⟨by simp [create_token, h1, state_at], p1, by omega, h1, ?_, ?_⟩
      · show substr (state_at s q n).source (state_at s q n).pos (l1.pos - (state_at s q n).pos) = _
        rw [h1]; rfl
      · show ∀ c ∈ substr (state_at s q n).source (state_at s q n).pos
            (l1.pos - (state_at s q n).pos), _
        rw [h1]
        intro c hc
        exact not_space_of_ident_char c (h3 c hc)
  · rw [if_neg ha] at h
    by_cases hd : (s.getD q NUL).isDigit = true
    · rw [if_pos hd] at h
      unfold read_number at h
      obtain ⟨p1, h1, h2, h3, h4, h5, h6⟩ := read_number_loop_chars s f q n q 0 [] r
        (le_refl _) (by rw [substr_self]) (by intro c hc; cases hc) h
      have hp : p0 = p1 := state_at_pos_eq s p0 p1 n n (g1.symm.trans h1)
      exact ⟨h4, p1, by omega, h1, h3, h5⟩
    · rw [if_neg hd] at h
      injection h with h
      rw [← h, read_char_state_at]
      refine ⟨rfl, q + 1, by omega, rfl, ?_, ?_⟩
      · show [s.getD q NUL] = _
        rw [substr_one s q hnul]
      · show ∀ c ∈ [s.getD q NUL], _
        intro c hc
        rw [List.mem_singleton.1 hc]; exact hsp

/-- One call of `next_token`: the blanks before the token are skipped and their
newlines counted, the token has the line counter after them, its text is the
part of the source the lexer then goes over and has no blank in it; the text of
the end-of-input token, made at a character `'\0'`, is empty. -/
theorem next_token_spec (s : List Char) (f p n : Nat) (t : Token) (l : Lexer)
    (h : next_token f (state_at s p n) = .ok (t, l)) :
    ∃ q p', p ≤ q ∧ q < p' ∧
      skip_whitespace f (state_at s p n) =
        .ok (state_at s q (n + (substr s p (q - p)).count '\n')) ∧
      (∀ c ∈ substr s p (q - p), is_space c = true) ∧
      l = state_at s p' (n + (substr s p (q - p)).count '\n') ∧
      t.line_no = n + (substr s p (q - p)).count '\n' ∧
      (∀ c ∈ t.literal, is_space c = false) ∧
      (t.type = .EOF_ → t.literal = [] ∧ s.getD q NUL = NUL ∧ p' = q + 1) ∧
      (t.type ≠ .EOF_ → t.literal = substr s q (p' - q)) := by
  unfold next_token at h
  cases hq : skip_whitespace f (state_at s p n) with
  | error e => rw [hq] at h; simp at h
  | ok l1 =>
    rw [hq] at h
    dsimp only at h
    obtain ⟨q, hpq, rfl, hblank, hstop⟩ := skip_whitespace_lines s _ _ _ _ hq
    unfold next_token_switch at h
    cases hc : next_token_cases (state_at s q (n + (substr s p (q - p)).count '\n')) with
    | some r =>
      rw [hc] at h
      injection h with h
      obtain ⟨h1, h2⟩ := next_token_cases_spec s q _ r hc
      rw [h] at h1 h2
      rcases h2 with ⟨e1, e2, e3, e4⟩ | ⟨e1, p', e2, e3, e4, e5⟩
      · refine ⟨q, q + 1, hpq, by omega, rfl, hblank, e4, h1, ?_, fun _ => ⟨e2, e3, rfl⟩,
          fun hne => absurd e1 hne⟩
        dsimp only at e2
        rw [e2]; intro c hm; cases hm
      · exact ⟨q, p', hpq, e2, rfl, hblank, e3, h1, e5,
          fun he => absurd he e1, fun _ => e4⟩
    | none =>
      rw [hc] at h
      have hnul : s.getD q NUL ≠ NUL := by
        intro e
        have hl : switch_table.lookup NUL = some (none, .EOF_, "") := by decide
        have hcur : (state_at s q (n + (substr s p (q - p)).count '\n')).current_char = NUL := e
        simp [next_token_cases, hcur, hl, emit] at hc
      obtain ⟨g1, g2, p', g3, g4, g5, g6⟩ := next_token_default_spec s f q _ _ hstop hnul h
      exact ⟨q, p', hpq, g3, rfl, hblank, g4, g2, g6, fun he => absurd he g1, fun _ => g5⟩

/-- The line counter of a lexer: one more than the newlines before its position. -/
theorem run_lines (s : List Char) (fuel : Nat) : ∀ (k p : Nat) (ts : List Token) (l : Lexer),
    run fuel k (state_at s p (1 + (s.take p).count '\n')) = .ok (ts, l) →
      ∃ p', l = state_at s p' (1 + (s.take p').count '\n') := by
  intro k
  induction k with
  | zero =>
    intro p ts l h
    simp only [run, Except.ok.injEq, Prod.mk.injEq] at h
    exact ⟨p, h.2.symm⟩
  | succ j ih =>
    intro p ts l h
    rw [run] at h
    cases hq : next_token fuel (state_at s p (1 + (s.take p).count '\n')) with
    | error e => rw [hq] at h; simp at h
    | ok v =>
      obtain ⟨t, l1⟩ := v
      rw [hq] at h
      dsimp only at h
      obtain ⟨q, p', h1, h2, -, h4, h5, -, h7, h8, h9⟩ := next_token_spec s _ _ _ _ _ hq
      have hno : (substr s q (p' - q)).count '\n' = 0 := by
        rw [List.count_eq_zero]
        intro hm
        by_cases he : t.type = .EOF_
        · obtain ⟨-, e2, e3⟩ := h8 he
          rw [e3] at hm
          by_cases hlt : q < s.length
          · rw [substr_step s q (q + 1) hlt (by omega), substr_self, e2] at hm
            simp [NUL] at hm
          · unfold substr at hm
            rw [List.drop_eq_nil_of_le (by omega)] at hm
            simp at hm
        · rw [← h9 he] at hm
          exact absurd (h7 _ hm) (by decide)
      have hline : 1 + (s.take p).count '\n' + (substr s p (q - p)).count '\n' =
          1 + (s.take p').count '\n' := by
        rw [take_eq_take_append_substr s p p' (by omega), substr_append s p q p' h1 (by omega),
          List.count_append, List.count_append, hno]
        omega
      rw [hline] at h5
      rw [h5] at h
      cases hr : run fuel j (state_at s p' (1 + (s.take p').count '\n')) with
      | error e => rw [hr] at h; simp at h
      | ok w =>
        obtain ⟨ts1, l2⟩ := w
        rw [hr] at h
        simp only [Except.ok.injEq, Prod.mk.injEq] at h
        obtain ⟨p2, e⟩ := ih p' ts1 l2 hr
        exact ⟨p2, by rw [← h.2]; exact e⟩

end Lexer

/-- C35: for every source, every token that `next_token` returns after any
number of earlier calls has as its line number one plus the number of newline
characters of the source before the position the lexer is at after
`skip_whitespace`, which is the position of the first character of the token;
the text of the token has no newline in it; and the text of a token other than
the end-of-input token is the part of the source that starts at that position. -/
theorem C35_token_line_numbers (source : List Char) (fuel k : Nat) (ts : List Token)
    (l l1 l2 : Lexer) (t : Token)
    (hrun : Lexer.run fuel k (Lexer.new source) = .ok (ts, l))
    (hskip : Lexer.skip_whitespace fuel l = .ok l1)
    (htok : Lexer.next_token fuel l = .ok (t, l2)) :
    t.line_no = 1 + (source.take l1.pos).count '\n' ∧
    '\n' ∉ t.literal ∧
    (t.type ≠ .EOF_ → t.literal = Lexer.substr source l1.pos t.literal.length) ∧
    (t.type = .EOF_ → t.literal = []) := by
  rw [Lexer.new_eq] at hrun
  obtain ⟨p, rfl⟩ := Lexer.run_lines source fuel k 0 ts l hrun
  obtain ⟨q, p', h1, h2, h3, h4, h5, h6, h7, h8, h9⟩ :=
    Lexer.next_token_spec source _ _ _ _ _ htok
  rw [h3] at hskip
  injection hskip with hskip
  have hpos : l1.pos = q := by rw [← hskip]; rfl
  rw [hpos]
  refine ⟨?_, ?_, ?_, fun he => (h8 he).1⟩
  · rw [h6, Lexer.take_eq_take_append_substr source p q h1, List.count_append]
    omega
  · intro hm
    exact absurd (h7 _ hm) (by decide)
  · intro hne
    have e := h9 hne
    have hlen : t.literal.length = min (p' - q) (source.drop q).length := by
      rw [e]; simp [Lexer.substr]
    rw [hlen]
    rw [e]
    unfold Lexer.substr
    rcases Nat.le_total (p' - q) (source.drop q).length with hle | hle
    · rw [Nat.min_eq_left hle]
    · rw [Nat.min_eq_right hle, List.take_of_length_le hle, List.take_of_length_le (le_refl _)]

/-- C35 (witness): the source of four lines `a`, an empty line, `  b1 ` and `+`:
after the token `a`, the lexer skips two newlines and two spaces, and the token
`b1` has the line number 3. -/
theorem C35_token_line_numbers_witness :
    (⟨.IDENT, "b1".toList, 3, 7⟩ : Token).line_no =
      1 + ("a\n\n  b1 \n+".toList.take (Lexer.state_at "a\n\n  b1 \n+".toList 5 3).pos).count '\n' ∧
    '\n' ∉ (⟨.IDENT, "b1".toList, 3, 7⟩ : Token).literal ∧
    ((⟨.IDENT, "b1".toList, 3, 7⟩ : Token).type ≠ .EOF_ →
      (⟨.IDENT, "b1".toList, 3, 7⟩ : Token).literal =
        Lexer.substr "a\n\n  b1 \n+".toList (Lexer.state_at "a\n\n  b1 \n+".toList 5 3).pos
          (⟨.IDENT, "b1".toList, 3, 7⟩ : Token).literal.length) ∧
    ((⟨.IDENT, "b1".toList, 3, 7⟩ : Token).type = .EOF_ →
      (⟨.IDENT, "b1".toList, 3, 7⟩ : Token).literal = []) :=
  C35_token_line_numbers "a\n\n  b1 \n+".toList 10 1 [⟨.IDENT, "a".toList, 1, 1⟩]
    (Lexer.state_at "a\n\n  b1 \n+".toList 1 1) (Lexer.state_at "a\n\n  b1 \n+".toList 5 3)
    (Lexer.state_at "a\n\n  b1 \n+".toList 7 3) ⟨.IDENT, "b1".toList, 3, 7⟩
    (by decide) (by decide) (by decide)

/-- C35 (on source text): the tokens of two sources with newlines, with their
line numbers; the end-of-input token has the line number after the last newline. -/
theorem C35_examples :
    Lexer.tokens 10 4 (Lexer.new "a\n\n  b1 \n+".toList) =
      .ok [⟨.IDENT, "a".toList, 1, 1⟩, ⟨.IDENT, "b1".toList, 3, 7⟩, ⟨.PLUS, "+".toList, 4, 9⟩,
        ⟨.EOF_, [], 4, 10⟩] ∧
    Lexer.tokens 20 4 (Lexer.new "a\n\n b1 \n1.2.3.x \n".toList) =
      .ok [⟨.IDENT, "a".toList, 1, 1⟩, ⟨.IDENT, "b1".toList, 3, 6⟩,
        ⟨.ILLEGAL, "1.2.3.x".toList, 4, 15⟩, ⟨.EOF_, [], 5, 17⟩] := by
  exact ⟨by decide, by decide⟩

namespace Lexer

/-- The texts of the tokens made before the end of input are the characters the
lexer went over, without the blanks. -/
theorem run_texts (s : List Char) (fuel : Nat) : ∀ (k p n : Nat) (ts : List Token) (l : Lexer),
    run fuel k (state_at s p n) = .ok (ts, l) → (∀ t ∈ ts, t.type ≠ .EOF_) →
      ∃ p' n', l = state_at s p' n' ∧ p ≤ p' ∧
        (s.take p').filter (fun c => !is_space c) =
          (s.take p).filter (fun c => !is_space c) ++ (ts.map Token.literal).flatten := by
  intro k
  induction k with
  | zero =>
    intro p n ts l h _
    simp only [run, Except.ok.injEq, Prod.mk.injEq] at h
    refine ⟨p, n, h.2.symm, le_refl _, ?_⟩
    rw [← h.1]; simp
  | succ j ih =>
    intro p n ts l h hno
    rw [run] at h
    cases hq : next_token fuel (state_at s p n) with
    | error e => rw [hq] at h; simp at h
    | ok v =>
      obtain ⟨t, l1⟩ := v
      rw [hq] at h
      dsimp only at h
      cases hr : run fuel j l1 with
      | error e => rw [hr] at h; simp at h
      | ok w =>
        obtain ⟨ts1, l2⟩ := w
        rw [hr] at h
        simp only [Except.ok.injEq, Prod.mk.injEq] at h
        obtain ⟨h1, h2⟩ := h
        obtain ⟨q, p', g1, g2, -, g4, g5, -, g7, -, g9⟩ := next_token_spec s _ _ _ _ _ hq
        rw [← h1] at hno
        have hne : t.type ≠ .EOF_ := hno t (List.mem_cons_self _ _)
        rw [g5] at hr
        obtain ⟨p2, n2, e1, e2, e3⟩ := ih p' _ ts1 l2 hr
          (fun x hx => hno x (List.mem_cons_of_mem _ hx))
        refine ⟨p2, n2, by rw [← h2]; exact e1, by omega, ?_⟩
        rw [e3, take_eq_take_append_substr s p p' (by omega),
          substr_append s p q p' g1 (by omega), List.filter_append, List.filter_append,
          ← g9 hne, ← h1]
        have hb : (substr s p (q - p)).filter (fun c => !is_space c) = [] := by
          rw [List.filter_eq_nil_iff]
          intro c hc
          simp [g4 c hc]
        have ht : t.literal.filter (fun c => !is_space c) = t.literal := by
          rw [List.filter_eq_self]
          intro c hc
          simp [g7 c hc]
        rw [hb, ht]
        simp

end Lexer

/-- C34: for every source without a character `'\0'`: if `k` calls of
`next_token` return tokens none of which is the end-of-input token, and the next
call returns the end-of-input token, then the texts of the `k` tokens, put one
after the other, are the source without its spaces, tabs, newlines and carriage
returns. -/
theorem C34_lexing_loses_no_character (source : List Char) (hnul : NUL ∉ source)
    (fuel k : Nat) (ts : List Token) (l l1 : Lexer) (eof : Token)
    (hrun : Lexer.run fuel k (Lexer.new source) = .ok (ts, l))
    (hno : ∀ t ∈ ts, t.type ≠ .EOF_)
    (hend : Lexer.next_token fuel l = .ok (eof, l1)) (heof : eof.type = .EOF_) :
    (ts.map Token.literal).flatten = source.filter (fun c => !Lexer.is_space c) := by
  rw [Lexer.new_eq] at hrun
  obtain ⟨p, n, rfl, -, e⟩ := Lexer.run_texts source fuel k 0 1 ts l hrun hno
  obtain ⟨q, p', g1, -, -, g4, -, -, -, g8, -⟩ := Lexer.next_token_spec source _ _ _ _ _ hend
  have hq : source.length ≤ q := Lexer.length_le_of_getD_nul source hnul q (g8 heof).2.1
  have hs : source = source.take p ++ Lexer.substr source p (q - p) := by
    rw [← Lexer.take_eq_take_append_substr source p q g1, List.take_of_length_le hq]
  have hb : (Lexer.substr source p (q - p)).filter (fun c => !Lexer.is_space c) = [] := by
    rw [List.filter_eq_nil_iff]
    intro c hc
    simp [g4 c hc]
  simp only [List.take_zero, List.filter_nil, List.nil_append] at e
  rw [← e]
  conv => rhs; rw [hs]
  rw [List.filter_append, hb, List.append_nil]

/-- C34 (witness): the source of two lines `let x = 1.5;` and `<tab>y >= 2 !`,
the second ended by a carriage return and a newline: nine tokens, then the end
of input. -/
theorem C34_lexing_loses_no_character_witness :
    NUL ∉ "let x = 1.5;\n\ty >= 2 !\r\n".toList ∧
    (([⟨.LET, "let".toList, 1, 3⟩, ⟨.IDENT, "x".toList, 1, 5⟩, ⟨.EQ, "=".toList, 1, 6⟩,
        ⟨.FLOAT, "1.5".toList, 1, 11⟩, ⟨.SEMICOLON, ";".toList, 1, 11⟩,
        ⟨.IDENT, "y".toList, 2, 15⟩, ⟨.GT_EQ, ">=".toList, 2, 17⟩, ⟨.INT, "2".toList, 2, 20⟩,
        ⟨.ILLEGAL, "!".toList, 2, 21⟩] : List Token).map Token.literal).flatten =
      "let x = 1.5;\n\ty >= 2 !\r\n".toList.filter (fun c => !Lexer.is_space c) :=
  ⟨by decide,
   C34_lexing_loses_no_character "let x = 1.5;\n\ty >= 2 !\r\n".toList (by decide) 20 9
    [⟨.LET, "let".toList, 1, 3⟩, ⟨.IDENT, "x".toList, 1, 5⟩, ⟨.EQ, "=".toList, 1, 6⟩,
      ⟨.FLOAT, "1.5".toList, 1, 11⟩, ⟨.SEMICOLON, ";".toList, 1, 11⟩,
      ⟨.IDENT, "y".toList, 2, 15⟩, ⟨.GT_EQ, ">=".toList, 2, 17⟩, ⟨.INT, "2".toList, 2, 20⟩,
      ⟨.ILLEGAL, "!".toList, 2, 21⟩]
    (Lexer.state_at "let x = 1.5;\n\ty >= 2 !\r\n".toList 22 2)
    (Lexer.state_at "let x = 1.5;\n\ty >= 2 !\r\n".toList 25 3) ⟨.EOF_, [], 3, 24⟩
    (by decide!) (by decide) (by decide!) rfl⟩

/-- C34 (on source text): the texts of the tokens of `1.2.3 4 ` before the end of
input are `1.2.3` and `4`; with a character `'\0'` in the source, the tokens
before the first end-of-input token do not cover the source. -/
theorem C34_examples :
    Lexer.tokens 20 3 (Lexer.new "1.2.3 4 ".toList) =
      .ok [⟨.ILLEGAL, "1.2.3".toList, 1, 5⟩, ⟨.INT, "4".toList, 1, 7⟩, ⟨.EOF_, [], 1, 8⟩] ∧
    Lexer.tokens 20 3 (Lexer.new ['a', NUL, 'b']) =
      .ok [⟨.IDENT, "a".toList, 1, 1⟩, ⟨.EOF_, [], 1, 1⟩, ⟨.IDENT, "b".toList, 1, 3⟩] := by
  exact ⟨by decide, by decide⟩


/-! ## The parser: the tree of an expression without parentheses -/

theorem operator_precedence_of_type (op : List Char) (type : TokenType)
    (h : operator_type op = some type) : operator_precedence op = token_precedence type := by
  unfold operator_precedence
  rw [h]

theorem sequence_items_append (xs ys : List (Token × Token × Expression)) :
    sequence_items (xs ++ ys) = sequence_items xs ++ sequence_items ys := by
  induction xs with
  | nil => rfl
  | cons x xs ih =>
    obtain ⟨o, a, e⟩ := x
    show Sum.inr o.literal :: Sum.inl e :: sequence_items (xs ++ ys) = _
    rw [ih]
    rfl

namespace Expression

theorem in_order_cases (e : Expression) :
    (e.in_order = [.inl e] ∧ root_precedence (some e) = none ∧ e.well_nested = true) ∨
    ∃ l op r, e = .InfixExpression l op r := by
  cases e with
  | InfixExpression l op r => exact Or.inr ⟨l, op, r, rfl⟩
  | CallExpression f a => exact Or.inl ⟨by simp [in_order], rfl, by simp [well_nested]⟩
  | IdentifierLiteral v => exact Or.inl ⟨by simp [in_order], rfl, by simp [well_nested]⟩
  | IntegerLiteral v => exact Or.inl ⟨by simp [in_order], rfl, by simp [well_nested]⟩
  | FloatLiteral v => exact Or.inl ⟨by simp [in_order], rfl, by simp [well_nested]⟩
  | BooleanLiteral v => exact Or.inl ⟨by simp [in_order], rfl, by simp [well_nested]⟩

theorem in_order_node (l : Option Expression) (op : List Char) (r : Option Expression) :
    (InfixExpression l op r).in_order = in_order_opt l ++ [.inr op] ++ in_order_opt r := by
  simp [in_order]

theorem in_order_ne_nil (e : Expression) : e.in_order ≠ [] := by
  rcases in_order_cases e with ⟨h, -, -⟩ | ⟨l, op, r, rfl⟩
  · rw [h]; simp
  · rw [in_order_node]; simp

theorem well_nested_node (l : Option Expression) (op : List Char) (r : Option Expression)
    (h : (InfixExpression l op r).well_nested = true) :
    (∀ k, root_precedence l = some k → (operator_precedence op).toNat ≤ k) ∧
    (∀ k, root_precedence r = some k → (operator_precedence op).toNat < k) ∧
    well_nested_opt l = true ∧ well_nested_opt r = true := by
  simp only [well_nested, Bool.and_eq_true] at h
  obtain ⟨⟨⟨h1, h2⟩, h3⟩, h4⟩ := h
  refine ⟨fun k hk => ?_, fun k hk => ?_, h3, h4⟩
  · rw [hk] at h1; simpa using h1
  · rw [hk] at h2; simpa using h2

theorem well_nested_of_parts (l : Option Expression) (op : List Char) (r : Option Expression)
    (h1 : ∀ k, root_precedence l = some k → (operator_precedence op).toNat ≤ k)
    (h2 : ∀ k, root_precedence r = some k → (operator_precedence op).toNat < k)
    (h3 : well_nested_opt l = true) (h4 : well_nested_opt r = true) :
    (InfixExpression l op r).well_nested = true := by
  simp only [well_nested, Bool.and_eq_true]
  refine ⟨⟨⟨?_, ?_⟩, h3⟩, h4⟩
  · cases hk : root_precedence l with
    | none => rfl
    | some k => simpa using h1 k hk
  · cases hk : root_precedence r with
    | none => rfl
    | some k => simpa using h2 k hk

/-- In a well nested tree, no operator has a lower precedence than the operator
of the root. -/
theorem operators_bound : ∀ (n : Nat) (e : Expression), e.in_order.length ≤ n →
    e.well_nested = true → ∀ k, root_precedence (some e) = some k →
    ∀ o, Sum.inr o ∈ e.in_order → k ≤ (operator_precedence o).toNat := by
  intro n
  induction n with
  | zero =>
    intro e hlen
    exact absurd (List.length_eq_zero.1 (Nat.le_zero.1 hlen)) (in_order_ne_nil e)
  | succ m ih =>
    intro e hlen hwn k hk o ho
    rcases in_order_cases e with ⟨h, hr, -⟩ | ⟨l, op, r, rfl⟩
    · rw [hr] at hk; cases hk
    · obtain ⟨w1, w2, w3, w4⟩ := well_nested_node l op r hwn
      have hk' : k = (operator_precedence op).toNat := by
        simp only [root_precedence, Option.some.injEq] at hk
        exact hk.symm
      rw [in_order_node] at ho hlen
      simp only [List.length_append, List.length_singleton] at hlen
      simp only [List.mem_append, List.mem_singleton, Sum.inr.injEq] at ho
      rcases ho with (ho | ho) | ho
      · cases l with
        | none => simp [in_order_opt] at ho
        | some el =>
          simp only [in_order_opt] at ho hlen
          rcases in_order_cases el with ⟨h, -, -⟩ | ⟨l2, op2, r2, rfl⟩
          · rw [h] at ho; simp at ho
          · have := ih _ (by omega) w3 _ rfl o ho
            have := w1 _ rfl
            omega
      · rw [ho, hk']
      · cases r with
        | none => simp [in_order_opt] at ho
        | some er =>
          simp only [in_order_opt] at ho hlen
          rcases in_order_cases er with ⟨h, -, -⟩ | ⟨l2, op2, r2, rfl⟩
          · rw [h] at ho; simp at ho
          · have := ih _ (by omega) w4 _ rfl o ho
            have := w2 _ rfl
            omega

theorem left_operators_bound (l : Option Expression) (op : List Char) (r : Option Expression)
    (h : (InfixExpression l op r).well_nested = true) (o : List Char)
    (ho : Sum.inr o ∈ in_order_opt l) :
    (operator_precedence op).toNat ≤ (operator_precedence o).toNat := by
  obtain ⟨w1, w2, w3, w4⟩ := well_nested_node l op r h
  cases l with
  | none => simp [in_order_opt] at ho
  | some el =>
    simp only [in_order_opt] at ho
    rcases in_order_cases el with ⟨h, -, -⟩ | ⟨l2, op2, r2, rfl⟩
    · rw [h] at ho; simp at ho
    · have := operators_bound _ _ (le_refl _) w3 _ rfl o ho
      have := w1 _ rfl
      omega

theorem right_operators_bound (l : Option Expression) (op : List Char) (r : Option Expression)
    (h : (InfixExpression l op r).well_nested = true) (o : List Char)
    (ho : Sum.inr o ∈ in_order_opt r) :
    (operator_precedence op).toNat < (operator_precedence o).toNat := by
  obtain ⟨w1, w2, w3, w4⟩ := well_nested_node l op r h
  cases r with
  | none => simp [in_order_opt] at ho
  | some er =>
    simp only [in_order_opt] at ho
    rcases in_order_cases er with ⟨h, -, -⟩ | ⟨l2, op2, r2, rfl⟩
    · rw [h] at ho; simp at ho
    · have := operators_bound _ _ (le_refl _) w4 _ rfl o ho
      have := w2 _ rfl
      omega

/-- Two well nested trees with the same in-order traversal are the same tree. -/
theorem well_nested_unique : ∀ (n : Nat) (e1 e2 : Expression), e1.in_order.length ≤ n →
    e1.well_nested = true → e2.well_nested = true → e1.in_order = e2.in_order → e1 = e2 := by
  intro n
  induction n with
  | zero =>
    intro e1 e2 hlen
    exact absurd (List.length_eq_zero.1 (Nat.le_zero.1 hlen)) (in_order_ne_nil e1)
  | succ m ih =>
    intro e1 e2 hlen hw1 hw2 heq
    have hopt : ∀ (a b : Option Expression), (in_order_opt a).length ≤ m →
        well_nested_opt a = true → well_nested_opt b = true →
        in_order_opt a = in_order_opt b → a = b := by
      intro a b hl ha hb hab
      cases a with
      | none =>
        cases b with
        | none => rfl
        | some y => exact absurd hab.symm (in_order_ne_nil y)
      | some x =>
        cases b with
        | none => exact absurd hab (in_order_ne_nil x)
        | some y => rw [ih x y hl ha hb hab]
    rcases in_order_cases e1 with ⟨h1, -, -⟩ | ⟨l1, op1, r1, rfl⟩
    · rcases in_order_cases e2 with ⟨h2, -, -⟩ | ⟨l2, op2, r2, rfl⟩
      · rw [h1, h2] at heq
        simpa using heq
      · rw [h1, in_order_node] at heq
        have hm : Sum.inr op2 ∈ [(Sum.inl e1 : Sum Expression (List Char))] := by
          rw [heq]; simp
        simp at hm
    · rcases in_order_cases e2 with ⟨h2, -, -⟩ | ⟨l2, op2, r2, rfl⟩
      · rw [h2, in_order_node] at heq
        have hm : Sum.inr op1 ∈ [(Sum.inl e2 : Sum Expression (List Char))] := by
          rw [← heq]; simp
        simp at hm
      · rw [in_order_node, in_order_node, List.append_assoc, List.append_assoc] at heq
        rw [in_order_node] at hlen
        simp only [List.length_append, List.length_singleton] at hlen
        obtain ⟨v1, v2, v3, v4⟩ := well_nested_node l1 op1 r1 hw1
        obtain ⟨u1, u2, u3, u4⟩ := well_nested_node l2 op2 r2 hw2
        have hsplit : in_order_opt l1 = in_order_opt l2 ∧ op1 = op2 ∧
            in_order_opt r1 = in_order_opt r2 := by
          rcases List.append_eq_append_iff.1 heq with ⟨a', ha1, ha2⟩ | ⟨c', hc1, hc2⟩
          · cases a' with
            | nil =>
              simp only [List.append_nil, List.nil_append, List.singleton_append,
                List.cons.injEq, Sum.inr.injEq] at ha1 ha2
              exact ⟨ha1.symm, ha2.1, ha2.2⟩
            | cons y ys =>
              simp only [List.singleton_append, List.cons_append, List.cons.injEq,
                List.nil_append] at ha2
              exfalso
              have m1 : Sum.inr op1 ∈ in_order_opt l2 := by
                rw [ha1, ← ha2.1]; simp
              have m2 : Sum.inr op2 ∈ in_order_opt r1 := by
                rw [ha2.2]; simp
              have b1 := left_operators_bound l2 op2 r2 hw2 op1 m1
              have b2 := right_operators_bound l1 op1 r1 hw1 op2 m2
              omega
          · cases c' with
            | nil =>
              simp only [List.append_nil, List.nil_append, List.singleton_append,
                List.cons.injEq, Sum.inr.injEq] at hc1 hc2
              exact ⟨hc1, hc2.1.symm, hc2.2.symm⟩
            | cons y ys =>
              simp only [List.singleton_append, List.cons_append, List.cons.injEq,
                List.nil_append] at hc2
              exfalso
              have m1 : Sum.inr op2 ∈ in_order_opt l1 := by
                rw [hc1, ← hc2.1]; simp
              have m2 : Sum.inr op1 ∈ in_order_opt r2 := by
                rw [hc2.2]; simp
              have b1 := left_operators_bound l1 op1 r1 hw1 op2 m1
              have b2 := right_operators_bound l2 op2 r2 hw2 op1 m2
              omega
        obtain ⟨s1, s2, s3⟩ := hsplit
        rw [hopt l1 l2 (by omega) v3 u3 s1, hopt r1 r2 (by omega) v4 u4 s3, s2]

end Expression

namespace Parser

theorem parse_expression_literal (f : Nat) (prec : PrecedenceType) (p : Parser) (e : Expression)
    (h : literal_expression p.current_token = some e) :
    parse_expression (f + 1) prec p = parse_expression_loop f prec (some e) p := by
  unfold literal_expression at h
  rw [parse_expression]
  split at h
  · next ht =>
    injection h with h
    rw [ht]
    simp only [prefix_parse_fns, parse_identifier, h]
  · next ht =>
    rw [ht]
    simp only [prefix_parse_fns, parse_integer_literal]
    split at h
    · next v hv =>
      injection h with h
      rw [hv, ← h]
      rfl
    · exact Option.noConfusion h
  · next ht =>
    rw [ht]
    simp only [prefix_parse_fns, parse_float_literal]
    split at h
    · next v hv =>
      injection h with h
      rw [hv, ← h]
      rfl
    · exact Option.noConfusion h
  · next ht =>
    injection h with h
    rw [ht]
    simp only [prefix_parse_fns, parse_boolean_literal, current_token_is, ht, ← h]
    rfl
  · next ht =>
    injection h with h
    rw [ht]
    simp only [prefix_parse_fns, parse_boolean_literal, current_token_is, ht, ← h]
    rfl
  · exact Option.noConfusion h

theorem literal_leaf (t : Token) (e : Expression) (h : literal_expression t = some e) :
    e.in_order = [.inl e] ∧ Expression.root_precedence (some e) = none ∧
      e.well_nested = true := by
  rcases Expression.in_order_cases e with hleaf | ⟨l, op, r, rfl⟩
  · exact hleaf
  · unfold literal_expression at h
    split at h
    · injection h with h; cases h
    · split at h
      · injection h with h; cases h
      · exact Option.noConfusion h
    · split at h
      · injection h with h; cases h
      · exact Option.noConfusion h
    · injection h with h; cases h
    · injection h with h; cases h
    · exact Option.noConfusion h

/-- The loop of `parse_expression` on `op1 a1 ... opn an`: it takes the operators
of higher precedence than `prec` with their right operands, up to the first
operator that has not, and returns a well nested tree of what it took. -/
theorem parse_expression_loop_climbs : ∀ (n : Nat) (rest : List (Token × Token × Expression)),
    rest.length ≤ n →
    ∀ (prec : PrecedenceType) (left : Expression) (p pend : Parser),
    reads p (operand_tokens rest) pend →
    (∀ x ∈ rest, is_binary_operator x.1.type = true ∧
      operator_type x.1.literal = some x.1.type ∧ literal_expression x.2.1 = some x.2.2) →
    (pend.peek_token.type = .SEMICOLON ∨ pend.peek_token.type = .EOF_) →
    left.well_nested = true →
    (∀ k, Expression.root_precedence (some left) = some k →
      ∀ x, rest.head? = some x → (token_precedence x.1.type).toNat ≤ k) →
    ∃ e consumed remaining pm, rest = consumed ++ remaining ∧
      reads pm (operand_tokens remaining) pend ∧
      (∃ N, ∀ fuel, N ≤ fuel →
        parse_expression_loop fuel prec (some left) p = .ok (some e, pm)) ∧
      e.in_order = left.in_order ++ sequence_items consumed ∧
      e.well_nested = true ∧
      (∀ x, remaining.head? = some x → (token_precedence x.1.type).toNat ≤ prec.toNat) ∧
      (e = left ∨ ∃ k, Expression.root_precedence (some e) = some k ∧ prec.toNat < k) := by
  intro n
  induction n with
  | zero =>
    intro rest hlen prec left p pend hreads _ hstop hwn _
    have hnil : rest = [] := List.length_eq_zero.1 (Nat.le_zero.1 hlen)
    subst hnil
    have hp : pend = p := hreads
    subst hp
    refine ⟨left, [], [], pend, rfl, rfl, ⟨1, fun fuel hf => ?_⟩, by simp [sequence_items],
      hwn, by simp, Or.inl rfl⟩
    obtain ⟨f, rfl⟩ : ∃ f, fuel = f + 1 := ⟨fuel - 1, by omega⟩
    refine parse_expression_loop_stop f prec _ pend ?_
    rcases hstop with h | h
    · exact Or.inl h
    · exact stop_at_eof prec _ h
  | succ m ih =>
    intro rest hlen prec left p pend hreads hvalid hstop hwn hleft
    cases rest with
    | nil =>
      have hp : pend = p := hreads
      subst hp
      refine ⟨left, [], [], pend, rfl, rfl, ⟨1, fun fuel hf => ?_⟩, by simp [sequence_items],
        hwn, by simp, Or.inl rfl⟩
      obtain ⟨f, rfl⟩ : ∃ f, fuel = f + 1 := ⟨fuel - 1, by omega⟩
      refine parse_expression_loop_stop f prec _ pend ?_
      rcases hstop with h | h
      · exact Or.inl h
      · exact stop_at_eof prec _ h
    | cons x rest1 =>
      obtain ⟨o, a, ae⟩ := x
      obtain ⟨hop, hty, hlit⟩ := hvalid (o, a, ae) (List.mem_cons_self _ _)
      dsimp only at hop hty hlit
      have hreads1 : reads p (o :: a :: operand_tokens rest1) pend := hreads
      obtain ⟨hpo, p1, a1, hpa, p2, a2, hr⟩ := hreads1
      by_cases hlt : prec.toNat < (token_precedence o.type).toNat
      · have c1 : p1.current_token = o := (advances_to_current p p1 a1).trans hpo
        have c2 : p2.current_token = a := (advances_to_current p1 p2 a2).trans hpa
        obtain ⟨hleaf1, hleaf2, hleaf3⟩ := literal_leaf a ae hlit
        obtain ⟨e1, cons1, rem1, pm1, hsplit1, hrd1, ⟨N1, hN1⟩, hio1, hwn1, hhead1, hroot1⟩ :=
          ih rest1 (by simpa using hlen) (token_precedence o.type) ae p2 pend hr
            (fun y hy => hvalid y (List.mem_cons_of_mem _ hy)) hstop hleaf3
            (by intro k hk; rw [hleaf2] at hk; cases hk)
        have hprec : operator_precedence o.literal = token_precedence o.type :=
          operator_precedence_of_type _ _ hty
        have hwn2 : (Expression.InfixExpression (some left) o.literal (some e1)).well_nested =
            true := by
          refine Expression.well_nested_of_parts _ _ _ ?_ ?_ hwn hwn1
          · intro k hk
            rw [hprec]
            exact hleft k hk (o, a, ae) rfl
          · intro k hk
            rw [hprec]
            rcases hroot1 with h | ⟨k1, hk1, hk2⟩
            · rw [h, hleaf2] at hk; cases hk
            · rw [hk1] at hk
              injection hk with hk
              omega
        have hlen1 : rem1.length ≤ m := by
          have : rest1.length = cons1.length + rem1.length := by
            rw [hsplit1, List.length_append]
          simp only [List.length_cons] at hlen
          omega
        obtain ⟨e, cons2, rem2, pm, hsplit2, hrd2, ⟨N2, hN2⟩, hio2, hwn3, hhead2, hroot2⟩ :=
          ih rem1 hlen1 prec (.InfixExpression (some left) o.literal (some e1)) pm1 pend hrd1
            (fun y hy => hvalid y (List.mem_cons_of_mem _ (by rw [hsplit1]; simp [hy])))
            hstop hwn2
            (by
              intro k hk y hy
              simp only [Expression.root_precedence, Option.some.injEq] at hk
              rw [← hk, hprec]
              exact hhead1 y hy)
        obtain ⟨M1, b1⟩ := advances_to_all p p1 a1
        obtain ⟨M2, b2⟩ := advances_to_all p1 p2 a2
        refine ⟨e, (o, a, ae) :: cons1 ++ cons2, rem2, pm, ?_, hrd2,
          ⟨M1 + M2 + N1 + N2 + 4, fun fuel hf => ?_⟩, ?_, hwn3, hhead2, ?_⟩
        · rw [hsplit1, hsplit2]; simp
        · obtain ⟨f, rfl⟩ : ∃ f, fuel = f + 4 := ⟨fuel - 4, by omega⟩
          rw [ parse_expression_loop_infix (f + 3) prec _ p (by rw [hpo]; exact hop)
            (by rw [hpo]; exact hlt)]
          simp only [bind, Except.bind, b1 (f + 3) (by omega)]
          rw [parse_infix_expression]
          simp only [bind, Except.bind, b2 (f + 2) (by omega)]
          have hcp : current_precedence p1 = token_precedence o.type := by
            show token_precedence p1.current_token.type = _
            rw [c1]
          rw [hcp, parse_expression_literal (f + 1) _ p2 ae (by rw [c2]; exact hlit),
            hN1 (f + 1) (by omega)]
          simp only [pure, Except.pure, c1]
          exact hN2 (f + 3) (by omega)
        · rw [hio2, Expression.in_order_node, Expression.in_order_opt, Expression.in_order_opt,
            hio1, hleaf1, List.cons_append, sequence_items_append]
          simp [sequence_items]
        · rcases hroot2 with h | h
          · right
            refine ⟨(token_precedence o.type).toNat, ?_, hlt⟩
            rw [h]
            simp only [Expression.root_precedence, hprec]
          · exact Or.inr h
      · refine ⟨left, [], (o, a, ae) :: rest1, p, rfl, hreads, ⟨1, fun fuel hf => ?_⟩,
          by simp [sequence_items], hwn, ?_, Or.inl rfl⟩
        · obtain ⟨f, rfl⟩ : ∃ f, fuel = f + 1 := ⟨fuel - 1, by omega⟩
          exact parse_expression_loop_stop f prec _ p (Or.inr (by rw [hpo]; exact hlt))
        · intro y hy
          simp only [List.head?_cons, Option.some.injEq] at hy
          rw [← hy]
          exact Nat.le_of_not_lt hlt

end Parser

/-- C38: at a literal or identifier token that parses to `a0`, when the tokens
after it are `op1 a1 ... opn an` (binary operators and tokens that parse to the
operands `a1 .. an`, `n ≥ 0`; a number token parses to an operand when
`std::stoi`, or `std::stof`, converts its text) and the token after them is `;`
or the end of input: `parse_expression` at `LOWEST` returns a tree `e`, in the state reached
by reading these tokens; the in-order traversal of `e` is
`a0, op1, a1, .., opn, an`; in `e` every infix node whose right child is an infix
node has a right child operator of strictly higher precedence, and every infix
node whose left child is an infix node has a left child operator of greater or
equal precedence; and `e` is the only tree with this traversal and this
property. -/
theorem C38_precedence_climbing (p p1 : Parser) (a0 : Expression)
    (rest : List (Token × Token × Expression))
    (ha0 : literal_expression p.current_token = some a0)
    (hrest : ∀ x ∈ rest, is_binary_operator x.1.type = true ∧
      operator_type x.1.literal = some x.1.type ∧ literal_expression x.2.1 = some x.2.2)
    (hreads : Parser.reads p (operand_tokens rest) p1)
    (hstop : p1.peek_token.type = .SEMICOLON ∨ p1.peek_token.type = .EOF_) :
    ∃ e, (∃ N, ∀ fuel, N ≤ fuel →
        Parser.parse_expression fuel .LOWEST p = .ok (some e, p1)) ∧
      e.in_order = .inl a0 :: sequence_items rest ∧
      e.well_nested = true ∧
      ∀ e', e'.in_order = .inl a0 :: sequence_items rest → e'.well_nested = true →
        e' = e := by
  obtain ⟨hl1, hl2, hl3⟩ := Parser.literal_leaf _ a0 ha0
  obtain ⟨e, cons, rem, pm, hsplit, hrd, ⟨N, hN⟩, hio, hwn, hhead, -⟩ :=
    Parser.parse_expression_loop_climbs rest.length rest (le_refl _) .LOWEST a0 p p1 hreads
      hrest hstop hl3 (by intro k hk; rw [hl2] at hk; cases hk)
  have hrem : rem = [] := by
    cases rem with
    | nil => rfl
    | cons y ys =>
      exfalso
      have hy := (hrest y (by rw [hsplit]; simp)).1
      have h1 := Parser.precedence_pos_of_binary _ hy
      have h2 := hhead y rfl
      omega
  subst hrem
  have hpm : p1 = pm := hrd
  subst hpm
  rw [List.append_nil] at hsplit
  subst hsplit
  have hio' : e.in_order = .inl a0 :: sequence_items rest := by
    rw [hio, hl1]; rfl
  refine ⟨e, ⟨N + 1, fun fuel hf => ?_⟩, hio', hwn, fun e' h1 h2 => ?_⟩
  · obtain ⟨f, rfl⟩ : ∃ f, fuel = f + 1 := ⟨fuel - 1, by omega⟩
    rw [Parser.parse_expression_literal f _ p a0 ha0]
    exact hN f (by omega)
  · exact Expression.well_nested_unique _ e' e (le_refl _) h2 hwn (by rw [h1, hio'])

/-- C38 (witness): the parser on `a + 2 * b < 4.5 == true;`, at the token `a`:
four operators, of four different precedences, and their right operands. -/
theorem C38_precedence_climbing_witness :
    Parser.new 10 (Lexer.new "a + 2 * b < 4.5 == true;".toList) =
      .ok ⟨Lexer.state_at "a + 2 * b < 4.5 == true;".toList 3 1, [],
        ⟨.IDENT, "a".toList, 1, 1⟩, ⟨.PLUS, "+".toList, 1, 2⟩⟩ ∧
    ∃ e, (∃ N, ∀ fuel, N ≤ fuel →
        Parser.parse_expression fuel .LOWEST
            ⟨Lexer.state_at "a + 2 * b < 4.5 == true;".toList 3 1, [],
              ⟨.IDENT, "a".toList, 1, 1⟩, ⟨.PLUS, "+".toList, 1, 2⟩⟩ =
          .ok (some e, ⟨Lexer.state_at "a + 2 * b < 4.5 == true;".toList 24 1, [],
            ⟨.TRUE, "true".toList, 1, 23⟩, ⟨.SEMICOLON, ";".toList, 1, 23⟩⟩)) ∧
      e.in_order = .inl (.IdentifierLiteral "a".toList) :: sequence_items
        [(⟨.PLUS, "+".toList, 1, 2⟩, ⟨.INT, "2".toList, 1, 5⟩, .IntegerLiteral 2),
         (⟨.ASTERISK, "*".toList, 1, 6⟩, ⟨.IDENT, "b".toList, 1, 9⟩,
           .IdentifierLiteral "b".toList),
         (⟨.LT, "<".toList, 1, 10⟩, ⟨.FLOAT, "4.5".toList, 1, 15⟩, .FloatLiteral ⟨9, -1⟩),
         (⟨.EQ_EQ, "==".toList, 1, 17⟩, ⟨.TRUE, "true".toList, 1, 23⟩, .BooleanLiteral true)] ∧
      e.well_nested = true ∧
      ∀ e', e'.in_order = .inl (.IdentifierLiteral "a".toList) :: sequence_items
        [(⟨.PLUS, "+".toList, 1, 2⟩, ⟨.INT, "2".toList, 1, 5⟩, .IntegerLiteral 2),
         (⟨.ASTERISK, "*".toList, 1, 6⟩, ⟨.IDENT, "b".toList, 1, 9⟩,
           .IdentifierLiteral "b".toList),
         (⟨.LT, "<".toList, 1, 10⟩, ⟨.FLOAT, "4.5".toList, 1, 15⟩, .FloatLiteral ⟨9, -1⟩),
         (⟨.EQ_EQ, "==".toList, 1, 17⟩, ⟨.TRUE, "true".toList, 1, 23⟩, .BooleanLiteral true)] →
        e'.well_nested = true → e' = e := by
  refine ⟨by decide!, ?_⟩
  exact C38_precedence_climbing
    ⟨Lexer.state_at "a + 2 * b < 4.5 == true;".toList 3 1, [],
      ⟨.IDENT, "a".toList, 1, 1⟩, ⟨.PLUS, "+".toList, 1, 2⟩⟩
    ⟨Lexer.state_at "a + 2 * b < 4.5 == true;".toList 24 1, [],
      ⟨.TRUE, "true".toList, 1, 23⟩, ⟨.SEMICOLON, ";".toList, 1, 23⟩⟩
    (.IdentifierLiteral "a".toList)
    [(⟨.PLUS, "+".toList, 1, 2⟩, ⟨.INT, "2".toList, 1, 5⟩, .IntegerLiteral 2),
     (⟨.ASTERISK, "*".toList, 1, 6⟩, ⟨.IDENT, "b".toList, 1, 9⟩, .IdentifierLiteral "b".toList),
     (⟨.LT, "<".toList, 1, 10⟩, ⟨.FLOAT, "4.5".toList, 1, 15⟩, .FloatLiteral ⟨9, -1⟩),
     (⟨.EQ_EQ, "==".toList, 1, 17⟩, ⟨.TRUE, "true".toList, 1, 23⟩, .BooleanLiteral true)]
    rfl (by decide!) (Parser.reads_of_advance 10 8 _ _ _ (by decide!)) (Or.inl rfl)

/-- C38 (on source text): the tree of `a + 2 * b < 4.5 == true;`, which is well
nested, and two other trees on the same operands and operators, which are not:
`a + ((2 * b) < 4.5 == true)` and `(a + 2) * b < 4.5 == true`.  A float literal
is an operand up to the largest `float`, `(2 ^ 24 - 1) * 2 ^ 104`, to which the
texts below `2 ^ 128 - 2 ^ 103` are rounded; from there on `std::stof` throws,
as it does on `0.00000000000000000000000000000000000001`, which is below the
smallest normal `float` and is no `float` itself. -/
theorem C38_examples :
    parse_source 30 "a + 2 * b < 4.5 == true;".toList =
      .ok (⟨[.ExpressionStatement (some (.InfixExpression
        (some (.InfixExpression
          (some (.InfixExpression (some (.IdentifierLiteral "a".toList)) "+".toList
            (some (.InfixExpression (some (.IntegerLiteral 2)) "*".toList
              (some (.IdentifierLiteral "b".toList))))))
          "<".toList (some (.FloatLiteral ⟨9, -1⟩))))
        "==".toList (some (.BooleanLiteral true))))]⟩, []) ∧
    (Expression.InfixExpression
        (some (.InfixExpression
          (some (.InfixExpression (some (.IdentifierLiteral "a".toList)) "+".toList
            (some (.InfixExpression (some (.IntegerLiteral 2)) "*".toList
              (some (.IdentifierLiteral "b".toList))))))
          "<".toList (some (.FloatLiteral ⟨9, -1⟩))))
        "==".toList (some (.BooleanLiteral true))).well_nested = true ∧
    (Expression.InfixExpression (some (.IdentifierLiteral "a".toList)) "+".toList
        (some (.InfixExpression
          (some (.InfixExpression
            (some (.InfixExpression (some (.IntegerLiteral 2)) "*".toList
              (some (.IdentifierLiteral "b".toList))))
            "<".toList (some (.FloatLiteral ⟨9, -1⟩))))
          "==".toList (some (.BooleanLiteral true))))).well_nested = false ∧
    (Expression.InfixExpression
        (some (.InfixExpression
          (some (.InfixExpression
            (some (.InfixExpression (some (.IdentifierLiteral "a".toList)) "+".toList
              (some (.IntegerLiteral 2))))
            "*".toList (some (.IdentifierLiteral "b".toList))))
          "<".toList (some (.FloatLiteral ⟨9, -1⟩))))
        "==".toList (some (.BooleanLiteral true))).well_nested = false ∧
    literal_expression ⟨.FLOAT, "340282356779733661637539395458142568447.9".toList, 1, 45⟩ =
      some (.FloatLiteral ⟨16777215, 104⟩) ∧
    literal_expression ⟨.FLOAT, "340282356779733661637539395458142568448.0".toList, 1, 45⟩ =
      none ∧
    parse_source 60 "a < 340282356779733661637539395458142568448.0;".toList =
      .error .out_of_range ∧
    parse_source 60 "a < 0.00000000000000000000000000000000000001;".toList =
      .error .out_of_range ∧
    parse_source 30 "a < 0.1;".toList =
      .ok (⟨[.ExpressionStatement (some (.InfixExpression
        (some (.IdentifierLiteral "a".toList)) "<".toList
        (some (.FloatLiteral ⟨13421773, -27⟩))))]⟩, []) := by
  exact ⟨by decide!, by decide!, by decide!, by decide!, by decide!, by decide!, by decide!,
    by decide!, by decide!⟩


/-! ## The parser terminates when the lexer reaches the end of the source -/

theorem finishes_bind {β γ : Type} {Q1 : β → Prop} {Q2 : γ → Prop}
    {run1 : Nat → Except Abort β} {run2 : Nat → β → Except Abort γ}
    (h1 : finishes Q1 run1) (h2 : ∀ b, Q1 b → finishes Q2 (fun f => run2 f b)) :
    finishes Q2 (fun f => run1 f >>= run2 f) := by
  obtain ⟨N1, r1, e1, g1⟩ := h1
  cases r1 with
  | error e =>
    refine ⟨N1, .error e, fun fuel hf => ?_, g1⟩
    show run1 fuel >>= run2 fuel = _
    rw [e1 fuel hf]
    rfl
  | ok b =>
    obtain ⟨N2, r2, e2, g2⟩ := h2 b g1
    refine ⟨N1 + N2, r2, fun fuel hf => ?_, g2⟩
    show run1 fuel >>= run2 fuel = _
    rw [e1 fuel (by omega)]
    exact e2 fuel (by omega)

theorem finishes_ok {β : Type} {Q : β → Prop} (b : β) (h : Q b) :
    finishes Q (fun _ => (Except.ok b : Except Abort β)) :=
  ⟨0, .ok b, fun _ _ => rfl, h⟩

theorem finishes_pure {β : Type} {Q : β → Prop} (b : β) (h : Q b) :
    finishes Q (fun _ => (pure b : Except Abort β)) :=
  ⟨0, .ok b, fun _ _ => rfl, h⟩

theorem finishes_ite {β : Type} {Q : β → Prop} (c : Prop) [Decidable c]
    {a b : Nat → Except Abort β} (h1 : c → finishes Q a) (h2 : ¬ c → finishes Q b) :
    finishes Q (fun f => if c then a f else b f) := by
  by_cases hc : c
  · simp only [if_pos hc]; exact h1 hc
  · simp only [if_neg hc]; exact h2 hc

theorem finishes_shift {β : Type} {Q : β → Prop} (g : Nat → Except Abort β)
    (h : finishes Q (fun f => g (f + 1))) : finishes Q g := by
  obtain ⟨N, r, e, hr⟩ := h
  refine ⟨N + 1, r, fun fuel hf => ?_, hr⟩
  obtain ⟨f, rfl⟩ : ∃ f, fuel = f + 1 := ⟨fuel - 1, by omega⟩
  exact e f (by omega)

theorem finishes_imp {β : Type} {Q Q1 : β → Prop} {run : Nat → Except Abort β}
    (h : finishes Q run) (hq : ∀ b, Q b → Q1 b) : finishes Q1 run := by
  obtain ⟨N, r, e, hr⟩ := h
  refine ⟨N, r, e, ?_⟩
  cases r with
  | error x => exact hr
  | ok b => exact hq b hr

theorem finishes_outcome {β : Type} {Q : β → Prop} {run : Nat → Except Abort β}
    (h : finishes Q run) :
    ∃ N r, (∀ fuel, N ≤ fuel → run fuel = r) ∧
      ((∃ b, r = .ok b) ∨ r = .error .out_of_range ∨ r = .error .invalid_argument) := by
  obtain ⟨N, r, e, hr⟩ := h
  refine ⟨N, r, e, ?_⟩
  cases r with
  | error x =>
    rcases hr with hr | hr
    · exact Or.inr (Or.inl (by rw [hr]))
    · exact Or.inr (Or.inr (by rw [hr]))
  | ok b => exact Or.inl ⟨b, rfl⟩

namespace Lexer

theorem ends_within_next (F : Nat) (l : Lexer) (h : ends_within F 0 l) :
    ∃ t l1, t.type = .EOF_ ∧ (∀ fuel, F ≤ fuel → next_token fuel l = .ok (t, l1)) ∧
      ends_within F 0 l1 := by
  obtain ⟨hF, s, p, n, rfl, hp⟩ := h
  refine ⟨⟨.EOF_, [], n, p⟩, state_at s (p + 1) n, rfl, fun fuel hf => ?_,
    ⟨hF, s, p + 1, n, rfl, by omega⟩⟩
  obtain ⟨f, rfl⟩ : ∃ f, fuel = f + 1 := ⟨fuel - 1, by omega⟩
  exact next_token_at_end s f p n hp

theorem ends_within_mono (F G : Nat) (hFG : F ≤ G) : ∀ (k : Nat) (l : Lexer),
    ends_within F k l → ends_within G k l := by
  intro k
  induction k with
  | zero =>
    intro l h
    obtain ⟨hF, rest⟩ := h
    exact ⟨by omega, rest⟩
  | succ j ih =>
    intro l h
    obtain ⟨t, l1, h1, h2⟩ := h
    exact ⟨t, l1, fun fuel hf => h1 fuel (by omega), ih l1 h2⟩

/-- A run of the lexer that ends at the end of the source or after it. -/
theorem ends_within_of_run (F : Nat) (s : List Char) :
    ∀ (k p n : Nat) (ts : List Token) (l : Lexer),
    run F k (state_at s p n) = .ok (ts, l) → s.length ≤ l.pos →
      ends_within (F + 1) k (state_at s p n) := by
  intro k
  induction k with
  | zero =>
    intro p n ts l h hp
    simp only [run, Except.ok.injEq, Prod.mk.injEq] at h
    rw [← h.2] at hp
    exact ⟨by omega, s, p, n, rfl, hp⟩
  | succ j ih =>
    intro p n ts l h hp
    rw [run] at h
    cases hq : next_token F (state_at s p n) with
    | error e => rw [hq] at h; simp at h
    | ok v =>
      obtain ⟨t, l1⟩ := v
      rw [hq] at h
      dsimp only at h
      cases hr : run F j l1 with
      | error e => rw [hr] at h; simp at h
      | ok w =>
        obtain ⟨ts1, l2⟩ := w
        rw [hr] at h
        simp only [Except.ok.injEq, Prod.mk.injEq] at h
        obtain ⟨p', n', rfl, -, -⟩ := next_token_progress s F p n t l1 hq
        refine ⟨t, state_at s p' n',
          fun fuel hf => next_token_mono F _ _ hq fuel (by omega), ?_⟩
        exact ih p' n' ts1 l2 hr (by rw [h.2]; exact hp)

end Lexer

namespace Parser

theorem within_mono (F : Nat) (p : Parser) (m m1 : Nat) (hm : m ≤ m1) (h : within F p m) :
    within F p m1 := by
  obtain ⟨k, h1, h2⟩ := h
  exact ⟨k, h1, by omega⟩

theorem within_pos (F : Nat) (p : Parser) (m : Nat) (h : within F p m)
    (hne : p.current_token.type ≠ .EOF_ ∨ p.peek_token.type ≠ .EOF_) : 1 ≤ m := by
  obtain ⟨k, -, h2⟩ := h
  unfold weight at h2
  rcases hne with hne | hne
  · rw [if_neg hne] at h2; omega
  · rw [if_neg hne] at h2; omega

theorem within_of_same (F : Nat) (p q : Parser) (m : Nat) (h : within F p m)
    (h1 : q.lexer = p.lexer) (h2 : q.current_token = p.current_token)
    (h3 : q.peek_token = p.peek_token) : within F q m := by
  obtain ⟨k, a, b⟩ := h
  refine ⟨k, by rw [h1]; exact a, ?_⟩
  unfold weight at b ⊢
  rw [h2, h3]; exact b

/-- One call of `next_token` by a parser within `m` returns and leaves it within
`m - 1`. -/
theorem next_within (F : Nat) (p : Parser) (m : Nat) (h : within F p m) :
    ∃ p1, (∀ fuel, F ≤ fuel → next_token fuel p = .ok p1) ∧ within F p1 (m - 1) := by
  obtain ⟨k, h1, h2⟩ := h
  unfold weight at h2
  cases k with
  | zero =>
    obtain ⟨t, l1, ht, hn, he⟩ := Lexer.ends_within_next F p.lexer h1
    refine ⟨{ p with current_token := p.peek_token, peek_token := t, lexer := l1 },
      fun fuel hf => by simp only [next_token, hn fuel hf], 0, he, ?_⟩
    unfold weight
    simp only [ht, if_true]
    by_cases hp : p.peek_token.type = .EOF_
    · rw [if_pos hp]; omega
    · rw [if_neg hp] at h2 ⊢; omega
  | succ j =>
    obtain ⟨t, l1, hn, he⟩ := h1
    refine ⟨{ p with current_token := p.peek_token, peek_token := t, lexer := l1 },
      fun fuel hf => by simp only [next_token, hn fuel hf], j, he, ?_⟩
    unfold weight
    dsimp only
    by_cases hp : p.peek_token.type = .EOF_
    · rw [if_pos hp]
      split <;> omega
    · rw [if_neg hp] at h2 ⊢
      split <;> omega

theorem finishes_next_token (F : Nat) (p : Parser) (m : Nat) (h : within F p m) :
    finishes (fun p1 => within F p1 (m - 1)) (fun f => next_token f p) := by
  obtain ⟨p1, h1, h2⟩ := next_within F p m h
  exact ⟨F, .ok p1, h1, h2⟩

/-- A call of `expect_peek` finishes; when it passes, the parser was within some
`m ≥ 1` and is left within `m - 1`. -/
theorem finishes_expect_peek (F : Nat) (p : Parser) (m : Nat) (type : TokenType)
    (hty : type ≠ .EOF_) (h : within F p m) :
    finishes (fun r => within F r.2 m ∧ (r.1 = true → 1 ≤ m ∧ within F r.2 (m - 1)))
      (fun f => expect_peek f p type) := by
  unfold expect_peek
  refine finishes_ite _ (fun hc => ?_) (fun hc => ?_)
  · have hpk : p.peek_token.type = type := by simpa [peek_token_is] using hc
    have hpos := within_pos F p m h (Or.inr (by rw [hpk]; exact hty))
    obtain ⟨p1, h1, h2⟩ := next_within F p m h
    refine ⟨F, .ok (true, p1), fun fuel hf => by simp only [h1 fuel hf], ?_⟩
    exact ⟨within_mono F p1 _ _ (by omega) h2, fun _ => ⟨hpos, h2⟩⟩
  · refine finishes_ok _ ⟨?_, fun hx => ?_⟩
    · exact within_of_same F p _ m h rfl rfl rfl
    · cases hx

end Parser

namespace Parser

theorem finishes_expect_peek_any (F : Nat) (p : Parser) (m : Nat) (type : TokenType)
    (h : within F p m) :
    finishes (fun r => within F r.2 m ∧ (r.1 = true → within F r.2 (m - 1)))
      (fun f => expect_peek f p type) := by
  unfold expect_peek
  refine finishes_ite _ (fun hc => ?_) (fun hc => ?_)
  · obtain ⟨p1, h1, h2⟩ := next_within F p m h
    refine ⟨F, .ok (true, p1), fun fuel hf => by simp only [h1 fuel hf], ?_⟩
    exact ⟨within_mono F p1 _ _ (by omega) h2, fun _ => h2⟩
  · refine finishes_ok _ ⟨?_, fun hx => ?_⟩
    · exact within_of_same F p _ m h rfl rfl rfl
    · cases hx

theorem infix_parse_fns_ne_eof (t : TokenType) (fn : InfixFn) (h : infix_parse_fns t = some fn) :
    t ≠ .EOF_ := by
  intro e; rw [e] at h; cases h

theorem prefix_parse_fns_ne_eof (t : TokenType) (fn : PrefixFn)
    (h : prefix_parse_fns t = some fn) : t ≠ .EOF_ := by
  intro e; rw [e] at h; cases h

theorem stof_error (text : List Char) (e : Abort) (h : stof text = .error e) :
    e = .out_of_range ∨ e = .invalid_argument := by
  unfold stof at h
  dsimp only at h
  split at h
  · injection h with h; exact Or.inr h.symm
  · unfold round_to_float at h
    dsimp only at h
    split at h
    · cases h
    · split at h
      · injection h with h; exact Or.inl h.symm
      · split at h
        · injection h with h; exact Or.inl h.symm
        · cases h

theorem stoi_error (text : List Char) (e : Abort) (h : stoi text = .error e) :
    e = .out_of_range ∨ e = .invalid_argument := by
  unfold stoi at h
  dsimp only at h
  split at h
  · injection h with h; exact Or.inr h.symm
  · split at h
    · injection h with h; exact Or.inl h.symm
    · cases h

/-- The parsing functions of expressions finish, and leave the parser within the
bound it was within. -/
theorem expression_parsers_finish (F : Nat) : ∀ (m : Nat),
    (∀ p, within F p m → ∀ prec,
      finishes (fun r => within F r.2 m) (fun f => parse_expression f prec p)) ∧
    (∀ p, within F p m → ∀ prec left,
      finishes (fun r => within F r.2 m) (fun f => parse_expression_loop f prec left p)) ∧
    (∀ p, within F p m → ∀ left,
      finishes (fun r => within F r.2 m) (fun f => parse_infix_expression f left p)) ∧
    (∀ p, within F p m →
      finishes (fun r => within F r.2 m) (fun f => parse_grouped_expression f p)) ∧
    (∀ p, within F p m → ∀ fn,
      finishes (fun r => within F r.2 m) (fun f => parse_call_expression f fn p)) ∧
    (∀ p, within F p m → ∀ end_,
      finishes (fun r => within F r.2 m) (fun f => parse_expression_list f end_ p)) ∧
    (∀ p, within F p m → ∀ end_ acc,
      finishes (fun r => within F r.2 m)
        (fun f => parse_expression_list_loop f end_ acc p)) := by
  intro m
  induction m using Nat.strong_induction_on with
  | _ m ih =>
    -- the loop of parse_expression
    have hloop : ∀ p, within F p m → ∀ prec left,
        finishes (fun r => within F r.2 m)
          (fun f => parse_expression_loop f prec left p) := by
      intro p hw prec left
      apply finishes_shift
      simp only [parse_expression_loop]
      refine finishes_ite _ (fun _ => ?_) (fun _ => finishes_ok _ hw)
      cases hi : infix_parse_fns p.peek_token.type with
      | none => exact finishes_ok _ hw
      | some fn =>
        have hpos : 1 ≤ m := within_pos F p m hw (Or.inr (infix_parse_fns_ne_eof _ _ hi))
        obtain ⟨i1, i2, i3, i4, i5, i6, i7⟩ := ih (m - 1) (by omega)
        cases fn with
        | parse_infix_expression =>
          refine finishes_bind (finishes_next_token F p m hw) (fun p1 hp1 => ?_)
          refine finishes_bind (i3 p1 hp1 left) (fun ⟨left1, p2⟩ hp2 => ?_)
          exact finishes_imp (i2 p2 hp2 prec left1)
            (fun r hr => within_mono F _ _ _ (by omega) hr)
        | parse_call_expression =>
          refine finishes_bind (finishes_next_token F p m hw) (fun p1 hp1 => ?_)
          refine finishes_bind (i5 p1 hp1 left) (fun ⟨left1, p2⟩ hp2 => ?_)
          exact finishes_imp (i2 p2 hp2 prec left1)
            (fun r hr => within_mono F _ _ _ (by omega) hr)
    -- parse_grouped_expression, given parse_expression one level below
    have hgroup_of : (∀ p, within F p (m - 1) → ∀ prec,
          finishes (fun r => within F r.2 (m - 1)) (fun f => parse_expression f prec p)) →
        ∀ p, within F p m →
          finishes (fun r => within F r.2 m) (fun f => parse_grouped_expression f p) := by
      intro hpe p hw
      apply finishes_shift
      simp only [parse_grouped_expression]
      refine finishes_bind (finishes_next_token F p m hw) (fun p1 hp1 => ?_)
      refine finishes_bind (hpe p1 hp1 _) (fun ⟨expr, p2⟩ hp2 => ?_)
      refine finishes_bind (finishes_expect_peek_any F p2 (m - 1) .RPAREN hp2)
        (fun ⟨ok1, p3⟩ hp3 => ?_)
      exact finishes_ite _
        (fun _ => finishes_pure _ (within_mono F _ _ _ (by omega) hp3.1))
        (fun _ => finishes_pure _ (within_mono F _ _ _ (by omega) hp3.1))
    -- parse_expression
    have hexpr : ∀ p, within F p m → ∀ prec,
        finishes (fun r => within F r.2 m) (fun f => parse_expression f prec p) := by
      intro p hw prec
      apply finishes_shift
      simp only [parse_expression]
      cases hi : prefix_parse_fns p.current_token.type with
      | none => exact finishes_ok _ (within_of_same F p _ m hw rfl rfl rfl)
      | some fn =>
        have hpos : 1 ≤ m := within_pos F p m hw (Or.inl (prefix_parse_fns_ne_eof _ _ hi))
        cases fn with
        | parse_integer_literal =>
          dsimp only
          cases hs : parse_integer_literal p with
          | error e =>
            refine ⟨0, .error e, fun _ _ => rfl, ?_⟩
            unfold parse_integer_literal at hs
            cases hq : stoi p.current_token.literal with
            | error e1 =>
              rw [hq] at hs
              injection hs with hs
              rw [← hs]
              exact stoi_error _ _ hq
            | ok v => rw [hq] at hs; cases hs
          | ok left => exact hloop p hw prec left
        | parse_float_literal =>
          dsimp only
          cases hs : parse_float_literal p with
          | error e =>
            refine ⟨0, .error e, fun _ _ => rfl, ?_⟩
            unfold parse_float_literal at hs
            cases hq : stof p.current_token.literal with
            | error e1 =>
              rw [hq] at hs
              injection hs with hs
              rw [← hs]
              exact stof_error _ _ hq
            | ok v => rw [hq] at hs; cases hs
          | ok left => exact hloop p hw prec left
        | parse_grouped_expression =>
          dsimp only
          refine finishes_bind (hgroup_of (ih (m - 1) (by omega)).1 p hw)
            (fun ⟨left, p1⟩ hp1 => ?_)
          exact hloop p1 hp1 prec left
        | parse_identifier => exact hloop p hw prec _
        | parse_boolean_literal => exact hloop p hw prec _
    have hexpr_le : ∀ p, within F p (m - 1) → ∀ prec,
        finishes (fun r => within F r.2 (m - 1)) (fun f => parse_expression f prec p) := by
      rcases Nat.eq_zero_or_pos m with h0 | hpos
      · subst h0; exact hexpr
      · exact (ih (m - 1) (by omega)).1
    -- parse_infix_expression
    have hinfix : ∀ p, within F p m → ∀ left,
        finishes (fun r => within F r.2 m) (fun f => parse_infix_expression f left p) := by
      intro p hw left
      apply finishes_shift
      simp only [parse_infix_expression]
      refine finishes_bind (finishes_next_token F p m hw) (fun p1 hp1 => ?_)
      refine finishes_bind (hexpr_le p1 hp1 _) (fun ⟨right, p2⟩ hp2 => ?_)
      exact finishes_pure _ (within_mono F _ _ _ (by omega) hp2)
    -- the loop of parse_expression_list
    have hlistloop : ∀ p, within F p m → ∀ end_ acc,
        finishes (fun r => within F r.2 m)
          (fun f => parse_expression_list_loop f end_ acc p) := by
      intro p hw end_ acc
      apply finishes_shift
      simp only [parse_expression_list_loop]
      refine finishes_ite _ (fun hc => ?_) (fun _ => ?_)
      · have hpk : p.peek_token.type = .COMMA := by simpa [peek_token_is] using hc
        have hpos : 1 ≤ m := within_pos F p m hw (Or.inr (by rw [hpk]; decide))
        obtain ⟨i1, i2, i3, i4, i5, i6, i7⟩ := ih (m - 1) (by omega)
        refine finishes_bind (finishes_next_token F p m hw) (fun p1 hp1 => ?_)
        refine finishes_bind (finishes_next_token F p1 (m - 1) hp1) (fun p2 hp2 => ?_)
        have hp2' : within F p2 (m - 1) := within_mono F _ _ _ (by omega) hp2
        refine finishes_bind (i1 p2 hp2' _) (fun ⟨next, p3⟩ hp3 => ?_)
        exact finishes_imp (i7 p3 hp3 end_ _)
          (fun r hr => within_mono F _ _ _ (by omega) hr)
      · refine finishes_bind (finishes_expect_peek_any F p m end_ hw)
          (fun ⟨ok1, p1⟩ hp1 => ?_)
        exact finishes_ite _ (fun _ => finishes_pure _ hp1.1) (fun _ => finishes_pure _ hp1.1)
    have hlistloop_le : ∀ p, within F p (m - 1) → ∀ end_ acc,
        finishes (fun r => within F r.2 (m - 1))
          (fun f => parse_expression_list_loop f end_ acc p) := by
      rcases Nat.eq_zero_or_pos m with h0 | hpos
      · subst h0; exact hlistloop
      · exact (ih (m - 1) (by omega)).2.2.2.2.2.2
    -- parse_expression_list
    have hlist : ∀ p, within F p m → ∀ end_,
        finishes (fun r => within F r.2 m) (fun f => parse_expression_list f end_ p) := by
      intro p hw end_
      apply finishes_shift
      simp only [parse_expression_list]
      refine finishes_ite _ (fun _ => ?_) (fun _ => ?_)
      · refine finishes_bind (finishes_next_token F p m hw) (fun p1 hp1 => ?_)
        exact finishes_pure _ (within_mono F _ _ _ (by omega) hp1)
      · refine finishes_bind (finishes_next_token F p m hw) (fun p1 hp1 => ?_)
        refine finishes_bind (hexpr_le p1 hp1 _) (fun ⟨first, p2⟩ hp2 => ?_)
        exact finishes_imp (hlistloop_le p2 hp2 end_ _)
          (fun r hr => within_mono F _ _ _ (by omega) hr)
    -- parse_call_expression
    have hcall : ∀ p, within F p m → ∀ fn,
        finishes (fun r => within F r.2 m) (fun f => parse_call_expression f fn p) := by
      intro p hw fn
      apply finishes_shift
      simp only [parse_call_expression]
      refine finishes_bind (hlist p hw _) (fun ⟨arguments, p1⟩ hp1 => ?_)
      exact finishes_pure _ hp1
    exact ⟨hexpr, hloop, hinfix, hgroup_of hexpr_le, hcall, hlist, hlistloop⟩

theorem finishes_parse_expression (F : Nat) (p : Parser) (m : Nat) (h : within F p m)
    (prec : PrecedenceType) :
    finishes (fun r => within F r.2 m) (fun f => parse_expression f prec p) :=
  (expression_parsers_finish F m).1 p h prec

end Parser

namespace Parser

theorem finishes_skip_to_semicolon (F : Nat) : ∀ (m : Nat) (p : Parser), within F p m →
    finishes (fun p1 => within F p1 m) (fun f => skip_to_semicolon f p) := by
  intro m
  induction m using Nat.strong_induction_on with
  | _ m ih =>
    intro p hw
    apply finishes_shift
    simp only [skip_to_semicolon]
    refine finishes_ite _ (fun hc => ?_) (fun _ => finishes_ok _ hw)
    have hne : p.current_token.type ≠ .EOF_ := by
      intro e
      simp [current_token_is, e] at hc
    have hpos : 1 ≤ m := within_pos F p m hw (Or.inl hne)
    refine finishes_bind (finishes_next_token F p m hw) (fun p1 hp1 => ?_)
    exact finishes_imp (ih (m - 1) (by omega) p1 hp1)
      (fun r hr => within_mono F _ _ _ (by omega) hr)

theorem finishes_parameters_loop (F : Nat) : ∀ (m : Nat) (p : Parser), within F p m →
    ∀ params, finishes (fun r => within F r.2 m)
      (fun f => parse_function_parameters_loop f p params) := by
  intro m
  induction m using Nat.strong_induction_on with
  | _ m ih =>
    intro p hw params
    apply finishes_shift
    simp only [parse_function_parameters_loop]
    refine finishes_ite _ (fun hc => ?_) (fun _ => ?_)
    · have hpk : p.peek_token.type = .COMMA := by simpa [peek_token_is] using hc
      have hpos : 1 ≤ m := within_pos F p m hw (Or.inr (by rw [hpk]; decide))
      refine finishes_bind (finishes_next_token F p m hw) (fun p1 hp1 => ?_)
      refine finishes_bind (finishes_next_token F p1 (m - 1) hp1) (fun p2 hp2 => ?_)
      have hp2' : within F p2 (m - 1) := within_mono F _ _ _ (by omega) hp2
      refine finishes_bind (finishes_expect_peek_any F p2 (m - 1) .COLON hp2')
        (fun ⟨ok1, p3⟩ hp3 => ?_)
      refine finishes_ite _
        (fun _ => finishes_pure _ (within_mono F _ _ _ (by omega) hp3.1)) (fun _ => ?_)
      refine finishes_bind (finishes_expect_peek_any F p3 (m - 1) .TYPE hp3.1)
        (fun ⟨ok2, p4⟩ hp4 => ?_)
      refine finishes_ite _
        (fun _ => finishes_pure _ (within_mono F _ _ _ (by omega) hp4.1)) (fun _ => ?_)
      exact finishes_imp (ih (m - 1) (by omega) p4 hp4.1 _)
        (fun r hr => within_mono F _ _ _ (by omega) hr)
    · refine finishes_bind (finishes_expect_peek_any F p m .RPAREN hw)
        (fun ⟨ok3, p1⟩ hp1 => ?_)
      exact finishes_ite _ (fun _ => finishes_pure _ hp1.1) (fun _ => finishes_pure _ hp1.1)

theorem finishes_parameters (F : Nat) (m : Nat) (p : Parser) (hw : within F p m) :
    finishes (fun r => within F r.2 m) (fun f => parse_function_parameters f p) := by
  unfold parse_function_parameters
  refine finishes_ite _ (fun _ => ?_) (fun _ => ?_)
  · refine finishes_bind (finishes_next_token F p m hw) (fun p1 hp1 => ?_)
    exact finishes_pure _ (within_mono F _ _ _ (by omega) hp1)
  · refine finishes_bind (finishes_next_token F p m hw) (fun p1 hp1 => ?_)
    have hp1' : within F p1 m := within_mono F _ _ _ (by omega) hp1
    refine finishes_bind (finishes_expect_peek_any F p1 m .COLON hp1')
      (fun ⟨ok1, p2⟩ hp2 => ?_)
    refine finishes_ite _ (fun _ => finishes_pure _ hp2.1) (fun _ => ?_)
    refine finishes_bind (finishes_expect_peek_any F p2 m .TYPE hp2.1)
      (fun ⟨ok2, p3⟩ hp3 => ?_)
    refine finishes_ite _ (fun _ => finishes_pure _ hp3.1) (fun _ => ?_)
    exact finishes_parameters_loop F m p3 hp3.1 _

theorem finishes_expression_statement (F : Nat) (m : Nat) (p : Parser) (hw : within F p m) :
    finishes (fun r => within F r.2 m) (fun f => parse_expression_statement f p) := by
  unfold parse_expression_statement
  refine finishes_bind (finishes_parse_expression F p m hw _) (fun ⟨expr, p1⟩ hp1 => ?_)
  refine finishes_ite _ (fun _ => ?_) (fun _ => finishes_pure _ hp1)
  refine finishes_bind (finishes_next_token F p1 m hp1) (fun p2 hp2 => ?_)
  exact finishes_pure _ (within_mono F _ _ _ (by omega) hp2)

theorem finishes_let_statement (F : Nat) (m : Nat) (p : Parser) (hw : within F p m) :
    finishes (fun r => within F r.2 m) (fun f => parse_let_statement f p) := by
  unfold parse_let_statement
  refine finishes_bind (finishes_expect_peek_any F p m .IDENT hw) (fun ⟨ok1, p1⟩ hp1 => ?_)
  refine finishes_ite _ (fun _ => finishes_pure _ hp1.1) (fun _ => ?_)
  refine finishes_bind (finishes_expect_peek_any F p1 m .COLON hp1.1) (fun ⟨ok2, p2⟩ hp2 => ?_)
  refine finishes_ite _ (fun _ => finishes_pure _ hp2.1) (fun _ => ?_)
  refine finishes_bind (finishes_expect_peek_any F p2 m .TYPE hp2.1) (fun ⟨ok3, p3⟩ hp3 => ?_)
  refine finishes_ite _ (fun _ => finishes_pure _ hp3.1) (fun _ => ?_)
  refine finishes_bind (finishes_expect_peek_any F p3 m .EQ hp3.1) (fun ⟨ok4, p4⟩ hp4 => ?_)
  refine finishes_ite _ (fun _ => finishes_pure _ hp4.1) (fun _ => ?_)
  refine finishes_bind (finishes_next_token F p4 m hp4.1) (fun p5 hp5 => ?_)
  have hp5' : within F p5 m := within_mono F _ _ _ (by omega) hp5
  refine finishes_bind (finishes_parse_expression F p5 m hp5' _) (fun ⟨value, p6⟩ hp6 => ?_)
  refine finishes_bind (finishes_skip_to_semicolon F m p6 hp6) (fun p7 hp7 => ?_)
  exact finishes_pure _ hp7

theorem finishes_return_statement (F : Nat) (m : Nat) (p : Parser) (hw : within F p m) :
    finishes (fun r => within F r.2 m) (fun f => parse_return_statement f p) := by
  unfold parse_return_statement
  refine finishes_bind (finishes_next_token F p m hw) (fun p1 hp1 => ?_)
  have hp1' : within F p1 m := within_mono F _ _ _ (by omega) hp1
  refine finishes_bind (finishes_parse_expression F p1 m hp1' _) (fun ⟨value, p2⟩ hp2 => ?_)
  refine finishes_bind (finishes_expect_peek_any F p2 m .SEMICOLON hp2) (fun ⟨ok1, p3⟩ hp3 => ?_)
  exact finishes_ite _ (fun _ => finishes_pure _ hp3.1) (fun _ => finishes_pure _ hp3.1)

theorem finishes_assignment_statement (F : Nat) (m : Nat) (p : Parser) (hw : within F p m) :
    finishes (fun r => within F r.2 m) (fun f => parse_assignment_statement f p) := by
  unfold parse_assignment_statement
  refine finishes_bind (finishes_next_token F p m hw) (fun p1 hp1 => ?_)
  refine finishes_bind (finishes_next_token F p1 (m - 1) hp1) (fun p2 hp2 => ?_)
  have hp2' : within F p2 m := within_mono F _ _ _ (by omega) hp2
  refine finishes_bind (finishes_parse_expression F p2 m hp2' _) (fun ⟨value, p3⟩ hp3 => ?_)
  refine finishes_bind (finishes_next_token F p3 m hp3) (fun p4 hp4 => ?_)
  exact finishes_pure _ (within_mono F _ _ _ (by omega) hp4)

/-- The parsing functions of statements finish, and leave the parser within the
bound it was within. -/
theorem statement_parsers_finish (F : Nat) : ∀ (m : Nat),
    (∀ p, within F p m →
      finishes (fun r => within F r.2 m) (fun f => parse_statement f p)) ∧
    (∀ p, within F p m →
      finishes (fun r => within F r.2 m) (fun f => parse_function_statement f p)) ∧
    (∀ p, within F p m →
      finishes (fun r => within F r.2 m) (fun f => parse_block_statement f p)) ∧
    (∀ p, within F p m → ∀ acc,
      finishes (fun r => within F r.2 m) (fun f => parse_block_statement_loop f acc p)) ∧
    (∀ p, within F p m →
      finishes (fun r => within F r.2 m) (fun f => parse_if_statement f p)) := by
  intro m
  induction m using Nat.strong_induction_on with
  | _ m ih =>
    have hfunc : ∀ p, within F p m →
        finishes (fun r => within F r.2 m) (fun f => parse_function_statement f p) := by
      intro p hw
      apply finishes_shift
      simp only [parse_function_statement]
      refine finishes_bind (finishes_expect_peek F p m .IDENT (by decide) hw)
        (fun ⟨ok1, p1⟩ hp1 => ?_)
      refine finishes_ite _ (fun _ => finishes_pure _ hp1.1) (fun hno => ?_)
      have hok : ok1 = true := by simpa using hno
      obtain ⟨hpos, hq1⟩ := hp1.2 hok
      obtain ⟨i1, i2, i3, i4, i5⟩ := ih (m - 1) (by omega)
      have up : ∀ q, within F q (m - 1) → within F q m :=
        fun q hq => within_mono F _ _ _ (by omega) hq
      refine finishes_bind (finishes_expect_peek_any F p1 (m - 1) .LPAREN hq1)
        (fun ⟨ok2, p2⟩ hp2 => ?_)
      refine finishes_ite _ (fun _ => finishes_pure _ (up _ hp2.1)) (fun _ => ?_)
      refine finishes_bind (finishes_parameters F (m - 1) p2 hp2.1) (fun ⟨params, p3⟩ hp3 => ?_)
      refine finishes_bind (finishes_expect_peek_any F p3 (m - 1) .ARROW hp3)
        (fun ⟨ok3, p4⟩ hp4 => ?_)
      refine finishes_ite _ (fun _ => finishes_pure _ (up _ hp4.1)) (fun _ => ?_)
      refine finishes_bind (finishes_expect_peek_any F p4 (m - 1) .TYPE hp4.1)
        (fun ⟨ok4, p5⟩ hp5 => ?_)
      refine finishes_ite _ (fun _ => finishes_pure _ (up _ hp5.1)) (fun _ => ?_)
      refine finishes_bind (finishes_expect_peek_any F p5 (m - 1) .LBRACE hp5.1)
        (fun ⟨ok5, p6⟩ hp6 => ?_)
      refine finishes_ite _ (fun _ => finishes_pure _ (up _ hp6.1)) (fun _ => ?_)
      refine finishes_bind (i3 p6 hp6.1) (fun ⟨body, p7⟩ hp7 => ?_)
      exact finishes_pure _ (up _ hp7)
    have hif : ∀ p, within F p m →
        finishes (fun r => within F r.2 m) (fun f => parse_if_statement f p) := by
      intro p hw
      apply finishes_shift
      simp only [parse_if_statement]
      refine finishes_bind (finishes_next_token F p m hw) (fun p1 hp1 => ?_)
      have hp1' : within F p1 m := within_mono F _ _ _ (by omega) hp1
      refine finishes_bind (finishes_parse_expression F p1 m hp1' _)
        (fun ⟨condition, p2⟩ hp2 => ?_)
      refine finishes_bind (finishes_expect_peek F p2 m .DO (by decide) hp2)
        (fun ⟨ok1, p3⟩ hp3 => ?_)
      refine finishes_ite _ (fun _ => finishes_pure _ hp3.1) (fun hno => ?_)
      have hok : ok1 = true := by simpa using hno
      obtain ⟨hpos, hq3⟩ := hp3.2 hok
      obtain ⟨i1, i2, i3, i4, i5⟩ := ih (m - 1) (by omega)
      have up : ∀ q, within F q (m - 1) → within F q m :=
        fun q hq => within_mono F _ _ _ (by omega) hq
      refine finishes_bind (finishes_expect_peek_any F p3 (m - 1) .LBRACE hq3)
        (fun ⟨ok2, p4⟩ hp4 => ?_)
      refine finishes_ite _ (fun _ => finishes_pure _ (up _ hp4.1)) (fun _ => ?_)
      refine finishes_bind (i3 p4 hp4.1) (fun ⟨concequence, p5⟩ hp5 => ?_)
      refine finishes_ite _ (fun _ => ?_) (fun _ => finishes_pure _ (up _ hp5))
      refine finishes_bind (finishes_next_token F p5 (m - 1) hp5) (fun p6 hp6 => ?_)
      have hp6' : within F p6 (m - 1) := within_mono F _ _ _ (by omega) hp6
      refine finishes_bind (finishes_expect_peek_any F p6 (m - 1) .LBRACE hp6')
        (fun ⟨ok3, p7⟩ hp7 => ?_)
      refine finishes_ite _ (fun _ => finishes_pure _ (up _ hp7.1)) (fun _ => ?_)
      refine finishes_bind (i3 p7 hp7.1) (fun ⟨alternative, p8⟩ hp8 => ?_)
      exact finishes_pure _ (up _ hp8)
    have hstmt : ∀ p, within F p m →
        finishes (fun r => within F r.2 m) (fun f => parse_statement f p) := by
      intro p hw
      apply finishes_shift
      simp only [parse_statement]
      refine finishes_ite _ (fun _ => finishes_assignment_statement F m p hw) (fun _ => ?_)
      cases p.current_token.type <;> dsimp only <;>
        first
        | exact finishes_let_statement F m p hw
        | exact hfunc p hw
        | exact finishes_return_statement F m p hw
        | exact hif p hw
        | exact finishes_expression_statement F m p hw
    have hblockloop : ∀ p, within F p m → ∀ acc,
        finishes (fun r => within F r.2 m)
          (fun f => parse_block_statement_loop f acc p) := by
      intro p hw acc
      apply finishes_shift
      simp only [parse_block_statement_loop]
      refine finishes_ite _ (fun hc => ?_) (fun _ => finishes_ok _ hw)
      have hne : p.current_token.type ≠ .EOF_ := by
        intro e
        simp [current_token_is, e] at hc
      have hpos : 1 ≤ m := within_pos F p m hw (Or.inl hne)
      obtain ⟨i1, i2, i3, i4, i5⟩ := ih (m - 1) (by omega)
      refine finishes_bind (hstmt p hw) (fun ⟨stmt, p1⟩ hp1 => ?_)
      refine finishes_bind (finishes_next_token F p1 m hp1) (fun p2 hp2 => ?_)
      exact finishes_imp (i4 p2 hp2 _) (fun r hr => within_mono F _ _ _ (by omega) hr)
    have hblockloop_le : ∀ p, within F p (m - 1) → ∀ acc,
        finishes (fun r => within F r.2 (m - 1))
          (fun f => parse_block_statement_loop f acc p) := by
      rcases Nat.eq_zero_or_pos m with h0 | hpos
      · subst h0; exact hblockloop
      · exact (ih (m - 1) (by omega)).2.2.2.1
    have hblock : ∀ p, within F p m →
        finishes (fun r => within F r.2 m) (fun f => parse_block_statement f p) := by
      intro p hw
      apply finishes_shift
      simp only [parse_block_statement]
      refine finishes_bind (finishes_next_token F p m hw) (fun p1 hp1 => ?_)
      refine finishes_bind (hblockloop_le p1 hp1 _) (fun ⟨statements, p2⟩ hp2 => ?_)
      exact finishes_pure _ (within_mono F _ _ _ (by omega) hp2)
    exact ⟨hstmt, hfunc, hblock, hblockloop, hif⟩

theorem finishes_program_loop (F : Nat) : ∀ (m : Nat) (p : Parser), within F p m →
    ∀ acc, finishes (fun r => within F r.2 m) (fun f => parse_program_loop f acc p) := by
  intro m
  induction m using Nat.strong_induction_on with
  | _ m ih =>
    intro p hw acc
    apply finishes_shift
    simp only [parse_program_loop]
    refine finishes_ite _ (fun hne => ?_) (fun _ => finishes_ok _ hw)
    have hpos : 1 ≤ m := within_pos F p m hw (Or.inl hne)
    refine finishes_bind ((statement_parsers_finish F m).1 p hw) (fun ⟨stmt, p1⟩ hp1 => ?_)
    refine finishes_bind (finishes_next_token F p1 m hp1) (fun p2 hp2 => ?_)
    exact finishes_imp (ih (m - 1) (by omega) p2 hp2 _)
      (fun r hr => within_mono F _ _ _ (by omega) hr)

/-- The constructor of the parser and `parse_program` finish when the lexer
reaches the end of its source. -/
theorem finishes_parse_lexer (F k : Nat) (lexer : Lexer) (h : Lexer.ends_within F k lexer) :
    finishes (fun _ => True) (fun f => parse_lexer f lexer) := by
  unfold parse_lexer Parser.new
  have hw0 : within F ⟨lexer, [], ⟨.EOF_, [], 0, 0⟩, ⟨.EOF_, [], 0, 0⟩⟩ (3 * k) :=
    ⟨k, h, by simp [weight]⟩
  refine finishes_bind (finishes_bind (finishes_next_token F _ _ hw0) (fun p1 hp1 =>
    finishes_next_token F p1 _ hp1)) (fun p hp => ?_)
  refine finishes_bind (finishes_program_loop F _ p hp []) (fun ⟨program, p1⟩ _ => ?_)
  exact finishes_pure _ trivial

end Parser

/-- C36: for every source on which the lexer reaches the end of the input, that
is, on which some number `n` of calls of `next_token` all return and leave the
lexer at the end of the source or after it: the constructor of the parser and
`parse_program` finish. From some fuel on, the outcome is always the same: a
program and a list of diagnostics, or one of the two exceptions that
`std::stoi` throws on the text of an integer literal. -/
theorem C36_parse_program_terminates (source : List Char) (F n : Nat) (ts : List Token)
    (l : Lexer) (hrun : Lexer.run F n (Lexer.new source) = .ok (ts, l))
    (hend : source.length ≤ l.pos) :
    ∃ N r, (∀ fuel, N ≤ fuel → parse_source fuel source = r) ∧
      ((∃ result, r = .ok result) ∨ r = .error .out_of_range ∨
        r = .error .invalid_argument) := by
  rw [Lexer.new_eq] at hrun
  have h := Lexer.ends_within_of_run F source n 0 1 ts l hrun hend
  rw [← Lexer.new_eq] at h
  exact finishes_outcome (Parser.finishes_parse_lexer (F + 1) n (Lexer.new source) h)

/-- C36 (witness): the source `f(1, (2));`: ten calls of `next_token` return and
leave the lexer after the end of the source, so the parser finishes. -/
theorem C36_parse_program_terminates_witness :
    ("f(1, (2));".toList.length ≤ (Lexer.state_at "f(1, (2));".toList 11 1).pos) ∧
    ∃ N r, (∀ fuel, N ≤ fuel → parse_source fuel "f(1, (2));".toList = r) ∧
      ((∃ result, r = .ok result) ∨ r = .error .out_of_range ∨
        r = .error .invalid_argument) :=
  ⟨by decide,
   C36_parse_program_terminates "f(1, (2));".toList 12 10
    [⟨.IDENT, "f".toList, 1, 1⟩, ⟨.LPAREN, "(".toList, 1, 1⟩, ⟨.INT, "1".toList, 1, 3⟩,
     ⟨.COMMA, ",".toList, 1, 3⟩, ⟨.LPAREN, "(".toList, 1, 5⟩, ⟨.INT, "2".toList, 1, 7⟩,
     ⟨.RPAREN, ")".toList, 1, 7⟩, ⟨.RPAREN, ")".toList, 1, 8⟩, ⟨.SEMICOLON, ";".toList, 1, 9⟩,
     ⟨.EOF_, [], 1, 10⟩]
    (Lexer.state_at "f(1, (2));".toList 11 1) (by decide!) (by decide)⟩

/-- C36 (on source text): `parse_program` returns on a well formed program and
on a sequence of tokens that is no program at all, and throws on an integer
literal that does not fit an `int`. -/
theorem C36_examples :
    parse_source 60
        "def f(a: int) -> int { if a < 1 do { return f(a, (2)); } else { let b: int = a; } }".toList =
      .ok (⟨[.FunctionStatement [some { name := "a".toList, value_type := "int".toList }]
        (some (.BlockStatement
          [.IfStatement
            (some (.InfixExpression (some (.IdentifierLiteral "a".toList)) "<".toList
              (some (.IntegerLiteral 1))))
            (some (.BlockStatement
              [.ReturnStatement (some (.CallExpression (some (.IdentifierLiteral "f".toList))
                [some (.IdentifierLiteral "a".toList), some (.IntegerLiteral 2)]))]))
            (some (.BlockStatement
              [.LetStatement (some (.IdentifierLiteral "b".toList))
                (some (.IdentifierLiteral "a".toList)) "int".toList]))]))
        (some (.IdentifierLiteral "f".toList)) "int".toList]⟩, []) ∧
    (parse_source 30 "def ( \x7b ) if if \x7b \x7b ( , , : -> else do \x7d".toList).map
        (fun r => (r.1.statements.length, r.2.length)) = .ok (10, 14) ∧
    parse_source 30 "99999999999 + 1;".toList = .error .out_of_range := by
  exact ⟨by decide!, by decide!, by decide!⟩

end LigmaLang
